import Mathlib

/-!
# Sjaldersbaum: command interpreter, event bus and scene graph

A shallow embedding of the command-driven core of the game runtime:

* `string_assist.h`, `convert.h`: string helpers and string conversions;
* `events-requests.h`: `Data`, `Event`, `Request`, `EARManager`;
* `commands.cpp`: `Executor` (splitting, scheduling and execution of commands);
* `level_player.cpp`, `objects.cpp`, `elements.cpp`, `entity.cpp`: the scene graph;
* `yaml.h`: the configuration tree and `insert_all_values`.

Conventions: `std::string` is a list of characters; a `float` (`Seconds` in the source) is
the rational number it stands for, and what the source computes or reads in `float` is
rounded to the nearest binary32 value; a `std::shared_ptr` into an ordered map is the
key of the entry it points at (`none` for `nullptr`); logging, audio and rendering calls have
no effect on the modelled state and are left out.
-/

namespace Sjaldersbaum

/-- A `std::string`. -/
abbrev Str := List Char

/-- From `units.h`: `using ID = std::string`. -/
abbrev ID := Str

/-- From `units.h`: `using Seconds = float`; a `float` is given by its value, a rational
number. -/
abbrev Seconds := ℚ

/-- The double-quote character. -/
def QUOTE : Char := Char.ofNat 34

/-! ## Character classes (C locale) -/

/-- The function `std::isspace`: space, `\t`, `\n`, `\v`, `\f`, `\r`. -/
def isspace (c : Char) : Bool :=
  c = ' ' || (9 ≤ c.toNat && c.toNat ≤ 13)

/-- The function `std::isdigit`. -/
def isdigit (c : Char) : Bool := 48 ≤ c.toNat && c.toNat ≤ 57

/-- The function `std::isalnum`. -/
def isalnum (c : Char) : Bool :=
  isdigit c || (65 ≤ c.toNat && c.toNat ≤ 90) || (97 ≤ c.toNat && c.toNat ≤ 122)

/-- The regex class `\w`: alphanumeric characters and the underscore. -/
def is_word (c : Char) : Bool := isalnum c || c = '_'

/-- The function `std::tolower`. -/
def tolower (c : Char) : Char :=
  if 65 ≤ c.toNat ∧ c.toNat ≤ 90 then Char.ofNat (c.toNat + 32) else c

/-! ## `string_assist.h` -/

/-- Removes (double) quotes from the start and end of the string, but only if both are
present: `dequote`. -/
def dequote (str : Str) : Str :=
  if 2 ≤ str.length ∧ str.head? = some QUOTE ∧ str.getLast? = some QUOTE then
    (str.drop 1).dropLast
  else str

/-- The function `decapitalize` / `get_decapitalized`. -/
def get_decapitalized (str : Str) : Str := str.map tolower

/-- Position of the first occurrence of `delim` in `str` at or after offset `i`
(`std::string::find`), `none` for `npos`. -/
def str_find_from (delim : Str) : Str → Nat → Option Nat
  | [], i => if delim = [] then some i else none
  | c :: cs, i =>
    if delim.isPrefixOf (c :: cs) then some i else str_find_from delim cs (i + 1)

/-- The call `str.find(delim, 0)`. -/
def str_find (str delim : Str) : Option Nat := str_find_from delim str 0

/-- Splits a string into two at the first delimiter, if there is one: `str_split`. -/
def str_split (str delim : Str) : Str × Option Str :=
  match str_find str delim with
  | none => (str, none)
  | some i => (str.take i, some (str.drop (i + delim.length)))

/-! ## A backtracking matcher for the `std::regex` patterns of the source

The patterns of the source only repeat single character classes, so repetition is
structural recursion over the input.  Alternatives are tried in ECMAScript order
(greedy: longest first, lazy: shortest first) and the first full match wins. -/

/-- Regular expressions: the fragment used by `command_pattern`. -/
inductive Regex where
  | cls (p : Char → Bool)
  | star (p : Char → Bool)
  | plus (p : Char → Bool)
  | lazy_star (p : Char → Bool)
  | seq (a b : Regex)
  | opt (a : Regex)
  | group (i : Nat) (a : Regex)

/-- The sub-matches of a `std::smatch`, by group number. -/
abbrev Captures := Nat → Option Str

/-- Greedy `p*` followed by the continuation `k`. -/
def star_greedy {α : Type} (p : Char → Bool) : Str → (Str → Option α) → Option α
  | [], k => k []
  | c :: cs, k =>
    if p c then (star_greedy p cs k).orElse (fun _ => k (c :: cs)) else k (c :: cs)

/-- Lazy `p*?` followed by the continuation `k`. -/
def star_lazy {α : Type} (p : Char → Bool) : Str → (Str → Option α) → Option α
  | [], k => k []
  | c :: cs, k => (k (c :: cs)).orElse (fun _ => if p c then star_lazy p cs k else none)

/-- Backtracking match of a regex against a prefix of `s`, the rest of the input and the
captures being handed to the continuation. -/
def Regex.run : Regex → Str → Captures → (Str → Captures → Option Captures) → Option Captures
  | .cls p, s, m, k =>
    match s with
    | c :: cs => if p c then k cs m else none
    | [] => none
  | .star p, s, m, k => star_greedy p s (fun r => k r m)
  | .plus p, s, m, k =>
    match s with
    | c :: cs => if p c then star_greedy p cs (fun r => k r m) else none
    | [] => none
  | .lazy_star p, s, m, k => star_lazy p s (fun r => k r m)
  | .seq a b, s, m, k => a.run s m (fun r m1 => b.run r m1 k)
  | .opt a, s, m, k => (a.run s m k).orElse (fun _ => k s m)
  | .group i a, s, m, k =>
    a.run s m (fun r m1 => k r (Function.update m1 i (some (s.take (s.length - r.length)))))

/-- The function `std::regex_match`: the whole input has to be matched. -/
def regex_match (re : Regex) (s : Str) : Option Captures :=
  re.run s (fun _ => none) (fun r m => if r.isEmpty then some m else none)

/-- The string of sub-match `i` (empty when the group did not take part in the match). -/
def Captures.str (m : Captures) (i : Nat) : Str := (m i).getD []

/-! ## `convert.h` -/

/-- The decimal digit character of a number below ten. -/
def digit_char (n : Nat) : Char := Char.ofNat (48 + n)

/-- The value of a decimal digit character. -/
def digit_val (c : Char) : Nat := c.toNat - 48

/-- Decimal digits of `n`, most significant first; `fuel` bounds the number of digits. -/
def nat_digits : Nat → Nat → Str
  | 0, _ => []
  | fuel + 1, n =>
    if n < 10 then [digit_char n] else nat_digits fuel (n / 10) ++ [digit_char (n % 10)]

/-- What `operator<<` prints for a non-negative integer. -/
def nat_to_str (n : Nat) : Str := nat_digits (n + 1) n

/-- The number read from a run of decimal digits. -/
def parse_nat (ds : Str) : Nat := ds.foldl (fun acc c => 10 * acc + digit_val c) 0

/-- Bounds of the C++ type `int`. -/
def INT_MIN : Int := -2147483648

/-- Upper bound of the C++ type `int`. -/
def INT_MAX : Int := 2147483647

/-- Splits an optional sign off the front of a numeral. -/
def take_sign : Str → Bool × Str
  | '-' :: r => (true, r)
  | '+' :: r => (false, r)
  | s => (false, s)

/-! ## The type `float` (IEEE 754 binary32) -/

/-- Binary exponent of a positive rational, searched upwards from `e`. -/
def binary_exponent_up : Nat → ℚ → Int → Int
  | 0, _, e => e
  | n + 1, x, e => if (2 : ℚ) ^ (e + 1) ≤ x then binary_exponent_up n x (e + 1) else e

/-- Binary exponent of a positive rational, searched downwards from `e`. -/
def binary_exponent_down : Nat → ℚ → Int → Int
  | 0, _, e => e
  | n + 1, x, e => if x < (2 : ℚ) ^ e then binary_exponent_down n x (e - 1) else e

/-- The `e` with `2 ^ e ≤ x < 2 ^ (e + 1)` for a positive `x` between `2 ^ (-160)` and
`2 ^ 160`. -/
def binary_exponent (x : ℚ) : Int :=
  binary_exponent_down 160 x (binary_exponent_up 160 x 0)

/-- The integer nearest to a rational, the even one when two are equally near: the rounding
of IEEE 754 arithmetic and of the conversions between `float` and decimal text. -/
def round_half_even (q : ℚ) : Int :=
  if q - q.floor < 1 / 2 then q.floor
  else if 1 / 2 < q - q.floor then q.floor + 1
  else if q.floor % 2 = 0 then q.floor else q.floor + 1

/-- The constant `FLT_MAX`: the largest finite `float`. -/
def FLT_MAX : ℚ := (2 ^ 24 - 1) * 2 ^ 104

/-- The constant `FLT_MIN`: the smallest positive normal `float`. -/
def FLT_MIN : ℚ := 1 / 2 ^ 126

/-- The `float` nearest to a rational (round to nearest, ties to even): 24 significant bits
from the exponent `-126` on, subnormal below.  A magnitude beyond `FLT_MAX` gives `FLT_MAX`,
which is what `operator>>` stores on overflow; infinities are outside the model. -/
def round_to_float (x : ℚ) : ℚ :=
  if x = 0 then 0 else
  let e := max (binary_exponent |x|) (-126)
  let r := (round_half_even (|x| / (2 : ℚ) ^ (e - 23)) : ℚ) * (2 : ℚ) ^ (e - 23)
  let r1 := if FLT_MAX < r then FLT_MAX else r
  if x < 0 then -r1 else r1

/-! ## `convert.h` (continued) -/

/-- Decimal exponent of a positive rational, searched upwards from `e`. -/
def decimal_exponent_up : Nat → ℚ → Int → Int
  | 0, _, e => e
  | n + 1, x, e => if (10 : ℚ) ^ (e + 1) ≤ x then decimal_exponent_up n x (e + 1) else e

/-- Decimal exponent of a positive rational, searched downwards from `e`. -/
def decimal_exponent_down : Nat → ℚ → Int → Int
  | 0, _, e => e
  | n + 1, x, e => if x < (10 : ℚ) ^ e then decimal_exponent_down n x (e - 1) else e

/-- The `X` with `10 ^ X ≤ x < 10 ^ (X + 1)` for a positive `x` in the range of `float`. -/
def decimal_exponent (x : ℚ) : Int :=
  decimal_exponent_down 64 x (decimal_exponent_up 64 x 0)

/-- Removes trailing zeros of a fraction. -/
def strip_zeros (ds : Str) : Str := (ds.reverse.dropWhile (fun c => c = '0')).reverse

/-- What `operator<<` prints for a `float` with the default format (`%g`, six significant
digits, the exact value rounded to nearest, ties to even): fixed notation when the decimal
exponent is in `[-4, 6)`, scientific otherwise, trailing zeros removed. -/
def float_to_str (x : ℚ) : Str :=
  if x = 0 then ['0'] else
  let a := |x|
  let e0 := decimal_exponent a
  let m0 := (round_half_even (a / (10 : ℚ) ^ (e0 - 5))).toNat
  let e := if 1000000 ≤ m0 then e0 + 1 else e0
  let m := if 1000000 ≤ m0 then m0 / 10 else m0
  let ds := nat_to_str m
  let sign : Str := if x < 0 then ['-'] else []
  if -4 ≤ e ∧ e < 6 then
    let ip : Str := if 0 ≤ e then ds.take (e.toNat + 1) else ['0']
    let fp : Str :=
      strip_zeros (if 0 ≤ e then ds.drop (e.toNat + 1)
        else List.replicate ((-e).toNat - 1) '0' ++ ds)
    sign ++ ip ++ (if fp = [] then [] else '.' :: fp)
  else
    let fp := strip_zeros (ds.drop 1)
    let ex := nat_to_str e.natAbs
    sign ++ ds.take 1 ++ (if fp = [] then [] else '.' :: fp) ++ ['e']
      ++ [if e < 0 then '-' else '+'] ++ (if ex.length < 2 then '0' :: ex else ex)

namespace Convert

/-- The types `T` with `std::stringstream << T`, as used by `Convert::to_str`. -/
class ToStr (T : Type) where
  to_str : T → Str

export ToStr (to_str)

/-- The general template `to_str<T>` at `T = int`. -/
instance : ToStr Int where
  to_str x := if x < 0 then '-' :: nat_to_str x.natAbs else nat_to_str x.natAbs

/-- The specialisation `to_str<bool>`. -/
instance : ToStr Bool where
  to_str value := if value then "true".toList else "false".toList

/-- The general template at `T = std::string`: the stream returns what was written. -/
instance : ToStr Str where
  to_str value := value

/-- The general template at `T = float` (`Seconds`). -/
instance : ToStr ℚ where
  to_str value := float_to_str value

/-- The template `str_to<T>` at `T = int`: leading whitespace is skipped, then an optional
sign and decimal digits are read; no digits give `0`, out-of-range values are clamped. -/
def str_to_int (string : Str) : Int :=
  let s1 := string.dropWhile isspace
  let ds := (take_sign s1).2.takeWhile isdigit
  if ds = [] then 0 else
  let v : Int := if (take_sign s1).1 then -(parse_nat ds : Int) else (parse_nat ds : Int)
  if v < INT_MIN then INT_MIN else if INT_MAX < v then INT_MAX else v

/-- The specialisation `str_to<bool>`: true for "true", "yes" (any capitalisation) or "1". -/
def str_to_bool (string : Str) : Bool :=
  get_decapitalized string = "true".toList || get_decapitalized string = "yes".toList
    || string = "1".toList

/-- The number that `operator>>` reads for a `float`: leading whitespace is skipped, then
an optional sign, decimal digits, an optional fraction and an optional decimal exponent are
read; no digits give `0`.  This is the exact value of the numeral, before it is rounded. -/
def read_decimal (string : Str) : ℚ :=
  let s1 := string.dropWhile isspace
  let s2 := (take_sign s1).2
  let ip := s2.takeWhile isdigit
  let r1 := s2.dropWhile isdigit
  let fp := match r1 with
    | '.' :: r => r.takeWhile isdigit
    | _ => []
  let r2 := match r1 with
    | '.' :: r => r.dropWhile isdigit
    | _ => r1
  let ex : Int := match r2 with
    | c :: r =>
      if c = 'e' ∨ c = 'E' then
        (if (take_sign r).1 then -1 else 1) * (parse_nat ((take_sign r).2.takeWhile isdigit) : Int)
      else 0
    | [] => 0
  if ip = [] ∧ fp = [] then 0 else
  let v : ℚ := ((parse_nat ip : ℚ) + (parse_nat fp : ℚ) / 10 ^ fp.length) * 10 ^ ex
  if (take_sign s1).1 then -v else v

/-- The template `str_to<T>` at `T = float` (`Seconds`): the `float` nearest to the numeral
read. -/
def str_to_Seconds (string : Str) : Seconds := round_to_float (read_decimal string)

end Convert

open Convert (to_str)

/-! ## `events-requests.h` -/

/-- The enumeration `Event`. -/
inductive Event where
  | Terminate | SetResolution | SetFPSCap | SetVSync | SetFullscreen | SetAudioVolume
  | SetTFMul | SetLoadingScreen | LoadMenu | LoadLevel | LoadUser | CreateUser | EraseUser
  | RevealAllObjects
  | FadeAndTerminate | SetCrosshair | DisplayMessage | SetLightShader | SetCameraCenter
  | ZoomIn | ZoomOut | SetLightSource | SetLightRadius | SetLightBrightness | SetLightSwing
  | SetLightOn | AdvanceObjective | Hide | HideMoveCamera | Reveal | RevealDoNotMoveCamera
  | Unlock | Lock | PlayAudio | StreamAudio | StopStream | StoreCommandSequence
  | UserListUpdated
  deriving DecidableEq, Repr

/-- The enumeration `Request`. -/
inductive Request where
  | Resolution | FPSCap | VSync | Fullscreen | AudioVolume | ActiveUser | UserList
  deriving DecidableEq, Repr

/-- The class `Data`: a string and the flag `data_set`; `Data()` is the default value. -/
structure Data where
  data : Str := []
  data_set : Bool := false
  deriving DecidableEq, Repr

/-- The method `Data::set`: stores the string form unless a value was stored before. -/
def Data.set {T : Type} [Convert.ToStr T] (d : Data) (data : T) : Data :=
  if d.data_set = true then d else { data := to_str data, data_set := true }

/-- The constructor `Data::Data(const T&)`: the default value, then `set`. -/
def Data.of {T : Type} [Convert.ToStr T] (data : T) : Data := Data.set {} data

/-- The method `Data::has_been_set`. -/
def Data.has_been_set (d : Data) : Bool := d.data_set

/-- The specialisation `Data::as<std::string>`. -/
def Data.as_string (d : Data) : Str := d.data

/-- The template `Data::as<T>` at `T = int`. -/
def Data.as_int (d : Data) : Int := Convert.str_to_int d.data

/-- The template `Data::as<T>` at `T = bool`. -/
def Data.as_bool (d : Data) : Bool := Convert.str_to_bool d.data

/-- An `Observer`, by what its handlers do to the event bus: `on_event` gives the
`queue_event` calls the handler makes, `on_request` the values (in string form) it passes
to `Data::set` on the shared instance, in call order. -/
structure Observer where
  on_event : Event → Data → List (Event × Data)
  on_request : Request → List Str

/-- The class `EARManager`: the observers in the iteration order of the set, and the queue. -/
structure EARManager where
  observers : List Observer := []
  queued_events : List (Event × Data) := []

/-- One call of `on_event`: the position of the observer in the iteration order, the event
and its payload. -/
abbrev Delivery := Nat × Event × Data

/-- The method `EARManager::queue_event`. -/
def EARManager.queue_event (m : EARManager) (event : Event) (data : Data) : EARManager :=
  { m with queued_events := m.queued_events ++ [(event, data)] }

/-- The loop `for (observer : observers) observer->on_event(event, data)`, the observers
being numbered from `i`: the queue after the handlers ran and the calls made. -/
def EARManager.notify : List Observer → Nat → Event → Data → List (Event × Data) →
    List (Event × Data) × List Delivery
  | [], _, _, _, q => (q, [])
  | o :: os, i, event, data, q =>
    let r := EARManager.notify os (i + 1) event data (q ++ o.on_event event data)
    (r.1, (i, event, data) :: r.2)

/-- The method `EARManager::dispatch_event`, with the calls made. -/
def EARManager.dispatch_event (m : EARManager) (event : Event) (data : Data) :
    EARManager × List Delivery :=
  let r := EARManager.notify m.observers 0 event data m.queued_events
  ({ m with queued_events := r.1 }, r.2)

/-- The method `EARManager::dispatch_queued_events`: the `while (!queued_events.empty())` loop
with a bound on the number of iterations (`none` when the bound is reached with events left),
and the calls made in order. -/
def EARManager.dispatch_queued_events : Nat → EARManager → Option (EARManager × List Delivery)
  | fuel, m =>
    match m.queued_events with
    | [] => some (m, [])
    | (event, data) :: rest =>
      match fuel with
      | 0 => none
      | fuel + 1 =>
        let r := EARManager.dispatch_event { m with queued_events := rest } event data
        (EARManager.dispatch_queued_events fuel r.1).map (fun r2 => (r2.1, r.2 ++ r2.2))

/-- The method `EARManager::clear_queued_events`. -/
def EARManager.clear_queued_events (m : EARManager) : EARManager :=
  { m with queued_events := [] }

/-- The loop of `EARManager::request` over the observers still to visit, `n` having been
consulted so far: the returned `Data` and the number of observers consulted. -/
def EARManager.request_loop : List Observer → Nat → Request → Data → Data × Nat
  | [], n, _, _ => ({}, n)
  | o :: os, n, request, data =>
    let data1 := (o.on_request request).foldl (fun d v => d.set v) data
    if data1.has_been_set then (data1, n + 1)
    else EARManager.request_loop os (n + 1) request data1

/-- The method `EARManager::request`, with the number of observers consulted. -/
def EARManager.request (m : EARManager) (request : Request) : Data × Nat :=
  EARManager.request_loop m.observers 0 request {}

/-! ## `maths.h` -/

/-- The function `assure_bounds`: the adjusted value and whether `x` was within bounds. -/
def assure_bounds (x min max : ℚ) : ℚ × Bool :=
  if x < min then (min, false) else if x > max then (max, false) else (x, true)

/-- The function `assure_greater_than_or_equal_to` on `int`. -/
def assure_greater_than_or_equal_to (x min : Int) : Int × Bool :=
  if x < min then (min, false) else (x, true)

/-! ## `commands.cpp` -/

/-- The table `COMMAND_EVENTS`. -/
def COMMAND_EVENTS : List (Str × Event) :=
  [ ("exit".toList, .FadeAndTerminate), ("res".toList, .SetResolution),
    ("fpscap".toList, .SetFPSCap), ("vsync".toList, .SetVSync),
    ("fullscreen".toList, .SetFullscreen), ("volume".toList, .SetAudioVolume),
    ("tfmul".toList, .SetTFMul), ("menu".toList, .LoadMenu),
    ("load_level".toList, .LoadLevel), ("load_user".toList, .LoadUser),
    ("create_user".toList, .CreateUser), ("erase_user".toList, .EraseUser),
    ("message".toList, .DisplayMessage), ("center".toList, .SetCameraCenter),
    ("zoom_in".toList, .ZoomIn), ("zoom_out".toList, .ZoomOut),
    ("lshader".toList, .SetLightShader), ("lsource".toList, .SetLightSource),
    ("lradius".toList, .SetLightRadius), ("lbrightness".toList, .SetLightBrightness),
    ("lswing".toList, .SetLightSwing), ("lon".toList, .SetLightOn),
    ("advance".toList, .AdvanceObjective), ("hide".toList, .Hide),
    ("hide_ic".toList, .HideMoveCamera), ("reveal".toList, .Reveal),
    ("reveal_ic".toList, .RevealDoNotMoveCamera), ("unlock".toList, .Unlock),
    ("lock".toList, .Lock), ("play".toList, .PlayAudio), ("stream".toList, .StreamAudio),
    ("stop".toList, .StopStream), ("all".toList, .RevealAllObjects),
    ("store".toList, .StoreCommandSequence) ]

/-- The pattern of `Executor::execute`,
`\s*(\w+)\s*(\(\s*([\S\s]*?)\s*\))?\s*`. -/
def command_pattern : Regex :=
  .seq (.star isspace) (.seq (.group 1 (.plus is_word)) (.seq (.star isspace)
    (.seq (.opt (.group 2 (.seq (.cls (fun c => c = '(')) (.seq (.star isspace)
        (.seq (.group 3 (.lazy_star (fun _ => true)))
          (.seq (.star isspace) (.cls (fun c => c = ')'))))))))
      (.star isspace))))

/-- The class `Executor`. -/
structure Executor where
  commands : List Str := []
  postpone_timer : Seconds := 0

/-- The process-wide singletons a command can reach: `Executor::instance()`,
`EARManager::instance()` and the flag `RESOURCE_LOGGING`. -/
structure Runtime where
  executor : Executor := {}
  ear : EARManager := {}
  RESOURCE_LOGGING : Bool := false

/-- The scan of `Executor::queue_execution` for the separator indices, from index `i` on:
`prev` is the previous character (`0` at the start), `quotes_level` and
`parentheses_level` are the two counters. -/
def scan_separators : Char → Str → Nat → Int → Int → List Nat
  | _, [], _, _, _ => []
  | prev_ch, ch :: rest, i, quotes_level, parentheses_level =>
    let next_ch := rest.headD (Char.ofNat 0)
    if ch = QUOTE ∧ prev_ch = '(' then
      scan_separators ch rest (i + 1) (quotes_level + 1) parentheses_level
    else if ch = QUOTE ∧ next_ch = ')' then
      scan_separators ch rest (i + 1) (quotes_level - 1) parentheses_level
    else if quotes_level = 0 then
      if ch = '(' then scan_separators ch rest (i + 1) quotes_level (parentheses_level + 1)
      else if ch = ')' then scan_separators ch rest (i + 1) quotes_level (parentheses_level - 1)
      else if ch = ';' ∧ parentheses_level = 0 then
        i :: scan_separators ch rest (i + 1) quotes_level parentheses_level
      else scan_separators ch rest (i + 1) quotes_level parentheses_level
    else scan_separators ch rest (i + 1) quotes_level parentheses_level

/-- The separator indices of a non-empty command sequence, with the end-of-string index
added when the final character is not a separator. -/
def command_separator_indices (command_sequence : Str) : List Nat :=
  let seps := scan_separators (Char.ofNat 0) command_sequence 0 0 0
  if seps = [] ∨ seps.getLast? ≠ some (command_sequence.length - 1) then
    seps ++ [command_sequence.length]
  else seps

/-- The final loop of `Executor::queue_execution`:
`substr(begin, end - begin)` for every separator index. -/
def split_commands (command_sequence : Str) : Nat → List Nat → List Str
  | _, [] => []
  | begin, i :: indices =>
    ((command_sequence.drop begin).take (i - begin)) ::
      split_commands command_sequence (i + 1) indices

/-- The macro `EMPLACE_POSTPONE_COMMAND`. -/
def EMPLACE_POSTPONE_COMMAND (sec : Seconds) (ex : Executor) : Executor :=
  { ex with commands := ex.commands ++ ["postpone(".toList ++ to_str sec ++ ")".toList] }

/-- The method `Executor::queue_execution(const std::string&, Seconds)`. -/
def Executor.queue_execution (ex : Executor) (command_sequence : Str) (postpone : Seconds) :
    Executor :=
  if command_sequence = [] then ex else
  let ex1 := if postpone ≠ 0 then EMPLACE_POSTPONE_COMMAND postpone ex else ex
  { ex1 with commands := ex1.commands ++
      split_commands command_sequence 0 (command_separator_indices command_sequence) }

/-- The method `Executor::queue_execution(const std::vector<std::string>&, Seconds)`. -/
def Executor.queue_execution_list (ex : Executor) (command_sequence_list : List Str)
    (postpone : Seconds) : Executor :=
  let ex1 := if postpone ≠ 0 then EMPLACE_POSTPONE_COMMAND postpone ex else ex
  command_sequence_list.foldl (fun e cs => e.queue_execution cs 0) ex1

/-- The method `Executor::is_busy`. -/
def Executor.is_busy (ex : Executor) : Bool := !ex.commands.isEmpty

/-- The method `Executor::extract_queue`: the returned queue and the emptied executor. -/
def Executor.extract_queue (ex : Executor) : List Str × Executor :=
  (ex.commands, { ex with commands := [] })

/-- The method `Executor::execute`.  A command that does not match the pattern is dropped
(silently when it is blank, with a log entry otherwise); the `help*`, `list_rsrcs` and
`list_users` commands and unknown names only write to the log. -/
def Executor.execute (command : Str) (rt : Runtime) : Runtime :=
  match regex_match command_pattern command with
  | none => rt
  | some smatch =>
    let command_name := smatch.str 1
    let args := dequote (smatch.str 3)
    match COMMAND_EVENTS.lookup command_name with
    | some event => { rt with ear := rt.ear.queue_event event (Data.of args) }
    | none =>
      if command_name = "rsrc_log".toList then
        { rt with RESOURCE_LOGGING := Convert.str_to_bool args }
      else if command_name = "postpone".toList then
        { rt with executor := { rt.executor with
            postpone_timer := (assure_bounds (Convert.str_to_Seconds args) 0 10).1 } }
      else rt

/-- The loop `while (!commands.empty() && postpone_timer <= 0.f)` of `Executor::update`,
for at most `fuel` iterations. -/
def Executor.update_loop : Nat → Runtime → Runtime
  | 0, rt => rt
  | fuel + 1, rt =>
    match rt.executor.commands with
    | [] => rt
    | command :: rest =>
      if rt.executor.postpone_timer ≤ 0 then
        Executor.update_loop fuel
          (Executor.execute command { rt with executor := { rt.executor with commands := rest } })
      else rt

/-- The method `Executor::update`; `postpone_timer -= elapsed_time` is a `float`
subtraction, rounded to the nearest `float`.  Every iteration of the loop pops one command
and `execute` queues none, so the queue length bounds the number of iterations. -/
def Executor.update (elapsed_time : Seconds) (rt : Runtime) : Runtime :=
  let rt1 : Runtime :=
    if rt.executor.postpone_timer > 0 then
      { rt with executor := { rt.executor with
          postpone_timer := round_to_float (rt.executor.postpone_timer - elapsed_time) } }
    else rt
  Executor.update_loop rt1.executor.commands.length rt1

/-! ## `level_player.cpp`: objectives -/

/-- The class `Objective`. -/
structure Objective where
  progress : Int := 0
  target : Int := 0
  command_sequence : Str := []
  deriving DecidableEq, Repr

/-- The method `Objective::advance`. -/
def Objective.advance (o : Objective) (rt : Runtime) : Objective × Runtime :=
  if o.progress ≥ o.target then (o, rt)
  else
    let o1 := { o with progress := o.progress + 1 }
    if o1.progress = o1.target then
      (o1, { rt with executor := rt.executor.queue_execution o1.command_sequence 0 })
    else (o1, rt)

/-! ## Notions used in the statements about the executor -/

/-- A string without its leading and trailing whitespace. -/
def trim_spaces (s : Str) : Str := ((s.dropWhile isspace).reverse.dropWhile isspace).reverse

/-- A command as it is written: a name, optionally followed by an argument text in
parentheses. -/
structure Command where
  name : Str
  args : Option Str
  deriving DecidableEq, Repr

/-- The text of a command: `name` or `name(args)`. -/
def Command.text (c : Command) : Str :=
  match c.args with
  | none => c.name
  | some a => c.name ++ '(' :: (a ++ [')'])

/-- The event an aliased command stands for, with the argument text trimmed and dequoted as
payload. -/
def Command.event (c : Command) : Option (Event × Data) :=
  (COMMAND_EVENTS.lookup c.name).map
    (fun event => (event, Data.of (dequote (trim_spaces (c.args.getD [])))))

/-- Successive calls of `Executor::update`, one per frame. -/
def Executor.run_updates (dts : List Seconds) (rt : Runtime) : Runtime :=
  dts.foldl (fun r dt => Executor.update dt r) rt

/-- How many `FadeAndTerminate` events are in the queue of the event bus. -/
def Runtime.terminate_count (rt : Runtime) : Nat :=
  (rt.ear.queued_events.filter (fun e => e.1 = Event.FadeAndTerminate)).length

/-- Characters that the splitter of `queue_execution` passes over without changing a
counter or recording a separator. -/
def is_plain (c : Char) : Bool := c ≠ QUOTE && c ≠ '(' && c ≠ ')' && c ≠ ';'

/-- Characters of an unsigned decimal numeral: digits and the decimal point. -/
def is_decimal_char (c : Char) : Bool := isdigit c || c = '.'

/-- The calls of `on_event` that deliver one event to `n` observers, in iteration order. -/
def deliveries_of (n : Nat) (ed : Event × Data) : List Delivery :=
  (List.range n).map (fun i => (i, ed.1, ed.2))

/-- The method `Objective::advance` called `n` times in a row. -/
def Objective.advance_n : Nat → Objective × Runtime → Objective × Runtime
  | 0, st => st
  | n + 1, st =>
    let st1 := Objective.advance_n n st
    Objective.advance st1.1 st1.2

/-! ## `tsl::ordered_map` -/

/-- An ordered map from IDs: the entries in insertion order, keys unique. -/
abbrev OrderedMap (α : Type) := List (ID × α)

/-- The lookup `map.at(key)` guarded by `contains(map, key)`. -/
def OrderedMap.find {α : Type} (m : OrderedMap α) (key : ID) : Option α := m.lookup key

/-- The function `contains(map, key)`. -/
def OrderedMap.contains {α : Type} (m : OrderedMap α) (key : ID) : Bool :=
  m.any (fun p => p.1 = key)

/-- The method `erase(key)`: the order of the other entries is kept. -/
def OrderedMap.erase {α : Type} (m : OrderedMap α) (key : ID) : OrderedMap α :=
  m.filter (fun p => p.1 ≠ key)

/-- The method `emplace(key, value)`: a new entry goes to the end, an existing key is kept. -/
def OrderedMap.emplace {α : Type} (m : OrderedMap α) (key : ID) (value : α) : OrderedMap α :=
  if OrderedMap.contains m key then m else m ++ [(key, value)]

/-- A mutation of the value stored under `key`, as done through a `std::shared_ptr` to it. -/
def OrderedMap.modify {α : Type} (m : OrderedMap α) (key : ID) (f : α → α) : OrderedMap α :=
  m.map (fun p => if p.1 = key then (p.1, f p.2) else p)

/-- The key of the last entry (`map.back()`), if there is one. -/
def OrderedMap.back_key {α : Type} (m : OrderedMap α) : Option ID := m.getLast?.map (fun p => p.1)

/-! ## `entity.h`, `entity.cpp` -/

/-- The type `Px` (a `float` in the source). -/
abbrev Px := ℚ

/-- The type `PxVec2`. -/
abbrev PxVec2 := Px × Px

/-- The type `PxRect` (`sf::XRect<float>`). -/
structure PxRect where
  left : Px := 0
  top : Px := 0
  width : Px := 0
  height : Px := 0
  deriving DecidableEq

/-- The method `XRect::setCenter`. -/
def PxRect.setCenter (r : PxRect) (center : PxVec2) : PxRect :=
  { r with left := center.1 - r.width / 2, top := center.2 - r.height / 2 }

/-- The method `XRect::getCenter`. -/
def PxRect.getCenter (r : PxRect) : PxVec2 := (r.left + r.width / 2, r.top + r.height / 2)

/-- The method `XRect::setSizeKeepCenter`. -/
def PxRect.setSizeKeepCenter (r : PxRect) (size : PxVec2) : PxRect :=
  PxRect.setCenter { r with width := size.1, height := size.2 } r.getCenter

/-- The method `XRect::getRight`. -/
def PxRect.getRight (r : PxRect) : Px := r.left + r.width

/-- The enumeration `Origin`. -/
inductive Origin where
  | Center | TopLeftCorner | TopRightCorner
  deriving DecidableEq, Repr

/-- The structure `EntityConfig`. -/
structure EntityConfig where
  activatable : Bool
  position_load : Bool
  position_save : Bool
  visibility_serialization : Bool
  default_origin : Origin
  deriving DecidableEq, Repr

namespace EntityConfigs

/-- The constant `EntityConfigs::INDEPENDENT_SHEET`. -/
def INDEPENDENT_SHEET : EntityConfig := ⟨true, true, true, true, .Center⟩

/-- The constant `EntityConfigs::BOUND_SHEET`. -/
def BOUND_SHEET : EntityConfig := ⟨true, false, false, false, .TopLeftCorner⟩

/-- The constant `EntityConfigs::BINDER`. -/
def BINDER : EntityConfig := ⟨true, true, true, true, .Center⟩

/-- The constant `EntityConfigs::ACTIVATABLE_ELEMENT`. -/
def ACTIVATABLE_ELEMENT : EntityConfig := ⟨true, true, false, true, .TopLeftCorner⟩

/-- The constant `EntityConfigs::INACTIVATABLE_ELEMENT`. -/
def INACTIVATABLE_ELEMENT : EntityConfig := ⟨false, true, false, true, .TopLeftCorner⟩

end EntityConfigs

/-- The data members of the class `Entity`, as set by its constructor. -/
structure Entity where
  config : EntityConfig
  bounds : PxRect := {}
  initial_origin : Origin := .Center
  visible : Bool := true
  hovered : Bool := false
  active : Bool := false
  idle : Bool := false
  initialized : Bool := false
  deriving DecidableEq

/-- The method `Entity::set_idle`. -/
def Entity.set_idle (e : Entity) (idle : Bool) : Entity := { e with idle := idle }

/-- The assignments of `Entity::set_position(position, origin)` (before `on_reposition`). -/
def Entity.set_position_origin (e : Entity) (position : PxVec2) (origin : Origin) : Entity :=
  match origin with
  | .Center => { e with bounds := e.bounds.setCenter position }
  | .TopLeftCorner => { e with bounds := { e.bounds with left := position.1, top := position.2 } }
  | .TopRightCorner =>
    { e with bounds := { e.bounds with left := position.1 - e.bounds.width, top := position.2 } }

/-- The assignments of `Entity::set_position(position)`: the default origin is used. -/
def Entity.set_position (e : Entity) (position : PxVec2) : Entity :=
  e.set_position_origin position e.initial_origin

/-- The assignments of `Entity::disclose_size`. -/
def Entity.disclose_size (e : Entity) (size : PxVec2) : Entity :=
  match e.initial_origin with
  | .Center => { e with bounds := e.bounds.setSizeKeepCenter size }
  | .TopLeftCorner => { e with bounds := { e.bounds with width := size.1, height := size.2 } }
  | .TopRightCorner =>
    { e with bounds := { e.bounds with
        left := e.bounds.left + (e.bounds.width - size.1), width := size.1, height := size.2 } }

/-- The method `Entity::get_center`. -/
def Entity.get_center (e : Entity) : PxVec2 := e.bounds.getCenter

/-- The method `Entity::get_tlc`. -/
def Entity.get_tlc (e : Entity) : PxVec2 := (e.bounds.left, e.bounds.top)

/-- The method `Entity::get_trc`. -/
def Entity.get_trc (e : Entity) : PxVec2 := (e.bounds.getRight, e.bounds.top)

/-! ## `string_assist.h`: character checkers and replacement -/

/-- The function `std::isgraph`. -/
def isgraph (c : Char) : Bool := 33 ≤ c.toNat && c.toNat ≤ 126

/-- The function `is_graphic`. -/
def is_graphic (ch : Char) : Bool := isgraph ch || ch = ' '

/-- The function `is_numeric`. -/
def is_numeric (ch : Char) : Bool :=
  isdigit ch || ch = '.' || ch = ',' || ch = ' ' || ch = '-'

/-- The function `is_systemic`. -/
def is_systemic (ch : Char) : Bool :=
  isalnum ch || ch = '_' || ch = '-' || ch = '/' || ch = Char.ofNat 92 || ch = '.' || ch = ' '

/-- The function `is_usernamic`. -/
def is_usernamic (ch : Char) : Bool := isalnum ch || ch = ' ' || ch = '-' || ch = '_'

/-- The function `find_and_replace`: the loop `while ((index = str.find(what)) != npos)
str.replace(index, what.length(), with)`, for at most `fuel` replacements (`none` when an
occurrence is left after them). -/
def find_and_replace : Nat → Str → Str → Str → Option Str
  | fuel, str, what, replacement =>
    match str_find str what with
    | none => some str
    | some index =>
      match fuel with
      | 0 => none
      | fuel + 1 =>
        find_and_replace fuel
          (str.take index ++ replacement ++ str.drop (index + what.length)) what replacement

/-! ## `input_string.h`, `input_string.cpp` -/

/-- The enumeration `CharChecker`. -/
inductive CharChecker where
  | Graphic | Numeric | Systemic | Usernamic
  deriving DecidableEq, Repr

/-- The function stored in `is_char_allowed` for a character checker. -/
def CharChecker.allows : CharChecker → Char → Bool
  | .Graphic => is_graphic
  | .Numeric => is_numeric
  | .Systemic => is_systemic
  | .Usernamic => is_usernamic

/-- The class `InputString`, as set by its constructor (`DEFAULT_MAX_LEN` is 100). -/
structure InputString where
  string : Str := []
  index : Int := 0
  len : Int := 0
  max_len : Int := 100
  char_checker : CharChecker := .Graphic
  string_altered : Bool := false
  index_altered : Bool := false
  deriving DecidableEq, Repr

/-- The call `str.erase(pos, count)` with a count computed in `int`: a negative count turns
into a huge `size_t`, so everything from `pos` on is erased. -/
def str_erase (str : Str) (pos : Nat) (count : Int) : Str :=
  if count < 0 then str.take pos else str.take pos ++ str.drop (pos + count.toNat)

/-- The method `InputString::set_string`. -/
def InputString.set_string (i : InputString) (str : Str) : InputString :=
  let filtered_str := str.filter i.char_checker.allows
  let filtered_str :=
    if 0 ≤ i.max_len ∧ i.max_len.toNat < filtered_str.length then
      str_erase filtered_str i.max_len.toNat (i.len - i.max_len)
    else filtered_str
  { i with
    string := filtered_str, len := filtered_str.length, index := filtered_str.length,
    string_altered := true, index_altered := true }

/-- The method `InputString::clear`. -/
def InputString.clear (i : InputString) : InputString :=
  { i with string := [], len := 0, index := 0, string_altered := true, index_altered := true }

/-- The method `InputString::set_max_length`. -/
def InputString.set_max_length (i : InputString) (max_len : Int) : InputString :=
  if i.len > max_len then
    { i with
      max_len := max_len, string := str_erase i.string max_len.toNat (i.len - max_len) }
  else { i with max_len := max_len }

/-- The method `InputString::set_char_checker` (every checker of the enumeration is
implemented). -/
def InputString.set_char_checker (i : InputString) (char_checker : CharChecker) : InputString :=
  InputString.clear { i with char_checker := char_checker }

/-- The method `InputString::get_string`. -/
def InputString.get_string (i : InputString) : Str := i.string

/-! ## `elements.h`, `elements.cpp`: actions and elements -/

/-- The class `Action`, as set by its constructor. -/
structure Action where
  command_sequence : Str := []
  repeatable : Bool := true
  executed : Bool := false
  formatted_command_sequence : Str := []
  delay : Seconds := 0
  delay_remaining : Seconds := 0
  deriving DecidableEq

instance : Inhabited Action := ⟨{}⟩

/-- The method `Action::is_executable`. -/
def Action.is_executable (a : Action) : Bool :=
  a.repeatable || (!a.executed && decide (a.delay_remaining ≤ 0))

/-- The method `Action::is_idle`. -/
def Action.is_idle (a : Action) : Bool := decide (a.delay_remaining ≤ 0)

/-- The method `Action::set_delay`. -/
def Action.set_delay (a : Action) (delay : Seconds) : Action := { a with delay := delay }

/-- The method `Action::initiate_execution`; `none` when `find_and_replace` does not finish
within `fuel` replacements. -/
def Action.initiate_execution (fuel : Nat) (a : Action) (arg : Str) (rt : Runtime) :
    Option (Action × Runtime) :=
  if a.is_executable then
    (find_and_replace fuel a.command_sequence "{}".toList arg).map (fun formatted =>
      let a1 := { a with formatted_command_sequence := formatted }
      if a1.delay = 0 then
        ({ a1 with executed := true },
          { rt with executor := rt.executor.queue_execution formatted 0 })
      else ({ a1 with delay_remaining := a1.delay }, rt))
  else some (a, rt)

/-- The method `Action::update`; `delay_remaining -= elapsed_time` is a `float` subtraction,
rounded to the nearest `float`. -/
def Action.update (a : Action) (elapsed_time : Seconds) (rt : Runtime) : Action × Runtime :=
  if a.delay_remaining > 0 then
    let a1 := { a with delay_remaining := round_to_float (a.delay_remaining - elapsed_time) }
    if a1.delay_remaining ≤ 0 then
      ({ a1 with executed := true },
        { rt with executor := rt.executor.queue_execution a1.formatted_command_sequence 0 })
    else (a1, rt)
  else (a, rt)

/-- The constant `INTERACTION_COOLDOWN`. -/
def INTERACTION_COOLDOWN : Seconds := 1 / 10

/-- The constant `BUTTON_ACTION_DELAY`. -/
def BUTTON_ACTION_DELAY : Seconds := 1 / 2

/-- The constant `INPUTLINE_ACTION_DELAY`. -/
def INPUTLINE_ACTION_DELAY : Seconds := 2

/-- The constant `INPUTLINE_DEFAULT_ACTION_DELAY`. -/
def INPUTLINE_DEFAULT_ACTION_DELAY : Seconds := 1 / 2

/-- The constant `DEFAULT_SOLUTION_KEY`. -/
def DEFAULT_SOLUTION_KEY : Str := "DEFAULT".toList

/-- The enumeration `Element::Type`. -/
inductive ElementType where
  | Unimplemented | Image | Text | Button | InputLine
  deriving DecidableEq, Repr

/-- The enumeration `InputLine::Theme`. -/
inductive Theme where
  | CorrectInput | IncorrectInput | Default
  deriving DecidableEq, Repr

/-- The state a `Button` adds to an `Element`, as set by its constructor. -/
structure ButtonData where
  text_and_highlight_enabled : Bool := false
  action : Action := {}
  action_cooldown : Seconds := 0
  locked : Bool := false
  deriving DecidableEq

/-- The state an `InputLine` adds to an `Element`, as set by its constructor; `solutions`
lists the entries of the `std::unordered_map` in its iteration order. -/
structure InputLineData where
  theme : Theme := .Default
  input : InputString := {}
  last_committed_input : Str := []
  solutions : List (Str × Action) := []
  default_action : Bool := false
  input_save : Bool := true
  auto_clear : Bool := false
  commit_cooldown : Seconds := 0
  locked : Bool := false
  deriving DecidableEq

/-- The four classes derived from `Element`, with the state each adds. -/
inductive ElementKind where
  | Image
  | Text (string : Str)
  | Button (d : ButtonData)
  | InputLine (d : InputLineData)
  deriving DecidableEq

/-- An `Element`: the `Entity` base and the derived class. -/
structure Element where
  entity : Entity
  kind : ElementKind
  deriving DecidableEq

/-- The member `Element::type`, as set by the constructors of the derived classes. -/
def Element.type (el : Element) : ElementType :=
  match el.kind with
  | .Image => .Image
  | .Text _ => .Text
  | .Button _ => .Button
  | .InputLine _ => .InputLine

/-- The constructor `Image::Image`. -/
def Image.new : Element := ⟨{ config := EntityConfigs.INACTIVATABLE_ELEMENT }, .Image⟩

/-- The constructor `Text::Text`. -/
def Text.new : Element := ⟨{ config := EntityConfigs.INACTIVATABLE_ELEMENT }, .Text []⟩

/-- The constructor `Button::Button`. -/
def Button.new : Element := ⟨{ config := EntityConfigs.ACTIVATABLE_ELEMENT }, .Button {}⟩

/-- The constructor `InputLine::InputLine`. -/
def InputLine.new : Element := ⟨{ config := EntityConfigs.ACTIVATABLE_ELEMENT }, .InputLine {}⟩

/-- The method `Entity::set_visible` on an element, with `Element::on_setting_visible`. -/
def Element.set_visible (el : Element) (visible : Bool) : Element :=
  { el with entity := { el.entity with visible := visible, idle := false } }

/-- The method `Entity::set_hovered` on an element; `on_setting_hovered` is overridden by
`Button` and `InputLine` (both call `set_idle(false)`). -/
def Element.set_hovered (el : Element) (hovered : Bool) : Element :=
  if !el.entity.config.activatable then el
  else
    match el.kind with
    | .Button _ | .InputLine _ =>
      { el with entity := { el.entity with hovered := hovered, idle := false } }
    | _ => { el with entity := { el.entity with hovered := hovered } }

/-- The method `Entity::set_active` on an element; `on_setting_active` is overridden by
`InputLine` only. -/
def Element.set_active (el : Element) (active : Bool) : Element :=
  if !el.entity.config.activatable then el
  else
    match el.kind with
    | .InputLine _ => { el with entity := { el.entity with active := active, idle := false } }
    | _ => { el with entity := { el.entity with active := active } }

/-- The methods `Button::set_locked` and `InputLine::set_locked` (the latter through
`set_theme(theme)`); other elements have no such method. -/
def Element.set_locked (el : Element) (locked : Bool) : Element :=
  match el.kind with
  | .Button d => ⟨el.entity.set_idle false, .Button { d with locked := locked }⟩
  | .InputLine d => ⟨el.entity.set_idle false, .InputLine { d with locked := locked }⟩
  | _ => el

/-- The `locked` member of a `Button` or an `InputLine`. -/
def Element.locked (el : Element) : Option Bool :=
  match el.kind with
  | .Button d => some d.locked
  | .InputLine d => some d.locked
  | _ => none

/-- The procedure applied to both strings by `matches_semantically`. -/
def apply_procedure (str : Str) : Str :=
  (((get_decapitalized str).filter (fun c => c ≠ ' ')).filter (fun c => c ≠ Char.ofNat 39)).map
    (fun c => if c = ',' then '.' else c)

/-- The function `matches_semantically`. -/
def matches_semantically (str1 str2 : Str) : Bool := apply_procedure str1 = apply_procedure str2

/-- The method `InputLine::set_input` (the entity is marked not idle by `set_theme`). -/
def InputLineData.set_input (d : InputLineData) (input : Str) : InputLineData :=
  let inp := d.input.set_string input
  let d1 := { d with input := inp, last_committed_input := inp.get_string }
  if d1.default_action then { d1 with theme := .Default }
  else if d1.solutions.any (fun p => matches_semantically inp.get_string p.1) then
    { d1 with theme := .CorrectInput }
  else { d1 with theme := .IncorrectInput }

/-- The first solution that matches the input and is executable, with what precedes and
follows it: the loop of `InputLine::commit_input`. -/
def find_solution (input_string : Str) :
    List (Str × Action) → Option (List (Str × Action) × (Str × Action) × List (Str × Action))
  | [] => none
  | p :: rest =>
    if matches_semantically input_string p.1 && p.2.is_executable then some ([], p, rest)
    else (find_solution input_string rest).map (fun r => (p :: r.1, r.2.1, r.2.2))

/-- The method `InputLine::commit_input`; `none` when `find_and_replace` does not finish
within `fuel` replacements. -/
def InputLineData.commit_input (fuel : Nat) (d : InputLineData) (rt : Runtime) :
    Option (InputLineData × Runtime) :=
  if d.commit_cooldown > 0 then some (d, rt)
  else
    let d1 := { d with
      commit_cooldown := INTERACTION_COOLDOWN, last_committed_input := d.input.get_string }
    let input_string := d.input.get_string
    let d2 := if d1.auto_clear then { d1 with input := d1.input.clear } else d1
    match find_solution input_string d2.solutions with
    | some (pre, (key, action), post) =>
      (action.initiate_execution fuel [] rt).map (fun r =>
        ({ d2 with solutions := pre ++ (key, r.1) :: post, theme := .CorrectInput }, r.2))
    | none =>
      if d2.default_action then
        match d2.solutions.lookup DEFAULT_SOLUTION_KEY with
        | some action =>
          (action.initiate_execution fuel input_string rt).map (fun r =>
            ({ d2 with
                solutions := d2.solutions.map
                  (fun p => if p.1 = DEFAULT_SOLUTION_KEY then (p.1, r.1) else p),
                theme := .Default }, r.2))
        | none => none
      else some ({ d2 with theme := .IncorrectInput }, rt)

/-- The method `InputLine::commit_input` on an element (`set_theme` marks it not idle; a
commit during the cooldown changes nothing); other elements are left alone. -/
def Element.commit_input (fuel : Nat) (el : Element) (rt : Runtime) :
    Option (Element × Runtime) :=
  match el.kind with
  | .InputLine d =>
    if d.commit_cooldown > 0 then some (el, rt)
    else (d.commit_input fuel rt).map (fun r => (⟨el.entity.set_idle false, .InputLine r.1⟩, r.2))
  | _ => some (el, rt)

/-! ## `objects.h`, `objects.cpp` -/

/-- The class `Sheet`: the `Entity` base, the ordered element map and the two element
references. -/
structure Sheet where
  entity : Entity
  independent : Bool
  elements : OrderedMap Element := []
  active_element : Option ID := none
  hovered_element : Option ID := none
  deriving DecidableEq

/-- The constructor `Sheet::Sheet(independent)`. -/
def Sheet.new (independent : Bool) : Sheet :=
  { entity := { config := if independent then EntityConfigs.INDEPENDENT_SHEET
                          else EntityConfigs.BOUND_SHEET },
    independent := independent }

/-- The method `Sheet::get_element`: the sheet stops being idle; the key of the element, if
it exists. -/
def Sheet.get_element (s : Sheet) (id : ID) : Sheet × Option ID :=
  ({ s with entity := s.entity.set_idle false },
    if s.elements.contains id then some id else none)

/-- The method `Sheet::reveal`. -/
def Sheet.reveal (s : Sheet) (id : ID) : Sheet :=
  let r := s.get_element id
  match r.2 with
  | none => r.1
  | some key =>
    { r.1 with elements := (r.1.elements.modify key
        (fun el => if !el.entity.visible then el.set_visible true else el)) }

/-- The method `Sheet::set_active_element`. -/
def Sheet.set_active_element (s : Sheet) (element : Option ID) : Sheet :=
  if element = s.active_element then s
  else
    let s1 := match s.active_element with
      | some old => { s with elements := s.elements.modify old (fun el => el.set_active false) }
      | none => s
    let s2 := { s1 with active_element := element }
    match element with
    | some key => { s2 with elements := s2.elements.modify key (fun el => el.set_active true) }
    | none => s2

/-- The method `Sheet::set_hovered_element`. -/
def Sheet.set_hovered_element (s : Sheet) (element : Option ID) : Sheet :=
  if element = s.hovered_element then s
  else
    let s1 := match s.hovered_element with
      | some old => { s with elements := s.elements.modify old (fun el => el.set_hovered false) }
      | none => s
    let s2 := { s1 with hovered_element := element }
    match element with
    | some key => { s2 with elements := s2.elements.modify key (fun el => el.set_hovered true) }
    | none => s2

/-- The method `Sheet::hide`. -/
def Sheet.hide (s : Sheet) (id : ID) : Sheet :=
  let r := s.get_element id
  match r.2 with
  | none => r.1
  | some key =>
    match r.1.elements.find key with
    | none => r.1
    | some el =>
      if el.entity.visible then
        let s1 := { r.1 with elements := r.1.elements.modify key (fun e => e.set_visible false) }
        if some key = s1.active_element then s1.set_active_element none else s1
      else r.1

/-- The method `Sheet::set_locked`. -/
def Sheet.set_locked (s : Sheet) (id : ID) (locked : Bool) : Sheet :=
  let r := s.get_element id
  match r.2 with
  | none => r.1
  | some key =>
    match r.1.elements.find key with
    | none => r.1
    | some el =>
      if el.type = .Button ∨ el.type = .InputLine then
        let s1 := { r.1 with elements := r.1.elements.modify key (fun e => e.set_locked locked) }
        if locked ∧ some key = s1.active_element then s1.set_active_element none else s1
      else r.1

/-- The method `Entity::set_visible` on a sheet, with `Sheet::on_setting_visible`. -/
def Sheet.set_visible (s : Sheet) (visible : Bool) : Sheet :=
  { s with entity := { s.entity with visible := visible, idle := false } }

/-- The method `Entity::set_hovered` on a sheet, with `Sheet::on_setting_hovered`. -/
def Sheet.set_hovered (s : Sheet) (hovered : Bool) : Sheet :=
  if !s.entity.config.activatable then s
  else
    let s1 := { s with entity := { s.entity with hovered := hovered, idle := false } }
    if !hovered then
      match s1.hovered_element with
      | some key =>
        { s1 with
          elements := s1.elements.modify key (fun el => el.set_hovered false)
          hovered_element := none }
      | none => s1
    else s1

/-- The method `Entity::set_active` on a sheet, with `Sheet::on_setting_active`. -/
def Sheet.set_active (s : Sheet) (active : Bool) : Sheet :=
  if !s.entity.config.activatable then s
  else
    let s1 := { s with entity := { s.entity with active := active, idle := false } }
    if !active then
      match s1.active_element with
      | some key =>
        { s1 with
          elements := s1.elements.modify key (fun el => el.set_active false)
          active_element := none }
      | none => s1
    else s1

/-- The constant `ID_TREE_DELIM`. -/
def ID_TREE_DELIM : Str := "::".toList

/-- The constant `SHEET_TURN_COOLDOWN`. -/
def SHEET_TURN_COOLDOWN : Seconds := 2 / 5

/-- The class `Binder`: `active_sheet` is the reference to the active sheet (empty only
during initialisation). -/
structure Binder where
  entity : Entity := { config := EntityConfigs.BINDER }
  sheets : OrderedMap Sheet := []
  active_sheet : Option ID := none
  active_sheet_id : ID := []
  sheet_turn_cooldown : Seconds := 0
  deriving DecidableEq

/-- The method `Binder::set_active_sheet`. -/
def Binder.set_active_sheet (b : Binder) (sheet_id : ID) : Binder :=
  if b.active_sheet.isSome ∧ b.active_sheet_id = sheet_id then b
  else
    let b1 := { b with entity := b.entity.set_idle false }
    if b1.sheets.contains sheet_id then
      let b2 := { b1 with active_sheet_id := sheet_id }
      let b3 := match b2.active_sheet with
        | some old =>
          { b2 with sheets := (b2.sheets.modify old
              (fun s => ((s.set_active false).set_hovered false).set_visible false)) }
        | none => b2
      { b3 with
        active_sheet := some sheet_id
        sheets := (b3.sheets.modify sheet_id
          (fun s => ((s.set_active b3.entity.active).set_hovered b3.entity.hovered).set_visible
            b3.entity.visible)) }
    else b1

/-- The method `Binder::reveal`. -/
def Binder.reveal (b : Binder) (id_tree : ID) : Binder :=
  let b1 := { b with entity := b.entity.set_idle false }
  let id_pair := str_split id_tree ID_TREE_DELIM
  if b1.sheets.contains id_pair.1 then
    let b2 := b1.set_active_sheet id_pair.1
    match id_pair.2 with
    | some member => { b2 with sheets := b2.sheets.modify id_pair.1 (fun s => s.reveal member) }
    | none => b2
  else b1

/-- The method `Binder::hide`. -/
def Binder.hide (b : Binder) (id_tree : ID) : Binder :=
  let b1 := { b with entity := b.entity.set_idle false }
  let id_pair := str_split id_tree ID_TREE_DELIM
  if b1.sheets.contains id_pair.1 then
    match id_pair.2 with
    | some member => { b1 with sheets := b1.sheets.modify id_pair.1 (fun s => s.hide member) }
    | none => b1
  else b1

/-- The method `Binder::set_locked`. -/
def Binder.set_locked (b : Binder) (id_tree : ID) (locked : Bool) : Binder :=
  let b1 := { b with entity := b.entity.set_idle false }
  let id_pair := str_split id_tree ID_TREE_DELIM
  if b1.sheets.contains id_pair.1 then
    match id_pair.2 with
    | some member =>
      { b1 with sheets := b1.sheets.modify id_pair.1 (fun s => s.set_locked member locked) }
    | none => b1
  else b1

/-- The hook shared by `Binder::on_setting_visible`, `on_setting_hovered` and
`on_setting_active`: the binder stops being idle and, once initialised, hands the flag on to
its active sheet. -/
def Binder.forward (b : Binder) (f : Sheet → Sheet) : Binder :=
  let b1 := { b with entity := b.entity.set_idle false }
  if b1.entity.initialized then
    match b1.active_sheet with
    | some key => { b1 with sheets := b1.sheets.modify key f }
    | none => b1
  else b1

/-- The method `Entity::set_visible` on a binder. -/
def Binder.set_visible (b : Binder) (visible : Bool) : Binder :=
  Binder.forward { b with entity := { b.entity with visible := visible } }
    (fun s => s.set_visible visible)

/-- The method `Entity::set_hovered` on a binder. -/
def Binder.set_hovered (b : Binder) (hovered : Bool) : Binder :=
  if !b.entity.config.activatable then b
  else Binder.forward { b with entity := { b.entity with hovered := hovered } }
    (fun s => s.set_hovered hovered)

/-- The method `Entity::set_active` on a binder. -/
def Binder.set_active (b : Binder) (active : Bool) : Binder :=
  if !b.entity.config.activatable then b
  else Binder.forward { b with entity := { b.entity with active := active } }
    (fun s => s.set_active active)

/-- An `Object`: a `Sheet` or a `Binder`. -/
inductive Object where
  | Sheet (s : Sheet)
  | Binder (b : Binder)
  deriving DecidableEq

/-- The `Entity` base of an object. -/
def Object.entity : Object → Entity
  | .Sheet s => s.entity
  | .Binder b => b.entity

/-- The method `Entity::is_visible` on an object. -/
def Object.is_visible (o : Object) : Bool := o.entity.visible

/-- The method `Entity::set_visible` on an object. -/
def Object.set_visible (o : Object) (visible : Bool) : Object :=
  match o with
  | .Sheet s => .Sheet (s.set_visible visible)
  | .Binder b => .Binder (b.set_visible visible)

/-- The method `Entity::set_hovered` on an object. -/
def Object.set_hovered (o : Object) (hovered : Bool) : Object :=
  match o with
  | .Sheet s => .Sheet (s.set_hovered hovered)
  | .Binder b => .Binder (b.set_hovered hovered)

/-- The method `Entity::set_active` on an object. -/
def Object.set_active (o : Object) (active : Bool) : Object :=
  match o with
  | .Sheet s => .Sheet (s.set_active active)
  | .Binder b => .Binder (b.set_active active)

/-- The virtual method `Object::reveal`. -/
def Object.reveal (o : Object) (id : ID) : Object :=
  match o with
  | .Sheet s => .Sheet (s.reveal id)
  | .Binder b => .Binder (b.reveal id)

/-- The virtual method `Object::hide`. -/
def Object.hide (o : Object) (id : ID) : Object :=
  match o with
  | .Sheet s => .Sheet (s.hide id)
  | .Binder b => .Binder (b.hide id)

/-- The virtual method `Object::set_locked`. -/
def Object.set_locked (o : Object) (id : ID) (locked : Bool) : Object :=
  match o with
  | .Sheet s => .Sheet (s.set_locked id locked)
  | .Binder b => .Binder (b.set_locked id locked)

/-! ## `level_player.h`, `level_player.cpp`: objects and interaction roles -/

/-- The constant `OBJECT_MINIMUM_PICKUP_DURATION`. -/
def OBJECT_MINIMUM_PICKUP_DURATION : Seconds := 3 / 10

/-- The part of the class `LevelPlayer` that holds the scene graph: the object map (last
entry topmost), the objectives and the five interaction-role references. -/
structure LevelPlayer where
  objectives : List (ID × Objective) := []
  objects : OrderedMap Object := []
  active_object : Option ID := none
  hovered_object : Option ID := none
  previous_object : Option ID := none
  clasped_object : Option ID := none
  clasped_object_initial_center : PxVec2 := (0, 0)
  clasp_duration : Seconds := 0
  mouse_grabbed_object : Option ID := none
  mouse_grabbed_object_initial_center : PxVec2 := (0, 0)
  mouse_grab_duration : Seconds := 0
  deriving DecidableEq

/-- The method `LevelPlayer::get_object_id`: empty when the object is not in the map. -/
def LevelPlayer.get_object_id (lp : LevelPlayer) (object : ID) : ID :=
  if lp.objects.contains object then object else []

/-- The method `LevelPlayer::get_object`. -/
def LevelPlayer.get_object (lp : LevelPlayer) (object_id : ID) : Option ID :=
  if lp.objects.contains object_id then some object_id else none

/-- The method `LevelPlayer::set_topmost_object`. -/
def LevelPlayer.set_topmost_object (lp : LevelPlayer) (object : Option ID) : LevelPlayer :=
  match object with
  | none => lp
  | some key =>
    if !lp.objects.isEmpty ∧ lp.objects.back_key ≠ some key then
      let object_id := lp.get_object_id key
      if object_id = [] then lp
      else
        match lp.objects.find object_id with
        | none => lp
        | some o => { lp with objects := (lp.objects.erase object_id).emplace object_id o }
    else lp

/-- The method `LevelPlayer::set_active_object`. -/
def LevelPlayer.set_active_object (lp : LevelPlayer) (object : Option ID) : LevelPlayer :=
  let lp1 := lp.set_topmost_object object
  if object = lp1.active_object then lp1
  else
    let lp2 := match lp1.active_object with
      | some old =>
        { lp1 with
          objects := lp1.objects.modify old (fun o => o.set_active false)
          previous_object := lp1.active_object }
      | none => lp1
    let lp3 := { lp2 with active_object := object }
    match object with
    | some key => { lp3 with objects := lp3.objects.modify key (fun o => o.set_active true) }
    | none => lp3

/-- The method `LevelPlayer::set_hovered_object`. -/
def LevelPlayer.set_hovered_object (lp : LevelPlayer) (object : Option ID) : LevelPlayer :=
  if object = lp.hovered_object then lp
  else
    let lp1 := match lp.hovered_object with
      | some old => { lp with objects := lp.objects.modify old (fun o => o.set_hovered false) }
      | none => lp
    let lp2 := { lp1 with hovered_object := object }
    match object with
    | some key => { lp2 with objects := lp2.objects.modify key (fun o => o.set_hovered true) }
    | none => lp2

/-- The method `LevelPlayer::unclasp`. -/
def LevelPlayer.unclasp (lp : LevelPlayer) : LevelPlayer := { lp with clasped_object := none }

/-- The method `LevelPlayer::mouse_ungrab`. -/
def LevelPlayer.mouse_ungrab (lp : LevelPlayer) : LevelPlayer :=
  { lp with mouse_grabbed_object := none }

/-- The method `LevelPlayer::clasp`. -/
def LevelPlayer.clasp (lp : LevelPlayer) (object : Option ID) : LevelPlayer :=
  match object with
  | none => lp
  | some key =>
    let lp1 := lp.set_topmost_object object
    { lp1 with
      clasped_object := some key
      clasped_object_initial_center :=
        ((lp1.objects.find key).map (fun o => o.entity.get_center)).getD (0, 0)
      clasp_duration := 0 }

/-- The method `LevelPlayer::mouse_grab`. -/
def LevelPlayer.mouse_grab (lp : LevelPlayer) (object : Option ID) : LevelPlayer :=
  match object with
  | none => lp
  | some key =>
    let lp1 := lp.set_topmost_object object
    { lp1 with
      mouse_grabbed_object := some key
      mouse_grabbed_object_initial_center :=
        ((lp1.objects.find key).map (fun o => o.entity.get_center)).getD (0, 0)
      mouse_grab_duration := 0 }

/-- The method `LevelPlayer::reveal` (the camera is a collaborator outside the model). -/
def LevelPlayer.reveal (lp : LevelPlayer) (id_tree : ID) (move_camera_to_object : Bool) :
    LevelPlayer :=
  let id_pair := str_split id_tree ID_TREE_DELIM
  match lp.get_object id_pair.1 with
  | none => lp
  | some object =>
    let lp1 := lp.set_topmost_object (some object)
    let lp2 := if move_camera_to_object then (lp1.set_active_object (some object)).unclasp
      else lp1
    let lp3 := { lp2 with objects := (lp2.objects.modify object
      (fun o => if !o.is_visible then o.set_visible true else o)) }
    match id_pair.2 with
    | some member => { lp3 with objects := lp3.objects.modify object (fun o => o.reveal member) }
    | none => lp3

/-- The method `LevelPlayer::hide`. -/
def LevelPlayer.hide (lp : LevelPlayer) (id_tree : ID) (move_camera_to_object : Bool) :
    LevelPlayer :=
  let id_pair := str_split id_tree ID_TREE_DELIM
  match lp.get_object id_pair.1 with
  | none => lp
  | some object =>
    let lp1 := if move_camera_to_object then (lp.set_topmost_object (some object)).unclasp
      else lp
    match id_pair.2 with
    | some member => { lp1 with objects := lp1.objects.modify object (fun o => o.hide member) }
    | none =>
      let lp2 :=
        if some object = lp1.hovered_object then
          { lp1 with
            objects := lp1.objects.modify object (fun o => o.set_hovered false)
            hovered_object := none }
        else lp1
      let lp3 :=
        if some object = lp2.active_object then
          { lp2 with
            objects := lp2.objects.modify object (fun o => o.set_active false)
            active_object := none }
        else lp2
      { lp3 with objects := (lp3.objects.modify object
        (fun o => if o.is_visible then o.set_visible false else o)) }

/-- The method `LevelPlayer::set_locked`. -/
def LevelPlayer.set_locked (lp : LevelPlayer) (id_tree : ID) (locked : Bool) : LevelPlayer :=
  let id_pair := str_split id_tree ID_TREE_DELIM
  match lp.get_object id_pair.1 with
  | none => lp
  | some object =>
    match id_pair.2 with
    | some member =>
      { lp with objects := lp.objects.modify object (fun o => o.set_locked member locked) }
    | none => lp

/-- The method `LevelPlayer::clear_objects`. -/
def LevelPlayer.clear_objects (lp : LevelPlayer) : LevelPlayer :=
  LevelPlayer.mouse_ungrab (LevelPlayer.unclasp
    { lp with
      objects := [], active_object := none, hovered_object := none, previous_object := none })

/-- The method `LevelPlayer::order_objects`. -/
def LevelPlayer.order_objects (lp : LevelPlayer) (order : List ID) : LevelPlayer :=
  order.foldl (fun l id =>
    match l.objects.find id with
    | some o => { l with objects := (l.objects.erase id).emplace id o }
    | none => l) lp

/-! ## The configuration tree (`YAML::Node` of yaml-cpp) and `yaml.h`

A node is kept by value.  Map keys are scalars, as everywhere in the source
(`node.first.Scalar()`, `node.first.as<ID>()`).  `none` stands for a thrown
`YAML::Exception`. -/

/-- A `YAML::Node`: undefined (a node that does not exist), null, a scalar, a sequence or a
map with its entries in order. -/
inductive Node where
  | Undefined
  | Null
  | Scalar (s : Str)
  | Sequence (items : List Node)
  | Map (entries : List (Str × Node))

instance : Inhabited Node := ⟨Node.Undefined⟩

/-- The method `Node::IsDefined`. -/
def Node.IsDefined : Node → Bool
  | .Undefined => false
  | _ => true

/-- The method `Node::IsNull`. -/
def Node.IsNull : Node → Bool
  | .Null => true
  | _ => false

/-- The method `Node::IsMap`. -/
def Node.IsMap : Node → Bool
  | .Map _ => true
  | _ => false

/-- The method `Node::IsScalar`. -/
def Node.IsScalar : Node → Bool
  | .Scalar _ => true
  | _ => false

/-- The entries a sequence gets when yaml-cpp converts it to a map: the items under their
indices. -/
def index_entries : List Node → Nat → List (Str × Node)
  | [], _ => []
  | n :: rest, i => (nat_to_str i, n) :: index_entries rest (i + 1)

/-- The entries of a node seen as a map by the non-const `operator[]`; a scalar cannot be
subscripted. -/
def Node.entries : Node → Option (List (Str × Node))
  | .Map es => some es
  | .Undefined => some []
  | .Null => some []
  | .Sequence items => some (index_entries items 0)
  | .Scalar _ => none

/-- The const `operator[]` with a string key: the child, or an undefined node when there is
none; subscripting a scalar or an undefined node throws. -/
def Node.get (n : Node) (key : Str) : Option Node :=
  match n with
  | .Map es => some ((es.lookup key).getD .Undefined)
  | .Null => some .Undefined
  | .Sequence _ => some .Undefined
  | .Scalar _ => none
  | .Undefined => none

/-- Sets the value of a key in a list of entries: an existing entry keeps its place, a new
one goes to the end. -/
def entries_set (es : List (Str × Node)) (key : Str) (value : Node) : List (Str × Node) :=
  if es.any (fun p => p.1 = key) then es.map (fun p => if p.1 = key then (p.1, value) else p)
  else es ++ [(key, value)]

/-- The assignment `node[key] = value` through the non-const `operator[]`. -/
def Node.assign (n : Node) (key : Str) (value : Node) : Option Node :=
  n.entries.map (fun es => .Map (entries_set es key value))

/-- The node `node[key]` of the non-const `operator[]`: the child, or a fresh node. -/
def Node.child (n : Node) (key : Str) : Option Node :=
  n.entries.map (fun es => (es.lookup key).getD .Undefined)

/-- The assignment `base[key1][key2]...[last_key] = value` of the lambda `insert` in
`insert_all_values`, for a non-empty list of keys. -/
def Node.set_path : List Str → Node → Node → Option Node
  | [], _, value => some value
  | [key], base, value => base.assign key value
  | key :: keys, base, value =>
    (base.child key).bind (fun sub =>
      (Node.set_path keys sub value).bind (fun sub1 => base.assign key sub1))

/-- The lambda `insert` of `insert_all_values`. -/
def Node.insert (base : Node) (keys : List Str) (value : Node) : Option Node :=
  if !value.IsDefined || value.IsNull then some base
  else Node.set_path keys base value

mutual
/-- The function `YAML::insert_all_values(base_node, inserter_node, insertion_path)`. -/
def insert_all_values : Node → Node → List Str → Option Node
  | base_node, .Map es, insertion_path => insert_entries base_node es insertion_path
  | base_node, .Undefined, insertion_path => Node.insert base_node insertion_path .Undefined
  | base_node, .Null, insertion_path => Node.insert base_node insertion_path .Null
  | base_node, .Scalar s, insertion_path => Node.insert base_node insertion_path (.Scalar s)
  | base_node, .Sequence l, insertion_path =>
    Node.insert base_node insertion_path (.Sequence l)
/-- The loop of `insert_all_values` over the entries of a map. -/
def insert_entries : Node → List (Str × Node) → List Str → Option Node
  | base_node, [], _ => some base_node
  | base_node, (key, value) :: rest, insertion_path =>
    (insert_all_values base_node value (insertion_path ++ [key])).bind
      (fun b => insert_entries b rest insertion_path)
end

/-- The check `IsFlexibleCase` of yaml-cpp: lower case, or a capital followed by all lower or
all upper case. -/
def IsFlexibleCase (s : Str) : Bool :=
  match s with
  | [] => true
  | c :: rest =>
    s.all Char.isLower || (c.isUpper && (rest.all Char.isLower || rest.all Char.isUpper))

/-- The conversion `as<bool>()` of yaml-cpp on the text of a scalar. -/
def yaml_decode_bool (s : Str) : Option Bool :=
  if IsFlexibleCase s then
    let l := s.map Char.toLower
    if l = "y".toList ∨ l = "yes".toList ∨ l = "true".toList ∨ l = "on".toList then some true
    else if l = "n".toList ∨ l = "no".toList ∨ l = "false".toList ∨ l = "off".toList then
      some false
    else none
  else none

/-- The conversion `as<bool>()`. -/
def Node.as_bool : Node → Option Bool
  | .Scalar s => yaml_decode_bool s
  | _ => none

/-- The conversion `as<std::string>()`: the text of a scalar, `null` for a null node. -/
def Node.as_string : Node → Option Str
  | .Scalar s => some s
  | .Null => some "null".toList
  | _ => none

/-- The node yaml-cpp makes of a `bool` (`node[key] = flag`). -/
def Node.of_bool (b : Bool) : Node := .Scalar (if b then "true".toList else "false".toList)

/-- The node yaml-cpp makes of a `std::string`. -/
def Node.of_string (s : Str) : Node := .Scalar s

/-- The iteration `for (auto entry : node)` over a node read as a map: the defined entries
of a map, nothing for a null node, a scalar or an empty sequence; the entries of a
non-empty sequence have no key, and reading one throws. -/
def Node.map_entries : Node → Option (List (Str × Node))
  | .Map es => some (es.filter (fun p => p.2.IsDefined))
  | .Sequence (_ :: _) => none
  | _ => some []

mutual
/-- A tree as the parser produces it: no undefined node inside. -/
def Node.parsed : Node → Bool
  | .Undefined => false
  | .Null => true
  | .Scalar _ => true
  | .Sequence l => parsed_items l
  | .Map es => parsed_entries es
/-- Every item of a sequence is a parsed tree. -/
def parsed_items : List Node → Bool
  | [] => true
  | n :: rest => n.parsed && parsed_items rest
/-- Every value of a map is a parsed tree. -/
def parsed_entries : List (Str × Node) → Bool
  | [] => true
  | (_, n) :: rest => n.parsed && parsed_entries rest
end

/-- What the model takes from yaml-cpp, SFML and `TextProps`: the conversions of numbers,
the check of a `text_props` node and the measurements of texts and textures.  The functions
on text properties take the class of the element, whose defaults they start from. -/
structure Collaborators where
  as_int : Node → Option Int
  as_float : Node → Option Px
  as_unsigned : Node → Option Nat
  of_float : Px → Node
  text_props_initialize : ElementType → Node → Bool
  text_props_max_height : ElementType → Node → Px
  text_props_max_width : ElementType → Node → Int → Px
  text_bounds : ElementType → Node → Str → PxVec2
  texture_size : Str → PxVec2

/-- The conversion `as<PxVec2>()` (`convert<sf::Vector2<Num>>::decode` in `yaml.h`). -/
def as_PxVec2 (κ : Collaborators) (node : Node) : Option PxVec2 :=
  if !node.IsDefined then none
  else
    (node.get "x".toList).bind (fun xn =>
      (if xn.IsDefined then κ.as_float xn else none).bind (fun x =>
        (node.get "y".toList).bind (fun yn =>
          (if yn.IsDefined then κ.as_float yn else none).map (fun y => (x, y)))))

/-- The node of a `PxVec2` (`convert<sf::Vector2<Num>>::encode` in `yaml.h`). -/
def of_PxVec2 (κ : Collaborators) (v2 : PxVec2) : Node :=
  .Map (entries_set (entries_set [] "x".toList (κ.of_float v2.1)) "y".toList (κ.of_float v2.2))

/-- One component of a colour: `static_cast<sf::Uint8>(node.as<unsigned int>())`, or the
default when the node is undefined. -/
def color_component (κ : Collaborators) (node : Node) (dflt : Nat) : Option Nat :=
  if node.IsDefined then (κ.as_unsigned node).map (fun v => v % 256) else some dflt

/-- The conversion `as<sf::Color>()` (`convert<sf::Color>::decode` in `yaml.h`): the
components r, g, b, a. -/
def as_Color (κ : Collaborators) (node : Node) : Option (Nat × Nat × Nat × Nat) :=
  if !node.IsDefined then none
  else
    (node.get "r".toList).bind (fun r_node =>
      (node.get "g".toList).bind (fun g_node =>
        (node.get "b".toList).bind (fun b_node =>
          (node.get "a".toList).bind (fun a_node =>
            (color_component κ r_node 0).bind (fun r =>
              (color_component κ g_node 0).bind (fun g =>
                (color_component κ b_node 0).bind (fun b =>
                  (color_component κ a_node 255).map (fun a => (r, g, b, a)))))))))

/-- The expression `node.IsDefined() ? node.as<std::string>() : dflt`. -/
def string_or (node : Node) (dflt : Str) : Option Str :=
  if node.IsDefined then node.as_string else some dflt

/-- The expression `node.IsDefined() ? node.as<bool>() : dflt`. -/
def bool_or (node : Node) (dflt : Bool) : Option Bool :=
  if node.IsDefined then node.as_bool else some dflt

/-! ## Initialisation and serialisation of elements (`entity.cpp`, `elements.cpp`)

`none` stands for `return false` (or `nullptr`): every `YAML::Exception` is caught by the
function that runs the `try` block and turned into that result.  Sounds, textures, stamps,
highlights and carets are not kept. -/

/-- The constant `MARGIN`. -/
def MARGIN : Px := 7

/-- The constant `PX_LIMIT`. -/
def PX_LIMIT : Px := 10000

/-- The position part of the `try` block of `Entity::initialize`: the origin and the
position, from `center`, `tlc` or `trc` (the hooks `on_reposition` of the elements do
nothing before the element is initialized). -/
def Entity.read_position (κ : Collaborators) (e : Entity) (node : Node) : Option Entity :=
  if e.config.position_load then
    (node.get "center".toList).bind (fun center_node =>
      if center_node.IsDefined then
        (as_PxVec2 κ center_node).map (fun p => e.set_position p)
      else
        (node.get "tlc".toList).bind (fun tlc_node =>
          if tlc_node.IsDefined then
            (as_PxVec2 κ tlc_node).map (fun p =>
              Entity.set_position { e with initial_origin := .TopLeftCorner } p)
          else
            (node.get "trc".toList).bind (fun trc_node =>
              if trc_node.IsDefined then
                (as_PxVec2 κ trc_node).map (fun p =>
                  Entity.set_position { e with initial_origin := .TopRightCorner } p)
              else
                some (Entity.set_position
                  { e with initial_origin := e.config.default_origin } (0, 0)))))
  else some { e with initial_origin := e.config.default_origin }

/-- The `try` block of `Entity::initialize` on an element: position, visibility and the
reveal sound. -/
def Element.initialize_entity (κ : Collaborators) (el : Element) (node : Node) :
    Option Element :=
  (el.entity.read_position κ node).bind (fun entity =>
    (if el.entity.config.visibility_serialization then
      (node.get "visible".toList).bind (fun visible_node =>
        (bool_or visible_node true).map (fun v =>
          Element.set_visible { el with entity := entity } v))
    else some { el with entity := entity }).bind (fun el2 =>
      (node.get "reveal_sound".toList).bind (fun reveal_sound_path_node =>
        (string_or reveal_sound_path_node []).map (fun _ => el2))))

/-- The text of the placeholder command of `Action::initialize`. -/
def PLACEHOLDER_COMMAND : Str :=
  "message(".toList ++ QUOTE :: "Placeholder. Command not set for action!".toList ++
    [QUOTE, ')']

/-- The method `Action::initialize`. -/
def Action.initialize (a : Action) (node : Node) : Option Action :=
  let a1 := { a with command_sequence := PLACEHOLDER_COMMAND, repeatable := true,
                     executed := false }
  if node.IsDefined then
    (node.get "command".toList).bind (fun command_sequence_node =>
      (node.get "repeatable".toList).bind (fun repeatable_node =>
        (node.get "executed".toList).bind (fun executed_node =>
          (string_or command_sequence_node a1.command_sequence).bind (fun c =>
            (bool_or repeatable_node a1.repeatable).bind (fun r =>
              (bool_or executed_node a1.executed).map (fun e =>
                { a1 with command_sequence := c, repeatable := r, executed := e }))))))
  else some a1

/-- The method `Action::serialize_dynamic_data`. -/
def Action.serialize_dynamic_data (a : Action) : Node :=
  .Map (entries_set [] "executed".toList (Node.of_bool a.executed))

/-- The expression `node.IsDefined() ? node.as<sf::Color>() : dflt`, for its success. -/
def color_or (κ : Collaborators) (node : Node) : Option Unit :=
  if node.IsDefined then (as_Color κ node).map (fun _ => ()) else some ()

/-- The `try` block of `Image::on_initialization`: the size the image discloses. -/
def Image.read_size (κ : Collaborators) (node : Node) : Option PxVec2 :=
  (node.get "texture".toList).bind (fun texture_node =>
    (node.get "size".toList).bind (fun size_node =>
      (node.get "color".toList).bind (fun color_node =>
        (string_or texture_node "resources/textures/images/sfml.png".toList).bind
          (fun texture =>
            (if size_node.IsDefined then
              (as_PxVec2 κ size_node).map (fun size =>
                ((assure_bounds size.1 1 PX_LIMIT).1, (assure_bounds size.2 1 PX_LIMIT).1))
            else some (κ.texture_size texture)).bind (fun size =>
              (color_or κ color_node).map (fun _ => size))))))

/-- The method `Image::on_initialization`. -/
def Image.on_initialization (κ : Collaborators) (el : Element) (node : Node) :
    Option Element :=
  (Image.read_size κ node).map (fun size =>
    { el with entity := el.entity.disclose_size size })

/-- The `try` block of `Text::on_initialization`: the string and the size of the text. -/
def Text.read_text (κ : Collaborators) (node : Node) : Option (Str × PxVec2) :=
  (node.get "text".toList).bind (fun text_node =>
    (node.get "text_props".toList).bind (fun text_props_node =>
      (string_or text_node "Placeholder".toList).bind (fun text =>
        if !κ.text_props_initialize .Text text_props_node then none
        else some (text, κ.text_bounds .Text text_props_node text))))

/-- The method `Text::on_initialization`. -/
def Text.on_initialization (κ : Collaborators) (el : Element) (node : Node) :
    Option Element :=
  (Text.read_text κ node).map (fun r => ⟨el.entity.disclose_size r.2, .Text r.1⟩)

/-- The check of an optional `text_props` node in `Button::on_initialization` and
`InputLine::on_initialization`: a defined node that `TextProps::initialize` rejects
throws. -/
def check_text_props (κ : Collaborators) (type : ElementType) (text_props_node : Node) :
    Option Unit :=
  if text_props_node.IsDefined && !κ.text_props_initialize type text_props_node then none
  else some ()

/-- The first part of `Button::on_initialization`: the size the button discloses, from its
text or from the `size` node, and the flag `text_and_highlight_enabled`. -/
def Button.read_size (κ : Collaborators) (node : Node) : Option (PxVec2 × Bool) :=
  (node.get "text".toList).bind (fun text_node =>
    if text_node.IsDefined then
      text_node.as_string.bind (fun text =>
        (node.get "text_props".toList).bind (fun text_props_node =>
          (check_text_props κ .Button text_props_node).map (fun _ =>
            let height := κ.text_props_max_height .Button text_props_node + MARGIN
            let width := (κ.text_bounds .Button text_props_node text).1 + height + 2 * MARGIN
            ((width, height), true))))
    else
      (node.get "size".toList).bind (fun size_node =>
        (if size_node.IsDefined then as_PxVec2 κ size_node else some (50, 50)).map
          (fun stamp_side => (stamp_side, false))))

/-- The second part of `Button::on_initialization`: the texture, the colour, the action,
the lock and the sound; the action and the lock are kept. -/
def Button.read_values (κ : Collaborators) (d : ButtonData) (node : Node) :
    Option (Action × Bool) := do
  let stamp_texture_node ← node.get "texture".toList
  let _ ← string_or stamp_texture_node "resources/textures/system/lock_stamps.png".toList
  let color_node ← node.get "color".toList
  let _ ← color_or κ color_node
  let action_node ← node.get "action".toList
  let action ← Action.initialize d.action action_node
  let locked_node ← node.get "locked".toList
  let locked ← bool_or locked_node false
  let sound_path_node ← node.get "sound".toList
  let _ ← string_or sound_path_node []
  pure (action.set_delay BUTTON_ACTION_DELAY, locked)

/-- The method `Button::on_initialization` on the state of a button. -/
def Button.on_initialization (κ : Collaborators) (el : Element) (d : ButtonData)
    (node : Node) : Option Element :=
  (Button.read_size κ node).bind (fun sized =>
    (Button.read_values κ d node).map (fun v =>
      Element.set_locked
        ⟨el.entity.disclose_size sized.1,
          .Button { d with text_and_highlight_enabled := sized.2, action := v.1 }⟩
        v.2))

/-- The call `Convert::str_to_enum(str, KNOWN_CHAR_CHECKERS)`: an unknown name gives the
default enumerator. -/
def str_to_CharChecker (str : Str) : CharChecker :=
  if str = "graphic".toList then .Graphic
  else if str = "numeric".toList then .Numeric
  else if str = "systemic".toList then .Systemic
  else if str = "usernamic".toList then .Usernamic
  else .Graphic

/-- The call `Convert::str_to_enum(str, KNOWN_ELEMENT_TYPES)`: an unknown name gives the
default enumerator. -/
def str_to_ElementType (str : Str) : ElementType :=
  if str = "image".toList then .Image
  else if str = "text".toList then .Text
  else if str = "button".toList then .Button
  else if str = "inputline".toList then .InputLine
  else .Unimplemented

/-- The loop of `InputLine::on_initialization` over the entries of the `solutions` node:
the solutions and the flag `default_action`. -/
def InputLine.initialize_solutions :
    List (Str × Node) → List (Str × Action) → Bool → Option (List (Str × Action) × Bool)
  | [], solutions, default_action => some (solutions, default_action)
  | (key, solution_node) :: rest, solutions, default_action =>
    if solutions.any (fun p => p.1 = key) then none
    else
      ( Action.initialize {} solution_node).bind (fun action =>
        if key = DEFAULT_SOLUTION_KEY then
          InputLine.initialize_solutions rest
            (solutions ++ [(key, action.set_delay INPUTLINE_DEFAULT_ACTION_DELAY)]) true
        else
          InputLine.initialize_solutions rest
            (solutions ++ [(key, action.set_delay INPUTLINE_ACTION_DELAY)]) default_action)

/-- The solutions part of `InputLine::on_initialization`: the loop over a defined
`solutions` node, or the default action alone. -/
def InputLine.read_solutions (d : InputLineData) (solutions_node : Node) :
    Option (List (Str × Action) × Bool) :=
  if solutions_node.IsDefined then
    solutions_node.map_entries.bind (fun es =>
      InputLine.initialize_solutions es d.solutions false)
  else some (d.solutions ++ [(DEFAULT_SOLUTION_KEY, ({} : Action))], true)

/-- The length part of `InputLine::on_initialization`. -/
def InputLine.read_length (κ : Collaborators) (input : InputString) (length_node : Node) :
    Option InputString :=
  if length_node.IsDefined then
    (κ.as_int length_node).map (fun length =>
      input.set_max_length (assure_greater_than_or_equal_to length 1).1)
  else some (input.set_max_length 20)

/-- The character checker part of `InputLine::on_initialization`. -/
def InputLine.read_char_checker (input : InputString) (char_checker_node : Node) :
    Option InputString :=
  if char_checker_node.IsDefined then
    char_checker_node.as_string.map (fun name =>
      input.set_char_checker (str_to_CharChecker name))
  else some input

/-- The size an `InputLine` discloses. -/
def InputLine.size (κ : Collaborators) (text_props_node : Node) (max_len : Int) : PxVec2 :=
  let height := κ.text_props_max_height .InputLine text_props_node + 2 * MARGIN
  let stamp_side := height - MARGIN / 2
  (κ.text_props_max_width .InputLine text_props_node max_len + stamp_side + MARGIN, height)

/-- The nodes `InputLine::on_initialization` reads from its node. -/
structure InputLineNodes where
  solutions_node : Node
  text_props_node : Node
  char_checker_node : Node
  length_node : Node
  input_node : Node
  input_save_node : Node
  auto_clear_node : Node
  locked_node : Node
  input_sound_path_node : Node

/-- The first statements of `InputLine::on_initialization`: the nodes under the keys. -/
def InputLine.read_nodes (node : Node) : Option InputLineNodes := do
  let solutions_node ← node.get "solutions".toList
  let text_props_node ← node.get "text_props".toList
  let char_checker_node ← node.get "char_checker".toList
  let length_node ← node.get "length".toList
  let input_node ← node.get "input".toList
  let input_save_node ← node.get "input_save".toList
  let auto_clear_node ← node.get "auto_clear".toList
  let locked_node ← node.get "locked".toList
  let input_sound_path_node ← node.get "input_sound".toList
  pure ⟨solutions_node, text_props_node, char_checker_node, length_node, input_node,
    input_save_node, auto_clear_node, locked_node, input_sound_path_node⟩

/-- The values `InputLine::on_initialization` converts, in the order of the source. -/
structure InputLineValues where
  solutions : List (Str × Action)
  default_action : Bool
  input_string : InputString
  input : Str
  input_save : Bool
  auto_clear : Bool
  locked : Bool

/-- The conversions of `InputLine::on_initialization`, each of which may throw. -/
def InputLine.read_values (κ : Collaborators) (d : InputLineData) (ns : InputLineNodes) :
    Option InputLineValues := do
  let sols ← InputLine.read_solutions d ns.solutions_node
  let _ ← check_text_props κ .InputLine ns.text_props_node
  let input1 ← InputLine.read_length κ d.input ns.length_node
  let input2 ← InputLine.read_char_checker input1 ns.char_checker_node
  let input ← string_or ns.input_node []
  let input_save ← bool_or ns.input_save_node true
  let auto_clear ← bool_or ns.auto_clear_node false
  let locked ← bool_or ns.locked_node false
  let _ ← string_or ns.input_sound_path_node []
  pure ⟨sols.1, sols.2, input2, input, input_save, auto_clear, locked⟩

/-- The assignments of `InputLine::on_initialization` once the values are converted: the
size, `set_input`, the two flags and `set_locked`. -/
def InputLine.assemble (κ : Collaborators) (el : Element) (d : InputLineData)
    (text_props_node : Node) (v : InputLineValues) : Element :=
  let entity :=
    el.entity.disclose_size (InputLine.size κ text_props_node v.input_string.max_len)
  let d1 := InputLineData.set_input
    { d with solutions := v.solutions, default_action := v.default_action,
             input := v.input_string } v.input
  Element.set_locked
    ⟨entity.set_idle false,
      .InputLine { d1 with input_save := v.input_save, auto_clear := v.auto_clear }⟩
    v.locked

/-- The method `InputLine::on_initialization` on the state of an input line. -/
def InputLine.on_initialization (κ : Collaborators) (el : Element) (d : InputLineData)
    (node : Node) : Option Element :=
  (InputLine.read_nodes node).bind (fun ns =>
    (InputLine.read_values κ d ns).map (fun v =>
      InputLine.assemble κ el d ns.text_props_node v))

/-- The virtual method `on_initialization` of an element. -/
def Element.on_initialization (κ : Collaborators) (el : Element) (node : Node) :
    Option Element :=
  match el.kind with
  | .Image => Image.on_initialization κ el node
  | .Text _ => Text.on_initialization κ el node
  | .Button d => Button.on_initialization κ el d node
  | .InputLine d => InputLine.on_initialization κ el d node

/-- The method `Entity::initialize` on an element. -/
def Element.initialize (κ : Collaborators) (el : Element) (node : Node) : Option Element :=
  if !node.IsDefined then none
  else
    (el.initialize_entity κ node).bind (fun el1 =>
      (el1.on_initialization κ node).map (fun el2 =>
        { el2 with entity := { el2.entity with initialized := true } }))

/-- The function `create_element`. -/
def create_element (κ : Collaborators) (node : Node) : Option Element :=
  if !node.IsDefined then none
  else
    ((node.get "type".toList).bind Node.as_string).bind (fun name =>
      match str_to_ElementType name with
      | .Image => Element.initialize κ Image.new node
      | .Text => Element.initialize κ Text.new node
      | .InputLine => Element.initialize κ InputLine.new node
      | .Button => Element.initialize κ Button.new node
      | .Unimplemented => none)

/-- The node `Entity::serialize_dynamic_data` builds before it inserts the values of the
derived class: the position and the visibility, as the configuration has them saved. -/
def Entity.serialize_base (κ : Collaborators) (e : Entity) : List (Str × Node) :=
  let es : List (Str × Node) :=
    if e.config.position_save then
      match e.initial_origin with
      | .Center => entries_set [] "center".toList (of_PxVec2 κ e.get_center)
      | .TopLeftCorner => entries_set [] "tlc".toList (of_PxVec2 κ e.get_tlc)
      | .TopRightCorner => entries_set [] "trc".toList (of_PxVec2 κ e.get_trc)
    else []
  if e.config.visibility_serialization then
    entries_set es "visible".toList (Node.of_bool e.visible)
  else es

/-- The method `Button::on_dynamic_data_serialization`. -/
def Button.on_dynamic_data_serialization (d : ButtonData) : Node :=
  .Map (entries_set (entries_set [] "action".toList d.action.serialize_dynamic_data)
    "locked".toList (Node.of_bool d.locked))

/-- The node `solutions_node` of `InputLine::on_dynamic_data_serialization`. -/
def InputLine.solutions_node (solutions : List (Str × Action)) : List (Str × Node) :=
  solutions.foldl (fun es p => entries_set es p.1 p.2.serialize_dynamic_data) []

/-- The method `InputLine::on_dynamic_data_serialization`. -/
def InputLine.on_dynamic_data_serialization (d : InputLineData) : Node :=
  let es := entries_set [] "solutions".toList (.Map (InputLine.solutions_node d.solutions))
  let es :=
    if d.input_save && !d.auto_clear && !d.last_committed_input.isEmpty then
      entries_set es "input".toList (Node.of_string d.last_committed_input)
    else es
  .Map (entries_set es "locked".toList (Node.of_bool d.locked))

/-- The virtual method `on_dynamic_data_serialization` of an element (`Image` and `Text`
keep the one of `Entity`). -/
def Element.on_dynamic_data_serialization (el : Element) : Node :=
  match el.kind with
  | .Button d => Button.on_dynamic_data_serialization d
  | .InputLine d => InputLine.on_dynamic_data_serialization d
  | _ => .Undefined

/-- The method `Entity::serialize_dynamic_data` on an element. -/
def Element.serialize_dynamic_data (κ : Collaborators) (el : Element) : Option Node :=
  insert_all_values (.Map (el.entity.serialize_base κ)) el.on_dynamic_data_serialization []

/-- The input string of an `InputLine`. -/
def Element.input (el : Element) : Option Str :=
  match el.kind with
  | .InputLine d => some d.input.get_string
  | _ => none

/-- Save and load of one element: the dynamic data of the live element `el` is inserted
into the static tree `static`, and a fresh element is created from the result. -/
def save_and_load (κ : Collaborators) (static : Node) (el : Element) : Option Element :=
  (el.serialize_dynamic_data κ).bind (fun overlay =>
    (insert_all_values static overlay []).bind (fun merged => create_element κ merged))

/-- What stays of an element while the level is played, compared with the element as it
was created: the class, the configuration and, for an input line, the two save flags, the
keys of the solutions, the character checker and the maximal length. -/
def Element.same_setup (el0 el1 : Element) : Bool :=
  decide (el1.entity.config = el0.entity.config) &&
    match el0.kind, el1.kind with
    | .Image, .Image => true
    | .Text _, .Text _ => true
    | .Button _, .Button _ => true
    | .InputLine d0, .InputLine d1 =>
      decide (d1.input_save = d0.input_save) && decide (d1.auto_clear = d0.auto_clear) &&
        decide (d1.solutions.map Prod.fst = d0.solutions.map Prod.fst) &&
        decide (d1.input.char_checker = d0.input.char_checker) &&
        decide (d1.input.max_len = d0.input.max_len)
    | _, _ => false

/-- A string the input string can hold: every character passes the checker and the length
is within the maximal length (`update_keyboard_input` inserts a character only if the checker
allows it and the length is not the maximum). -/
def InputString.holds (i : InputString) (s : Str) : Bool :=
  s.all i.char_checker.allows && decide ((s.length : Int) ≤ i.max_len)

/-- The string an `InputLine` has committed last (`last_committed_input`). -/
def Element.last_committed_input (el : Element) : Option Str :=
  match el.kind with
  | .InputLine d => some d.last_committed_input
  | _ => none

/-- The input string of an `InputLine` edited by the keyboard (`update_keyboard_input`),
given as the function on the `InputString`. -/
def Element.edit_input (el : Element) (f : InputString → InputString) : Element :=
  match el.kind with
  | .InputLine d => { el with kind := .InputLine { d with input := f d.input } }
  | _ => el

/-- Collaborators for examples: integers are read with `Convert::str_to_int`, no number with
a fraction is readable, every `text_props` node is accepted and every character is ten
pixels wide. -/
def example_collaborators : Collaborators :=
  { as_int := fun n => match n with
      | .Scalar s => some (Convert.str_to_int s)
      | _ => none,
    as_float := fun _ => none,
    as_unsigned := fun _ => none,
    of_float := fun _ => .Null,
    text_props_initialize := fun _ _ => true,
    text_props_max_height := fun _ _ => 24,
    text_props_max_width := fun _ _ n => 10 * n,
    text_bounds := fun _ _ s => (10 * s.length, 24),
    texture_size := fun _ => (100, 100) }

/-- A static tree of an input line whose input is `foo`. -/
def example_inputline : Node :=
  .Map [("type".toList, .Scalar "inputline".toList), ("input".toList, .Scalar "foo".toList)]

/-- A runtime with nothing queued and no observer. -/
def example_runtime : Runtime := ⟨⟨[], 0⟩, ⟨[], []⟩, false⟩

/-- The keys under which an element writes its dynamic data. -/
def DYNAMIC_KEYS : List Str :=
  ["visible".toList, "action".toList, "solutions".toList, "input".toList, "locked".toList]

/-- Whether an element is an `InputLine` that saves its input: `input_save` is on and
`auto_clear` is off. -/
def Element.saves_input (el : Element) : Bool :=
  match el.kind with
  | .InputLine d => d.input_save && !d.auto_clear
  | _ => false

/-- The input line created from `example_inputline`. -/
def example_created : Element :=
  (create_element example_collaborators example_inputline).getD InputLine.new

/-- The input line `example_created` after the user has erased the input, typed `x`,
committed it, and the line has been locked. -/
def example_live : Element :=
  match Element.commit_input 10
    (example_created.edit_input (fun i => i.clear.set_string "x".toList)) example_runtime with
  | some r => r.1.set_locked true
  | none => example_created

/-- The input line `example_created` after the user has erased the input (`ERASE_ALL`) and
committed the empty input. -/
def example_cleared : Element :=
  match Element.commit_input 10 (example_created.edit_input InputString.clear)
    example_runtime with
  | some r => r.1
  | none => example_created

/-! ## `entity.cpp`: the setters of the base class -/

/-- The constructor `Entity::Entity(config)`. -/
def Entity.new (config : EntityConfig) : Entity := { config := config }

/-- The method `Entity::set_visible` of the base class (its hook `on_setting_visible` is
empty). -/
def Entity.set_visible (e : Entity) (visible : Bool) : Entity := { e with visible := visible }

/-- The method `Entity::set_hovered` of the base class (its hook `on_setting_hovered` is
empty). -/
def Entity.set_hovered (e : Entity) (hovered : Bool) : Entity :=
  if !e.config.activatable then e else { e with hovered := hovered }

/-- The method `Entity::set_active` of the base class (its hook `on_setting_active` is
empty). -/
def Entity.set_active (e : Entity) (active : Bool) : Entity :=
  if !e.config.activatable then e else { e with active := active }

/-- A call of one of the public setters of `Entity`. -/
inductive EntityCall where
  | set_visible (visible : Bool)
  | set_hovered (hovered : Bool)
  | set_active (active : Bool)
  | set_idle (idle : Bool)
  | set_position (position : PxVec2)
  | set_position_origin (position : PxVec2) (origin : Origin)

/-- The entity after a call of a setter. -/
def Entity.call (e : Entity) : EntityCall → Entity
  | .set_visible v => e.set_visible v
  | .set_hovered v => e.set_hovered v
  | .set_active v => e.set_active v
  | .set_idle v => e.set_idle v
  | .set_position p => e.set_position p
  | .set_position_origin p o => e.set_position_origin p o

/-- The entity after a sequence of calls of setters, first call first. -/
def Entity.calls (e : Entity) (cs : List EntityCall) : Entity := cs.foldl Entity.call e

/-! ## Examples for the event bus and the level player -/

instance : Inhabited Object := ⟨.Sheet (Sheet.new true)⟩

/-- An observer that answers to `Hide` by queueing `Reveal` with the same payload, and to
nothing else. -/
def example_requeueing_observer : Observer :=
  { on_event := fun e d => if e = Event.Hide then [(Event.Reveal, d)] else [],
    on_request := fun _ => [] }

/-- A visible independent sheet without elements. -/
def example_sheet : Object := .Sheet (Sheet.new true)

/-- A level player with the two objects `A` and `B`, `B` topmost. -/
def example_level_player : LevelPlayer :=
  { objects := [("A".toList, example_sheet), ("B".toList, example_sheet)] }

/-! ## `level_player.cpp`: the order of the objects of a save -/

/-- The list `objects_save_order` that `LevelPlayer::load` reads off the save tree: the keys
of its `objects` map, in the order of the file. -/
def objects_save_order (save_node : Node) : Option (List ID) :=
  (save_node.child "objects".toList).bind (fun saved_objects_node =>
    if saved_objects_node.IsDefined && saved_objects_node.IsMap then
      saved_objects_node.map_entries.map (fun es => es.map Prod.fst)
    else some [])

/-- The end of `LevelPlayer::load`: `if (!objects_save_order.empty()) order_objects(...)`. -/
def LevelPlayer.restore_order (lp : LevelPlayer) (objects_save_order : List ID) : LevelPlayer :=
  if objects_save_order.isEmpty then lp else lp.order_objects objects_save_order

/-- A save tree whose `objects` map lists `B` before `A`. -/
def example_save_node : Node :=
  .Map [("objects".toList, .Map [("B".toList, .Map [("visible".toList, Node.of_bool true)]),
                                 ("A".toList, .Map [("visible".toList, Node.of_bool true)])])]

/-! ## The state of the scene graph an ID-tree path can change -/

/-- The flags `visible`, `hovered` and `active` of an entity. -/
def Entity.flags (e : Entity) : Bool × Bool × Bool := (e.visible, e.hovered, e.active)

/-- The flags of an element: those of its entity and `locked`, if it has one. -/
def Element.flags (el : Element) : (Bool × Bool × Bool) × Option Bool :=
  (el.entity.flags, el.locked)

/-- The flags of a sheet, the flags of its elements in their order, and its active and
hovered element. -/
def Sheet.flags (s : Sheet) :
    (Bool × Bool × Bool) × List (ID × ((Bool × Bool × Bool) × Option Bool)) ×
      Option ID × Option ID :=
  (s.entity.flags, s.elements.map (fun p => (p.1, p.2.flags)), s.active_element,
    s.hovered_element)

/-- The flags of a binder, the flags of its sheets in their order, and its active sheet. -/
def Binder.flags (b : Binder) :
    (Bool × Bool × Bool) ×
      List (ID × ((Bool × Bool × Bool) × List (ID × ((Bool × Bool × Bool) × Option Bool)) ×
        Option ID × Option ID)) × Option ID × ID :=
  (b.entity.flags, b.sheets.map (fun p => (p.1, p.2.flags)), b.active_sheet, b.active_sheet_id)

/-- The flags of an object. -/
def Object.flags (o : Object) :
    ((Bool × Bool × Bool) × List (ID × ((Bool × Bool × Bool) × Option Bool)) ×
      Option ID × Option ID) ⊕
    ((Bool × Bool × Bool) ×
      List (ID × ((Bool × Bool × Bool) × List (ID × ((Bool × Bool × Bool) × Option Bool)) ×
        Option ID × Option ID)) × Option ID × ID) :=
  match o with
  | .Sheet s => .inl s.flags
  | .Binder b => .inr b.flags

/-- The interaction-role references of the level player: active, hovered, previous, clasped
and mouse-grabbed object. -/
def LevelPlayer.roles (lp : LevelPlayer) :
    Option ID × Option ID × Option ID × Option ID × Option ID :=
  (lp.active_object, lp.hovered_object, lp.previous_object, lp.clasped_object,
    lp.mouse_grabbed_object)

/-- The member path names an element of the sheet. -/
def Sheet.resolves (s : Sheet) (member : ID) : Bool := s.elements.contains member

/-- The member path names a sheet of the binder, or an element of one of its sheets. -/
def Binder.resolves (b : Binder) (member : ID) : Bool :=
  b.sheets.any (fun p =>
    decide (p.1 = (str_split member ID_TREE_DELIM).1) &&
      match (str_split member ID_TREE_DELIM).2 with
      | some el => p.2.resolves el
      | none => true)

/-- The member path names a node of the object. -/
def Object.resolves (o : Object) (member : ID) : Bool :=
  match o with
  | .Sheet s => s.resolves member
  | .Binder b => b.resolves member

/-- The ID-tree names an existing node: an object of the map, or a node of such an object. -/
def LevelPlayer.resolves (lp : LevelPlayer) (id_tree : ID) : Bool :=
  lp.objects.any (fun p =>
    decide (p.1 = (str_split id_tree ID_TREE_DELIM).1) &&
      match (str_split id_tree ID_TREE_DELIM).2 with
      | some member => p.2.resolves member
      | none => true)

/-! ## `game.cpp`: relocating the queued commands of a level -/

/-- The constant `FADEIN_DURATION`. -/
def FADEIN_DURATION : Seconds := 1 / 2

/-- The part of the class `Game` that relocates commands: `user.stored_command_sequences`
(pairs of a level path and a command sequence) and `level_player.get_loaded_level_path()`. -/
structure Game where
  stored_command_sequences : List (Str × Str) := []
  loaded_level_path : Str := []

/-- The loop of `Game::store_all_queued_commands` over the extracted queue. -/
def Game.store_commands (g : Game) : List Str → Game
  | [] => g
  | command :: commands =>
    Game.store_commands
      { g with stored_command_sequences :=
          g.stored_command_sequences ++ [(g.loaded_level_path, command)] } commands

/-- The method `Game::store_all_queued_commands`. -/
def Game.store_all_queued_commands (g : Game) (ex : Executor) : Game × Executor :=
  (g.store_commands ex.extract_queue.1, ex.extract_queue.2)

/-- The loop of `Game::try_execute_stored_command_sequences`: the command sequences stored
for the level, and the entries that stay. -/
def take_stored (loaded_level_path : Str) : List (Str × Str) → List Str × List (Str × Str)
  | [] => ([], [])
  | (level_path, command_sequence) :: rest =>
    if level_path = loaded_level_path then
      (command_sequence :: (take_stored loaded_level_path rest).1,
        (take_stored loaded_level_path rest).2)
    else
      ((take_stored loaded_level_path rest).1,
        (level_path, command_sequence) :: (take_stored loaded_level_path rest).2)

/-- The method `Game::try_execute_stored_command_sequences`. -/
def Game.try_execute_stored_command_sequences (g : Game) (ex : Executor) : Game × Executor :=
  ({ g with stored_command_sequences :=
      (take_stored g.loaded_level_path g.stored_command_sequences).2 },
    ex.queue_execution_list (take_stored g.loaded_level_path g.stored_command_sequences).1
      FADEIN_DURATION)

/-- A command sequence that the splitter of `Executor::queue_execution` leaves whole: a
single command. -/
def is_single_command (command : Str) : Bool :=
  decide (split_commands command 0 (command_separator_indices command) = [command])

/-- One character of the scan of `Executor::queue_execution`: the two levels after it, and
whether it is a separator. -/
def scan_step (prev_ch ch next_ch : Char) (quotes_level parentheses_level : Int) :
    Int × Int × Bool :=
  if ch = QUOTE ∧ prev_ch = '(' then (quotes_level + 1, parentheses_level, false)
  else if ch = QUOTE ∧ next_ch = ')' then (quotes_level - 1, parentheses_level, false)
  else if quotes_level = 0 then
    if ch = '(' then (quotes_level, parentheses_level + 1, false)
    else if ch = ')' then (quotes_level, parentheses_level - 1, false)
    else if ch = ';' ∧ parentheses_level = 0 then (quotes_level, parentheses_level, true)
    else (quotes_level, parentheses_level, false)
  else (quotes_level, parentheses_level, false)

/-- An executor whose queue holds two commands and an empty one between them. -/
def example_queue : Executor := { commands := ["reveal(a)".toList, [], "hide(b)".toList] }

/-- A game with the level `one` loaded and nothing stored. -/
def example_game : Game := { loaded_level_path := "one".toList }

/-! ## Key paths of a configuration tree -/

/-- The child of a node under a key as a reader sees it (the const `operator[]` on a map):
undefined when there is none. -/
def Node.sub (n : Node) (key : Str) : Node :=
  match n with
  | .Map es => (es.lookup key).getD .Undefined
  | _ => .Undefined

/-- The node at a key path, undefined when there is none. -/
def Node.value_at : Node → List Str → Node
  | n, [] => n
  | n, key :: keys => Node.value_at (n.sub key) keys

/-- A node under which the non-const `operator[]` finds or makes a child without touching a
value: a map, a null node or a node that does not exist. -/
def Node.IsOpen : Node → Bool
  | .Map _ => true
  | .Null => true
  | .Undefined => true
  | _ => false

/-- The nodes of a tree strictly above a key path are all open. -/
def Node.open_at : Node → List Str → Bool
  | _, [] => true
  | n, key :: keys => n.IsOpen && Node.open_at (n.sub key) keys

/-- Two key paths part at some key: neither leads to a node at or below the other. -/
def paths_diverge : List Str → List Str → Bool
  | a :: p, b :: q => if a = b then paths_diverge p q else true
  | _, _ => false

mutual
/-- The values of a tree that `insert_all_values` inserts, with their key paths from
`path` on, in the order of the traversal: the scalars and the sequences outside sequences. -/
def Node.leaves : Node → List Str → List (List Str × Node)
  | .Map es, path => leaves_entries es path
  | .Undefined, _ => []
  | .Null, _ => []
  | .Scalar s, path => [(path, .Scalar s)]
  | .Sequence l, path => [(path, .Sequence l)]
/-- The values of the entries of a map, with their key paths. -/
def leaves_entries : List (Str × Node) → List Str → List (List Str × Node)
  | [], _ => []
  | (key, value) :: rest, path => Node.leaves value (path ++ [key]) ++ leaves_entries rest path
end

/-- The insertions `base[key1][key2]...[last_key] = value` of a list of values one after
the other. -/
def insert_leaves (base : Node) : List (List Str × Node) → Option Node
  | [] => some base
  | (keys, value) :: rest => (Node.set_path keys base value).bind (fun b => insert_leaves b rest)

mutual
/-- No map of the tree (outside sequences) has a key twice. -/
def Node.distinct_keys : Node → Bool
  | .Map es => decide ((es.map Prod.fst).Nodup) && distinct_entries es
  | _ => true
/-- No map in the values of the entries has a key twice. -/
def distinct_entries : List (Str × Node) → Bool
  | [] => true
  | (_, value) :: rest => value.distinct_keys && distinct_entries rest
end

/-- A base tree with the scalar `1` under `a`. -/
def example_base : Node := .Map [("a".toList, .Scalar "1".toList)]

/-- A base tree with a sequence under `a`. -/
def example_base_sequence : Node := .Map [("a".toList, .Sequence [.Scalar "x".toList])]

/-- An overlay tree with the value `2` at the key path `a`, `b`. -/
def example_overlay : Node := .Map [("a".toList, .Map [("b".toList, .Scalar "2".toList)])]

/-- A base tree with a map under `a`. -/
def example_base_map : Node :=
  .Map [("a".toList, .Map [("c".toList, .Scalar "3".toList)]), ("d".toList, .Scalar "4".toList)]

/-- A value that `insert_all_values` inserts: a scalar or a sequence. -/
def Node.IsValue : Node → Bool
  | .Scalar _ => true
  | .Sequence _ => true
  | _ => false

/-! ## `level_player.cpp`: hit-testing -/

instance : Inhabited Sheet := ⟨Sheet.new false⟩

instance : Inhabited Element := ⟨Image.new⟩

instance : Inhabited Binder := ⟨{}⟩

/-- The virtual method `Object::contains`, over `Sheet::contains` (which reads the bounds and
the opacity map of the sheet).  `Binder::contains` asks the active sheet; `none` stands for
the dereference of a null `active_sheet`. -/
def Object.contains (sheet_contains : Sjaldersbaum.Sheet → PxVec2 → Bool) (o : Object) (point : PxVec2) :
    Option Bool :=
  match o with
  | .Sheet s => some (sheet_contains s point)
  | .Binder b => (b.active_sheet.bind b.sheets.find).map (fun s => sheet_contains s point)

/-- The loop of `LevelPlayer::get_topmost_visible_object` over the entries from the back of
the map on; `contains` is only asked of a visible object. -/
def topmost_visible_loop (sheet_contains : Sheet → PxVec2 → Bool) (position : PxVec2) :
    List (ID × Object) → Option (Option ID)
  | [] => some none
  | (id, object) :: rest =>
    if object.is_visible then
      match object.contains sheet_contains position with
      | none => none
      | some true => some (some id)
      | some false => topmost_visible_loop sheet_contains position rest
    else topmost_visible_loop sheet_contains position rest

/-- The method `LevelPlayer::get_topmost_visible_object`: the key of the object found, if
any. -/
def LevelPlayer.get_topmost_visible_object (sheet_contains : Sheet → PxVec2 → Bool)
    (lp : LevelPlayer) (position : PxVec2) : Option (Option ID) :=
  topmost_visible_loop sheet_contains position lp.objects.reverse

/-- An object is hit at a point: it is visible and contains the point. -/
def Object.is_hit (sheet_contains : Sjaldersbaum.Sheet → PxVec2 → Bool) (point : PxVec2) (o : Object) :
    Bool :=
  o.is_visible && (o.contains sheet_contains point == some true)

/-! ## `objects.cpp`: turning the sheets of a binder -/

/-- The position of the entry that `find(key)` returns: the first entry with the key, or the
length of the map (`end()`) when there is none. -/
def key_index : List ID → ID → Nat
  | [], _ => 0
  | k :: rest, key => if k = key then 0 else key_index rest key + 1

/-- The iterator arithmetic of `Binder::set_next_sheet`: the key after the entry found under
`active_sheet_id`, the first key after the last one; `none` stands for stepping past
`end()` when the key is not in the map. -/
def next_sheet_id (sheets : OrderedMap Sheet) (active_sheet_id : ID) : Option ID :=
  if key_index (sheets.map Prod.fst) active_sheet_id = sheets.length then none
  else if key_index (sheets.map Prod.fst) active_sheet_id = sheets.length - 1 then
    (sheets.map Prod.fst).head?
  else (sheets.map Prod.fst).get? (key_index (sheets.map Prod.fst) active_sheet_id + 1)

/-- The method `Binder::set_next_sheet`. -/
def Binder.set_next_sheet (b : Binder) : Option Binder :=
  (next_sheet_id b.sheets b.active_sheet_id).map (fun id =>
    { b.set_active_sheet id with sheet_turn_cooldown := SHEET_TURN_COOLDOWN })

/-- A number of consecutive calls of `Binder::set_next_sheet`. -/
def Binder.set_next_sheet_times : Nat → Binder → Option Binder
  | 0, b => some b
  | n + 1, b => b.set_next_sheet.bind (Binder.set_next_sheet_times n)

/-- The state of a binder after `Binder::on_initialization`: the sheets have distinct IDs
and the configuration of bound sheets, and the active sheet is the sheet of the map named by
`active_sheet_id`. -/
def Binder.ready (b : Binder) : Prop :=
  (b.sheets.map Prod.fst).Nodup ∧ b.active_sheet = some b.active_sheet_id ∧
    b.active_sheet_id ∈ b.sheets.map Prod.fst ∧
    ∀ q ∈ b.sheets, q.2.entity.config = EntityConfigs.BOUND_SHEET

instance (b : Binder) : Decidable b.ready := by
  unfold Binder.ready
  infer_instance

/-- A binder with the three sheets `p`, `q` and `r`, of which `r` is the active one. -/
def example_binder : Binder :=
  { sheets := [("p".toList, (Sheet.new false).set_visible false),
               ("q".toList, (Sheet.new false).set_visible false),
               ("r".toList, Sheet.new false)],
    active_sheet := some "r".toList,
    active_sheet_id := "r".toList }

/-! ## `entity.cpp`: the dynamic data of an entity -/

/-- The keys that `Entity::serialize_dynamic_data` writes itself. -/
def ENTITY_KEYS : List Str := ["center".toList, "tlc".toList, "trc".toList, "visible".toList]

/-- The method `Entity::serialize_dynamic_data`, over the node that the virtual method
`on_dynamic_data_serialization` of the derived class returns. -/
def Entity.serialize_dynamic_data (κ : Collaborators) (e : Entity) (hook : Node) : Option Node :=
  insert_all_values (.Map (e.serialize_base κ)) hook []

/-- An independent sheet entity at the position (3, 4) that was revealed and then hidden. -/
def example_entity : Entity :=
  Entity.set_position_origin
    { config := EntityConfigs.INDEPENDENT_SHEET, visible := false } (3, 4) .Center

/-- What `Sheet::on_dynamic_data_serialization` returns for a sheet with one element `e`
that saved its visibility. -/
def example_hook : Node :=
  .Map [("elements".toList, .Map [("e".toList, .Map [("visible".toList, Node.of_bool true)])])]

/-! ## Examples for the placeholder substitution -/

/-- An action whose command shows its argument: `message({})`. -/
def example_action : Action := { command_sequence := "message({})".toList }

/-! ## `input_string.cpp`: the index -/

/-- The conversion `static_cast<int>(i)` of a `size_t` to the 32-bit `int`. -/
def size_t_to_int (i : Nat) : Int :=
  if i % 2 ^ 32 < 2 ^ 31 then (i % 2 ^ 32 : Nat) else ((i % 2 ^ 32 : Nat) : Int) - 2 ^ 32

/-- The method `InputString::set_index`. -/
def InputString.set_index (i : InputString) (n : Nat) : InputString :=
  { i with
    index := if size_t_to_int n ≤ i.len then size_t_to_int n else i.len,
    index_altered := true }

/-! ## `level_player.cpp`: the calls that change the scene graph -/

/-- The handling of `Event::RevealAllObjects` in `LevelPlayer::on_event`. -/
def LevelPlayer.reveal_all_objects (lp : LevelPlayer) : LevelPlayer :=
  { lp with objects := (lp.objects.map
      (fun p => (p.1, if !p.2.is_visible then p.2.set_visible true else p.2))) }

/-- A call of one of the methods of `LevelPlayer` that change objects or interaction roles. -/
inductive LevelCall where
  | reveal (id_tree : ID) (move_camera_to_object : Bool)
  | hide (id_tree : ID) (move_camera_to_object : Bool)
  | set_locked (id_tree : ID) (locked : Bool)
  | set_active_object (object : Option ID)
  | set_hovered_object (object : Option ID)
  | clasp (object : Option ID)
  | unclasp
  | mouse_grab (object : Option ID)
  | mouse_ungrab
  | reveal_all_objects

/-- The level player after a call. -/
def LevelPlayer.call (lp : LevelPlayer) : LevelCall → LevelPlayer
  | .reveal id_tree move_camera_to_object => lp.reveal id_tree move_camera_to_object
  | .hide id_tree move_camera_to_object => lp.hide id_tree move_camera_to_object
  | .set_locked id_tree locked => lp.set_locked id_tree locked
  | .set_active_object object => lp.set_active_object object
  | .set_hovered_object object => lp.set_hovered_object object
  | .clasp object => lp.clasp object
  | .unclasp => lp.unclasp
  | .mouse_grab object => lp.mouse_grab object
  | .mouse_ungrab => lp.mouse_ungrab
  | .reveal_all_objects => lp.reveal_all_objects

/-- The level player after a sequence of calls, first call first. -/
def LevelPlayer.calls (lp : LevelPlayer) (cs : List LevelCall) : LevelPlayer :=
  cs.foldl LevelPlayer.call lp

/-- An object reference is empty or refers to a visible object of the map: what
`get_topmost_visible_object` returns, and what `previous_object` is when it is made the
active object. -/
def LevelPlayer.is_visible_object (lp : LevelPlayer) (object : Option ID) : Bool :=
  match object with
  | none => true
  | some id =>
    match lp.objects.find id with
    | some o => o.is_visible
    | none => false

/-- The call hands `set_active_object` or `set_hovered_object` no object or a visible object
of the map, as the callers of these private methods in `update_keyboard_input` and
`update_indicator_input` do; the call in `reveal` is part of `LevelPlayer.reveal`. -/
def LevelCall.admissible (lp : LevelPlayer) : LevelCall → Bool
  | .set_active_object object => lp.is_visible_object object
  | .set_hovered_object object => lp.is_visible_object object
  | _ => true

/-- Every call of the sequence is admissible in the state in which it is made. -/
def LevelPlayer.admits : LevelPlayer → List LevelCall → Bool
  | _, [] => true
  | lp, c :: cs => c.admissible lp && LevelPlayer.admits (lp.call c) cs

/-- The state after `LevelPlayer::load`: distinct object IDs, activatable objects that are
neither active nor hovered, and no active and no hovered object. -/
def LevelPlayer.loaded (lp : LevelPlayer) : Prop :=
  (lp.objects.map Prod.fst).Nodup ∧ lp.active_object = none ∧ lp.hovered_object = none ∧
    ∀ p ∈ lp.objects, p.2.entity.config.activatable = true ∧ p.2.entity.active = false ∧
      p.2.entity.hovered = false

instance (lp : LevelPlayer) : Decidable lp.loaded := by
  unfold LevelPlayer.loaded
  infer_instance

/-- The flags and the role references agree: an object is active exactly when it is the
active object, hovered exactly when it is the hovered object, and the active and the
hovered object are visible objects of the map, if there are any. -/
def LevelPlayer.roles_agree (lp : LevelPlayer) : Prop :=
  (∀ p ∈ lp.objects, (p.2.entity.active = true ↔ lp.active_object = some p.1) ∧
    (p.2.entity.hovered = true ↔ lp.hovered_object = some p.1)) ∧
  lp.is_visible_object lp.active_object = true ∧
  lp.is_visible_object lp.hovered_object = true

/-- The second entity has the flags `visible`, `hovered` and `active` and the configuration
of the first. -/
def Entity.same_flags (e e1 : Entity) : Prop :=
  e1.visible = e.visible ∧ e1.hovered = e.hovered ∧ e1.active = e.active ∧ e1.config = e.config

/-- The objects have distinct IDs and are activatable, and an object is active exactly when
it is the active object and hovered exactly when it is the hovered object. -/
def LevelPlayer.flags_agree (lp : LevelPlayer) : Prop :=
  (lp.objects.map Prod.fst).Nodup ∧
  ∀ id o, lp.objects.find id = some o →
    o.entity.config.activatable = true ∧
    (o.entity.active = true ↔ lp.active_object = some id) ∧
    (o.entity.hovered = true ↔ lp.hovered_object = some id)

/-- A sequence of calls on the example level: `A` is activated and hovered, hidden, revealed
with the camera, and the hover moves to `B`. -/
def example_level_calls : List LevelCall :=
  [.set_active_object (some "A".toList), .set_hovered_object (some "A".toList),
   .hide "A".toList false, .reveal "A".toList true, .set_hovered_object (some "B".toList),
   .clasp (some "A".toList), .reveal_all_objects]

/-! ## `commands.cpp`: the commands of a sequence put together again -/

/-- The concatenation `c1 + ";" + ... + ";" + ck` of commands. -/
def join_commands : List Str → Str
  | [] => []
  | [c] => c
  | c :: d :: cs => c ++ ';' :: join_commands (d :: cs)

/-- The scan of `Executor::queue_execution` found a separator at the final index: the case
in which no end-of-string index is added. -/
def ends_in_separator (command_sequence : Str) : Bool :=
  decide (¬ (scan_separators (Char.ofNat 0) command_sequence 0 0 0 = [] ∨
    (scan_separators (Char.ofNat 0) command_sequence 0 0 0).getLast? ≠
      some (command_sequence.length - 1)))

/-- A command sequence of two commands that ends in a separator. -/
def example_sequence : Str := "reveal(a);hide(b);".toList

/-! ## `elements.cpp`: the calls made on an `Action` -/

/-- A call of `Action::initiate_execution` or of `Action::update`. -/
inductive ActionCall where
  | initiate_execution (arg : Str)
  | update (elapsed_time : Seconds)

/-- The action and the runtime after a call; `none` when `find_and_replace` does not finish
within `fuel` replacements. -/
def Action.call (fuel : Nat) (s : Action × Runtime) : ActionCall → Option (Action × Runtime)
  | .initiate_execution arg => s.1.initiate_execution fuel arg s.2
  | .update elapsed_time => some (s.1.update elapsed_time s.2)

/-- The action and the runtime after a sequence of calls, first call first. -/
def Action.calls (fuel : Nat) : Action × Runtime → List ActionCall → Option (Action × Runtime)
  | s, [] => some s
  | s, c :: cs => (Action.call fuel s c).bind (fun s1 => Action.calls fuel s1 cs)

/-- A non-repeatable action with the delay of a button. -/
def example_once : Action :=
  { command_sequence := "reveal(a)".toList, repeatable := false, delay := BUTTON_ACTION_DELAY }

/-- The action is initiated twice, the delay runs out, and it is initiated again. -/
def example_action_calls : List ActionCall :=
  [.initiate_execution [], .update (1 / 4), .initiate_execution [], .update (1 / 2),
   .update 1, .initiate_execution []]

/-- The action and the runtime after the calls of the example. -/
def example_once_final : Action × Runtime :=
  (Action.calls 0 (example_once, example_runtime) example_action_calls).getD
    (example_once, example_runtime)

/-! ## `events-requests.h`: `Data` read back as a `float` -/

/-- The template `Data::as<T>` at `T = float`. -/
def Data.as_float (d : Data) : Seconds := Convert.str_to_Seconds d.data

/-! ## Object maps with unusual IDs

`LevelPlayer::initialize` takes any key of the `objects` map of a level as an object ID. -/

/-- A hidden independent sheet that owns the hidden button `B`. -/
def example_owner : Sjaldersbaum.Sheet :=
  { Sheet.new true with
    entity := { config := EntityConfigs.INDEPENDENT_SHEET, visible := false }
    elements := [("B".toList, Button.new.set_visible false)] }

/-- A level player whose first object has the empty ID; `C` is topmost. -/
def example_unnamed_player : LevelPlayer :=
  { objects := [([], .Sheet example_owner), ("C".toList, example_sheet)] }

/-- A level player whose first object has an ID that contains the delimiter; `C` is
topmost. -/
def example_delimited_player : LevelPlayer :=
  { objects := [("X::Y".toList, example_sheet), ("C".toList, example_sheet)] }

/-! ## `commands.cpp`: commands that the splitter keeps apart -/

/-- The splitter of `Executor::queue_execution` ends the command at a `;` that follows it:
the scan of the text of the command followed by `;` records that `;` and nothing before
it. -/
def Command.closed (c : Command) : Bool :=
  decide (scan_separators (Char.ofNat 0) (c.text ++ [';']) 0 0 0 = [c.text.length])

/-- The commands `message( "hi" )` and `exit`. -/
def example_commands : List Command :=
  [Command.mk "message".toList (some " \"hi\" ".toList), Command.mk "exit".toList none]

/-- A command whose name has no double quote, parenthesis or semicolon and whose argument,
if any, either has none of them too or is one quoted text: a double quote, characters other
than the double quote of which the last is not `(`, and a double quote. -/
def Command.simple (c : Command) : Bool :=
  c.name.all is_plain &&
    match c.args with
    | none => true
    | some a =>
      a.all is_plain ||
        match a with
        | [] => false
        | ch :: r =>
          decide (ch = QUOTE) && decide (r.getLast? = some QUOTE) &&
            r.dropLast.all (fun d => decide (d ≠ QUOTE)) &&
            decide (r.dropLast.getLast? ≠ some '(')

/-! # Theorems -/

/-! # Theorems -/

/-! ## The backtracking matcher -/

theorem star_greedy_stop {α : Type} (p : Char → Bool) (r : Str) (k : Str → Option α)
    (h : ∀ c ∈ r.head?, p c = false) : star_greedy p r k = k r := by
  cases r with
  | nil => rfl
  | cons c cs =>
    have hc : p c = false := h c (by simp)
    simp [star_greedy, hc]

theorem star_greedy_exists {α : Type} (p : Char → Bool) (xs r : Str) (k : Str → Option α)
    (P : α → Prop) (hxs : ∀ c ∈ xs, p c = true) (hr : ∀ c ∈ r.head?, p c = false)
    (h : ∃ v, k r = some v ∧ P v) : ∃ v, star_greedy p (xs ++ r) k = some v ∧ P v := by
  induction xs with
  | nil => simpa [star_greedy_stop p r k hr] using h
  | cons c cs ih =>
    obtain ⟨v, hv, hP⟩ := ih (fun d hd => hxs d (List.mem_cons_of_mem _ hd))
    refine ⟨v, ?_, hP⟩
    have hc : p c = true := hxs c (List.mem_cons_self _ _)
    simp [star_greedy, hc, hv]

theorem star_greedy_none {α : Type} (p : Char → Bool) (s : Str) (k : Str → Option α)
    (h : ∀ xs r, s = xs ++ r → (∀ c ∈ xs, p c = true) → k r = none) :
    star_greedy p s k = none := by
  induction s with
  | nil => simpa [star_greedy] using h [] [] rfl (by simp)
  | cons c cs ih =>
    have h0 : k (c :: cs) = none := h [] (c :: cs) rfl (by simp)
    by_cases hc : p c = true
    · have ih1 : star_greedy p cs k = none := by
        apply ih
        intro xs r hs hxs
        apply h (c :: xs) r (by simp [hs])
        intro d hd
        rcases List.mem_cons.mp hd with rfl | hd
        · exact hc
        · exact hxs d hd
      simp [star_greedy, hc, ih1, h0]
    · simp [star_greedy, hc, h0]

theorem star_lazy_exists {α : Type} (xs r : Str) (k : Str → Option α) (P : α → Prop)
    (hfail : ∀ i, i < xs.length → k (xs.drop i ++ r) = none)
    (h : ∃ v, k r = some v ∧ P v) :
    ∃ v, star_lazy (fun _ => true) (xs ++ r) k = some v ∧ P v := by
  induction xs with
  | nil =>
    obtain ⟨v, hv, hP⟩ := h
    refine ⟨v, ?_, hP⟩
    cases r with
    | nil => simpa [star_lazy] using hv
    | cons c cs => simp [star_lazy, hv]
  | cons c cs ih =>
    obtain ⟨v, hv, hP⟩ := ih (fun i hi => by
      have := hfail (i + 1) (by simpa using hi)
      simpa using this)
    refine ⟨v, ?_, hP⟩
    have h0 : k (c :: cs ++ r) = none := by simpa using hfail 0 (by simp)
    simp only [List.cons_append] at h0
    simp [star_lazy, h0, hv]

theorem head_dropWhile_isspace (l : Str) : ∀ c ∈ (l.dropWhile isspace).head?, isspace c = false := by
  intro c hc
  have := List.head?_dropWhile_not isspace l
  rw [Option.mem_def] at hc
  rw [hc] at this
  simpa using this

theorem trim_decompose (a : Str) :
    ∃ ws1 ws2, a = ws1 ++ (trim_spaces a ++ ws2) ∧ (∀ c ∈ ws1, isspace c = true) ∧
      (∀ c ∈ ws2, isspace c = true) ∧ (∀ c ∈ (trim_spaces a ++ ws2).head?, isspace c = false) ∧
      (∀ c ∈ (trim_spaces a).getLast?, isspace c = false) := by
  refine ⟨a.takeWhile isspace, ((a.dropWhile isspace).reverse.takeWhile isspace).reverse,
    ?_, ?_, ?_, ?_, ?_⟩
  · have h1 : trim_spaces a ++ ((a.dropWhile isspace).reverse.takeWhile isspace).reverse
        = a.dropWhile isspace := by
      rw [trim_spaces, ← List.reverse_append, List.takeWhile_append_dropWhile,
        List.reverse_reverse]
    rw [h1, List.takeWhile_append_dropWhile]
  · intro c hc
    exact (List.mem_takeWhile_imp hc)
  · intro c hc
    exact List.mem_takeWhile_imp (List.mem_reverse.mp hc)
  · have h1 : trim_spaces a ++ ((a.dropWhile isspace).reverse.takeWhile isspace).reverse
        = a.dropWhile isspace := by
      rw [trim_spaces, ← List.reverse_append, List.takeWhile_append_dropWhile,
        List.reverse_reverse]
    rw [h1]
    exact head_dropWhile_isspace a
  · intro c hc
    rw [trim_spaces, List.getLast?_reverse] at hc
    exact head_dropWhile_isspace _ c hc

theorem isspace_of_is_word (c : Char) (h : is_word c = true) : isspace c = false := by
  simp only [is_word, isalnum, isdigit, isspace, Bool.or_eq_true, Bool.and_eq_true,
    decide_eq_true_eq] at h ⊢
  rcases h with ((h | h) | h) | h
  · have : c ≠ ' ' := by rintro rfl; revert h; decide
    simp [this]; omega
  · have : c ≠ ' ' := by rintro rfl; revert h; decide
    simp [this]; omega
  · have : c ≠ ' ' := by rintro rfl; revert h; decide
    simp [this]; omega
  · subst h; decide

theorem close_fails {α : Type} (pre : Str) (x : Char) (hx : x ∈ pre) (hxs : isspace x = false)
    (g : Str → Option α) :
    star_greedy isspace (pre ++ [')']) (fun r5 =>
      match r5 with
      | c :: cs =>
        if decide (c = ')') = true then
          star_greedy isspace cs (fun r6 => if r6.isEmpty = true then g cs else none)
        else none
      | [] => none) = none := by
  apply star_greedy_none
  intro xs r hs hxs1
  cases r with
  | nil => rfl
  | cons c cs =>
    by_cases hc : c = ')'
    · subst hc
      simp only [decide_True, if_true]
      apply star_greedy_none
      intro ys r2 hys hys1
      cases r2 with
      | cons d ds => rfl
      | nil =>
        exfalso
        rw [hys, List.append_nil] at hs
        rcases List.eq_nil_or_concat ys with rfl | ⟨ys1, y, rfl⟩
        · have : pre = xs := by
            have := List.append_inj_left' hs (by simp)
            exact this
          subst this
          have := hxs1 x hx
          simp [hxs] at this
        · have h1 : pre ++ [')'] = (xs ++ ')' :: ys1) ++ [y] := by simp [hs]
          have h2 := List.append_inj_right' h1 (by simp)
          have h3 : y = ')' := by simpa using h2.symm
          have := hys1 y (by simp)
          rw [h3] at this
          revert this; decide
    · simp [hc]

theorem orElse_exists {α : Type} (a : Option α) (f : Unit → Option α) (P : α → Prop)
    (h : ∃ v, a = some v ∧ P v) : ∃ v, a.orElse f = some v ∧ P v := by
  obtain ⟨v, hv, hP⟩ := h
  exact ⟨v, by rw [hv]; rfl, hP⟩

theorem command_pattern_call (name a : Str) (hne : name ≠ [])
    (hname : ∀ c ∈ name, is_word c = true) :
    ∃ m, regex_match command_pattern (name ++ '(' :: (a ++ [')'])) = some m ∧
      m.str 1 = name ∧ m.str 3 = trim_spaces a := by
  obtain ⟨ws1, ws2, ha, hws1, hws2, hhead, hlast⟩ := trim_decompose a
  generalize trim_spaces a = core at ha hhead hlast ⊢
  subst ha
  cases name with
  | nil => exact absurd rfl hne
  | cons n0 ns =>
    have hn0 : is_word n0 = true := hname n0 (List.mem_cons_self _ _)
    have hns : ∀ c ∈ ns, is_word c = true := fun c hc => hname c (List.mem_cons_of_mem _ hc)
    simp only [regex_match, command_pattern, Regex.run]
    rw [star_greedy_stop isspace _ _ (by
      intro c hc
      simp only [List.cons_append, List.head?_cons, Option.mem_def, Option.some.injEq] at hc
      subst hc
      exact isspace_of_is_word _ hn0)]
    simp only [List.cons_append, hn0, if_true]
    refine star_greedy_exists is_word ns _ _ _ hns (by simp; decide) ?_
    rw [star_greedy_stop isspace _ _ (by simp; decide)]
    simp only [decide_True, if_true]
    apply orElse_exists
    rw [show ws1 ++ (core ++ ws2) ++ [')'] = ws1 ++ (core ++ (ws2 ++ [')'])) by simp]
    refine star_greedy_exists isspace ws1 _ _ _ hws1 ?_ ?_
    · intro c hc
      cases core with
      | cons c0 cs0 =>
        apply hhead c
        simpa using hc
      | nil =>
        cases ws2 with
        | cons w0 ws0 =>
          apply hhead c
          simpa using hc
        | nil =>
          simp at hc
          subst hc
          decide
    refine star_lazy_exists core _ _ _ ?_ ?_
    · intro i hi
      have hd : core.drop i ≠ [] := by simpa using hi
      have hx : ∃ x, (core.drop i).getLast? = some x := by
        cases h : (core.drop i).getLast? with
        | none => exact absurd (List.getLast?_eq_none_iff.mp h) hd
        | some x => exact ⟨x, rfl⟩
      obtain ⟨x, hx⟩ := hx
      have hx2 : core.getLast? = some x := by
        rw [List.getLast?_drop] at hx
        split at hx
        · simp at hx
        · exact hx
      have hxs : isspace x = false := hlast x hx2
      have hmem : x ∈ core.drop i ++ ws2 :=
        List.mem_append_left _ (List.mem_of_getLast?_eq_some hx)
      rw [← List.append_assoc]
      exact close_fails _ x hmem hxs _
    · refine star_greedy_exists isspace ws2 _ _ _ hws2 (by simp; decide) ?_
      simp only [decide_True, if_true]
      rw [star_greedy_stop isspace [] _ (by simp)]
      refine ⟨_, rfl, ?_, ?_⟩
      · simp only [Captures.str, Function.update]
        simp only [List.length_cons, List.length_append, List.length_nil]
        rw [show ∀ k A : Nat, k + (A + 1) + 1 - (A + 1) = k + 1 from fun k A => by omega]
        exact @List.take_left' _ (n0 :: ns) _ _ rfl
      · simp [Captures.str, Function.update]

theorem star_greedy_exists_nil {α : Type} (p : Char → Bool) (xs : Str) (k : Str → Option α)
    (P : α → Prop) (hxs : ∀ c ∈ xs, p c = true)
    (h : ∃ v, k [] = some v ∧ P v) : ∃ v, star_greedy p xs k = some v ∧ P v := by
  have := star_greedy_exists p xs [] k P hxs (by simp) h
  simpa using this

theorem command_pattern_bare (name : Str) (hne : name ≠ [])
    (hname : ∀ c ∈ name, is_word c = true) :
    ∃ m, regex_match command_pattern name = some m ∧ m.str 1 = name ∧ m.str 3 = [] := by
  cases name with
  | nil => exact absurd rfl hne
  | cons n0 ns =>
    have hn0 : is_word n0 = true := hname n0 (List.mem_cons_self _ _)
    have hns : ∀ c ∈ ns, is_word c = true := fun c hc => hname c (List.mem_cons_of_mem _ hc)
    simp only [regex_match, command_pattern, Regex.run]
    rw [star_greedy_stop isspace _ _ (by
      intro c hc
      simp only [List.head?_cons, Option.mem_def, Option.some.injEq] at hc
      subst hc
      exact isspace_of_is_word _ hn0)]
    simp only [hn0, if_true]
    refine star_greedy_exists_nil is_word ns _ _ hns ?_
    rw [star_greedy_stop isspace [] _ (by simp)]
    simp only [Option.orElse]
    rw [star_greedy_stop isspace [] _ (by simp)]
    refine ⟨_, rfl, ?_, ?_⟩
    · simp [Captures.str, Function.update]
    · simp [Captures.str, Function.update]

theorem COMMAND_EVENTS_names (name : Str) (event : Event)
    (h : COMMAND_EVENTS.lookup name = some event) :
    name ≠ [] ∧ ∀ c ∈ name, is_word c = true := by
  have hall : ∀ p ∈ COMMAND_EVENTS, p.1 ≠ [] ∧ p.1.all is_word = true := by decide
  have hmem : (name, event) ∈ COMMAND_EVENTS := by
    have : ∀ (l : List (Str × Event)), l.lookup name = some event → (name, event) ∈ l := by
      intro l
      induction l with
      | nil => simp
      | cons p ps ih =>
        obtain ⟨k, v⟩ := p
        simp only [List.lookup]
        by_cases hk : name = k
        · subst hk
          simp
          intro h; simp [h]
        · have : (name == k) = false := by simpa using hk
          simp only [this]
          intro h
          exact List.mem_cons_of_mem _ (ih h)
    exact this _ h
  obtain ⟨h1, h2⟩ := hall _ hmem
  exact ⟨h1, by simpa using h2⟩

/-- What `execute` does with a call of an aliased command. -/
theorem execute_event_call (name a : Str) (event : Event) (rt : Runtime)
    (h : COMMAND_EVENTS.lookup name = some event) :
    Executor.execute (name ++ '(' :: (a ++ [')'])) rt =
      { rt with ear := rt.ear.queue_event event (Data.of (dequote (trim_spaces a))) } := by
  obtain ⟨hne, hw⟩ := COMMAND_EVENTS_names name event h
  obtain ⟨m, hm, h1, h3⟩ := command_pattern_call name a hne hw
  simp only [Executor.execute, hm, h1, h3, h]

/-- What `execute` does with a bare aliased command. -/
theorem execute_event_bare (name : Str) (event : Event) (rt : Runtime)
    (h : COMMAND_EVENTS.lookup name = some event) :
    Executor.execute name rt =
      { rt with ear := rt.ear.queue_event event (Data.of (dequote [])) } := by
  obtain ⟨hne, hw⟩ := COMMAND_EVENTS_names name event h
  obtain ⟨m, hm, h1, h3⟩ := command_pattern_bare name hne hw
  simp only [Executor.execute, hm, h1, h3, h]

/-- What `execute` does with a `postpone` call. -/
theorem execute_postpone (a : Str) (rt : Runtime) :
    Executor.execute ("postpone(".toList ++ a ++ [')']) rt =
      { rt with executor := { rt.executor with
          postpone_timer :=
            (assure_bounds (Convert.str_to_Seconds (dequote (trim_spaces a))) 0 10).1 } } := by
  obtain ⟨m, hm, h1, h3⟩ := command_pattern_call "postpone".toList a (by decide) (by decide)
  have e : "postpone(".toList ++ a ++ [')'] = "postpone".toList ++ '(' :: (a ++ [')']) := by
    simp
  have hl : COMMAND_EVENTS.lookup "postpone".toList = none := by decide
  simp only [Executor.execute, e, hm, h1, h3, hl]
  simp

/-! ## The splitter -/

theorem scan_separators_plain (xs rest : Str) (prev : Char) (i : Nat) (q p : Int)
    (hxs : ∀ c ∈ xs, is_plain c = true) :
    scan_separators prev (xs ++ rest) i q p =
      scan_separators (xs.getLast?.getD prev) rest (i + xs.length) q p := by
  induction xs generalizing prev i with
  | nil => simp
  | cons c cs ih =>
    have hc := hxs c (List.mem_cons_self _ _)
    simp only [is_plain, Bool.and_eq_true, decide_eq_true_eq, ne_eq, decide_not,
      Bool.not_eq_true', decide_eq_false_iff_not] at hc
    obtain ⟨⟨⟨h1, h2⟩, h3⟩, h4⟩ := hc
    have ih' := ih c (i + 1) (fun d hd => hxs d (List.mem_cons_of_mem _ hd))
    have hl : (c :: cs).getLast?.getD prev = cs.getLast?.getD c := by
      cases cs with
      | nil => simp
      | cons d ds =>
        rw [List.getLast?_cons_cons]
        cases hd : (d :: ds).getLast? with
        | none => simp at hd
        | some x => rfl
    have e : i + 1 + cs.length = i + (cs.length + 1) := by omega
    rw [hl, List.length_cons, ← e, ← ih']
    simp only [List.cons_append, scan_separators, h1, h2, h3, h4, false_and, if_false]
    split <;> rfl

theorem scan_separators_open (prev : Char) (rest : Str) (i : Nat) (p : Int) :
    scan_separators prev ('(' :: rest) i 0 p = scan_separators '(' rest (i + 1) 0 (p + 1) := by
  have hq : ¬ ('(' = QUOTE) := by decide
  rw [scan_separators]
  simp [hq]

theorem scan_separators_close (prev : Char) (rest : Str) (i : Nat) (p : Int) :
    scan_separators prev (')' :: rest) i 0 p = scan_separators ')' rest (i + 1) 0 (p - 1) := by
  have hq : ¬ (')' = QUOTE) := by decide
  rw [scan_separators]
  simp [hq]

theorem scan_separators_semicolon (prev : Char) (rest : Str) (i : Nat) :
    scan_separators prev (';' :: rest) i 0 0 = i :: scan_separators ';' rest (i + 1) 0 0 := by
  have hq : ¬ (';' = QUOTE) := by decide
  rw [scan_separators]
  simp [hq]

theorem scan_postpone_exit (s : Str) (hs : ∀ c ∈ s, is_plain c = true) :
    scan_separators (Char.ofNat 0) ("postpone(".toList ++ s ++ ");exit".toList) 0 0 0
      = [s.length + 10] := by
  have e1 : "postpone(".toList ++ s ++ ");exit".toList
      = "postpone".toList ++ ('(' :: (s ++ (')' :: ';' :: ("exit".toList ++ [])))) := by simp
  rw [e1, scan_separators_plain _ _ _ _ _ _ (by decide), scan_separators_open,
    scan_separators_plain _ _ _ _ _ _ hs, scan_separators_close]
  rw [show (0 : Int) + 1 - 1 = 0 by norm_num, scan_separators_semicolon,
    scan_separators_plain _ _ _ _ _ _ (by decide)]
  simp [scan_separators]
  omega

theorem split_postpone_exit (s : Str) (hs : ∀ c ∈ s, is_plain c = true) :
    split_commands ("postpone(".toList ++ s ++ ");exit".toList) 0
        (command_separator_indices ("postpone(".toList ++ s ++ ");exit".toList)) =
      ["postpone(".toList ++ s ++ [')'], "exit".toList] := by
  have hsep : command_separator_indices ("postpone(".toList ++ s ++ ");exit".toList)
      = [s.length + 10, s.length + 15] := by
    simp only [command_separator_indices, scan_postpone_exit s hs]
    simp
  rw [hsep]
  simp only [split_commands]
  have e1 : "postpone(".toList ++ s ++ ");exit".toList
      = ("postpone(".toList ++ s ++ [')']) ++ (';' :: "exit".toList) := by simp
  have l1 : ("postpone(".toList ++ s ++ [')']).length = s.length + 10 := by
    simp
  congr 1
  · rw [e1, List.drop_zero, Nat.sub_zero, ← l1, List.take_left]
  · congr 1
    have e2 : "postpone(".toList ++ s ++ ");exit".toList
        = ("postpone(".toList ++ s ++ ");".toList) ++ "exit".toList := by simp
    have l2 : ("postpone(".toList ++ s ++ ");".toList).length = s.length + 10 + 1 := by
      simp
    rw [e2, ← l2, List.drop_left]
    simp

/-! ## The executor loop -/

theorem trim_spaces_eq_self (s : Str) (h : ∀ c ∈ s, isspace c = false) : trim_spaces s = s := by
  have h1 : ∀ l : Str, (∀ c ∈ l, isspace c = false) → l.dropWhile isspace = l := by
    intro l hl
    cases l with
    | nil => rfl
    | cons c cs => simp [List.dropWhile, hl c (List.mem_cons_self _ _)]
  rw [trim_spaces, h1 s h, h1 s.reverse (fun c hc => h c (List.mem_reverse.mp hc)),
    List.reverse_reverse]

theorem dequote_eq_self (s : Str) (h : s.head? ≠ some QUOTE) : dequote s = s := by
  simp [dequote, h]

theorem is_decimal_char_facts (c : Char) (h : is_decimal_char c = true) :
    is_plain c = true ∧ isspace c = false ∧ c ≠ QUOTE := by
  simp only [is_decimal_char, isdigit, Bool.or_eq_true, Bool.and_eq_true,
    decide_eq_true_eq] at h
  rcases h with h | h
  · have h1 : c ≠ QUOTE := by rintro rfl; revert h; decide
    have h2 : c ≠ '(' := by rintro rfl; revert h; decide
    have h3 : c ≠ ')' := by rintro rfl; revert h; decide
    have h4 : c ≠ ';' := by rintro rfl; revert h; decide
    have h5 : c ≠ ' ' := by rintro rfl; revert h; decide
    refine ⟨by simp [is_plain, h1, h2, h3, h4], ?_, h1⟩
    simp [isspace, h5]; omega
  · subst h; decide

theorem update_idle (dt : Seconds) (rt : Runtime) (h : rt.executor.commands = []) :
    (Executor.update dt rt).ear = rt.ear ∧ (Executor.update dt rt).executor.commands = [] := by
  unfold Executor.update
  split <;> simp [h, Executor.update_loop]

theorem run_updates_idle (dts : List Seconds) (rt : Runtime)
    (h : rt.executor.commands = []) : (Executor.run_updates dts rt).ear = rt.ear := by
  induction dts generalizing rt with
  | nil => rfl
  | cons dt dts ih =>
    have := update_idle dt rt h
    simp only [Executor.run_updates, List.foldl_cons] at ih ⊢
    rw [ih _ this.2, this.1]

theorem execute_exit (rt : Runtime) :
    Executor.execute "exit".toList rt =
      { rt with ear := rt.ear.queue_event Event.FadeAndTerminate (Data.of (dequote [])) } :=
  execute_event_bare "exit".toList Event.FadeAndTerminate rt (by decide)

theorem queue_postpone_exit (s : Str) (ex : Executor)
    (hs : ∀ c ∈ s, is_decimal_char c = true) :
    (ex.queue_execution ("postpone(".toList ++ s ++ ");exit".toList) 0).commands =
      ex.commands ++ ["postpone(".toList ++ s ++ [')'], "exit".toList] ∧
    (ex.queue_execution ("postpone(".toList ++ s ++ ");exit".toList) 0).postpone_timer =
      ex.postpone_timer := by
  have hne : "postpone(".toList ++ s ++ ");exit".toList ≠ [] := by simp
  have hsplit := split_postpone_exit s (fun c hc => (is_decimal_char_facts c (hs c hc)).1)
  unfold Executor.queue_execution
  rw [if_neg hne]
  simp only [ne_eq, not_true_eq_false, if_false, hsplit, and_self]

theorem postpone_timer_value (s : Str) (hs : ∀ c ∈ s, is_decimal_char c = true)
    (hd0 : 0 < Convert.str_to_Seconds s) (hd10 : Convert.str_to_Seconds s ≤ 10) :
    (assure_bounds (Convert.str_to_Seconds (dequote (trim_spaces s))) 0 10).1 =
      Convert.str_to_Seconds s := by
  have h1 : trim_spaces s = s :=
    trim_spaces_eq_self s (fun c hc => (is_decimal_char_facts c (hs c hc)).2.1)
  have h2 : dequote s = s := by
    apply dequote_eq_self
    cases s with
    | nil => simp
    | cons c cs =>
      have := (is_decimal_char_facts c (hs c (List.mem_cons_self _ _))).2.2
      simpa using this
  rw [h1, h2, assure_bounds, if_neg (not_lt.mpr (le_of_lt hd0)), if_neg (not_lt.mpr hd10)]

theorem postpone_exit_first_update (s : Str) (dt1 : Seconds) (rt0 : Runtime)
    (hs : ∀ c ∈ s, is_decimal_char c = true)
    (hd0 : 0 < Convert.str_to_Seconds s) (hd10 : Convert.str_to_Seconds s ≤ 10)
    (hidle : rt0.executor.commands = []) (htimer : rt0.executor.postpone_timer ≤ 0) :
    Executor.update dt1 { rt0 with executor :=
        rt0.executor.queue_execution ("postpone(".toList ++ s ++ ");exit".toList) 0 } =
      { rt0 with executor :=
          { commands := ["exit".toList], postpone_timer := Convert.str_to_Seconds s } } := by
  obtain ⟨hq1, hq2⟩ := queue_postpone_exit s rt0.executor hs
  rw [hidle, List.nil_append] at hq1
  have hval := postpone_timer_value s hs hd0 hd10
  have hnot : ¬ (Convert.str_to_Seconds s ≤ 0) := not_le.mpr hd0
  have hnot0 : ¬ (0 < rt0.executor.postpone_timer) := not_lt.mpr htimer
  unfold Executor.update
  simp only [gt_iff_lt, hq2, hnot0, if_false, hq1, List.length_cons, List.length_nil]
  rw [Executor.update_loop]
  simp only [hq1, hq2, htimer, if_true, execute_postpone, hval]
  rw [Executor.update_loop]
  simp only [hnot, if_false]

theorem update_loop_events (cs : List Command) (rt : Runtime) (n : Nat)
    (hall : ∀ c ∈ cs, (COMMAND_EVENTS.lookup c.name).isSome = true)
    (hq : rt.executor.commands = cs.map Command.text)
    (ht : rt.executor.postpone_timer ≤ 0) (hn : cs.length ≤ n) :
    Executor.update_loop n rt =
      { rt with
        executor := { rt.executor with commands := [] }
        ear := { rt.ear with
          queued_events := rt.ear.queued_events ++ cs.filterMap Command.event } } := by
  induction cs generalizing rt n with
  | nil =>
    obtain ⟨⟨commands, timer⟩, ⟨obs, q⟩, rl⟩ := rt
    simp only [List.map_nil] at hq
    subst hq
    cases n with
    | zero => simp [Executor.update_loop]
    | succ n => simp [Executor.update_loop]
  | cons c cs ih =>
    cases n with
    | zero => simp at hn
    | succ n =>
      obtain ⟨event, hev⟩ := Option.isSome_iff_exists.mp (hall c (List.mem_cons_self _ _))
      have hall' : ∀ d ∈ cs, (COMMAND_EVENTS.lookup d.name).isSome = true :=
        fun d hd => hall d (List.mem_cons_of_mem _ hd)
      have hexec : ∀ r : Runtime, Executor.execute c.text r =
          { r with ear :=
              r.ear.queue_event event (Data.of (dequote (trim_spaces (c.args.getD [])))) } := by
        intro r
        obtain ⟨name, args⟩ := c
        cases args with
        | none => exact execute_event_bare name event r hev
        | some a => exact execute_event_call name a event r hev
      have hce : Command.event c =
          some (event, Data.of (dequote (trim_spaces (c.args.getD [])))) := by
        simp [Command.event, hev]
      rw [Executor.update_loop]
      simp only [hq, List.map_cons, ht, if_true, hexec]
      rw [ih _ n hall' (by simp) (by simpa using ht) (by simpa using hn)]
      simp [EARManager.queue_event, hce]

/-! ## Claims about the executor -/

/-- C1, at the failing input `message("a(");zoom_in(1)`: the closing quote follows a `(`, so
the splitter counts it as an opening quote, the `;` stays inside the quoted span and the
whole sequence is queued as one command; executing it queues a single `DisplayMessage`
event whose payload is everything up to the last `)`. -/
theorem queue_execution_quoted_argument_ending_in_parenthesis :
    (({} : Executor).queue_execution "message(\"a(\");zoom_in(1)".toList 0).commands =
        ["message(\"a(\");zoom_in(1)".toList] ∧
      (Executor.execute "message(\"a(\");zoom_in(1)".toList {}).ear.queued_events =
        [(Event.DisplayMessage, Data.of "\"a(\");zoom_in(1".toList)] := by
  constructor
  · decide
  · decide

/-- C3, counterexample: for the command `message( "hi" )`, queued with `queue_execution`,
the argument text between the parentheses is ` "hi" `, which does not start and end with a
quote, but the payload of the queued event is `hi`: the pattern drops the surrounding
whitespace first.  And of the two aliased commands `message("a(")` and `zoom_in(1)`, queued
as `message("a(");zoom_in(1)`, the splitter makes one command, and one event is queued. -/
theorem payload_whitespace_counterexample :
    (dequote " \"hi\" ".toList = " \"hi\" ".toList ∧
      (Executor.update 1
        { executor := (({} : Executor).queue_execution "message( \"hi\" )".toList
          0) }).ear.queued_events =
        [(Event.DisplayMessage, Data.of "hi".toList)] ∧
      Data.of "hi".toList ≠ Data.of (dequote " \"hi\" ".toList)) ∧
    ((∀ c ∈ [Command.mk "message".toList (some "\"a(\"".toList),
          Command.mk "zoom_in".toList (some "1".toList)],
        (COMMAND_EVENTS.lookup c.name).isSome = true) ∧
      join_commands ([Command.mk "message".toList (some "\"a(\"".toList),
          Command.mk "zoom_in".toList (some "1".toList)].map Command.text) =
        "message(\"a(\");zoom_in(1)".toList ∧
      (Executor.update 1
        { executor := (({} : Executor).queue_execution "message(\"a(\");zoom_in(1)".toList
          0) }).ear.queued_events.length = 1) := by
  refine ⟨⟨by decide, by decide!, by decide⟩, by decide, by decide, by decide!⟩

theorem update_translates_queue (cs : List Command) (rt : Runtime) (dt : Seconds)
    (hall : ∀ c ∈ cs, (COMMAND_EVENTS.lookup c.name).isSome = true)
    (hq : rt.executor.commands = cs.map Command.text)
    (ht : rt.executor.postpone_timer ≤ 0) :
    (Executor.update dt rt).ear.queued_events =
        rt.ear.queued_events ++ cs.filterMap Command.event ∧
      (cs.filterMap Command.event).length = cs.length ∧
      (Executor.update dt rt).executor.commands = [] ∧
      (Executor.update dt rt).executor.postpone_timer = rt.executor.postpone_timer := by
  have hnot : ¬ (0 < rt.executor.postpone_timer) := not_lt.mpr ht
  have hloop := update_loop_events cs rt rt.executor.commands.length hall hq ht
    (by simp [hq])
  have hlen : (cs.filterMap Command.event).length = cs.length := by
    clear hq hloop
    induction cs with
    | nil => rfl
    | cons c cs ih =>
      obtain ⟨event, hev⟩ := Option.isSome_iff_exists.mp (hall c (List.mem_cons_self _ _))
      have hce : Command.event c =
          some (event, Data.of (dequote (trim_spaces (c.args.getD [])))) := by
        simp [Command.event, hev]
      simp [List.filterMap_cons, hce, ih (fun d hd => hall d (List.mem_cons_of_mem _ hd))]
  unfold Executor.update
  simp only [gt_iff_lt, hnot, if_false, hloop, hlen, and_self]

/-! ## Claims about the event bus -/

theorem notify_quiet (obs : List Observer) (i : Nat) (event : Event) (data : Data)
    (q : List (Event × Data)) (hquiet : ∀ o ∈ obs, ∀ e d, o.on_event e d = []) :
    EARManager.notify obs i event data q =
      (q, (List.range' i obs.length).map (fun j => (j, event, data))) := by
  induction obs generalizing i q with
  | nil => rfl
  | cons o os ih =>
    have h0 := hquiet o (List.mem_cons_self _ _) event data
    have ih' := ih (i + 1) q (fun p hp => hquiet p (List.mem_cons_of_mem _ hp))
    simp [EARManager.notify, h0, ih', List.range'_succ]

/-- C4: when no handler queues an event (the observer set being fixed), one call of
`dispatch_queued_events` with enough iterations for the queue returns, leaves the queue
empty and has called `on_event` for `e1, ..., en` in queue order, each event with its own
payload once for every observer in iteration order. -/
theorem dispatch_queued_events_fifo (m : EARManager) (fuel : Nat)
    (hquiet : ∀ o ∈ m.observers, ∀ e d, o.on_event e d = [])
    (hfuel : m.queued_events.length ≤ fuel) :
    m.dispatch_queued_events fuel =
      some ({ m with queued_events := [] },
        (m.queued_events.map (deliveries_of m.observers.length)).flatten) := by
  obtain ⟨obs, q⟩ := m
  simp only at hquiet hfuel ⊢
  induction q generalizing fuel with
  | nil =>
    cases fuel <;> simp [EARManager.dispatch_queued_events]
  | cons ed q ih =>
    obtain ⟨e, d⟩ := ed
    cases fuel with
    | zero => simp at hfuel
    | succ fuel =>
      have hn := notify_quiet obs 0 e d q hquiet
      rw [EARManager.dispatch_queued_events]
      simp only [EARManager.dispatch_event, hn]
      rw [ih fuel (by simpa using hfuel)]
      simp [deliveries_of, List.range_eq_range']

/-- C4, witness: two observers and the queue `Hide "a"`, `Reveal "b"`. -/
theorem dispatch_queued_events_fifo_witness :
    (EARManager.dispatch_queued_events 2
        ((({ observers := [⟨fun _ _ => [], fun _ => []⟩, ⟨fun _ _ => [], fun _ => []⟩] }
          : EARManager).queue_event Event.Hide (Data.of "a".toList)).queue_event
            Event.Reveal (Data.of "b".toList))).map (fun r => (r.1.queued_events, r.2)) =
      some ([], [(0, Event.Hide, Data.of "a".toList), (1, Event.Hide, Data.of "a".toList),
        (0, Event.Reveal, Data.of "b".toList), (1, Event.Reveal, Data.of "b".toList)]) := by
  rw [dispatch_queued_events_fifo _ 2 (by
    intro o ho e d
    simp only [EARManager.queue_event, List.mem_cons, List.mem_singleton,
      List.not_mem_nil, or_false] at ho
    rcases ho with rfl | rfl <;> rfl) (by decide)]
  decide

/-- C5: on an unset instance `set(v)` stores the string form of `v` and makes
`has_been_set()` true; once a value `v` is stored (by `set` or by the constructor) a further
`set(w)` leaves the string form of `v` in place and `has_been_set()` true. -/
theorem Data_set_write_once {T U : Type} [Convert.ToStr T] [Convert.ToStr U]
    (d : Data) (v : T) (w : U) (h : d.data_set = false) :
    (d.set v).data = Convert.to_str v ∧ (d.set v).has_been_set = true ∧
      ((d.set v).set w).data = Convert.to_str v ∧ ((d.set v).set w).has_been_set = true ∧
      ((Data.of v).set w).data = Convert.to_str v ∧ ((Data.of v).set w).has_been_set = true := by
  simp [Data.set, Data.of, Data.has_been_set, h]

/-- C5, witness: a default-constructed `Data`, `set(5)`, then `set("x")`. -/
theorem Data_set_write_once_witness :
    ({} : Data).data_set = false ∧
      ((({} : Data).set (5 : Int)).set "x".toList).data = "5".toList ∧
      ((({} : Data).set (5 : Int)).set "x".toList).has_been_set = true :=
  ⟨rfl, by
    have h := Data_set_write_once ({} : Data) (5 : Int) "x".toList rfl
    exact ⟨h.2.2.1.trans (by decide), h.2.2.2.1⟩⟩

/-! ## Number formatting and parsing -/

theorem digit_char_facts (k : Nat) (hk : k < 10) :
    isdigit (digit_char k) = true ∧ digit_val (digit_char k) = k ∧
      isspace (digit_char k) = false ∧ digit_char k ≠ '-' ∧ digit_char k ≠ '+' := by
  interval_cases k <;> decide

theorem nat_digits_all_digit (fuel n : Nat) : ∀ c ∈ nat_digits fuel n, isdigit c = true := by
  induction fuel generalizing n with
  | zero => simp [nat_digits]
  | succ fuel ih =>
    intro c hc
    rw [nat_digits] at hc
    split at hc
    · rename_i h
      simp only [List.mem_singleton] at hc
      subst hc
      exact (digit_char_facts n h).1
    · rcases List.mem_append.mp hc with h | h
      · exact ih _ c h
      · simp only [List.mem_singleton] at h
        subst h
        exact (digit_char_facts _ (Nat.mod_lt _ (by norm_num))).1

theorem nat_digits_ne_nil (fuel n : Nat) : nat_digits (fuel + 1) n ≠ [] := by
  rw [nat_digits]
  split <;> simp

theorem parse_nat_append (a : Str) (c : Char) :
    parse_nat (a ++ [c]) = 10 * parse_nat a + digit_val c := by
  simp [parse_nat, List.foldl_append]

theorem parse_nat_digits (fuel n : Nat) (h : n < fuel) : parse_nat (nat_digits fuel n) = n := by
  induction fuel generalizing n with
  | zero => omega
  | succ fuel ih =>
    rw [nat_digits]
    split
    · rename_i hn
      simp [parse_nat, (digit_char_facts n hn).2.1]
    · rename_i hn
      rw [parse_nat_append, ih (n / 10) (by omega),
        (digit_char_facts _ (Nat.mod_lt _ (by norm_num))).2.1]
      omega

theorem head_nat_to_str (n : Nat) :
    ∃ c cs, nat_to_str n = c :: cs ∧ isdigit c = true := by
  have hne := nat_digits_ne_nil n n
  cases h : nat_to_str n with
  | nil => exact absurd h hne
  | cons c cs =>
    refine ⟨c, cs, rfl, ?_⟩
    apply nat_digits_all_digit (n + 1) n
    rw [nat_to_str] at h
    rw [h]
    exact List.mem_cons_self _ _

theorem isdigit_facts (c : Char) (h : isdigit c = true) :
    isspace c = false ∧ c ≠ '-' ∧ c ≠ '+' := by
  simp only [isdigit, Bool.and_eq_true, decide_eq_true_eq] at h
  have h1 : c ≠ ' ' := by rintro rfl; revert h; decide
  have h2 : c ≠ '-' := by rintro rfl; revert h; decide
  have h3 : c ≠ '+' := by rintro rfl; revert h; decide
  refine ⟨?_, h2, h3⟩
  simp [isspace, h1]; omega

theorem take_sign_digit (c : Char) (cs : Str) (h : isdigit c = true) :
    take_sign (c :: cs) = (false, c :: cs) := by
  obtain ⟨_, h2, h3⟩ := isdigit_facts c h
  unfold take_sign
  split
  · rename_i heq; simp at heq; exact absurd heq.1 h2
  · rename_i heq; simp at heq; exact absurd heq.1 h3
  · rfl

theorem takeWhile_all (p : Char → Bool) (l : Str) (h : ∀ c ∈ l, p c = true) :
    l.takeWhile p = l := by
  induction l with
  | nil => rfl
  | cons c cs ih =>
    simp [List.takeWhile, h c (List.mem_cons_self _ _),
      ih (fun d hd => h d (List.mem_cons_of_mem _ hd))]

theorem str_to_int_to_str (x : Int) (hlo : INT_MIN ≤ x) (hhi : x ≤ INT_MAX) :
    Convert.str_to_int (Convert.to_str x) = x := by
  obtain ⟨c, cs, hcs, hc⟩ := head_nat_to_str x.natAbs
  have hall : ∀ d ∈ c :: cs, isdigit d = true := by
    rw [← hcs]; exact nat_digits_all_digit _ _
  have hparse : parse_nat (c :: cs) = x.natAbs := by
    rw [← hcs]; exact parse_nat_digits _ _ (Nat.lt_succ_self _)
  have hsp : isspace c = false := (isdigit_facts c hc).1
  have hminus : isspace '-' = false := by decide
  by_cases hx : x < 0
  · have hts : Convert.to_str x = '-' :: c :: cs := by
      simp [Convert.to_str, hx, hcs]
    have habs : (x.natAbs : Int) = -x := by omega
    simp only [Convert.str_to_int, hts, List.dropWhile, hminus, take_sign,
      takeWhile_all isdigit _ hall, hparse, habs]
    simp only [reduceCtorEq, if_false, if_true, neg_neg]
    rw [if_neg (by omega), if_neg (by omega)]
  · have hts : Convert.to_str x = c :: cs := by
      simp [Convert.to_str, hx, hcs]
    have habs : (x.natAbs : Int) = x := by omega
    simp only [Convert.str_to_int, hts, List.dropWhile, hsp, take_sign_digit c cs hc,
      takeWhile_all isdigit _ hall, hparse, habs]
    simp only [reduceCtorEq, if_false, Bool.false_eq_true]
    rw [if_neg (by omega), if_neg (by omega)]

/-- C6: `Data(x).as<int>() == x` for every `int` `x`, `Data(b).as<bool>() == b` for every
`bool` `b` and `Data(s).as<std::string>() == s` for every string `s`. -/
theorem Data_round_trip (x : Int) (b : Bool) (s : Str)
    (hlo : INT_MIN ≤ x) (hhi : x ≤ INT_MAX) :
    (Data.of x).as_int = x ∧ (Data.of b).as_bool = b ∧ (Data.of s).as_string = s := by
  refine ⟨?_, ?_, ?_⟩
  · simpa [Data.of, Data.set, Data.as_int] using str_to_int_to_str x hlo hhi
  · cases b <;> decide
  · simp [Data.of, Data.set, Data.as_string, Convert.to_str]

/-- C6, witness: `-120`, `true` and a string with spaces. -/
theorem Data_round_trip_witness :
    INT_MIN ≤ -120 ∧ (-120 : Int) ≤ INT_MAX ∧
      (Data.of (-120 : Int)).as_int = -120 ∧ (Data.of true).as_bool = true ∧
      (Data.of "a b  c".toList).as_string = "a b  c".toList :=
  ⟨by decide, by decide, Data_round_trip (-120) true "a b  c".toList (by decide) (by decide)⟩

theorem foldl_set_of_set (vs : List Str) (d : Data) (h : d.data_set = true) :
    vs.foldl (fun d v => d.set v) d = d := by
  induction vs with
  | nil => rfl
  | cons v vs ih =>
    have hv : d.set v = d := by simp [Data.set, h]
    rw [List.foldl_cons, hv, ih]

theorem request_loop_silent (obs : List Observer) (n : Nat) (request : Request)
    (hsilent : ∀ o ∈ obs, o.on_request request = []) :
    EARManager.request_loop obs n request {} = ({}, n + obs.length) := by
  induction obs generalizing n with
  | nil => rfl
  | cons o os ih =>
    have h0 := hsilent o (List.mem_cons_self _ _)
    rw [EARManager.request_loop]
    simp only [h0, List.foldl_nil, Data.has_been_set]
    rw [if_neg (by decide), ih (n + 1) (fun p hp => hsilent p (List.mem_cons_of_mem _ hp))]
    simp only [List.length_cons]
    congr 1
    omega

/-- C7: `request` always returns: if no observer calls `Data::set` in `on_request` the
returned `Data` is unset (every observer having been consulted); otherwise it is set and
holds the first value written by the first observer in iteration order that answered, and
the observers after that one are not consulted. -/
theorem request_first_answer (m : EARManager) (request : Request) :
    ((∀ o ∈ m.observers, o.on_request request = []) →
        (m.request request).1.has_been_set = false ∧
          (m.request request).2 = m.observers.length) ∧
      (∀ (pre post : List Observer) (o : Observer) (v : Str) (vs : List Str),
        m.observers = pre ++ o :: post → (∀ p ∈ pre, p.on_request request = []) →
        o.on_request request = v :: vs →
        (m.request request).1.has_been_set = true ∧ (m.request request).1.as_string = v ∧
          (m.request request).2 = pre.length + 1) := by
  constructor
  · intro hsilent
    simp [EARManager.request, request_loop_silent _ 0 request hsilent, Data.has_been_set]
  · intro pre post o v vs hobs hpre ho
    have hgen : ∀ n, EARManager.request_loop (pre ++ o :: post) n request {} =
        ({ data := v, data_set := true }, n + pre.length + 1) := by
      clear hobs
      induction pre with
      | nil =>
        intro n
        have hset : (({} : Data).set v).data_set = true := by simp [Data.set]
        have hval : ({} : Data).set v = { data := v, data_set := true } := by
          simp [Data.set, Convert.to_str]
        have hfold : vs.foldl (fun (d : Data) (v : Str) => d.set v)
            ({ data := v, data_set := true } : Data) =
            ({ data := v, data_set := true } : Data) := foldl_set_of_set vs _ rfl
        simp only [List.nil_append, EARManager.request_loop, ho, List.foldl_cons, hval,
          hfold, Data.has_been_set, if_true, List.length_nil, Nat.add_zero]
      | cons p ps ih =>
        intro n
        have h0 := hpre p (List.mem_cons_self _ _)
        rw [List.cons_append, EARManager.request_loop]
        simp only [h0, List.foldl_nil, Data.has_been_set]
        rw [if_neg (by decide), ih (fun q hq => hpre q (List.mem_cons_of_mem _ hq)) (n + 1)]
        simp only [List.length_cons]
        congr 1
        omega
    simp [EARManager.request, hobs, hgen 0, Data.has_been_set, Data.as_string]

/-- C7, witness: no observer at all, and a silent observer followed by two that answer. -/
theorem request_first_answer_witness :
    (({} : EARManager).request Request.UserList).1.has_been_set = false ∧
      ((({ observers := [⟨fun _ _ => [], fun _ => []⟩,
          ⟨fun _ _ => [], fun _ => ["a".toList, "b".toList]⟩,
          ⟨fun _ _ => [], fun _ => ["c".toList]⟩] } : EARManager).request
            Request.UserList).1.as_string = "a".toList ∧
        (({ observers := [⟨fun _ _ => [], fun _ => []⟩,
          ⟨fun _ _ => [], fun _ => ["a".toList, "b".toList]⟩,
          ⟨fun _ _ => [], fun _ => ["c".toList]⟩] } : EARManager).request
            Request.UserList).2 = 2) :=
  ⟨((request_first_answer {} Request.UserList).1 (by simp)).1,
    have h := (request_first_answer
      { observers := [⟨fun _ _ => [], fun _ => []⟩,
          ⟨fun _ _ => [], fun _ => ["a".toList, "b".toList]⟩,
          ⟨fun _ _ => [], fun _ => ["c".toList]⟩] } Request.UserList).2
      [⟨fun _ _ => [], fun _ => []⟩] [⟨fun _ _ => [], fun _ => ["c".toList]⟩]
      ⟨fun _ _ => [], fun _ => ["a".toList, "b".toList]⟩ "a".toList ["b".toList] rfl
      (by simp) rfl
    ⟨h.2.1, h.2.2⟩⟩

/-! ## Claims about objectives -/

theorem advance_n_below (t k : Nat) (cs : Str) (rt : Runtime) (hk : k < t) :
    Objective.advance_n k ({ progress := 0, target := t, command_sequence := cs }, rt) =
      ({ progress := k, target := t, command_sequence := cs }, rt) := by
  induction k with
  | zero => rfl
  | succ k ih =>
    rw [Objective.advance_n, ih (by omega)]
    simp only [Objective.advance]
    have h1 : ¬ ((k : Int) ≥ (t : Int)) := by omega
    have h2 : ¬ ((k : Int) + 1 = (t : Int)) := by omega
    simp [h1, h2]

/-- C8: an `Objective` with target `t ≥ 1` and progress `0` leaves the executor alone during
the first `t - 1` calls of `advance`, passes its command sequence to `queue_execution`
during the `t`-th call, and the `(t + 1)`-th call changes neither the progress counter nor
the executor. -/
theorem objective_fires_once (t : Nat) (cs : Str) (rt : Runtime) (ht : 1 ≤ t) :
    (∀ k, k < t →
        Objective.advance_n k ({ progress := 0, target := t, command_sequence := cs }, rt) =
          ({ progress := k, target := t, command_sequence := cs }, rt)) ∧
      Objective.advance_n t ({ progress := 0, target := t, command_sequence := cs }, rt) =
        ({ progress := t, target := t, command_sequence := cs },
          { rt with executor := rt.executor.queue_execution cs 0 }) ∧
      Objective.advance_n (t + 1)
          ({ progress := 0, target := t, command_sequence := cs }, rt) =
        Objective.advance_n t ({ progress := 0, target := t, command_sequence := cs }, rt) := by
  have hbelow := fun k hk => advance_n_below t k cs rt hk
  have ht' : Objective.advance_n t
      ({ progress := 0, target := t, command_sequence := cs }, rt) =
      ({ progress := t, target := t, command_sequence := cs },
        { rt with executor := rt.executor.queue_execution cs 0 }) := by
    obtain ⟨k, rfl⟩ : ∃ k, t = k + 1 := ⟨t - 1, by omega⟩
    rw [Objective.advance_n, hbelow k (by omega)]
    simp only [Objective.advance]
    rw [if_neg (by simp)]
    simp
  refine ⟨hbelow, ht', ?_⟩
  rw [Objective.advance_n, ht']
  simp [Objective.advance]

/-- C8, witness: target `1`, two calls, bound command `exit`. -/
theorem objective_fires_once_witness :
    (Objective.advance_n 1
        ({ progress := 0, target := 1, command_sequence := "exit".toList }, {})).2.executor.commands
        = ["exit".toList] ∧
      Objective.advance_n 2
          ({ progress := 0, target := 1, command_sequence := "exit".toList }, {}) =
        Objective.advance_n 1
          ({ progress := 0, target := 1, command_sequence := "exit".toList }, {}) :=
  ⟨by
      have h := (objective_fires_once 1 "exit".toList {} (le_refl 1)).2.1
      simp only [Nat.cast_one] at h
      rw [h]
      decide,
    by
      have h := (objective_fires_once 1 "exit".toList {} (le_refl 1)).2.2
      simpa using h⟩

/-! ## Ordered maps -/

theorem OrderedMap.find_cons {α : Type} (k key : ID) (v : α) (m : OrderedMap α) :
    OrderedMap.find ((k, v) :: m) key = if key = k then some v else OrderedMap.find m key := by
  unfold OrderedMap.find
  by_cases h : key = k
  · subst h; simp [List.lookup]
  · have : (key == k) = false := by simpa using h
    simp [List.lookup, this, h]

theorem OrderedMap.contains_of_find {α : Type} (m : OrderedMap α) (key : ID) (v : α)
    (h : m.find key = some v) : m.contains key = true := by
  induction m with
  | nil => simp [OrderedMap.find] at h
  | cons p ps ih =>
    obtain ⟨k, w⟩ := p
    rw [OrderedMap.find_cons] at h
    by_cases hk : key = k
    · simp [OrderedMap.contains, hk]
    · rw [if_neg hk] at h
      have := ih h
      simp only [OrderedMap.contains, List.any_cons, Bool.or_eq_true] at this ⊢
      exact Or.inr this

theorem OrderedMap.find_modify_self {α : Type} (m : OrderedMap α) (key : ID) (f : α → α) :
    (m.modify key f).find key = (m.find key).map f := by
  induction m with
  | nil => rfl
  | cons p ps ih =>
    obtain ⟨k, w⟩ := p
    by_cases hk : key = k
    · subst hk
      simp [OrderedMap.modify, OrderedMap.find_cons]
    · have hk' : ¬ k = key := fun h => hk h.symm
      have e : OrderedMap.modify ((k, w) :: ps) key f = (k, w) :: OrderedMap.modify ps key f := by
        simp [OrderedMap.modify, hk']
      rw [e, OrderedMap.find_cons, OrderedMap.find_cons, if_neg hk, if_neg hk, ih]

theorem OrderedMap.getLast?_modify {α : Type} (m : OrderedMap α) (key : ID) (f : α → α) :
    (m.modify key f).getLast? =
      m.getLast?.map (fun p => if p.1 = key then (p.1, f p.2) else p) := by
  simp [OrderedMap.modify, List.getLast?_map]

theorem OrderedMap.getLast?_modify_key {α : Type} (m : OrderedMap α) (key : ID) (f : α → α)
    (v : α) (h : m.getLast? = some (key, v)) :
    (m.modify key f).getLast? = some (key, f v) := by
  rw [OrderedMap.getLast?_modify, h]
  simp

theorem OrderedMap.getLast?_modify_other {α : Type} (m : OrderedMap α) (key other : ID)
    (f : α → α) (v : α) (h : m.getLast? = some (key, v)) (hne : key ≠ other) :
    (m.modify other f).getLast? = some (key, v) := by
  rw [OrderedMap.getLast?_modify, h]
  simp [hne]

theorem OrderedMap.find_of_getLast? {α : Type} (m : OrderedMap α) (key : ID) (v : α)
    (hnodup : (m.map Prod.fst).Nodup) (h : m.getLast? = some (key, v)) :
    m.find key = some v := by
  induction m with
  | nil => simp at h
  | cons p ps ih =>
    obtain ⟨k, w⟩ := p
    rw [OrderedMap.find_cons]
    cases ps with
    | nil =>
      simp only [List.getLast?_singleton, Option.some.injEq, Prod.mk.injEq] at h
      simp [h.1, h.2]
    | cons q qs =>
      rw [List.getLast?_cons_cons] at h
      rw [List.map_cons] at hnodup
      obtain ⟨hnot, hrest⟩ := List.nodup_cons.mp hnodup
      have hmem : key ∈ (q :: qs).map Prod.fst := by
        have := List.mem_of_getLast?_eq_some h
        exact List.mem_map.mpr ⟨(key, v), this, rfl⟩
      have hk : key ≠ k := by
        rintro rfl
        exact hnot hmem
      rw [if_neg hk]
      exact ih hrest h

theorem OrderedMap.contains_erase {α : Type} (m : OrderedMap α) (key : ID) :
    (m.erase key).contains key = false := by
  simp [OrderedMap.erase, OrderedMap.contains]

theorem OrderedMap.back_key_of_getLast? {α : Type} (m : OrderedMap α) (key : ID) (v : α)
    (h : m.getLast? = some (key, v)) : m.back_key = some key := by
  simp [OrderedMap.back_key, h]

/-! ## Claims about the scene graph -/

theorem set_topmost_object_spec (lp : LevelPlayer) (a : ID) (o : Object)
    (hne : a ≠ []) (hnodup : (lp.objects.map Prod.fst).Nodup)
    (hfind : lp.objects.find a = some o) :
    (lp.set_topmost_object (some a)).objects.getLast? = some (a, o) ∧
      (lp.set_topmost_object (some a)).active_object = lp.active_object := by
  have hcont := OrderedMap.contains_of_find _ _ _ hfind
  have hnonempty : lp.objects.isEmpty = false := by
    cases h : lp.objects with
    | nil => rw [h] at hfind; simp [OrderedMap.find] at hfind
    | cons p ps => rfl
  unfold LevelPlayer.set_topmost_object
  by_cases hback : lp.objects.back_key = some a
  · simp only [hback, ne_eq, not_true_eq_false, and_false, if_false, and_true]
    cases hl : lp.objects.getLast? with
    | none => simp [OrderedMap.back_key, hl] at hback
    | some p =>
      obtain ⟨k, x⟩ := p
      have hk : k = a := by simpa [OrderedMap.back_key, hl] using hback
      subst hk
      have := OrderedMap.find_of_getLast? _ _ _ hnodup hl
      rw [hfind] at this
      simp only [Option.some.injEq] at this
      rw [this]
  · simp only [hnonempty, ne_eq, hback, not_false_eq_true, and_self, if_true,
      LevelPlayer.get_object_id, hcont, hne, if_false, hfind, Bool.not_false]
    simp [OrderedMap.emplace, OrderedMap.contains_erase]

theorem set_topmost_object_of_back (lp : LevelPlayer) (a : ID)
    (h : lp.objects.back_key = some a) : lp.set_topmost_object (some a) = lp := by
  simp [LevelPlayer.set_topmost_object, h]

theorem set_active_object_last (lp : LevelPlayer) (a : ID) (s : Sheet)
    (hlast : lp.objects.getLast? = some (a, .Sheet s)) :
    ∃ s1, (lp.set_active_object (some a)).objects.getLast? = some (a, .Sheet s1) ∧
      s1.elements = s.elements ∧ s1.entity.visible = s.entity.visible := by
  have hback := OrderedMap.back_key_of_getLast? _ _ _ hlast
  unfold LevelPlayer.set_active_object
  simp only [set_topmost_object_of_back lp a hback]
  by_cases hact : some a = lp.active_object
  · rw [if_pos hact]
    exact ⟨s, hlast, rfl, rfl⟩
  · rw [if_neg hact]
    have hstep : ∀ lp2 : LevelPlayer, lp2.objects.getLast? = some (a, .Sheet s) →
        ∃ s1, (OrderedMap.modify lp2.objects a (fun o => o.set_active true)).getLast? =
            some (a, .Sheet s1) ∧
          s1.elements = s.elements ∧ s1.entity.visible = s.entity.visible := by
      intro lp2 h2
      refine ⟨s.set_active true, ?_, ?_, ?_⟩
      · rw [OrderedMap.getLast?_modify_key _ _ _ _ h2]
        rfl
      · unfold Sheet.set_active
        split <;> simp
      · unfold Sheet.set_active
        split <;> simp
    cases hold : lp.active_object with
    | none => exact hstep _ hlast
    | some old =>
      have hne : a ≠ old := by
        rintro rfl
        exact hact hold.symm
      exact hstep
        { lp with
          objects := lp.objects.modify old (fun o => o.set_active false)
          previous_object := some old }
        (OrderedMap.getLast?_modify_other lp.objects a old (fun o => o.set_active false) _
          hlast hne)

theorem str_find_from_delim (a b : Str) (i : Nat) (h : ∀ c ∈ a, c ≠ ':') :
    str_find_from ID_TREE_DELIM (a ++ ID_TREE_DELIM ++ b) i = some (i + a.length) := by
  induction a generalizing i with
  | nil => simp [str_find_from, ID_TREE_DELIM, List.isPrefixOf]
  | cons c cs ih =>
    have hc : c ≠ ':' := h c (List.mem_cons_self _ _)
    have hc' : (':' == c) = false := by
      simp only [beq_eq_false_iff_ne, ne_eq]
      exact fun e => hc e.symm
    have := ih (i + 1) (fun d hd => h d (List.mem_cons_of_mem _ hd))
    have e : i + (c :: cs).length = i + 1 + cs.length := by simp; omega
    rw [e, ← this]
    simp only [List.cons_append, str_find_from, ID_TREE_DELIM, String.toList,
      List.isPrefixOf, hc', Bool.false_and]
    rfl

/-- An object ID without a colon is split off an ID-tree as intended. -/
theorem str_split_id_tree (a b : Str) (h : ∀ c ∈ a, c ≠ ':') :
    str_split (a ++ ID_TREE_DELIM ++ b) ID_TREE_DELIM = (a, some b) := by
  have hf := str_find_from_delim a b 0 h
  simp only [str_split, str_find, hf, Nat.zero_add]
  have e : a ++ ID_TREE_DELIM ++ b = a ++ (ID_TREE_DELIM ++ b) := by simp
  rw [e, List.take_left, List.drop_append, List.drop_left]

theorem Sheet.reveal_spec (s : Sheet) (b : ID) (el : Element)
    (hB : s.elements.find b = some el) :
    (s.reveal b).entity.visible = s.entity.visible ∧
      ∃ el1, (s.reveal b).elements.find b = some el1 ∧ el1.entity.visible = true := by
  have hcont := OrderedMap.contains_of_find _ _ _ hB
  unfold Sheet.reveal Sheet.get_element
  simp only [hcont, if_true]
  refine ⟨rfl, ?_⟩
  simp only [Entity.set_idle, OrderedMap.find_modify_self, hB, Option.map_some']
  refine ⟨_, rfl, ?_⟩
  by_cases hv : el.entity.visible = true
  · simp [hv]
  · simp [hv, Element.set_visible]

/-- C9, amended: for an object map (keys unique) that contains a Sheet under a non-empty ID
`a` owning an element under the ID `b`, the address `a::b` splitting at its first delimiter
into `a` and `b` (as it does when `a` has no colon, `str_split_id_tree`): after
`LevelPlayer::reveal("a::b", move_camera)`, for both values of `move_camera`, the Sheet is
the last (topmost) entry of the object map, it is visible and the element is visible. -/
theorem reveal_promotes_and_shows (lp : LevelPlayer) (a b : ID) (sheet : Sheet) (el : Element)
    (move_camera : Bool) (hnodup : (lp.objects.map Prod.fst).Nodup) (ha : a ≠ [])
    (hsplit : str_split (a ++ ID_TREE_DELIM ++ b) ID_TREE_DELIM = (a, some b))
    (hA : lp.objects.find a = some (.Sheet sheet))
    (hB : sheet.elements.find b = some el) :
    ∃ sheet1 el1,
      (lp.reveal (a ++ ID_TREE_DELIM ++ b) move_camera).objects.getLast? =
          some (a, .Sheet sheet1) ∧
        sheet1.entity.visible = true ∧ sheet1.elements.find b = some el1 ∧
        el1.entity.visible = true := by
  have hcont := OrderedMap.contains_of_find _ _ _ hA
  obtain ⟨htop, _⟩ := set_topmost_object_spec lp a _ ha hnodup hA
  have h2 : ∃ s2, (if move_camera = true then
        ((lp.set_topmost_object (some a)).set_active_object (some a)).unclasp
      else lp.set_topmost_object (some a)).objects.getLast? = some (a, .Sheet s2) ∧
      s2.elements = sheet.elements := by
    cases move_camera with
    | false => exact ⟨sheet, htop, rfl⟩
    | true =>
      obtain ⟨s1, h1, he, _⟩ := set_active_object_last _ a sheet htop
      exact ⟨s1, h1, he⟩
  obtain ⟨s2, hl2, he2⟩ := h2
  unfold LevelPlayer.reveal
  simp only [hsplit, LevelPlayer.get_object, hcont, if_true]
  generalize (if move_camera = true then
        ((lp.set_topmost_object (some a)).set_active_object (some a)).unclasp
      else lp.set_topmost_object (some a)) = lp2 at hl2
  have hl3 := OrderedMap.getLast?_modify_key lp2.objects a
    (fun o => if (!o.is_visible) = true then o.set_visible true else o) _ hl2
  have hB2 : s2.elements.find b = some el := by rw [he2]; exact hB
  have hvis : ∃ s3, (if (!(Object.Sheet s2).is_visible) = true then
      (Object.Sheet s2).set_visible true else Object.Sheet s2) = .Sheet s3 ∧
      s3.entity.visible = true ∧ s3.elements = s2.elements := by
    by_cases hv : s2.entity.visible = true
    · exact ⟨s2, by simp [Object.is_visible, Object.entity, hv], hv, rfl⟩
    · exact ⟨s2.set_visible true, by simp [Object.is_visible, Object.entity, hv,
        Object.set_visible], by simp [Sheet.set_visible], by simp [Sheet.set_visible]⟩
  obtain ⟨s3, hs3, hv3, he3⟩ := hvis
  simp only [hs3] at hl3
  have hl4 := OrderedMap.getLast?_modify_key _ a (fun o => o.reveal b) _ hl3
  have hB3 : s3.elements.find b = some el := by rw [he3]; exact hB2
  obtain ⟨hvr, el1, hfe, hve⟩ := Sheet.reveal_spec s3 b el hB3
  exact ⟨s3.reveal b, el1, hl4, by rw [hvr]; exact hv3, hfe, hve⟩

/-- C9, witness: the map `A, C` with `A` hidden and not topmost, its element `B` hidden. -/
theorem reveal_promotes_and_shows_witness :
    ∃ sheet1 el1,
      (LevelPlayer.reveal
          { objects :=
              [("A".toList, .Sheet { Sheet.new true with
                  entity := { config := EntityConfigs.INDEPENDENT_SHEET, visible := false }
                  elements := [("B".toList, Button.new.set_visible false)] }),
               ("C".toList, .Sheet (Sheet.new true))] }
          ("A".toList ++ ID_TREE_DELIM ++ "B".toList) true).objects.getLast? =
          some ("A".toList, .Sheet sheet1) ∧
        sheet1.entity.visible = true ∧ sheet1.elements.find "B".toList = some el1 ∧
        el1.entity.visible = true :=
  reveal_promotes_and_shows _ "A".toList "B".toList _ (Button.new.set_visible false) true
    (by decide) (by decide) (by decide) rfl rfl

/-! ## Configuration trees -/

theorem lookup_cons_entry {β : Type} (k key : Str) (v : β) (es : List (Str × β)) :
    List.lookup key ((k, v) :: es) = if key = k then some v else List.lookup key es := by
  by_cases h : key = k
  · subst h; simp [List.lookup]
  · have : (key == k) = false := by simpa using h
    simp [List.lookup, this, h]

theorem lookup_append_entry {β : Type} (key : Str) (es fs : List (Str × β)) :
    List.lookup key (es ++ fs) = (List.lookup key es).orElse (fun _ => List.lookup key fs) := by
  induction es with
  | nil => simp
  | cons p ps ih =>
    obtain ⟨k, v⟩ := p
    rw [List.cons_append, lookup_cons_entry, lookup_cons_entry]
    by_cases h : key = k
    · simp [h]
    · simp [h, ih]

theorem lookup_none_of_not_any {β : Type} (key : Str) (es : List (Str × β))
    (h : es.any (fun p => p.1 = key) = false) : List.lookup key es = none := by
  induction es with
  | nil => rfl
  | cons p ps ih =>
    obtain ⟨k, v⟩ := p
    simp only [List.any_cons, Bool.or_eq_false_iff, decide_eq_false_iff_not] at h
    rw [lookup_cons_entry, if_neg (fun e => h.1 e.symm)]
    exact ih h.2

theorem lookup_entries_set (es : List (Str × Node)) (k key : Str) (v : Node) :
    List.lookup key (entries_set es k v) = if key = k then some v else List.lookup key es := by
  unfold entries_set
  by_cases hany : es.any (fun p => p.1 = k) = true
  · rw [if_pos hany]
    induction es with
    | nil => simp at hany
    | cons p ps ih =>
      obtain ⟨a, w⟩ := p
      by_cases ha : a = k
      · subst ha
        simp only [List.map_cons, if_true, lookup_cons_entry]
        by_cases hk : key = a
        · simp [hk]
        · simp only [if_neg hk]
          by_cases hps : ps.any (fun p => p.1 = a) = true
          · rw [ih hps, if_neg hk]
          · have hmap : ps.map (fun p => if p.1 = a then (p.1, v) else p) = ps := by
              have hall : ∀ p ∈ ps, ¬ p.1 = a := by
                intro p hp e
                exact hps (List.any_eq_true.mpr ⟨p, hp, by simpa using e⟩)
              calc ps.map (fun p => if p.1 = a then (p.1, v) else p)
                  = ps.map id := List.map_congr_left (fun p hp => by simp [hall p hp])
                _ = ps := List.map_id ps
            rw [hmap]
      · have hps : ps.any (fun p => p.1 = k) = true := by
          simpa [List.any_cons, ha] using hany
        simp only [List.map_cons, if_neg ha, lookup_cons_entry]
        by_cases hk : key = a
        · have hkk : ¬ key = k := fun e => ha (hk ▸ e)
          simp [hk, hkk, ha]
        · simp only [if_neg hk]
          exact ih hps
  · rw [if_neg hany]
    have hnone : List.lookup k es = none :=
      lookup_none_of_not_any k es (Bool.eq_false_iff.mpr hany)
    rw [lookup_append_entry, lookup_cons_entry]
    by_cases hk : key = k
    · subst hk; simp [hnone]
    · simp only [if_neg hk]
      cases List.lookup key es <;> simp [List.lookup]

theorem keys_entries_set_of_mem (es : List (Str × Node)) (k : Str) (v : Node)
    (h : es.any (fun p => p.1 = k) = true) :
    (entries_set es k v).map Prod.fst = es.map Prod.fst := by
  unfold entries_set
  rw [if_pos h, List.map_map]
  apply List.map_congr_left
  intro p _
  by_cases hp : p.1 = k <;> simp [hp]

theorem lookup_index_entries (l : List Node) (i : Nat) (key : Str)
    (h : ∃ c ∈ key, isdigit c = false) : List.lookup key (index_entries l i) = none := by
  induction l generalizing i with
  | nil => rfl
  | cons n rest ih =>
    have hne : ¬ key = nat_to_str i := by
      intro e
      obtain ⟨c, hc, hd⟩ := h
      rw [e] at hc
      have := nat_digits_all_digit (i + 1) i c hc
      rw [this] at hd
      exact Bool.noConfusion hd
    simp only [index_entries, lookup_cons_entry, if_neg hne]
    exact ih (i + 1)

theorem insert_all_values_scalar (base : Node) (s : Str) (path : List Str) :
    insert_all_values base (.Scalar s) path = Node.insert base path (.Scalar s) := by
  simp [insert_all_values]

theorem insert_all_values_map (base : Node) (es : List (Str × Node)) (path : List Str) :
    insert_all_values base (.Map es) path = insert_entries base es path := by
  simp [insert_all_values]

theorem insert_entries_nil (base : Node) (path : List Str) :
    insert_entries base [] path = some base := by
  simp [insert_entries]

theorem insert_entries_cons (base : Node) (key : Str) (value : Node)
    (rest : List (Str × Node)) (path : List Str) :
    insert_entries base ((key, value) :: rest) path =
      (insert_all_values base value (path ++ [key])).bind
        (fun b => insert_entries b rest path) := by
  simp [insert_entries]

theorem insert_scalar (base : Node) (s : Str) (path : List Str) :
    Node.insert base path (.Scalar s) = Node.set_path path base (.Scalar s) := by
  simp [Node.insert, Node.IsDefined, Node.IsNull]

theorem yaml_decode_of_bool (b : Bool) : (Node.of_bool b).as_bool = some b := by
  cases b <;> decide

theorem Action.initialize_entries (a : Action) (n : Node) (r : Action)
    (h : Action.initialize a n = some r) : ∃ ne, n.entries = some ne := by
  cases n with
  | Scalar s => simp [ Action.initialize, Node.IsDefined, Node.get] at h
  | Undefined => exact ⟨_, rfl⟩
  | Null => exact ⟨_, rfl⟩
  | Sequence l => exact ⟨_, rfl⟩
  | Map es => exact ⟨_, rfl⟩

theorem not_digit_command : ∃ c ∈ "command".toList, isdigit c = false := ⟨'c', by decide, by decide⟩

theorem not_digit_repeatable : ∃ c ∈ "repeatable".toList, isdigit c = false :=
  ⟨'r', by decide, by decide⟩

theorem not_digit_executed : ∃ c ∈ "executed".toList, isdigit c = false :=
  ⟨'e', by decide, by decide⟩

/-- What `Action::initialize` gives on a node in terms of the three children it reads. -/
theorem Action.initialize_of_children (a : Action) (ne : List (Str × Node)) :
    Action.initialize a (.Map ne) =
      (string_or ((List.lookup "command".toList ne).getD .Undefined) PLACEHOLDER_COMMAND).bind
        (fun c =>
          (bool_or ((List.lookup "repeatable".toList ne).getD .Undefined) true).bind (fun r =>
            (bool_or ((List.lookup "executed".toList ne).getD .Undefined) false).map (fun e =>
              { a with command_sequence := c, repeatable := r, executed := e }))) := by
  simp [ Action.initialize, Node.IsDefined, Node.get]

theorem string_or_undefined (dflt : Str) : string_or .Undefined dflt = some dflt := rfl

theorem bool_or_undefined (dflt : Bool) : bool_or .Undefined dflt = some dflt := rfl

theorem bool_or_of_bool (b dflt : Bool) : bool_or (Node.of_bool b) dflt = some b := by
  cases b <;> rfl

theorem Action.initialize_executed (a : Action) (n : Node) (r : Action)
    (ne : List (Str × Node)) (e : Bool)
    (h : Action.initialize a n = some r) (hne : n.entries = some ne) :
    Action.initialize a (.Map (entries_set ne "executed".toList (Node.of_bool e))) =
      some { r with executed := e } := by
  have hc : List.lookup "command".toList (entries_set ne "executed".toList (Node.of_bool e)) =
      List.lookup "command".toList ne := by
    rw [lookup_entries_set, if_neg (by decide)]
  have hr : List.lookup "repeatable".toList
      (entries_set ne "executed".toList (Node.of_bool e)) =
      List.lookup "repeatable".toList ne := by
    rw [lookup_entries_set, if_neg (by decide)]
  have he : List.lookup "executed".toList
      (entries_set ne "executed".toList (Node.of_bool e)) = some (Node.of_bool e) := by
    rw [lookup_entries_set, if_pos rfl]
  rw [Action.initialize_of_children, hc, hr, he]
  simp only [Option.getD_some, bool_or_of_bool, Option.map_some']
  cases n with
  | Scalar s => simp [Node.entries] at hne
  | Undefined =>
    simp only [Node.entries, Option.some.injEq] at hne
    subst hne
    simp only [ Action.initialize, Node.IsDefined] at h
    simp only [List.lookup, Option.getD_none, string_or_undefined, bool_or_undefined,
      Option.bind_some]
    simp at h
    rw [← h]
    rfl
  | Null =>
    simp only [Node.entries, Option.some.injEq] at hne
    subst hne
    simp [ Action.initialize, Node.IsDefined, Node.get, string_or_undefined,
      bool_or_undefined] at h
    simp only [List.lookup, Option.getD_none, string_or_undefined, bool_or_undefined,
      Option.bind_some]
    rw [← h]
    rfl
  | Sequence l =>
    simp only [Node.entries, Option.some.injEq] at hne
    subst hne
    simp [ Action.initialize, Node.IsDefined, Node.get, string_or_undefined,
      bool_or_undefined] at h
    rw [lookup_index_entries l 0 _ not_digit_command,
      lookup_index_entries l 0 _ not_digit_repeatable]
    simp only [Option.getD_none, string_or_undefined, bool_or_undefined, Option.bind_some]
    rw [← h]
    rfl
  | Map es =>
    simp only [Node.entries, Option.some.injEq] at hne
    subst hne
    rw [Action.initialize_of_children] at h
    simp only [Option.bind_eq_some, Option.map_eq_some'] at h
    obtain ⟨c, hc1, rp, hr1, e0, _, hres⟩ := h
    rw [hc1, hr1, ← hres]
    rfl

theorem mem_entries_set (es : List (Str × Node)) (k : Str) (v : Node) (p : Str × Node)
    (h : p ∈ entries_set es k v) : p ∈ es ∨ p = (k, v) := by
  unfold entries_set at h
  split at h
  · obtain ⟨q, hq, e⟩ := List.mem_map.mp h
    by_cases hk : q.1 = k
    · rw [if_pos hk] at e
      right; rw [← e, hk]
    · rw [if_neg hk] at e
      left; rw [← e]; exact hq
  · rcases List.mem_append.mp h with h1 | h1
    · exact Or.inl h1
    · right; simpa using h1

theorem any_key_iff_mem (es : List (Str × Node)) (k : Str) :
    es.any (fun p => p.1 = k) = true ↔ k ∈ es.map Prod.fst := by
  simp only [List.any_eq_true, decide_eq_true_eq, List.mem_map]

theorem keys_entries_set (es : List (Str × Node)) (k : Str) (v : Node) :
    (entries_set es k v).map Prod.fst =
      if k ∈ es.map Prod.fst then es.map Prod.fst else es.map Prod.fst ++ [k] := by
  by_cases h : es.any (fun p => p.1 = k) = true
  · rw [if_pos ((any_key_iff_mem es k).mp h)]
    exact keys_entries_set_of_mem es k v h
  · rw [if_neg (fun hm => h ((any_key_iff_mem es k).mpr hm))]
    unfold entries_set
    rw [if_neg h]
    simp

theorem nodup_keys_entries_set (es : List (Str × Node)) (k : Str) (v : Node)
    (h : (es.map Prod.fst).Nodup) : ((entries_set es k v).map Prod.fst).Nodup := by
  rw [keys_entries_set]
  split
  · exact h
  · rename_i hk
    rw [List.nodup_append]
    refine ⟨h, List.nodup_singleton k, ?_⟩
    intro a ha hb
    rw [List.mem_singleton] at hb
    subst hb
    exact hk ha

theorem entries_set_of_any (es : List (Str × Node)) (k : Str) (v : Node)
    (h : es.any (fun p => p.1 = k) = true) :
    entries_set es k v = es.map (fun p => if p.1 = k then (p.1, v) else p) := by
  unfold entries_set; rw [if_pos h]

theorem entries_set_of_not_any (es : List (Str × Node)) (k : Str) (v : Node)
    (h : ¬ es.any (fun p => p.1 = k) = true) : entries_set es k v = es ++ [(k, v)] := by
  unfold entries_set; rw [if_neg h]

theorem entries_map (es : List (Str × Node)) : (Node.Map es).entries = some es := rfl

theorem entries_set_entries_set (es : List (Str × Node)) (k : Str) (a b : Node) :
    entries_set (entries_set es k a) k b = entries_set es k b := by
  by_cases h : es.any (fun p => p.1 = k) = true
  · have h2 : (entries_set es k a).any (fun p => p.1 = k) = true := by
      rw [any_key_iff_mem, keys_entries_set_of_mem es k a h, ← any_key_iff_mem]
      exact h
    rw [entries_set_of_any _ k b h2, entries_set_of_any es k a h, entries_set_of_any es k b h,
      List.map_map]
    apply List.map_congr_left
    intro p _
    by_cases hp : p.1 = k <;> simp [hp]
  · have h1 : entries_set es k a = es ++ [(k, a)] := by
      unfold entries_set; rw [if_neg h]
    have h3 : entries_set es k b = es ++ [(k, b)] := by
      unfold entries_set; rw [if_neg h]
    have h2 : (es ++ [(k, a)]).any (fun p => p.1 = k) = true := by simp
    rw [h1, h3]
    unfold entries_set
    rw [if_pos h2, List.map_append]
    have hmap : es.map (fun p => if p.1 = k then (p.1, b) else p) = es := by
      have hall : ∀ p ∈ es, ¬ p.1 = k := by
        intro p hp e
        exact h (List.any_eq_true.mpr ⟨p, hp, by simpa using e⟩)
      calc es.map (fun p => if p.1 = k then (p.1, b) else p)
          = es.map id := List.map_congr_left (fun p hp => by simp [hall p hp])
        _ = es := List.map_id es
    rw [hmap]
    simp

theorem set_path_one (key : Str) (base value : Node) :
    Node.set_path [key] base value = base.assign key value := by
  simp [Node.set_path]

theorem set_path_cons (key key2 : Str) (keys : List Str) (base value : Node) :
    Node.set_path (key :: key2 :: keys) base value =
      (base.child key).bind (fun sub =>
        (Node.set_path (key2 :: keys) sub value).bind (fun sub1 => base.assign key sub1)) := by
  simp [Node.set_path]

/-- One value written two levels below a map: the write of `[key, key2, key3]`. -/
theorem set_path_three (cur se ne : List (Str × Node)) (key key2 key3 : Str) (value : Node)
    (hse : ((List.lookup key cur).getD .Undefined).entries = some se)
    (hne : ((List.lookup key2 se).getD .Undefined).entries = some ne) :
    Node.set_path [key, key2, key3] (.Map cur) value =
      some (.Map (entries_set cur key (.Map (entries_set se key2
        (.Map (entries_set ne key3 value)))))) := by
  simp [Node.set_path, Node.child, Node.assign, entries_map, hse, hne]

theorem set_path_two (cur se : List (Str × Node)) (key key2 : Str) (value : Node)
    (hse : ((List.lookup key cur).getD .Undefined).entries = some se) :
    Node.set_path [key, key2] (.Map cur) value =
      some (.Map (entries_set cur key (.Map (entries_set se key2 value)))) := by
  simp [Node.set_path, Node.child, Node.assign, entries_map, hse]

theorem set_path_map_one (cur : List (Str × Node)) (key : Str) (value : Node) :
    Node.set_path [key] (.Map cur) value = some (.Map (entries_set cur key value)) := by
  rw [set_path_one]
  simp [Node.entries, Node.assign]

theorem insert_all_values_of_bool (base : Node) (b : Bool) (path : List Str) :
    insert_all_values base (Node.of_bool b) path = Node.set_path path base (Node.of_bool b) := by
  unfold Node.of_bool
  rw [insert_all_values_scalar, insert_scalar]

theorem insert_all_values_executed (base : Node) (e : Bool) (path : List Str) :
    insert_all_values base (.Map [("executed".toList, Node.of_bool e)]) path =
      Node.set_path (path ++ ["executed".toList]) base (Node.of_bool e) := by
  rw [insert_all_values_map, insert_entries_cons, insert_all_values_of_bool]
  cases Node.set_path (path ++ ["executed".toList]) base (Node.of_bool e) with
  | none => rfl
  | some b => simp [insert_entries_nil]

/-- The entries of an overlay map `top: { key: { executed: e } ... }` written into a map
whose entry `top` can be read as a map with entries `se`: the entry `top` becomes a map, and
a property `J` of its entries that every single write keeps is kept. -/
theorem insert_solutions (J : List (Str × Node) → Prop) (top : Str)
    (hJ : ∀ se k e, J se → ∃ ne, ((List.lookup k se).getD .Undefined).entries = some ne ∧
      J (entries_set se k (.Map (entries_set ne "executed".toList (Node.of_bool e)))))
    (l : List (Str × Node))
    (hl : ∀ p ∈ l, ∃ e, p.2 = .Map [("executed".toList, Node.of_bool e)])
    (hne : l ≠ []) :
    ∀ (cur se : List (Str × Node)),
      ((List.lookup top cur).getD .Undefined).entries = some se → J se →
      ∃ se1, insert_entries (.Map cur) l [top] =
          some (.Map (entries_set cur top (.Map se1))) ∧ J se1 := by
  induction l with
  | nil => exact absurd rfl hne
  | cons p rest ih =>
    intro cur se hse hJse
    obtain ⟨k, v⟩ := p
    obtain ⟨e, hv⟩ := hl (k, v) (List.mem_cons_self _ _)
    simp only at hv
    subst hv
    obtain ⟨ne, hne1, hJ1⟩ := hJ se k e hJse
    have hstep : insert_all_values (.Map cur) (.Map [("executed".toList, Node.of_bool e)])
        ([top] ++ [k]) =
        some (.Map (entries_set cur top (.Map (entries_set se k
          (.Map (entries_set ne "executed".toList (Node.of_bool e))))))) := by
      rw [insert_all_values_executed]
      exact set_path_three cur se ne top k "executed".toList (Node.of_bool e) hse hne1
    rw [insert_entries_cons, hstep]
    simp only [Option.some_bind]
    by_cases hrest : rest = []
    · subst hrest
      exact ⟨_, insert_entries_nil _ _, hJ1⟩
    · have hse1 : ((List.lookup top (entries_set cur top (.Map (entries_set se k
          (.Map (entries_set ne "executed".toList (Node.of_bool e))))))).getD
          .Undefined).entries = some (entries_set se k
          (.Map (entries_set ne "executed".toList (Node.of_bool e)))) := by
        rw [lookup_entries_set, if_pos rfl]
        rfl
      obtain ⟨se2, h2, hJ2⟩ :=
        ih (fun p hp => hl p (List.mem_cons_of_mem _ hp)) hrest _ _ hse1 hJ1
      refine ⟨se2, ?_, hJ2⟩
      rw [h2, entries_set_entries_set]

theorem lookup_some_mem {β : Type} (key : Str) (es : List (Str × β)) (v : β)
    (h : List.lookup key es = some v) : (key, v) ∈ es := by
  induction es with
  | nil => simp at h
  | cons p ps ih =>
    obtain ⟨k, w⟩ := p
    rw [lookup_cons_entry] at h
    by_cases hk : key = k
    · rw [if_pos hk] at h
      simp only [Option.some.injEq] at h
      subst hk; subst h
      exact List.mem_cons_self _ _
    · rw [if_neg hk] at h
      exact List.mem_cons_of_mem _ (ih h)

theorem entries_set_ne_nil (es : List (Str × Node)) (k : Str) (v : Node) :
    entries_set es k v ≠ [] := by
  intro h
  have hk := keys_entries_set es k v
  rw [h] at hk
  split at hk
  · rename_i hm
    rw [← hk] at hm
    simp at hm
  · simp at hk

theorem serialize_action (a : Action) :
    a.serialize_dynamic_data = .Map [("executed".toList, Node.of_bool a.executed)] := rfl

theorem foldl_entries_set_mem (f : Action → Node) (P : Str × Node → Prop)
    (hP : ∀ k a, P (k, f a)) (sols : List (Str × Action)) :
    ∀ acc : List (Str × Node), (∀ p ∈ acc, P p) →
      ∀ p ∈ sols.foldl (fun es q => entries_set es q.1 (f q.2)) acc, P p := by
  induction sols with
  | nil => intro acc hacc p hp; exact hacc p hp
  | cons q rest ih =>
    intro acc hacc p hp
    rw [List.foldl_cons] at hp
    refine ih _ ?_ p hp
    intro r hr
    rcases mem_entries_set _ _ _ _ hr with h | h
    · exact hacc r h
    · rw [h]; exact hP _ _

theorem foldl_entries_set_ne_nil (f : Action → Node) (sols : List (Str × Action)) :
    ∀ acc : List (Str × Node), acc ≠ [] →
      sols.foldl (fun es q => entries_set es q.1 (f q.2)) acc ≠ [] := by
  induction sols with
  | nil => intro acc h; exact h
  | cons q rest ih =>
    intro acc _
    rw [List.foldl_cons]
    exact ih _ (entries_set_ne_nil _ _ _)

theorem solutions_node_values (sols : List (Str × Action)) :
    ∀ p ∈ InputLine.solutions_node sols,
      ∃ e, p.2 = .Map [("executed".toList, Node.of_bool e)] := by
  unfold InputLine.solutions_node
  exact foldl_entries_set_mem Action.serialize_dynamic_data
    (fun p => ∃ e, p.2 = .Map [("executed".toList, Node.of_bool e)])
    (fun _ a => ⟨a.executed, rfl⟩) sols [] (fun p hp => by simp at hp)

theorem solutions_node_eq_nil (sols : List (Str × Action)) :
    InputLine.solutions_node sols = [] ↔ sols = [] := by
  constructor
  · intro h
    cases sols with
    | nil => rfl
    | cons q rest =>
      exfalso
      unfold InputLine.solutions_node at h
      rw [List.foldl_cons] at h
      exact foldl_entries_set_ne_nil _ rest _ (entries_set_ne_nil _ _ _) h
  · intro h; subst h; rfl

/-- Writing `executed` below a key keeps a list of entries of the form
`key: { executed: e }` in that form. -/
theorem overlay_entries_closed (se : List (Str × Node)) (k : Str) (e : Bool)
    (h : ∀ p ∈ se, ∃ e0, p.2 = .Map [("executed".toList, Node.of_bool e0)]) :
    ∃ ne, ((List.lookup k se).getD .Undefined).entries = some ne ∧
      ∀ p ∈ entries_set se k (.Map (entries_set ne "executed".toList (Node.of_bool e))),
        ∃ e0, p.2 = .Map [("executed".toList, Node.of_bool e0)] := by
  cases hl : List.lookup k se with
  | none =>
    refine ⟨[], rfl, ?_⟩
    intro p hp
    rcases mem_entries_set _ _ _ _ hp with h1 | h1
    · exact h p h1
    · exact ⟨e, by rw [h1]; rfl⟩
  | some n =>
    obtain ⟨e0, he0⟩ := h (k, n) (lookup_some_mem k se n hl)
    simp only at he0
    subst he0
    refine ⟨[("executed".toList, Node.of_bool e0)], rfl, ?_⟩
    intro p hp
    rcases mem_entries_set _ _ _ _ hp with h1 | h1
    · exact h p h1
    · exact ⟨e, by rw [h1]; rfl⟩

/-- Writing `executed` below a key keeps a list of solution entries initialisable: the
keys distinct, every value defined and accepted by `Action::initialize`. -/
theorem solution_entries_closed (se : List (Str × Node)) (k : Str) (e : Bool)
    (h : (se.map Prod.fst).Nodup ∧
      ∀ p ∈ se, p.2.IsDefined = true ∧ ( Action.initialize {} p.2).isSome = true) :
    ∃ ne, ((List.lookup k se).getD .Undefined).entries = some ne ∧
      (((entries_set se k (.Map (entries_set ne "executed".toList
          (Node.of_bool e)))).map Prod.fst).Nodup ∧
        ∀ p ∈ entries_set se k (.Map (entries_set ne "executed".toList (Node.of_bool e))),
          p.2.IsDefined = true ∧ ( Action.initialize {} p.2).isSome = true) := by
  have hinit : ( Action.initialize {} ((List.lookup k se).getD .Undefined)).isSome = true := by
    cases hl : List.lookup k se with
    | none => rfl
    | some n => exact (h.2 (k, n) (lookup_some_mem k se n hl)).2
  obtain ⟨r, hr⟩ := Option.isSome_iff_exists.mp hinit
  obtain ⟨ne, hne⟩ := Action.initialize_entries _ _ _ hr
  refine ⟨ne, hne, nodup_keys_entries_set _ _ _ h.1, ?_⟩
  intro p hp
  rcases mem_entries_set _ _ _ _ hp with h1 | h1
  · exact h.2 p h1
  · rw [h1]
    refine ⟨rfl, ?_⟩
    simp only
    rw [Action.initialize_executed _ _ r ne e hr hne]
    rfl

theorem initialize_solutions_isSome (es : List (Str × Node)) :
    ∀ (acc : List (Str × Action)) (b : Bool),
      (es.map Prod.fst).Nodup → (∀ k ∈ es.map Prod.fst, k ∉ acc.map Prod.fst) →
      (∀ p ∈ es, ( Action.initialize {} p.2).isSome = true) →
      (InputLine.initialize_solutions es acc b).isSome = true := by
  induction es with
  | nil => intro acc b _ _ _; rfl
  | cons p rest ih =>
    intro acc b hnd hdis hall
    obtain ⟨key, n⟩ := p
    rw [List.map_cons, List.nodup_cons] at hnd
    have hk : ¬ (acc.any (fun q => q.1 = key) = true) := by
      intro hany
      obtain ⟨q, hq, e⟩ := List.any_eq_true.mp hany
      exact hdis key (List.mem_cons_self _ _) (List.mem_map.mpr ⟨q, hq, by simpa using e⟩)
    obtain ⟨a, ha⟩ := Option.isSome_iff_exists.mp (hall (key, n) (List.mem_cons_self _ _))
    have hrest : ∀ (a1 : Action) (b1 : Bool),
        (InputLine.initialize_solutions rest (acc ++ [(key, a1)]) b1).isSome = true := by
      intro a1 b1
      apply ih _ _ hnd.2
      · intro k hkm hka
        rw [List.map_append, List.mem_append] at hka
        rcases hka with h1 | h1
        · exact hdis k (List.mem_cons_of_mem _ hkm) h1
        · simp only [List.map_cons, List.map_nil, List.mem_singleton] at h1
          subst h1
          exact hnd.1 hkm
      · intro q hq; exact hall q (List.mem_cons_of_mem _ hq)
    simp only [InputLine.initialize_solutions, if_neg hk]
    simp only at ha
    rw [ha]
    simp only [Option.some_bind]
    split
    · exact hrest _ _
    · exact hrest _ _

theorem initialize_solutions_some (es : List (Str × Node)) :
    ∀ (acc : List (Str × Action)) (b : Bool) (r : List (Str × Action) × Bool),
      InputLine.initialize_solutions es acc b = some r →
      (es.map Prod.fst).Nodup ∧ (∀ k ∈ es.map Prod.fst, k ∉ acc.map Prod.fst) ∧
      (∀ p ∈ es, ( Action.initialize {} p.2).isSome = true) ∧
      r.1.map Prod.fst = acc.map Prod.fst ++ es.map Prod.fst := by
  induction es with
  | nil =>
    intro acc b r h
    simp only [InputLine.initialize_solutions, Option.some.injEq] at h
    subst h
    simp
  | cons p rest ih =>
    intro acc b r h
    obtain ⟨key, n⟩ := p
    simp only [InputLine.initialize_solutions] at h
    by_cases hk : acc.any (fun q => q.1 = key) = true
    · rw [if_pos hk] at h; exact Option.noConfusion h
    · rw [if_neg hk] at h
      cases ha : Action.initialize {} n with
      | none => rw [ha] at h; exact Option.noConfusion h
      | some a =>
        rw [ha] at h
        simp only [Option.some_bind] at h
        have hkey : key ∉ acc.map Prod.fst := by
          intro hm
          obtain ⟨q, hq, e⟩ := List.mem_map.mp hm
          exact hk (List.any_eq_true.mpr ⟨q, hq, by simpa using e⟩)
        have hmain : ∀ (a1 : Action) (b1 : Bool),
            InputLine.initialize_solutions rest (acc ++ [(key, a1)]) b1 = some r →
            (((key, n) :: rest).map Prod.fst).Nodup ∧
            (∀ k ∈ ((key, n) :: rest).map Prod.fst, k ∉ acc.map Prod.fst) ∧
            (∀ p ∈ (key, n) :: rest, ( Action.initialize {} p.2).isSome = true) ∧
            r.1.map Prod.fst = acc.map Prod.fst ++ ((key, n) :: rest).map Prod.fst := by
          intro a1 b1 h1
          obtain ⟨hnd, hdis, hall, hkeys⟩ := ih _ _ _ h1
          refine ⟨?_, ?_, ?_, ?_⟩
          · rw [List.map_cons, List.nodup_cons]
            refine ⟨?_, hnd⟩
            intro hm
            exact hdis key hm (by simp)
          · intro k hkm
            rw [List.map_cons, List.mem_cons] at hkm
            rcases hkm with h2 | h2
            · rw [h2]; exact hkey
            · intro h3
              exact hdis k h2 (by rw [List.map_append]; exact List.mem_append_left _ h3)
          · intro q hq
            rcases List.mem_cons.mp hq with h2 | h2
            · rw [h2]; simp only; rw [ha]; rfl
            · exact hall q h2
          · rw [hkeys]; simp
        split at h
        · exact hmain _ _ h
        · exact hmain _ _ h

theorem get_map (es : List (Str × Node)) (key : Str) :
    (Node.Map es).get key = some ((List.lookup key es).getD .Undefined) := rfl

theorem read_position_agree (κ : Collaborators) (e : Entity) (es es1 : List (Str × Node))
    (hag : ∀ k, k ∉ DYNAMIC_KEYS → List.lookup k es1 = List.lookup k es) :
    e.read_position κ (.Map es1) = e.read_position κ (.Map es) := by
  simp only [Entity.read_position, get_map, hag "center".toList (by decide),
    hag "tlc".toList (by decide), hag "trc".toList (by decide)]

theorem set_position_config (e : Entity) (p : PxVec2) : (e.set_position p).config = e.config := by
  unfold Entity.set_position Entity.set_position_origin
  cases e.initial_origin <;> rfl

theorem read_position_config (κ : Collaborators) (e e1 : Entity) (es : List (Str × Node))
    (h : e.read_position κ (.Map es) = some e1) : e1.config = e.config := by
  simp only [Entity.read_position, get_map, Option.some_bind] at h
  split_ifs at h
  all_goals first
    | (obtain ⟨p, _, hp⟩ := Option.map_eq_some'.mp h
       rw [← hp, set_position_config])
    | (simp only [Option.some.injEq] at h
       subst h
       first | rfl | exact set_position_config _ _)

theorem initialize_entity_merged (κ : Collaborators) (el e1 : Element)
    (es es1 : List (Str × Node)) (v : Bool)
    (hag : ∀ k, k ∉ DYNAMIC_KEYS → List.lookup k es1 = List.lookup k es)
    (hv : List.lookup "visible".toList es1 = some (Node.of_bool v))
    (h : el.initialize_entity κ (.Map es) = some e1) :
    (e1.kind = el.kind ∧ e1.entity.config = el.entity.config) ∧
    ∃ e2, el.initialize_entity κ (.Map es1) = some e2 ∧ e2.kind = el.kind := by
  simp only [Element.initialize_entity, read_position_agree κ el.entity es es1 hag, get_map,
    hag "reveal_sound".toList (by decide), hv, Option.getD_some, bool_or_of_bool,
    Option.some_bind, Option.map_some'] at h ⊢
  cases hp : el.entity.read_position κ (.Map es) with
  | none => rw [hp] at h; exact Option.noConfusion h
  | some entity =>
    have hcfg := read_position_config κ _ _ _ hp
    rw [hp] at h
    simp only [Option.some_bind] at h ⊢
    cases hs : string_or ((List.lookup "reveal_sound".toList es).getD .Undefined) [] with
    | none =>
      rw [hs] at h
      simp at h
    | some snd =>
      rw [hs] at h
      by_cases hvs : el.entity.config.visibility_serialization = true
      · simp only [hvs, if_true] at h ⊢
        cases hb : bool_or ((List.lookup "visible".toList es).getD .Undefined) true with
        | none => rw [hb] at h; simp at h
        | some v0 =>
          rw [hb] at h
          simp only [Option.map_some', Option.some_bind, Option.some.injEq] at h ⊢
          subst h
          exact ⟨⟨rfl, hcfg⟩, _, rfl, rfl⟩
      · simp only [hvs] at h ⊢
        simp only [Bool.false_eq_true, if_false, Option.map_some', Option.some_bind,
          Option.some.injEq] at h ⊢
        subst h
        exact ⟨⟨rfl, hcfg⟩, _, rfl, rfl⟩

theorem image_read_size_agree (κ : Collaborators) (es es1 : List (Str × Node))
    (hag : ∀ k, k ∉ DYNAMIC_KEYS → List.lookup k es1 = List.lookup k es) :
    Image.read_size κ (.Map es1) = Image.read_size κ (.Map es) := by
  simp only [Image.read_size, get_map, hag "texture".toList (by decide),
    hag "size".toList (by decide), hag "color".toList (by decide)]

theorem text_read_text_agree (κ : Collaborators) (es es1 : List (Str × Node))
    (hag : ∀ k, k ∉ DYNAMIC_KEYS → List.lookup k es1 = List.lookup k es) :
    Text.read_text κ (.Map es1) = Text.read_text κ (.Map es) := by
  simp only [Text.read_text, get_map, hag "text".toList (by decide),
    hag "text_props".toList (by decide)]

theorem button_read_size_agree (κ : Collaborators) (es es1 : List (Str × Node))
    (hag : ∀ k, k ∉ DYNAMIC_KEYS → List.lookup k es1 = List.lookup k es) :
    Button.read_size κ (.Map es1) = Button.read_size κ (.Map es) := by
  simp only [Button.read_size, get_map, hag "text".toList (by decide),
    hag "text_props".toList (by decide), hag "size".toList (by decide)]

theorem button_read_values_merged (κ : Collaborators) (d : ButtonData)
    (es es1 ne : List (Str × Node)) (e l : Bool) (r : Action × Bool)
    (hag : ∀ k, k ∉ DYNAMIC_KEYS → List.lookup k es1 = List.lookup k es)
    (hne : ((List.lookup "action".toList es).getD .Undefined).entries = some ne)
    (ha : List.lookup "action".toList es1 =
      some (.Map (entries_set ne "executed".toList (Node.of_bool e))))
    (hl : List.lookup "locked".toList es1 = some (Node.of_bool l))
    (h : Button.read_values κ d (.Map es) = some r) :
    ∃ a, Button.read_values κ d (.Map es1) = some (a, l) := by
  simp only [Button.read_values, get_map, hag "texture".toList (by decide),
    hag "color".toList (by decide), hag "sound".toList (by decide), ha, hl,
    Option.getD_some, bool_or_of_bool, bind, Option.some_bind, pure] at h ⊢
  simp only [Option.bind_eq_some] at h
  obtain ⟨t, ht, c, hc, a, hinit, l0, _, s, hs, _⟩ := h
  rw [ht, hc, Action.initialize_executed _ _ a ne e hinit hne, hs]
  exact ⟨_, rfl⟩

theorem set_string_string (i : InputString) (s : Str) (h : i.holds s = true) :
    (i.set_string s).string = s := by
  simp only [InputString.holds, Bool.and_eq_true, decide_eq_true_eq] at h
  obtain ⟨hall, hlen⟩ := h
  have hf : s.filter i.char_checker.allows = s := by
    rw [List.filter_eq_self]
    intro c hc
    exact List.all_eq_true.mp hall c hc
  have hnot : ¬ (0 ≤ i.max_len ∧ i.max_len.toNat < s.length) := by
    rintro ⟨h0, h1⟩
    omega
  simp only [InputString.set_string, hf, hnot, if_false]

theorem set_string_setup (i : InputString) (s : Str) :
    (i.set_string s).char_checker = i.char_checker ∧ (i.set_string s).max_len = i.max_len :=
  ⟨rfl, rfl⟩

theorem set_input_input (d : InputLineData) (input : Str) :
    (d.set_input input).input = d.input.set_string input := by
  unfold InputLineData.set_input
  simp only
  split_ifs <;> rfl

theorem set_input_solutions (d : InputLineData) (input : Str) :
    (d.set_input input).solutions = d.solutions := by
  unfold InputLineData.set_input
  simp only
  split_ifs <;> rfl

theorem read_nodes_map (es : List (Str × Node)) :
    InputLine.read_nodes (.Map es) = some
      ⟨(List.lookup "solutions".toList es).getD .Undefined,
        (List.lookup "text_props".toList es).getD .Undefined,
        (List.lookup "char_checker".toList es).getD .Undefined,
        (List.lookup "length".toList es).getD .Undefined,
        (List.lookup "input".toList es).getD .Undefined,
        (List.lookup "input_save".toList es).getD .Undefined,
        (List.lookup "auto_clear".toList es).getD .Undefined,
        (List.lookup "locked".toList es).getD .Undefined,
        (List.lookup "input_sound".toList es).getD .Undefined⟩ := rfl

/-- The initialisation of an input line from a tree that differs from another one, from
which it succeeds, in the dynamic data only: it succeeds as well, with the same input
string settings, the lock and the input of the new tree. -/
theorem inputline_on_initialization_merged (κ : Collaborators) (ela elb r0 : Element)
    (d : InputLineData) (es es1 : List (Str × Node)) (l : Bool) (i1 : Str)
    (hag : ∀ k, k ∉ DYNAMIC_KEYS → List.lookup k es1 = List.lookup k es)
    (hsol : (InputLine.read_solutions d
      ((List.lookup "solutions".toList es1).getD .Undefined)).isSome = true)
    (hin : string_or ((List.lookup "input".toList es1).getD .Undefined) [] = some i1)
    (hl : List.lookup "locked".toList es1 = some (Node.of_bool l))
    (h : InputLine.on_initialization κ ela d (.Map es) = some r0) :
    ∃ (v0 v1 : InputLineValues) (tp : Node),
      r0 = InputLine.assemble κ ela d tp v0 ∧
      InputLine.on_initialization κ elb d (.Map es1) = some (InputLine.assemble κ elb d tp v1) ∧
      v1.input_string = v0.input_string ∧ v1.input = i1 ∧ v1.locked = l ∧
      v1.input_save = v0.input_save ∧ v1.auto_clear = v0.auto_clear := by
  obtain ⟨sols1, hsols1⟩ := Option.isSome_iff_exists.mp hsol
  simp only [InputLine.on_initialization, read_nodes_map, Option.some_bind,
    InputLine.read_values, bind, pure, hag "text_props".toList (by decide),
    hag "char_checker".toList (by decide), hag "length".toList (by decide),
    hag "input_save".toList (by decide), hag "auto_clear".toList (by decide),
    hag "input_sound".toList (by decide), hl, hin, hsols1, Option.getD_some,
    bool_or_of_bool] at h ⊢
  simp only [Option.map_eq_some', Option.bind_eq_some] at h
  obtain ⟨v0, ⟨sols0, _, u, hu, input1, h1, input2, h2, i0, _, isv, hisv, acl, hacl, l0, _,
    snd, hsnd, hv0⟩, hr0⟩ := h
  simp only [hu, h1, h2, hisv, hacl, hsnd, Option.some_bind, Option.map_some']
  refine ⟨v0, _, _, hr0.symm, rfl, ?_⟩
  simp only [Option.some.injEq] at hv0
  subst hv0
  exact ⟨rfl, rfl, rfl, rfl, rfl⟩

theorem insert_undefined (base : Node) :
    insert_all_values base .Undefined [] = some base := by
  simp [insert_all_values, Node.insert, Node.IsDefined]

theorem insert_scalar_key (cur : List (Str × Node)) (key : Str) (s : Str)
    (rest : List (Str × Node)) :
    insert_entries (.Map cur) ((key, .Scalar s) :: rest) [] =
      insert_entries (.Map (entries_set cur key (.Scalar s))) rest [] := by
  rw [insert_entries_cons, insert_all_values_scalar, insert_scalar]
  simp only [List.nil_append, set_path_map_one, Option.some_bind]

theorem insert_of_bool_key (cur : List (Str × Node)) (key : Str) (b : Bool)
    (rest : List (Str × Node)) :
    insert_entries (.Map cur) ((key, Node.of_bool b) :: rest) [] =
      insert_entries (.Map (entries_set cur key (Node.of_bool b))) rest [] :=
  insert_scalar_key cur key _ rest

theorem serialize_base_element (κ : Collaborators) (e : Entity)
    (hps : e.config.position_save = false) (hvs : e.config.visibility_serialization = true) :
    e.serialize_base κ = [("visible".toList, Node.of_bool e.visible)] := by
  simp only [Entity.serialize_base, hps, hvs, if_true]
  rfl

theorem image_text_overlay (κ : Collaborators) (el : Element)
    (hk : el.on_dynamic_data_serialization = .Undefined)
    (hps : el.entity.config.position_save = false)
    (hvs : el.entity.config.visibility_serialization = true) :
    el.serialize_dynamic_data κ =
      some (.Map [("visible".toList, Node.of_bool el.entity.visible)]) := by
  rw [Element.serialize_dynamic_data, hk, insert_undefined,
    serialize_base_element κ _ hps hvs]

theorem button_overlay (κ : Collaborators) (e : Entity) (d : ButtonData)
    (hps : e.config.position_save = false) (hvs : e.config.visibility_serialization = true) :
    Element.serialize_dynamic_data κ ⟨e, .Button d⟩ =
      some (.Map [("visible".toList, Node.of_bool e.visible),
        ("action".toList, .Map [("executed".toList, Node.of_bool d.action.executed)]),
        ("locked".toList, Node.of_bool d.locked)]) := by
  simp only [Element.serialize_dynamic_data, serialize_base_element κ _ hps hvs,
    Element.on_dynamic_data_serialization, Button.on_dynamic_data_serialization,
    serialize_action]
  rfl

theorem merge_visible (es : List (Str × Node)) (v : Bool) :
    insert_all_values (.Map es) (.Map [("visible".toList, Node.of_bool v)]) [] =
      some (.Map (entries_set es "visible".toList (Node.of_bool v))) := by
  rw [insert_all_values_map, insert_of_bool_key, insert_entries_nil]

theorem merge_button (es ne : List (Str × Node)) (v e l : Bool)
    (hne : ((List.lookup "action".toList es).getD .Undefined).entries = some ne) :
    insert_all_values (.Map es)
      (.Map [("visible".toList, Node.of_bool v),
        ("action".toList, .Map [("executed".toList, Node.of_bool e)]),
        ("locked".toList, Node.of_bool l)]) [] =
      some (.Map (entries_set (entries_set (entries_set es "visible".toList (Node.of_bool v))
        "action".toList (.Map (entries_set ne "executed".toList (Node.of_bool e))))
        "locked".toList (Node.of_bool l))) := by
  have hne1 : ((List.lookup "action".toList
      (entries_set es "visible".toList (Node.of_bool v))).getD .Undefined).entries =
      some ne := by
    rw [lookup_entries_set, if_neg (by decide)]
    exact hne
  rw [insert_all_values_map, insert_of_bool_key, insert_entries_cons,
    insert_all_values_executed]
  simp only [List.nil_append, List.singleton_append]
  rw [set_path_two _ ne _ _ _ hne1]
  simp only [Option.some_bind]
  rw [insert_of_bool_key, insert_entries_nil]

theorem inputline_hook (d : InputLineData) :
    InputLine.on_dynamic_data_serialization d =
      .Map (("solutions".toList, .Map (InputLine.solutions_node d.solutions)) ::
        ((if d.input_save && !d.auto_clear && !d.last_committed_input.isEmpty then
            [("input".toList, Node.Scalar d.last_committed_input)] else []) ++
          [("locked".toList, Node.of_bool d.locked)])) := by
  unfold InputLine.on_dynamic_data_serialization
  by_cases h : (d.input_save && !d.auto_clear && !d.last_committed_input.isEmpty) = true
  · simp only [h, if_true]; rfl
  · simp only [h]; rfl

/-- The dynamic data of an input line: the visibility, the solutions if there are any, the
committed input if it is saved, and the lock. -/
theorem inputline_overlay (κ : Collaborators) (e : Entity) (d : InputLineData)
    (hps : e.config.position_save = false) (hvs : e.config.visibility_serialization = true) :
    ∃ solpart : List (Str × Node),
      Element.serialize_dynamic_data κ ⟨e, .InputLine d⟩ =
        some (.Map (("visible".toList, Node.of_bool e.visible) :: (solpart ++
          ((if d.input_save && !d.auto_clear && !d.last_committed_input.isEmpty then
            [("input".toList, Node.Scalar d.last_committed_input)] else []) ++
          [("locked".toList, Node.of_bool d.locked)])))) ∧
      (solpart = [] ∨ ∃ se, solpart = [("solutions".toList, .Map se)] ∧
        ∀ p ∈ se, ∃ e0, p.2 = .Map [("executed".toList, Node.of_bool e0)]) ∧
      (d.solutions = [] → solpart = []) := by
  simp only [Element.serialize_dynamic_data, serialize_base_element κ _ hps hvs,
    Element.on_dynamic_data_serialization, inputline_hook, insert_all_values_map,
    insert_entries_cons, List.nil_append]
  by_cases hsn : InputLine.solutions_node d.solutions = []
  · refine ⟨[], ?_, Or.inl rfl, fun _ => rfl⟩
    rw [hsn, insert_entries_nil]
    simp only [Option.some_bind, List.nil_append]
    by_cases h : (d.input_save && !d.auto_clear && !d.last_committed_input.isEmpty) = true
    · simp only [h, if_true, List.singleton_append]
      rw [insert_scalar_key, insert_of_bool_key, insert_entries_nil]
      rfl
    · simp only [h, Bool.false_eq_true, if_false, List.nil_append]
      rw [insert_of_bool_key, insert_entries_nil]
      rfl
  · obtain ⟨se1, h1, hJ1⟩ := insert_solutions
      (fun se => ∀ p ∈ se, ∃ e0, p.2 = .Map [("executed".toList, Node.of_bool e0)])
      "solutions".toList (fun se k e0 hJ => overlay_entries_closed se k e0 hJ)
      (InputLine.solutions_node d.solutions) (solutions_node_values d.solutions) hsn
      [("visible".toList, Node.of_bool e.visible)] [] rfl (fun p hp => by simp at hp)
    refine ⟨[("solutions".toList, .Map se1)], ?_, Or.inr ⟨se1, rfl, hJ1⟩, ?_⟩
    · rw [h1]
      simp only [Option.some_bind]
      by_cases h : (d.input_save && !d.auto_clear && !d.last_committed_input.isEmpty) = true
      · simp only [h, if_true, List.singleton_append]
        rw [insert_scalar_key, insert_of_bool_key, insert_entries_nil]
        rfl
      · simp only [h, Bool.false_eq_true, if_false, List.nil_append]
        rw [insert_of_bool_key, insert_entries_nil]
        rfl
    · intro hd
      exact absurd ((solutions_node_eq_nil d.solutions).mpr hd) hsn

/-- The dynamic data of an input line inserted into a static tree: the keys outside the
dynamic data keep their values, `visible`, `locked` and a saved `input` get the values of the
overlay, and `solutions` is unchanged or a map of initialisable solution entries. -/
theorem inputline_merge (es solpart inp : List (Str × Node)) (v l : Bool)
    (hsp : solpart = [] ∨ ∃ se, solpart = [("solutions".toList, .Map se)] ∧
      ∀ p ∈ se, ∃ e0, p.2 = .Map [("executed".toList, Node.of_bool e0)])
    (hinp : inp = [] ∨ ∃ s, inp = [("input".toList, Node.Scalar s)])
    (hS : solpart ≠ [] → ∃ se0,
      ((List.lookup "solutions".toList es).getD .Undefined).entries = some se0 ∧
      ((se0.map Prod.fst).Nodup ∧
        ∀ p ∈ se0, p.2.IsDefined = true ∧ ( Action.initialize {} p.2).isSome = true)) :
    ∃ es1, insert_all_values (.Map es)
        (.Map (("visible".toList, Node.of_bool v) ::
          (solpart ++ (inp ++ [("locked".toList, Node.of_bool l)])))) [] = some (.Map es1) ∧
      (∀ k, k ∉ DYNAMIC_KEYS → List.lookup k es1 = List.lookup k es) ∧
      List.lookup "locked".toList es1 = some (Node.of_bool l) ∧
      List.lookup "visible".toList es1 = some (Node.of_bool v) ∧
      (inp = [] → List.lookup "input".toList es1 = List.lookup "input".toList es) ∧
      (∀ s, inp = [("input".toList, Node.Scalar s)] →
        List.lookup "input".toList es1 = some (Node.Scalar s)) ∧
      (List.lookup "solutions".toList es1 = List.lookup "solutions".toList es ∨
        ∃ se1, List.lookup "solutions".toList es1 = some (.Map se1) ∧
          ((se1.map Prod.fst).Nodup ∧
            ∀ p ∈ se1, p.2.IsDefined = true ∧ ( Action.initialize {} p.2).isSome = true)) := by
  rw [insert_all_values_map, insert_of_bool_key]
  -- the solutions
  have h2 : ∃ cur2, insert_entries (.Map (entries_set es "visible".toList (Node.of_bool v)))
        (solpart ++ (inp ++ [("locked".toList, Node.of_bool l)])) [] =
        insert_entries (.Map cur2) (inp ++ [("locked".toList, Node.of_bool l)]) [] ∧
      (∀ k, k ≠ "solutions".toList → k ≠ "visible".toList →
        List.lookup k cur2 = List.lookup k es) ∧
      List.lookup "visible".toList cur2 = some (Node.of_bool v) ∧
      (List.lookup "solutions".toList cur2 = List.lookup "solutions".toList es ∨
        ∃ se1, List.lookup "solutions".toList cur2 = some (.Map se1) ∧
          ((se1.map Prod.fst).Nodup ∧
            ∀ p ∈ se1, p.2.IsDefined = true ∧ ( Action.initialize {} p.2).isSome = true)) := by
    have hbase : ∀ k, k ≠ "visible".toList →
        List.lookup k (entries_set es "visible".toList (Node.of_bool v)) =
          List.lookup k es := by
      intro k hk
      rw [lookup_entries_set, if_neg hk]
    have hvis : List.lookup "visible".toList
        (entries_set es "visible".toList (Node.of_bool v)) = some (Node.of_bool v) := by
      rw [lookup_entries_set, if_pos rfl]
    rcases hsp with hnil | ⟨se, hse, hJ⟩
    · subst hnil
      exact ⟨_, rfl, fun k _ hk => hbase k hk, hvis, Or.inl (hbase _ (by decide))⟩
    · by_cases hse0 : se = []
      · subst hse0; subst hse
        refine ⟨_, ?_, fun k _ hk => hbase k hk, hvis, Or.inl (hbase _ (by decide))⟩
        rw [List.singleton_append, insert_entries_cons, insert_all_values_map,
          insert_entries_nil]
        rfl
      · obtain ⟨se0, hent, hinv⟩ := hS (by rw [hse]; simp)
        have hent1 : ((List.lookup "solutions".toList
            (entries_set es "visible".toList (Node.of_bool v))).getD .Undefined).entries =
            some se0 := by
          rw [hbase _ (by decide)]; exact hent
        obtain ⟨se1, h1, hJ1⟩ := insert_solutions
          (fun se => (se.map Prod.fst).Nodup ∧
            ∀ p ∈ se, p.2.IsDefined = true ∧ ( Action.initialize {} p.2).isSome = true)
          "solutions".toList (fun se k e0 hJ => solution_entries_closed se k e0 hJ)
          se hJ hse0 _ se0 hent1 hinv
        subst hse
        refine ⟨entries_set (entries_set es "visible".toList (Node.of_bool v))
          "solutions".toList (.Map se1), ?_, ?_, ?_, Or.inr ⟨se1, ?_, hJ1⟩⟩
        · rw [List.singleton_append, insert_entries_cons, insert_all_values_map]
          simp only [List.nil_append]
          rw [h1]
          rfl
        · intro k hk1 hk2
          rw [lookup_entries_set, if_neg hk1, hbase k hk2]
        · rw [lookup_entries_set, if_neg (by decide), hvis]
        · rw [lookup_entries_set, if_pos rfl]
  obtain ⟨cur2, hins2, hoth2, hvis2, hsol2⟩ := h2
  rw [hins2]
  rcases hinp with hnil | ⟨s, hs⟩
  · subst hnil
    refine ⟨entries_set cur2 "locked".toList (Node.of_bool l), ?_, ?_, ?_, ?_, ?_, ?_, ?_⟩
    · rw [List.nil_append, insert_of_bool_key, insert_entries_nil]
    · intro k hk
      have hk1 : k ≠ "locked".toList := fun e => hk (by rw [e]; decide)
      have hk2 : k ≠ "solutions".toList := fun e => hk (by rw [e]; decide)
      have hk3 : k ≠ "visible".toList := fun e => hk (by rw [e]; decide)
      rw [lookup_entries_set, if_neg hk1, hoth2 k hk2 hk3]
    · rw [lookup_entries_set, if_pos rfl]
    · rw [lookup_entries_set, if_neg (by decide), hvis2]
    · intro _
      rw [lookup_entries_set, if_neg (by decide), hoth2 _ (by decide) (by decide)]
    · intro s hs
      simp at hs
    · rw [lookup_entries_set, if_neg (by decide)]
      exact hsol2
  · subst hs
    refine ⟨entries_set (entries_set cur2 "input".toList (.Scalar s)) "locked".toList
      (Node.of_bool l), ?_, ?_, ?_, ?_, ?_, ?_, ?_⟩
    · rw [List.singleton_append, insert_scalar_key, insert_of_bool_key, insert_entries_nil]
    · intro k hk
      have hk1 : k ≠ "locked".toList := fun e => hk (by rw [e]; decide)
      have hk2 : k ≠ "solutions".toList := fun e => hk (by rw [e]; decide)
      have hk3 : k ≠ "visible".toList := fun e => hk (by rw [e]; decide)
      have hk4 : k ≠ "input".toList := fun e => hk (by rw [e]; decide)
      rw [lookup_entries_set, if_neg hk1, lookup_entries_set, if_neg hk4, hoth2 k hk2 hk3]
    · rw [lookup_entries_set, if_pos rfl]
    · rw [lookup_entries_set, if_neg (by decide), lookup_entries_set, if_neg (by decide),
        hvis2]
    · intro h; simp at h
    · intro s1 hs1
      simp only [List.cons.injEq, Prod.mk.injEq, Node.Scalar.injEq, true_and, and_true] at hs1
      rw [lookup_entries_set, if_neg (by decide), lookup_entries_set, if_pos rfl, hs1]
    · rw [lookup_entries_set, if_neg (by decide), lookup_entries_set, if_neg (by decide)]
      exact hsol2

theorem parsed_entries_mem (es : List (Str × Node)) (h : parsed_entries es = true) :
    ∀ p ∈ es, p.2.parsed = true := by
  induction es with
  | nil => intro p hp; simp at hp
  | cons q rest ih =>
    obtain ⟨k, n⟩ := q
    simp only [parsed_entries, Bool.and_eq_true] at h
    intro p hp
    rcases List.mem_cons.mp hp with h1 | h1
    · rw [h1]; exact h.1
    · exact ih h.2 p h1

theorem parsed_defined (n : Node) (h : n.parsed = true) : n.IsDefined = true := by
  cases n with
  | Undefined => simp [Node.parsed] at h
  | Null => rfl
  | Scalar s => rfl
  | Sequence l => rfl
  | Map es => rfl

theorem parsed_map (es : List (Str × Node)) (h : (Node.Map es).parsed = true) :
    parsed_entries es = true := by
  simpa [Node.parsed] using h

theorem map_entries_map (es : List (Str × Node)) :
    (Node.Map es).map_entries = some (es.filter (fun p => p.2.IsDefined)) := rfl

theorem isDefined_map (es : List (Str × Node)) : (Node.Map es).IsDefined = true := rfl

/-- The `solutions` node of a parsed static tree from which the solutions of an input line
are read: if there are solutions, the node can be read as a map of initialisable entries. -/
theorem solutions_static (d : InputLineData) (es : List (Str × Node))
    (sols0 : List (Str × Action) × Bool)
    (hp : (Node.Map es).parsed = true) (hd : d.solutions = [])
    (h : InputLine.read_solutions d ((List.lookup "solutions".toList es).getD .Undefined) =
      some sols0)
    (hne : sols0.1 ≠ []) :
    ∃ se0, ((List.lookup "solutions".toList es).getD .Undefined).entries = some se0 ∧
      ((se0.map Prod.fst).Nodup ∧
        ∀ p ∈ se0, p.2.IsDefined = true ∧ ( Action.initialize {} p.2).isSome = true) := by
  have htriv : (([] : List (Str × Node)).map Prod.fst).Nodup ∧
      ∀ p ∈ ([] : List (Str × Node)),
        p.2.IsDefined = true ∧ ( Action.initialize {} p.2).isSome = true :=
    ⟨List.nodup_nil, fun p hp => by simp at hp⟩
  cases hl : List.lookup "solutions".toList es with
  | none => exact ⟨[], rfl, htriv⟩
  | some n =>
    rw [hl] at h
    simp only [Option.getD_some] at h ⊢
    cases n with
    | Undefined => exact ⟨[], rfl, htriv⟩
    | Null => exact ⟨[], rfl, htriv⟩
    | Scalar s =>
      exfalso
      simp only [InputLine.read_solutions, Node.IsDefined, if_true, Node.map_entries,
        Option.some_bind, InputLine.initialize_solutions, Option.some.injEq] at h
      rw [← h] at hne
      exact hne hd
    | Sequence l =>
      cases l with
      | nil => exact ⟨[], rfl, htriv⟩
      | cons a rest =>
        simp [InputLine.read_solutions, Node.IsDefined, Node.map_entries] at h
    | Map ses =>
      have hpe := parsed_entries_mem es (parsed_map es hp) _ (lookup_some_mem _ _ _ hl)
      have hdef : ∀ p ∈ ses, p.2.IsDefined = true := fun p hp1 =>
        parsed_defined _ (parsed_entries_mem ses (parsed_map ses hpe) p hp1)
      have hfilter : ses.filter (fun p => p.2.IsDefined) = ses :=
        List.filter_eq_self.mpr hdef
      simp only [InputLine.read_solutions, isDefined_map, if_true, map_entries_map,
        Option.some_bind, hfilter, hd] at h
      obtain ⟨hnd, _, hall, _⟩ := initialize_solutions_some ses [] false sols0 h
      exact ⟨ses, rfl, hnd, fun p hp1 => ⟨hdef p hp1, hall p hp1⟩⟩

theorem read_solutions_of_entries (d : InputLineData) (se : List (Str × Node))
    (hd : d.solutions = [])
    (h : (se.map Prod.fst).Nodup ∧
      ∀ p ∈ se, p.2.IsDefined = true ∧ ( Action.initialize {} p.2).isSome = true) :
    (InputLine.read_solutions d (.Map se)).isSome = true := by
  have hfilter : se.filter (fun p => p.2.IsDefined) = se :=
    List.filter_eq_self.mpr (fun p hp => (h.2 p hp).1)
  simp only [InputLine.read_solutions, isDefined_map, if_true, map_entries_map,
    Option.some_bind, hfilter, hd]
  exact initialize_solutions_isSome se [] false h.1 (fun k _ hk => by simp at hk)
    (fun p hp => (h.2 p hp).2)

theorem create_element_map (κ : Collaborators) (static : Node) (el0 : Element)
    (h0 : create_element κ static = some el0) :
    ∃ (es : List (Str × Node)) (el_new : Element), static = .Map es ∧
      (el_new = Image.new ∨ el_new = Text.new ∨ el_new = InputLine.new ∨
        el_new = Button.new) ∧
      Element.initialize κ el_new (.Map es) = some el0 ∧
      ∀ es1, List.lookup "type".toList es1 = List.lookup "type".toList es →
        create_element κ (.Map es1) = Element.initialize κ el_new (.Map es1) := by
  cases static with
  | Undefined => simp [create_element, Node.IsDefined] at h0
  | Null => simp [create_element, Node.IsDefined, Node.get, Node.as_string] at h0
  | Scalar s => simp [create_element, Node.IsDefined, Node.get] at h0
  | Sequence l => simp [create_element, Node.IsDefined, Node.get, Node.as_string] at h0
  | Map es =>
    simp only [create_element, Node.IsDefined, get_map, Option.some_bind, Bool.not_true,
      Bool.false_eq_true, if_false] at h0
    cases hn : Node.as_string ((List.lookup "type".toList es).getD .Undefined) with
    | none => rw [hn] at h0; simp at h0
    | some name =>
      rw [hn] at h0
      simp only [Option.some_bind] at h0
      have hcreate : ∀ es1, List.lookup "type".toList es1 = List.lookup "type".toList es →
          create_element κ (.Map es1) =
            match str_to_ElementType name with
            | .Image => Element.initialize κ Image.new (.Map es1)
            | .Text => Element.initialize κ Text.new (.Map es1)
            | .InputLine => Element.initialize κ InputLine.new (.Map es1)
            | .Button => Element.initialize κ Button.new (.Map es1)
            | .Unimplemented => none := by
        intro es1 h1
        simp only [create_element, Node.IsDefined, get_map, Option.some_bind, Bool.not_true,
          Bool.false_eq_true, if_false, h1, hn]
      cases ht : str_to_ElementType name with
      | Unimplemented => rw [ht] at h0; simp at h0
      | Image =>
        rw [ht] at h0
        exact ⟨es, _, rfl, Or.inl rfl, h0, fun es1 h1 => by rw [hcreate es1 h1, ht]⟩
      | Text =>
        rw [ht] at h0
        exact ⟨es, _, rfl, Or.inr (Or.inl rfl), h0, fun es1 h1 => by rw [hcreate es1 h1, ht]⟩
      | InputLine =>
        rw [ht] at h0
        exact ⟨es, _, rfl, Or.inr (Or.inr (Or.inl rfl)), h0,
          fun es1 h1 => by rw [hcreate es1 h1, ht]⟩
      | Button =>
        rw [ht] at h0
        exact ⟨es, _, rfl, Or.inr (Or.inr (Or.inr rfl)), h0,
          fun es1 h1 => by rw [hcreate es1 h1, ht]⟩

theorem disclose_size_config (e : Entity) (s : PxVec2) : (e.disclose_size s).config = e.config := by
  unfold Entity.disclose_size
  cases e.initial_origin <;> rfl

theorem initialize_some (κ : Collaborators) (el el0 : Element) (es : List (Str × Node))
    (h : Element.initialize κ el (.Map es) = some el0) :
    ∃ e1 e2, el.initialize_entity κ (.Map es) = some e1 ∧
      e1.on_initialization κ (.Map es) = some e2 ∧
      el0.kind = e2.kind ∧ el0.entity.config = e2.entity.config := by
  simp only [ Element.initialize, isDefined_map, Bool.not_true, Bool.false_eq_true, if_false,
    Option.bind_eq_some, Option.map_eq_some'] at h
  obtain ⟨e1, h1, e2, h2, h3⟩ := h
  exact ⟨e1, e2, h1, h2, by rw [← h3], by rw [← h3]⟩

theorem initialize_of (κ : Collaborators) (el e1 e2 : Element) (es : List (Str × Node))
    (h1 : el.initialize_entity κ (.Map es) = some e1)
    (h2 : e1.on_initialization κ (.Map es) = some e2) :
    ∃ el2, Element.initialize κ el (.Map es) = some el2 ∧ el2.kind = e2.kind := by
  simp only [ Element.initialize, isDefined_map, Bool.not_true, Bool.false_eq_true, if_false,
    h1, h2, Option.some_bind, Option.map_some']
  exact ⟨_, rfl, rfl⟩

theorem initialize_entity_some (κ : Collaborators) (el e1 : Element)
    (es : List (Str × Node)) (h : el.initialize_entity κ (.Map es) = some e1) :
    e1.kind = el.kind ∧ e1.entity.config = el.entity.config :=
  (initialize_entity_merged κ el e1 es
    (entries_set es "visible".toList (Node.of_bool true)) true
    (fun k hk => by
      rw [lookup_entries_set, if_neg (fun e => hk (by rw [e]; decide))])
    (by rw [lookup_entries_set, if_pos rfl]) h).1

theorem button_on_initialization_some (κ : Collaborators) (el r : Element) (d : ButtonData)
    (es : List (Str × Node)) (h : Button.on_initialization κ el d (.Map es) = some r) :
    (∃ d0, r.kind = .Button d0) ∧ r.entity.config = el.entity.config ∧
    ∃ ne, ((List.lookup "action".toList es).getD .Undefined).entries = some ne := by
  simp only [Button.on_initialization, Option.bind_eq_some, Option.map_eq_some'] at h
  obtain ⟨sized, _, v, hv, hr⟩ := h
  refine ⟨⟨_, by rw [← hr]; rfl⟩, ?_, ?_⟩
  · rw [← hr]
    exact disclose_size_config _ _
  · simp only [Button.read_values, get_map, bind, Option.some_bind, pure] at hv
    simp only [Option.bind_eq_some] at hv
    obtain ⟨_, _, _, _, a, hinit, _⟩ := hv
    exact Action.initialize_entries _ _ _ hinit

theorem button_on_initialization_merged (κ : Collaborators) (ela elb r : Element)
    (d : ButtonData) (es es1 ne : List (Str × Node)) (e l : Bool)
    (hag : ∀ k, k ∉ DYNAMIC_KEYS → List.lookup k es1 = List.lookup k es)
    (hne : ((List.lookup "action".toList es).getD .Undefined).entries = some ne)
    (ha : List.lookup "action".toList es1 =
      some (.Map (entries_set ne "executed".toList (Node.of_bool e))))
    (hl : List.lookup "locked".toList es1 = some (Node.of_bool l))
    (h : Button.on_initialization κ ela d (.Map es) = some r) :
    ∃ r1, Button.on_initialization κ elb d (.Map es1) = some r1 ∧ r1.locked = some l := by
  simp only [Button.on_initialization, Option.bind_eq_some, Option.map_eq_some'] at h
  obtain ⟨sized, hsz, v, hv, _⟩ := h
  obtain ⟨a, ha1⟩ := button_read_values_merged κ d es es1 ne e l v hag hne ha hl hv
  simp only [Button.on_initialization, button_read_size_agree κ es es1 hag, hsz, ha1,
    Option.some_bind, Option.map_some']
  exact ⟨_, rfl, rfl⟩

theorem assemble_facts (κ : Collaborators) (el : Element) (d : InputLineData) (tp : Node)
    (v : InputLineValues) :
    (InputLine.assemble κ el d tp v).locked = some v.locked ∧
    (InputLine.assemble κ el d tp v).input = some (v.input_string.set_string v.input).string ∧
    (InputLine.assemble κ el d tp v).entity.config = el.entity.config ∧
    ∃ d0, (InputLine.assemble κ el d tp v).kind = .InputLine d0 ∧
      d0.input = v.input_string.set_string v.input ∧ d0.solutions = v.solutions ∧
      d0.input_save = v.input_save ∧ d0.auto_clear = v.auto_clear := by
  refine ⟨rfl, ?_, ?_, _, rfl, ?_, ?_, rfl, rfl⟩
  · simp only [InputLine.assemble, Element.set_locked, Element.input,
      InputString.get_string, set_input_input]
  · simp only [InputLine.assemble, Element.set_locked, Entity.set_idle]
    exact disclose_size_config _ _
  · simp only [set_input_input]
  · simp only [set_input_solutions]

theorem agree_visible (es : List (Str × Node)) (v : Bool) :
    ∀ k, k ∉ DYNAMIC_KEYS →
      List.lookup k (entries_set es "visible".toList (Node.of_bool v)) = List.lookup k es := by
  intro k hk
  rw [lookup_entries_set, if_neg (fun e => hk (by rw [e]; decide))]

/-- Save and load of an image or a text: the element is created again. -/
theorem save_load_plain (κ : Collaborators) (es : List (Str × Node))
    (el_new e1 e2 el1 : Element)
    (hcreate : ∀ es1, List.lookup "type".toList es1 = List.lookup "type".toList es →
      create_element κ (.Map es1) = Element.initialize κ el_new (.Map es1))
    (he1 : el_new.initialize_entity κ (.Map es) = some e1)
    (hk : el1.on_dynamic_data_serialization = .Undefined)
    (hps : el1.entity.config.position_save = false)
    (hvs : el1.entity.config.visibility_serialization = true)
    (hon : ∀ ela elb : Element, ela.kind = el_new.kind → elb.kind = el_new.kind →
      ∀ es1, (∀ k, k ∉ DYNAMIC_KEYS → List.lookup k es1 = List.lookup k es) →
      ela.on_initialization κ (.Map es) = some e2 →
      ∃ r, elb.on_initialization κ (.Map es1) = some r ∧ r.locked = none)
    (he2 : e1.on_initialization κ (.Map es) = some e2) :
    ∃ el2, save_and_load κ (.Map es) el1 = some el2 ∧ el2.locked = none := by
  have hag := agree_visible es el1.entity.visible
  obtain ⟨hk1, e1b, he1b, hk1b⟩ := initialize_entity_merged κ el_new e1 es _
    el1.entity.visible hag (by rw [lookup_entries_set, if_pos rfl]) he1
  obtain ⟨r, hr, hrl⟩ := hon e1 e1b hk1.1 hk1b _ hag he2
  obtain ⟨el2, hel2, hk2⟩ := initialize_of κ el_new e1b r _ he1b hr
  refine ⟨el2, ?_, ?_⟩
  · rw [save_and_load, image_text_overlay κ el1 hk hps hvs]
    simp only [Option.some_bind]
    rw [merge_visible]
    simp only [Option.some_bind]
    rw [hcreate _ (hag _ (by decide)), hel2]
  · simp only [Element.locked, hk2] at hrl ⊢
    exact hrl

theorem locked_of_kind (a b : Element) (h : a.kind = b.kind) : a.locked = b.locked := by
  simp only [Element.locked, h]

theorem input_of_kind (a b : Element) (h : a.kind = b.kind) : a.input = b.input := by
  simp only [Element.input, h]

theorem on_initialization_button (κ : Collaborators) (el : Element) (d : ButtonData)
    (n : Node) (h : el.kind = .Button d) :
    el.on_initialization κ n = Button.on_initialization κ el d n := by
  simp only [Element.on_initialization, h]

theorem on_initialization_inputline (κ : Collaborators) (el : Element) (d : InputLineData)
    (n : Node) (h : el.kind = .InputLine d) :
    el.on_initialization κ n = InputLine.on_initialization κ el d n := by
  simp only [Element.on_initialization, h]

/-- Save and load of a button: the lock is the one of the live button. -/
theorem save_load_button (κ : Collaborators) (es : List (Str × Node)) (e1 e2 : Element)
    (e : Entity) (d1 : ButtonData)
    (hcreate : ∀ es1, List.lookup "type".toList es1 = List.lookup "type".toList es →
      create_element κ (.Map es1) = Element.initialize κ Button.new (.Map es1))
    (he1 : Button.new.initialize_entity κ (.Map es) = some e1)
    (he2 : e1.on_initialization κ (.Map es) = some e2)
    (hps : e.config.position_save = false) (hvs : e.config.visibility_serialization = true) :
    ∃ el2, save_and_load κ (.Map es) ⟨e, .Button d1⟩ = some el2 ∧
      el2.locked = some d1.locked := by
  have hk1 := (initialize_entity_some κ _ _ _ he1).1
  have hk1b : e1.kind = .Button {} := hk1
  rw [on_initialization_button κ e1 _ _ hk1b] at he2
  obtain ⟨_, _, ne, hne⟩ := button_on_initialization_some κ _ _ _ _ he2
  have hag : ∀ k, k ∉ DYNAMIC_KEYS →
      List.lookup k (entries_set (entries_set (entries_set es "visible".toList
        (Node.of_bool e.visible)) "action".toList
        (.Map (entries_set ne "executed".toList (Node.of_bool d1.action.executed))))
        "locked".toList (Node.of_bool d1.locked)) = List.lookup k es := by
    intro k hk
    rw [lookup_entries_set, if_neg (fun h => hk (by rw [h]; decide)),
      lookup_entries_set, if_neg (fun h => hk (by rw [h]; decide)),
      lookup_entries_set, if_neg (fun h => hk (by rw [h]; decide))]
  obtain ⟨_, e1b, he1b, hkb⟩ := initialize_entity_merged κ Button.new e1 es _ e.visible hag
    (by rw [lookup_entries_set, if_neg (by decide), lookup_entries_set, if_neg (by decide),
      lookup_entries_set, if_pos rfl]) he1
  have hkb1 : e1b.kind = .Button {} := hkb
  obtain ⟨r1, hr1, hl1⟩ := button_on_initialization_merged κ e1 e1b e2 {} es _ ne
    d1.action.executed d1.locked hag hne
    (by rw [lookup_entries_set, if_neg (by decide), lookup_entries_set, if_pos rfl])
    (by rw [lookup_entries_set, if_pos rfl]) he2
  rw [← on_initialization_button κ e1b _ _ hkb1] at hr1
  obtain ⟨el2, hel2, hk2⟩ := initialize_of κ Button.new e1b r1 _ he1b hr1
  refine ⟨el2, ?_, ?_⟩
  · rw [save_and_load, button_overlay κ e d1 hps hvs]
    simp only [Option.some_bind]
    rw [merge_button es ne _ _ _ hne]
    simp only [Option.some_bind]
    rw [hcreate _ (hag _ (by decide)), hel2]
  · rw [locked_of_kind el2 r1 hk2, hl1]

theorem inputline_static (κ : Collaborators) (el r0 : Element) (d : InputLineData)
    (es : List (Str × Node)) (h : InputLine.on_initialization κ el d (.Map es) = some r0) :
    (∃ sols0, InputLine.read_solutions d
        ((List.lookup "solutions".toList es).getD .Undefined) = some sols0 ∧
      ∀ d0, r0.kind = .InputLine d0 → d0.solutions = sols0.1) ∧
    ∃ i0, string_or ((List.lookup "input".toList es).getD .Undefined) [] = some i0 := by
  simp only [InputLine.on_initialization, read_nodes_map, Option.some_bind,
    InputLine.read_values, bind, pure] at h
  simp only [Option.map_eq_some', Option.bind_eq_some] at h
  obtain ⟨v0, ⟨sols0, hs0, u, _, input1, _, input2, _, i0, hi0, isv, _, acl, _, l0, _,
    snd, _, hv0⟩, hr0⟩ := h
  refine ⟨⟨sols0, hs0, ?_⟩, i0, hi0⟩
  intro d0 hd0
  obtain ⟨_, _, _, d0b, hkb, _, hsol, _⟩ := assemble_facts κ el d
    ((List.lookup "text_props".toList es).getD .Undefined) v0
  rw [hr0, hd0] at hkb
  simp only [ElementKind.InputLine.injEq] at hkb
  simp only [Option.some.injEq] at hv0
  rw [hkb, hsol, ← hv0]

theorem holds_congr (i j : InputString) (s : Str) (h1 : i.char_checker = j.char_checker)
    (h2 : i.max_len = j.max_len) : i.holds s = j.holds s := by
  simp only [InputString.holds, h1, h2]

/-- Save and load of an input line: the lock is the one of the live input line, and so is
the input if a non-empty committed input is saved. -/
theorem save_load_inputline (κ : Collaborators) (es : List (Str × Node)) (e1 e2 : Element)
    (e : Entity) (d0 d1 : InputLineData)
    (hp : (Node.Map es).parsed = true)
    (hcreate : ∀ es1, List.lookup "type".toList es1 = List.lookup "type".toList es →
      create_element κ (.Map es1) = Element.initialize κ InputLine.new (.Map es1))
    (he1 : InputLine.new.initialize_entity κ (.Map es) = some e1)
    (he2 : e1.on_initialization κ (.Map es) = some e2)
    (hk0 : e2.kind = .InputLine d0)
    (hkeys : d1.solutions.map Prod.fst = d0.solutions.map Prod.fst)
    (hcc : d1.input.char_checker = d0.input.char_checker)
    (hml : d1.input.max_len = d0.input.max_len)
    (hps : e.config.position_save = false) (hvs : e.config.visibility_serialization = true) :
    ∃ el2, save_and_load κ (.Map es) ⟨e, .InputLine d1⟩ = some el2 ∧
      el2.locked = some d1.locked ∧
      (d1.input_save = true → d1.auto_clear = false → d1.last_committed_input ≠ [] →
        d1.input.holds d1.last_committed_input = true →
        el2.input = some d1.last_committed_input) := by
  have hk1 := (initialize_entity_some κ _ _ _ he1).1
  have hk1b : e1.kind = .InputLine {} := hk1
  rw [on_initialization_inputline κ e1 _ _ hk1b] at he2
  obtain ⟨⟨sols0, hs0, hd0⟩, i0, hi0⟩ := inputline_static κ _ _ _ _ he2
  have hsol0 := hd0 d0 hk0
  obtain ⟨solpart, hov, hsp, hspnil⟩ := inputline_overlay κ e d1 hps hvs
  have hinp : (if d1.input_save && !d1.auto_clear && !d1.last_committed_input.isEmpty then
      [("input".toList, Node.Scalar d1.last_committed_input)] else []) = [] ∨
      ∃ s, (if d1.input_save && !d1.auto_clear && !d1.last_committed_input.isEmpty then
      [("input".toList, Node.Scalar d1.last_committed_input)] else []) =
        [("input".toList, Node.Scalar s)] := by
    split
    · exact Or.inr ⟨_, rfl⟩
    · exact Or.inl rfl
  have hS : solpart ≠ [] → ∃ se0,
      ((List.lookup "solutions".toList es).getD .Undefined).entries = some se0 ∧
      ((se0.map Prod.fst).Nodup ∧
        ∀ p ∈ se0, p.2.IsDefined = true ∧ ( Action.initialize {} p.2).isSome = true) := by
    intro hne
    apply solutions_static {} es sols0 hp rfl hs0
    intro hnil
    apply hne
    apply hspnil
    rw [hsol0, hnil] at hkeys
    simpa using hkeys
  obtain ⟨es1, hmerge, hag, hl, hv, hin0, hin1, hsol⟩ :=
    inputline_merge es solpart _ e.visible d1.locked hsp hinp hS
  have hsol1 : (InputLine.read_solutions {}
      ((List.lookup "solutions".toList es1).getD .Undefined)).isSome = true := by
    rcases hsol with h | ⟨se1, h, hinv⟩
    · rw [h, hs0]; rfl
    · rw [h]
      exact read_solutions_of_entries {} se1 rfl hinv
  have hin : ∃ i1, string_or ((List.lookup "input".toList es1).getD .Undefined) [] = some i1 ∧
      (d1.input_save = true → d1.auto_clear = false → d1.last_committed_input ≠ [] →
        i1 = d1.last_committed_input) := by
    by_cases hc : (d1.input_save && !d1.auto_clear && !d1.last_committed_input.isEmpty) = true
    · refine ⟨d1.last_committed_input, ?_, fun _ _ _ => rfl⟩
      rw [hin1 d1.last_committed_input (by rw [if_pos hc])]
      rfl
    · refine ⟨i0, ?_, ?_⟩
      · rw [hin0 (by rw [if_neg hc]), hi0]
      · intro h1 h2 h3
        exfalso
        apply hc
        rw [h1, h2]
        cases hlc : d1.last_committed_input with
        | nil => exact absurd hlc h3
        | cons c cs => rfl
  obtain ⟨i1, hi1, hi1s⟩ := hin
  obtain ⟨_, e1b, he1b, hkb⟩ := initialize_entity_merged κ InputLine.new e1 es es1 e.visible
    hag hv he1
  have hkb1 : e1b.kind = .InputLine {} := hkb
  obtain ⟨v0, v1, tp, hr0, hr1, hvi, hvin, hvl, _, _⟩ :=
    inputline_on_initialization_merged κ e1 e1b e2 {} es es1 d1.locked i1 hag hsol1 hi1 hl he2
  rw [← on_initialization_inputline κ e1b _ _ hkb1] at hr1
  obtain ⟨el2, hel2, hk2⟩ := initialize_of κ InputLine.new e1b _ _ he1b hr1
  obtain ⟨hf1, hf2, _, _⟩ := assemble_facts κ e1b {} tp v1
  obtain ⟨_, _, _, d0b, hd0b, hd0in, _⟩ := assemble_facts κ e1 {} tp v0
  refine ⟨el2, ?_, ?_, ?_⟩
  · rw [save_and_load, hov]
    simp only [Option.some_bind]
    rw [hmerge]
    simp only [Option.some_bind]
    rw [hcreate _ (hag _ (by decide)), hel2]
  · rw [locked_of_kind el2 _ hk2, hf1, hvl]
  · intro h1 h2 h3 h4
    rw [input_of_kind el2 _ hk2, hf2, hvi, hvin, hi1s h1 h2 h3]
    congr 1
    apply set_string_string
    rw [← hr0, hk0] at hd0b
    simp only [ElementKind.InputLine.injEq] at hd0b
    rw [← h4]
    apply holds_congr
    · rw [hcc, hd0b, hd0in]; rfl
    · rw [hml, hd0b, hd0in]; rfl

theorem element_config_flags (el_new : Element)
    (h : el_new = Image.new ∨ el_new = Text.new ∨ el_new = InputLine.new ∨
      el_new = Button.new) :
    el_new.entity.config.position_save = false ∧
    el_new.entity.config.visibility_serialization = true := by
  rcases h with h | h | h | h <;> subst h <;> exact ⟨rfl, rfl⟩

/-- **C10**, counterexample.  An input line whose static tree has the input `foo`: the user
erases the input and commits the empty string, with `input_save` on and `auto_clear` off.
The dynamic data holds no `input`, so the reloaded line has the input `foo`, not the
committed empty string. -/
theorem committed_empty_input_not_restored :
    create_element example_collaborators example_inputline = some example_created ∧
    example_cleared.saves_input = true ∧
    example_cleared.last_committed_input = some [] ∧
    example_cleared.input = some [] ∧
    (save_and_load example_collaborators example_inputline example_cleared).bind
      Element.input = some "foo".toList := by
  decide!

theorem inputline_assembled (κ : Collaborators) (el r0 : Element) (d : InputLineData)
    (es : List (Str × Node)) (h : InputLine.on_initialization κ el d (.Map es) = some r0) :
    ∃ tp v0, r0 = InputLine.assemble κ el d tp v0 := by
  simp only [InputLine.on_initialization, read_nodes_map, Option.some_bind,
    Option.map_eq_some'] at h
  obtain ⟨v0, _, hr0⟩ := h
  exact ⟨_, v0, hr0.symm⟩

/-- **C10**, amended.  Save then load of an element restores the lock of a `Button` or an
`InputLine`, and the input of an `InputLine` whose committed input is not empty: for every
parsed static tree from which the element `el0` is created and every live state `el1` of
that element, serialising `el1`, inserting the overlay into the static tree and creating the
element again succeeds with the element `el2`, where `el2.locked` is the lock of `el1` and,
if `el1` is an input line with `input_save` on, `auto_clear` off and a committed input that is
not empty (and that the input string can hold), `el2.input` is that committed input. -/
theorem save_load_restores_locked_and_input (κ : Collaborators) (static : Node)
    (el0 el1 : Element) (hp : static.parsed = true)
    (h0 : create_element κ static = some el0) (hs : el0.same_setup el1 = true) :
    ∃ el2, save_and_load κ static el1 = some el2 ∧ el2.locked = el1.locked ∧
      ∀ d, el1.kind = .InputLine d → d.input_save = true → d.auto_clear = false →
        d.last_committed_input ≠ [] → d.input.holds d.last_committed_input = true →
        el2.input = some d.last_committed_input := by
  obtain ⟨es, el_new, hst, hnew, hinit, hcreate⟩ := create_element_map κ static el0 h0
  subst hst
  obtain ⟨e1, e2, he1, he2, hk0, hc0⟩ := initialize_some κ el_new el0 es hinit
  obtain ⟨hk1, hc1⟩ := initialize_entity_some κ el_new e1 es he1
  obtain ⟨hps0, hvs0⟩ := element_config_flags el_new hnew
  simp only [Element.same_setup, Bool.and_eq_true, decide_eq_true_eq] at hs
  obtain ⟨hcfg, hkind⟩ := hs
  obtain ⟨entity1, kind1⟩ := el1
  simp only at hcfg hkind
  rcases hnew with h | h | h | h
  · -- an image
    subst h
    have hk1b : e1.kind = .Image := hk1
    have he2b : e2.kind = .Image ∧ e2.entity.config = e1.entity.config := by
      simp only [Element.on_initialization, hk1b, Image.on_initialization,
        Option.map_eq_some'] at he2
      obtain ⟨size, _, hr⟩ := he2
      rw [← hr]
      exact ⟨rfl, disclose_size_config _ _⟩
    rw [hk0, he2b.1] at hkind
    rw [hc0, he2b.2, hc1] at hcfg
    cases kind1 with
    | Image =>
      obtain ⟨el2, h1, h2⟩ := save_load_plain κ es Image.new e1 e2 ⟨entity1, .Image⟩ hcreate
        he1 rfl (by simp only [hcfg]; exact hps0) (by simp only [hcfg]; exact hvs0)
        (fun ela elb ha hb es1 hag hon => by
          have ha1 : ela.kind = .Image := ha
          have hb1 : elb.kind = .Image := hb
          simp only [Element.on_initialization, ha1, hb1, Image.on_initialization,
            image_read_size_agree κ es es1 hag, Option.map_eq_some'] at hon ⊢
          obtain ⟨size, hsz, _⟩ := hon
          exact ⟨_, ⟨size, hsz, rfl⟩, by simp only [Element.locked, hb1]⟩) he2
      exact ⟨el2, h1, h2, fun d hd => by simp at hd⟩
    | Text s => simp at hkind
    | Button d => simp at hkind
    | InputLine d => simp at hkind
  · -- a text
    subst h
    have hk1b : e1.kind = .Text [] := hk1
    have he2b : (∃ s, e2.kind = .Text s) ∧ e2.entity.config = e1.entity.config := by
      simp only [Element.on_initialization, hk1b, Text.on_initialization,
        Option.map_eq_some'] at he2
      obtain ⟨r, _, hr⟩ := he2
      rw [← hr]
      exact ⟨⟨_, rfl⟩, disclose_size_config _ _⟩
    obtain ⟨⟨s0, hs0⟩, hc2⟩ := he2b
    rw [hk0, hs0] at hkind
    rw [hc0, hc2, hc1] at hcfg
    cases kind1 with
    | Text s =>
      obtain ⟨el2, h1, h2⟩ := save_load_plain κ es Text.new e1 e2 ⟨entity1, .Text s⟩ hcreate
        he1 rfl (by simp only [hcfg]; exact hps0) (by simp only [hcfg]; exact hvs0)
        (fun ela elb ha hb es1 hag hon => by
          have ha1 : ela.kind = .Text [] := ha
          have hb1 : elb.kind = .Text [] := hb
          simp only [Element.on_initialization, ha1, hb1, Text.on_initialization,
            text_read_text_agree κ es es1 hag, Option.map_eq_some'] at hon ⊢
          obtain ⟨r, hr, _⟩ := hon
          exact ⟨_, ⟨r, hr, rfl⟩, rfl⟩) he2
      exact ⟨el2, h1, h2, fun d hd => by simp at hd⟩
    | Image => simp at hkind
    | Button d => simp at hkind
    | InputLine d => simp at hkind
  · -- an input line
    subst h
    have hk1b : e1.kind = .InputLine {} := hk1
    have he2c := he2
    rw [on_initialization_inputline κ e1 _ _ hk1b] at he2c
    obtain ⟨tp, v0, hr0⟩ := inputline_assembled κ _ _ _ _ he2c
    obtain ⟨_, _, hcf, d0, hd0, _⟩ := assemble_facts κ e1 {} tp v0
    rw [← hr0] at hd0 hcf
    rw [hk0, hd0] at hkind
    rw [hc0, hcf, hc1] at hcfg
    cases kind1 with
    | InputLine d1 =>
      simp only [Bool.and_eq_true, decide_eq_true_eq] at hkind
      obtain ⟨⟨⟨⟨_, _⟩, hkeys⟩, hcc⟩, hml⟩ := hkind
      obtain ⟨el2, h1, h2, h3⟩ := save_load_inputline κ es e1 e2 entity1 d0 d1 hp hcreate
        he1 he2 hd0 hkeys hcc hml (by rw [hcfg]; exact hps0) (by rw [hcfg]; exact hvs0)
      refine ⟨el2, h1, h2, ?_⟩
      intro d hd
      simp only [ElementKind.InputLine.injEq] at hd
      subst hd
      exact h3
    | Image => simp at hkind
    | Text s => simp at hkind
    | Button d => simp at hkind
  · -- a button
    subst h
    have hk1b : e1.kind = .Button {} := hk1
    have he2c := he2
    rw [on_initialization_button κ e1 _ _ hk1b] at he2c
    obtain ⟨⟨d0, hd0⟩, hcf, _⟩ := button_on_initialization_some κ _ _ _ _ he2c
    rw [hk0, hd0] at hkind
    rw [hc0, hcf, hc1] at hcfg
    cases kind1 with
    | Button d1 =>
      obtain ⟨el2, h1, h2⟩ := save_load_button κ es e1 e2 entity1 d1 hcreate he1 he2
        (by rw [hcfg]; exact hps0) (by rw [hcfg]; exact hvs0)
      exact ⟨el2, h1, h2, fun d hd => by simp at hd⟩
    | Image => simp at hkind
    | Text s => simp at hkind
    | InputLine d => simp at hkind

/-- **C10**, witness: the input line created from `example_inputline`, after `x` is typed
and committed and the line is locked, is reloaded locked and with the input `x`. -/
theorem save_load_restores_locked_and_input_witness :
    (example_live.locked = some true ∧ example_live.last_committed_input = some "x".toList) ∧
    ∃ el2, save_and_load example_collaborators example_inputline example_live = some el2 ∧
      el2.locked = example_live.locked ∧
      ∀ d, example_live.kind = .InputLine d → d.input_save = true → d.auto_clear = false →
        d.last_committed_input ≠ [] → d.input.holds d.last_committed_input = true →
        el2.input = some d.last_committed_input :=
  ⟨by decide!,
    save_load_restores_locked_and_input example_collaborators example_inputline
      example_created example_live (by decide!) (by decide!) (by decide!)⟩

theorem lookup_none_mem {β : Type} (key : Str) (es : List (Str × β))
    (h : List.lookup key es = none) : ∀ p ∈ es, p.1 ≠ key := by
  induction es with
  | nil => intro p hp; simp at hp
  | cons q rest ih =>
    obtain ⟨k, v⟩ := q
    rw [lookup_cons_entry] at h
    by_cases hk : key = k
    · rw [if_pos hk] at h; exact Option.noConfusion h
    · rw [if_neg hk] at h
      intro p hp
      rcases List.mem_cons.mp hp with h1 | h1
      · rw [h1]; exact fun e => hk e.symm
      · exact ih h p h1

/-! ## C12: `Executor::is_busy` -/

/-- **C12**, counterexample.  The sequence `postpone(2)` is queued and `update(0)` is called:
the postpone command is executed, so the queue is empty and the postpone timer is 2, and
`is_busy()` is false although the timer is active. -/
theorem is_busy_false_while_postponed :
    (Executor.update 0
        { executor := ({} : Executor).queue_execution "postpone(2)".toList 0 }).executor.commands
      = [] ∧
    (Executor.update 0
        { executor := ({} : Executor).queue_execution "postpone(2)".toList 0
          }).executor.postpone_timer = 2 ∧
    (Executor.update 0
        { executor := ({} : Executor).queue_execution "postpone(2)".toList 0 }).executor.is_busy
      = false := by
  decide!

/-- **C12**, amended.  `is_busy()` is true exactly when a command remains queued, whatever
the postpone timer is; so a busy executor has a command queued or an active timer, but not
conversely. -/
theorem is_busy_iff_queued (ex : Executor) :
    (ex.is_busy = true ↔ ex.commands ≠ []) ∧
    (ex.is_busy = true → ex.commands ≠ [] ∨ ex.postpone_timer > 0) ∧
    (ex.commands = [] → ex.is_busy = false) := by
  cases h : ex.commands <;> simp [Executor.is_busy, h]

/-! ## C14: `EARManager::dispatch_queued_events` -/

/-- A call of `dispatch_queued_events` that returns leaves the queue empty: what a handler
queues during the drain is delivered in the same call. -/
theorem dispatch_queued_events_empties (fuel : Nat) :
    ∀ (m : EARManager) (r : EARManager × List Delivery),
      m.dispatch_queued_events fuel = some r → r.1.queued_events = [] := by
  induction fuel with
  | zero =>
    intro m r h
    rw [EARManager.dispatch_queued_events] at h
    cases hq : m.queued_events with
    | nil => rw [hq] at h; simp only [Option.some.injEq] at h; rw [← h]; exact hq
    | cons ed rest => obtain ⟨e, d⟩ := ed; rw [hq] at h; simp at h
  | succ fuel ih =>
    intro m r h
    rw [EARManager.dispatch_queued_events] at h
    cases hq : m.queued_events with
    | nil => rw [hq] at h; simp only [Option.some.injEq] at h; rw [← h]; exact hq
    | cons ed rest =>
      obtain ⟨e, d⟩ := ed
      rw [hq] at h
      simp only [Option.map_eq_some'] at h
      obtain ⟨r2, h2, hr⟩ := h
      rw [← hr]
      exact ih _ r2 h2

/-- **C14**, the divergence.  One observer queues `Reveal` when it is told `Hide`; the queue
holds `Hide` alone.  One call of `dispatch_queued_events` delivers `Hide` and, in the same
call, the `Reveal` queued during the drain, and leaves the queue empty. -/
theorem dispatch_delivers_events_queued_mid_drain :
    EARManager.dispatch_queued_events 2
      { observers := [example_requeueing_observer],
        queued_events := [(Event.Hide, Data.of "a".toList)] } =
      some ({ observers := [example_requeueing_observer], queued_events := [] },
        [(0, Event.Hide, Data.of "a".toList), (0, Event.Reveal, Data.of "a".toList)]) := by
  rfl

/-! ## C15: hovered and active need `activatable` -/

theorem Entity.call_gated (e : Entity) (c : EntityCall)
    (h : e.hovered = true ∨ e.active = true → e.config.activatable = true) :
    (e.call c).config = e.config ∧
    ((e.call c).hovered = true ∨ (e.call c).active = true →
      (e.call c).config.activatable = true) := by
  cases c with
  | set_visible v => exact ⟨rfl, h⟩
  | set_idle v => exact ⟨rfl, h⟩
  | set_hovered v =>
    simp only [Entity.call, Entity.set_hovered]
    cases ha : e.config.activatable with
    | false => simpa [ha] using h
    | true => simp [ha]
  | set_active v =>
    simp only [Entity.call, Entity.set_active]
    cases ha : e.config.activatable with
    | false => simpa [ha] using h
    | true => simp [ha]
  | set_position p =>
    simp only [Entity.call, Entity.set_position, Entity.set_position_origin]
    cases e.initial_origin <;> exact ⟨rfl, h⟩
  | set_position_origin p o =>
    simp only [Entity.call, Entity.set_position_origin]
    cases o <;> exact ⟨rfl, h⟩

theorem Entity.calls_gated (cs : List EntityCall) :
    ∀ e : Entity, (e.hovered = true ∨ e.active = true → e.config.activatable = true) →
      (e.calls cs).config = e.config ∧
      ((e.calls cs).hovered = true ∨ (e.calls cs).active = true →
        e.config.activatable = true) := by
  induction cs with
  | nil => intro e h; exact ⟨rfl, h⟩
  | cons c rest ih =>
    intro e h
    obtain ⟨hc, hg⟩ := Entity.call_gated e c h
    obtain ⟨hc2, hg2⟩ := ih (e.call c) hg
    simp only [Entity.calls, List.foldl_cons] at hc2 hg2 ⊢
    exact ⟨hc2.trans hc, fun hx => by rw [← hc]; exact hg2 hx⟩

/-- **C15**.  On an entity that is not activatable `set_hovered(v)` and `set_active(v)`
change nothing, for both values of `v`; and in every state reached from the constructor by
calls of `set_visible`, `set_hovered`, `set_active`, `set_idle` and `set_position`, an entity
that is hovered or active is activatable. -/
theorem hovered_active_need_activatable (config : EntityConfig) (cs : List EntityCall) :
    (∀ (e : Entity) (v : Bool), e.config.activatable = false →
      e.set_hovered v = e ∧ e.set_active v = e) ∧
    (((Entity.new config).calls cs).hovered = true ∨
      ((Entity.new config).calls cs).active = true → config.activatable = true) := by
  refine ⟨?_, ?_⟩
  · intro e v h
    simp [Entity.set_hovered, Entity.set_active, h]
  · exact (Entity.calls_gated cs (Entity.new config) (by simp [Entity.new])).2

/-! ## C16, C17: hiding an object -/

theorem OrderedMap.keys_modify {α : Type} (m : OrderedMap α) (key : ID) (f : α → α) :
    (m.modify key f).map Prod.fst = m.map Prod.fst := by
  unfold OrderedMap.modify
  rw [List.map_map]
  apply List.map_congr_left
  intro p _
  by_cases h : p.1 = key <;> simp [h]

theorem Object.set_hovered_flags (o : Object) (v : Bool)
    (h : o.entity.config.activatable = true) :
    (o.set_hovered v).entity.hovered = v ∧
    (o.set_hovered v).entity.active = o.entity.active ∧
    (o.set_hovered v).entity.visible = o.entity.visible ∧
    (o.set_hovered v).entity.config = o.entity.config := by
  cases o with
  | Sheet s =>
    simp only [Object.entity] at h
    simp only [Object.set_hovered, Object.entity, Sheet.set_hovered, h]
    cases v
    · cases s.hovered_element <;> simp
    · simp
  | Binder b =>
    simp only [Object.entity] at h
    simp only [Object.set_hovered, Object.entity, Binder.set_hovered, Binder.forward,
      Entity.set_idle, h]
    simp only [Bool.not_true, Bool.false_eq_true, if_false]
    split
    · split <;> simp
    · simp

theorem Object.set_active_flags (o : Object) (v : Bool)
    (h : o.entity.config.activatable = true) :
    (o.set_active v).entity.active = v ∧
    (o.set_active v).entity.hovered = o.entity.hovered ∧
    (o.set_active v).entity.visible = o.entity.visible ∧
    (o.set_active v).entity.config = o.entity.config := by
  cases o with
  | Sheet s =>
    simp only [Object.entity] at h
    simp only [Object.set_active, Object.entity, Sheet.set_active, h]
    cases v
    · cases s.active_element <;> simp
    · simp
  | Binder b =>
    simp only [Object.entity] at h
    simp only [Object.set_active, Object.entity, Binder.set_active, Binder.forward,
      Entity.set_idle, h]
    simp only [Bool.not_true, Bool.false_eq_true, if_false]
    split
    · split <;> simp
    · simp

theorem Object.set_visible_flags (o : Object) (v : Bool) :
    (o.set_visible v).entity.visible = v ∧
    (o.set_visible v).entity.hovered = o.entity.hovered ∧
    (o.set_visible v).entity.active = o.entity.active ∧
    (o.set_visible v).entity.config = o.entity.config := by
  cases o with
  | Sheet s => simp [Object.set_visible, Object.entity, Sheet.set_visible]
  | Binder b =>
    simp only [Object.set_visible, Object.entity, Binder.set_visible, Binder.forward,
      Entity.set_idle]
    split
    · split <;> simp
    · simp

theorem set_topmost_object_roles (lp : LevelPlayer) (object : Option ID) :
    (lp.set_topmost_object object).hovered_object = lp.hovered_object ∧
    (lp.set_topmost_object object).active_object = lp.active_object ∧
    (lp.set_topmost_object object).previous_object = lp.previous_object ∧
    (lp.set_topmost_object object).clasped_object = lp.clasped_object ∧
    (lp.set_topmost_object object).mouse_grabbed_object = lp.mouse_grabbed_object := by
  unfold LevelPlayer.set_topmost_object
  cases object with
  | none => simp
  | some key =>
    simp only
    split
    · split
      · simp
      · split <;> simp
    · simp

/-- The state after `LevelPlayer::hide` of a whole object, step by step. -/
theorem hide_whole_object (lp : LevelPlayer) (a : ID) (mc : Bool)
    (hsplit : str_split a ID_TREE_DELIM = (a, none)) (hin : lp.objects.contains a = true) :
    ∃ lp1 lp2 lp3 : LevelPlayer,
      lp1 = (if mc then (lp.set_topmost_object (some a)).unclasp else lp) ∧
      lp2 = (if some a = lp1.hovered_object then
          { lp1 with
            objects := lp1.objects.modify a (fun o => o.set_hovered false)
            hovered_object := none }
        else lp1) ∧
      lp3 = (if some a = lp2.active_object then
          { lp2 with
            objects := lp2.objects.modify a (fun o => o.set_active false)
            active_object := none }
        else lp2) ∧
      lp.hide a mc = { lp3 with objects := (lp3.objects.modify a
        (fun o => if o.is_visible then o.set_visible false else o)) } := by
  refine ⟨_, _, _, rfl, rfl, rfl, ?_⟩
  simp only [LevelPlayer.hide, hsplit, LevelPlayer.get_object, hin, if_true]

/-- **C17**, counterexample.  `A` is made the active object, then `B`: `previous_object`
refers to `A`.  After `hide("A", false)` the object `A` is hidden and `previous_object` still
refers to it; and an object that is clasped or grabbed by the mouse stays so when it is
hidden. -/
theorem hide_keeps_previous_object :
    (((example_level_player.set_active_object (some "A".toList)).set_active_object
      (some "B".toList)).hide "A".toList false).previous_object = some "A".toList ∧
    ((((example_level_player.set_active_object (some "A".toList)).set_active_object
      (some "B".toList)).hide "A".toList false).objects.find "A".toList).map
        Object.is_visible = some false ∧
    ((example_level_player.clasp (some "A".toList)).hide "A".toList false).clasped_object =
      some "A".toList ∧
    ((example_level_player.mouse_grab (some "A".toList)).hide "A".toList true
      ).mouse_grabbed_object = some "A".toList := by
  decide!

/-- The five role references after `LevelPlayer::hide` of a whole object. -/
theorem hide_whole_object_roles (lp : LevelPlayer) (a : ID) (mc : Bool)
    (hsplit : str_split a ID_TREE_DELIM = (a, none)) (hin : lp.objects.contains a = true) :
    (lp.hide a mc).hovered_object ≠ some a ∧ (lp.hide a mc).active_object ≠ some a ∧
      (lp.hide a mc).previous_object = lp.previous_object ∧
      (lp.hide a mc).mouse_grabbed_object = lp.mouse_grabbed_object ∧
      (lp.hide a mc).clasped_object = (if mc then none else lp.clasped_object) := by
  obtain ⟨lp1, lp2, lp3, h1, h2, h3, hh⟩ := hide_whole_object lp a mc hsplit hin
  rw [hh]
  simp only
  have r1 : lp1.hovered_object = lp.hovered_object ∧ lp1.active_object = lp.active_object ∧
      lp1.previous_object = lp.previous_object ∧
      lp1.mouse_grabbed_object = lp.mouse_grabbed_object ∧
      lp1.clasped_object = (if mc then none else lp.clasped_object) := by
    obtain ⟨t1, t2, t3, _, t5⟩ := set_topmost_object_roles lp (some a)
    cases mc
    · simp [h1]
    · simp [h1, LevelPlayer.unclasp, t1, t2, t3, t5]
  have r2 : lp2.hovered_object ≠ some a ∧ lp2.active_object = lp1.active_object ∧
      lp2.previous_object = lp1.previous_object ∧
      lp2.mouse_grabbed_object = lp1.mouse_grabbed_object ∧
      lp2.clasped_object = lp1.clasped_object := by
    by_cases hc : some a = lp1.hovered_object
    · rw [h2, if_pos hc]
      exact ⟨fun e => Option.noConfusion e, rfl, rfl, rfl, rfl⟩
    · rw [h2, if_neg hc]
      exact ⟨fun e => hc e.symm, rfl, rfl, rfl, rfl⟩
  have r3 : lp3.hovered_object = lp2.hovered_object ∧ lp3.active_object ≠ some a ∧
      lp3.previous_object = lp2.previous_object ∧
      lp3.mouse_grabbed_object = lp2.mouse_grabbed_object ∧
      lp3.clasped_object = lp2.clasped_object := by
    by_cases hc : some a = lp2.active_object
    · rw [h3, if_pos hc]
      exact ⟨rfl, fun e => Option.noConfusion e, rfl, rfl, rfl⟩
    · rw [h3, if_neg hc]
      exact ⟨rfl, fun e => hc e.symm, rfl, rfl, rfl⟩
  obtain ⟨a1, a2, a3, a4, a5⟩ := r1
  obtain ⟨b1, b2, b3, b4, b5⟩ := r2
  obtain ⟨c1, c2, c3, c4, c5⟩ := r3
  exact ⟨by rw [c1]; exact b1, c2, by rw [c3, b3, a3], by rw [c4, b4, a4],
    by rw [c5, b5, a5]⟩

/-- **C17**, amended.  After `LevelPlayer::hide` of a whole object `a` that is in the map,
neither `hovered_object` nor `active_object` refers to `a`; `previous_object` and
`mouse_grabbed_object` are what they were, and `clasped_object` is emptied only if the camera
is moved.  After `clear_objects` the map is empty and all five references are empty. -/
theorem hide_clears_hovered_and_active_only (lp : LevelPlayer) (a : ID) (mc : Bool)
    (hsplit : str_split a ID_TREE_DELIM = (a, none)) (hin : lp.objects.contains a = true) :
    ((lp.hide a mc).hovered_object ≠ some a ∧ (lp.hide a mc).active_object ≠ some a ∧
      (lp.hide a mc).previous_object = lp.previous_object ∧
      (lp.hide a mc).mouse_grabbed_object = lp.mouse_grabbed_object ∧
      (lp.hide a mc).clasped_object = (if mc then none else lp.clasped_object)) ∧
    (lp.clear_objects.objects = [] ∧ lp.clear_objects.hovered_object = none ∧
      lp.clear_objects.active_object = none ∧ lp.clear_objects.previous_object = none ∧
      lp.clear_objects.clasped_object = none ∧
      lp.clear_objects.mouse_grabbed_object = none) :=
  ⟨hide_whole_object_roles lp a mc hsplit hin,
    by simp [LevelPlayer.clear_objects, LevelPlayer.unclasp, LevelPlayer.mouse_ungrab]⟩

/-- **C17**, witness: the object `A` of the example, hovered, then hidden. -/
theorem hide_clears_hovered_and_active_only_witness :
    ((example_level_player.set_hovered_object (some "A".toList)).hovered_object =
      some "A".toList) ∧
    (((example_level_player.set_hovered_object (some "A".toList)).hide "A".toList
      false).hovered_object ≠ some "A".toList) :=
  ⟨by decide!,
    (hide_clears_hovered_and_active_only
      (example_level_player.set_hovered_object (some "A".toList)) "A".toList false
      (by decide!) (by decide!)).1.1⟩

/-- **C16**, amended.  Hiding an object `a` whose ID holds no delimiter, so that
`hide(a, false)` addresses the whole object, and whose flags agree with the roles (it is
activatable, and hovered or active only if the level player refers to it so): afterwards the
object is not visible, not hovered and not active, neither `hovered_object` nor
`active_object` refers to it, and the order of the object map is what it was. -/
theorem hide_object_detaches (lp : LevelPlayer) (a : ID) (o : Object)
    (hsplit : str_split a ID_TREE_DELIM = (a, none))
    (hfind : lp.objects.find a = some o)
    (hact : o.entity.config.activatable = true)
    (hh : o.entity.hovered = true → lp.hovered_object = some a)
    (ha : o.entity.active = true → lp.active_object = some a) :
    ∃ o1, (lp.hide a false).objects.find a = some o1 ∧
      o1.entity.visible = false ∧ o1.entity.hovered = false ∧ o1.entity.active = false ∧
      (lp.hide a false).hovered_object ≠ some a ∧ (lp.hide a false).active_object ≠ some a ∧
      (lp.hide a false).objects.map Prod.fst = lp.objects.map Prod.fst := by
  have hin := OrderedMap.contains_of_find lp.objects a o hfind
  obtain ⟨r1, r2, _⟩ := hide_whole_object_roles lp a false hsplit hin
  obtain ⟨lp1, lp2, lp3, h1, h2, h3, hh1⟩ := hide_whole_object lp a false hsplit hin
  simp only [Bool.false_eq_true, if_false] at h1
  rw [h1] at h2
  -- the object after the hovered role is dropped
  have s2 : ∃ o2, lp2.objects.find a = some o2 ∧ o2.entity.hovered = false ∧
      o2.entity.active = o.entity.active ∧ o2.entity.config = o.entity.config ∧
      lp2.objects.map Prod.fst = lp.objects.map Prod.fst ∧
      lp2.active_object = lp.active_object := by
    by_cases hc : some a = lp.hovered_object
    · rw [h2, if_pos hc]
      obtain ⟨f1, f2, _, f4⟩ := Object.set_hovered_flags o false hact
      exact ⟨o.set_hovered false, by simp [OrderedMap.find_modify_self, hfind], f1, f2, f4,
        by simp only; rw [OrderedMap.keys_modify], rfl⟩
    · rw [h2, if_neg hc]
      refine ⟨o, hfind, ?_, rfl, rfl, rfl, rfl⟩
      cases hv : o.entity.hovered with
      | false => rfl
      | true => exact absurd (hh hv).symm hc
  obtain ⟨o2, g1, g2, g3, g4, g5, g6⟩ := s2
  have s3 : ∃ o3, lp3.objects.find a = some o3 ∧ o3.entity.hovered = false ∧
      o3.entity.active = false ∧
      lp3.objects.map Prod.fst = lp.objects.map Prod.fst := by
    by_cases hc : some a = lp2.active_object
    · rw [h3, if_pos hc]
      obtain ⟨f1, f2, _, _⟩ := Object.set_active_flags o2 false (by rw [g4]; exact hact)
      exact ⟨o2.set_active false, by simp [OrderedMap.find_modify_self, g1], by rw [f2, g2],
        f1, by simp only; rw [OrderedMap.keys_modify, g5]⟩
    · rw [h3, if_neg hc]
      refine ⟨o2, g1, g2, ?_, g5⟩
      rw [g3]
      cases hv : o.entity.active with
      | false => rfl
      | true => exact absurd ((ha hv).symm.trans g6.symm) hc
  obtain ⟨o3, k1, k2, k3, k4⟩ := s3
  rw [hh1] at r1 r2 ⊢
  simp only at r1 r2 ⊢
  obtain ⟨v1, v2, v3, _⟩ := Object.set_visible_flags o3 false
  refine ⟨if o3.is_visible then o3.set_visible false else o3,
    by simp [OrderedMap.find_modify_self, k1], ?_, ?_, ?_, r1, r2,
    by rw [OrderedMap.keys_modify, k4]⟩
  · by_cases hv : o3.is_visible = true
    · rw [if_pos hv]; exact v1
    · rw [if_neg hv]
      simpa [Object.is_visible] using hv
  · by_cases hv : o3.is_visible = true
    · rw [if_pos hv, v2]; exact k2
    · rw [if_neg hv]; exact k2
  · by_cases hv : o3.is_visible = true
    · rw [if_pos hv, v3]; exact k3
    · rw [if_neg hv]; exact k3

/-- **C16**, witness: the object `A` of the example, made the active object and hovered,
then hidden. -/
theorem hide_object_detaches_witness :
    ∃ o1, (((example_level_player.set_active_object (some "A".toList)).set_hovered_object
        (some "A".toList)).hide "A".toList false).objects.find "A".toList = some o1 ∧
      o1.entity.visible = false ∧ o1.entity.hovered = false ∧ o1.entity.active = false ∧
      (((example_level_player.set_active_object (some "A".toList)).set_hovered_object
        (some "A".toList)).hide "A".toList false).hovered_object ≠ some "A".toList ∧
      (((example_level_player.set_active_object (some "A".toList)).set_hovered_object
        (some "A".toList)).hide "A".toList false).active_object ≠ some "A".toList ∧
      (((example_level_player.set_active_object (some "A".toList)).set_hovered_object
        (some "A".toList)).hide "A".toList false).objects.map Prod.fst =
        ((example_level_player.set_active_object (some "A".toList)).set_hovered_object
          (some "A".toList)).objects.map Prod.fst :=
  hide_object_detaches
    ((example_level_player.set_active_object (some "A".toList)).set_hovered_object
      (some "A".toList)) "A".toList
    ((example_sheet.set_active true).set_hovered true)
    (by decide!) (by decide!) (by decide!) (fun _ => by decide!) (fun _ => by decide!)

/-! ## C18: `Sheet::set_locked` -/

theorem Element.set_locked_facts (el : Element) (locked : Bool)
    (h : el.type = .Button ∨ el.type = .InputLine) :
    (el.set_locked locked).locked = some locked ∧
    (el.set_locked locked).entity.config = el.entity.config := by
  cases hk : el.kind with
  | Image => simp [Element.type, hk] at h
  | Text s => simp [Element.type, hk] at h
  | Button d => simp [Element.set_locked, Element.locked, hk, Entity.set_idle]
  | InputLine d => simp [Element.set_locked, Element.locked, hk, Entity.set_idle]

theorem Element.set_active_facts (el : Element) (v : Bool)
    (h : el.entity.config.activatable = true) :
    (el.set_active v).entity.active = v ∧ (el.set_active v).locked = el.locked := by
  simp only [Element.set_active, h, Bool.not_true, Bool.false_eq_true, if_false]
  cases hk : el.kind <;> simp [Element.locked, hk]

/-- **C18**.  `Sheet::set_locked(id, locked)`: a `Button` or an `InputLine` under `id` gets
the lock `locked`, and if it is locked while it is the active element (and activatable, as
buttons and input lines are), the sheet has no active element afterwards and the element is
not active; an `Image`, a `Text` or an unknown `id` leaves every element and both element
references as they were. -/
theorem set_locked_only_lockable (s : Sheet) (id : ID) (locked : Bool) :
    (∀ el, s.elements.find id = some el → (el.type = .Button ∨ el.type = .InputLine) →
      ∃ el1, (s.set_locked id locked).elements.find id = some el1 ∧
        el1.locked = some locked ∧
        (locked = true → s.active_element = some id →
          el.entity.config.activatable = true →
          (s.set_locked id locked).active_element = none ∧ el1.entity.active = false)) ∧
    (∀ el, s.elements.find id = some el → (el.type = .Image ∨ el.type = .Text) →
      (s.set_locked id locked).elements = s.elements ∧
      (s.set_locked id locked).active_element = s.active_element ∧
      (s.set_locked id locked).hovered_element = s.hovered_element) ∧
    (s.elements.find id = none →
      (s.set_locked id locked).elements = s.elements ∧
      (s.set_locked id locked).active_element = s.active_element ∧
      (s.set_locked id locked).hovered_element = s.hovered_element) := by
  refine ⟨?_, ?_, ?_⟩
  · intro el hfind htype
    have hin := OrderedMap.contains_of_find s.elements id el hfind
    obtain ⟨l1, l2⟩ := Element.set_locked_facts el locked htype
    simp only [Sheet.set_locked, Sheet.get_element, hin, if_true, hfind, htype]
    by_cases hc : locked = true ∧ some id = s.active_element
    · rw [if_pos hc]
      have ha : s.active_element = some id := hc.2.symm
      simp only [Sheet.set_active_element, ha]
      refine ⟨(el.set_locked locked).set_active false, ?_, ?_, ?_⟩
      · simp [OrderedMap.find_modify_self, hfind]
      · cases hact : (el.set_locked locked).entity.config.activatable with
        | true => rw [(Element.set_active_facts _ false hact).2]; exact l1
        | false => simp [Element.set_active, hact, l1]
      · intro _ _ hact
        refine ⟨by simp, ?_⟩
        exact (Element.set_active_facts _ false (by rw [l2]; exact hact)).1
    · rw [if_neg hc]
      refine ⟨el.set_locked locked, ?_, l1, ?_⟩
      · simp [OrderedMap.find_modify_self, hfind]
      · intro h1 h2 _
        exact absurd ⟨h1, h2.symm⟩ hc
  · intro el hfind htype
    have hin := OrderedMap.contains_of_find s.elements id el hfind
    have hnot : ¬ (el.type = .Button ∨ el.type = .InputLine) := by
      rcases htype with h | h <;> simp [h]
    simp only [Sheet.set_locked, Sheet.get_element, hin, if_true, hfind, hnot, if_false]
    exact ⟨trivial, trivial, trivial⟩
  · intro hnone
    have hin : s.elements.contains id = false := by
      cases hc : s.elements.contains id with
      | false => rfl
      | true =>
        exfalso
        obtain ⟨p, hp, hk⟩ := List.any_eq_true.mp hc
        simp only [decide_eq_true_eq] at hk
        have : List.lookup id s.elements ≠ none := by
          intro hl
          have := lookup_none_mem id s.elements hl p hp
          exact this hk
        exact this hnone
    simp only [Sheet.set_locked, Sheet.get_element, hin]
    exact ⟨rfl, rfl, rfl⟩

/-! ## C19: `LevelPlayer::order_objects` -/

theorem OrderedMap.find_none_of_not_mem {α : Type} (m : OrderedMap α) (key : ID)
    (h : key ∉ m.map Prod.fst) : m.find key = none := by
  induction m with
  | nil => rfl
  | cons p ps ih =>
    obtain ⟨k, v⟩ := p
    simp only [List.map_cons, List.mem_cons, not_or] at h
    rw [OrderedMap.find_cons, if_neg h.1]
    exact ih h.2

theorem OrderedMap.mem_keys_of_find {α : Type} (m : OrderedMap α) (key : ID) (v : α)
    (h : m.find key = some v) : key ∈ m.map Prod.fst := by
  by_contra hn
  rw [OrderedMap.find_none_of_not_mem m key hn] at h
  exact Option.noConfusion h

theorem OrderedMap.move_to_end {α : Type} (m : OrderedMap α) (id : ID) (o : α)
    (hnd : (m.map Prod.fst).Nodup) (hfind : m.find id = some o) :
    ((m.erase id).emplace id o).map Prod.fst = (m.map Prod.fst).filter (fun k => k ≠ id) ++ [id] ∧
    (∀ k, ((m.erase id).emplace id o).find k = m.find k) := by
  have hnc : (m.erase id).contains id = false := OrderedMap.contains_erase m id
  have he : (m.erase id).emplace id o = m.erase id ++ [(id, o)] := by
    simp [OrderedMap.emplace, hnc]
  rw [he]
  refine ⟨?_, ?_⟩
  · simp only [OrderedMap.erase, List.map_append, List.map_cons, List.map_nil]
    congr 1
    rw [List.filter_map]
    rfl
  · intro k
    induction m with
    | nil => simp [OrderedMap.find] at hfind
    | cons p ps ih =>
      obtain ⟨a, v⟩ := p
      rw [List.map_cons, List.nodup_cons] at hnd
      rw [OrderedMap.find_cons] at hfind
      by_cases ha : id = a
      · subst ha
        simp only [if_true, Option.some.injEq] at hfind
        subst hfind
        have hf : OrderedMap.erase ((id, v) :: ps) id = ps := by
          simp only [OrderedMap.erase, List.filter_cons, ne_eq, not_true_eq_false,
            decide_False, Bool.false_eq_true, if_false]
          rw [List.filter_eq_self]
          intro q hq
          simp only [ne_eq, decide_eq_true_eq]
          intro e
          exact hnd.1 (List.mem_map.mpr ⟨q, hq, e⟩)
        rw [hf]
        have hl : List.lookup k (ps ++ [(id, v)]) =
            (List.lookup k ps).orElse (fun _ => List.lookup k [(id, v)]) :=
          lookup_append_entry k ps [(id, v)]
        unfold OrderedMap.find
        rw [hl, lookup_cons_entry, lookup_cons_entry]
        by_cases hk : k = id
        · subst hk
          have : List.lookup k ps = none :=
            OrderedMap.find_none_of_not_mem ps k hnd.1
          simp [this]
        · simp only [if_neg hk]
          cases List.lookup k ps <;> simp [List.lookup]
      · rw [if_neg ha] at hfind
        have hf : OrderedMap.erase ((a, v) :: ps) id = (a, v) :: OrderedMap.erase ps id := by
          have : ¬ a = id := fun e => ha e.symm
          simp [OrderedMap.erase, List.filter_cons, this]
        rw [hf, List.cons_append, OrderedMap.find_cons, OrderedMap.find_cons]
        by_cases hk : k = a
        · simp [hk]
        · simp only [if_neg hk]
          exact ih hnd.2 hfind (OrderedMap.contains_erase ps id)
            (by simp [OrderedMap.emplace, OrderedMap.contains_erase ps id])

theorem LevelPlayer.order_objects_cons (lp : LevelPlayer) (id : ID) (rest : List ID) :
    lp.order_objects (id :: rest) =
      LevelPlayer.order_objects
        (match lp.objects.find id with
         | some o => { lp with objects := (lp.objects.erase id).emplace id o }
         | none => lp) rest := rfl

theorem LevelPlayer.order_objects_spec (order : List ID) :
    ∀ lp : LevelPlayer, (lp.objects.map Prod.fst).Nodup → order.Nodup →
      (lp.order_objects order).objects.map Prod.fst =
        (lp.objects.map Prod.fst).filter (fun k => decide (k ∉ order)) ++
          order.filter (fun k => decide (k ∈ lp.objects.map Prod.fst)) ∧
      (∀ k, (lp.order_objects order).objects.find k = lp.objects.find k) ∧
      lp.order_objects order = { lp with objects := (lp.order_objects order).objects } := by
  induction order with
  | nil =>
    intro lp _ _
    refine ⟨?_, fun _ => rfl, rfl⟩
    simp [LevelPlayer.order_objects]
  | cons id rest ih =>
    intro lp hnd hord
    rw [List.nodup_cons] at hord
    rw [LevelPlayer.order_objects_cons]
    cases hf : lp.objects.find id with
    | none =>
      simp only
      have hni : id ∉ lp.objects.map Prod.fst := by
        intro hmem
        obtain ⟨p, hp, hpe⟩ := List.mem_map.mp hmem
        exact lookup_none_mem id lp.objects hf p hp hpe
      obtain ⟨h1, h2, h3⟩ := ih lp hnd hord.2
      refine ⟨?_, h2, h3⟩
      rw [h1, List.filter_cons_of_neg (by simpa using hni)]
      congr 1
      apply List.filter_congr
      intro k hk
      have : k ≠ id := fun e => hni (e ▸ hk)
      simp [this]
    | some o =>
      simp only
      obtain ⟨hk, hfd⟩ := OrderedMap.move_to_end lp.objects id o hnd hf
      have hin : id ∈ lp.objects.map Prod.fst := OrderedMap.mem_keys_of_find _ _ _ hf
      have hnd1 : (((lp.objects.erase id).emplace id o).map Prod.fst).Nodup := by
        rw [hk]
        apply List.Nodup.append (hnd.filter _) (List.nodup_singleton _)
        intro a ha hb
        simp only [List.mem_singleton] at hb
        subst hb
        simp at ha
      obtain ⟨h1, h2, h3⟩ :=
        ih { lp with objects := (lp.objects.erase id).emplace id o } hnd1 hord.2
      refine ⟨?_, ?_, ?_⟩
      · have h1a : List.map Prod.fst
            (LevelPlayer.order_objects
              { lp with objects := (lp.objects.erase id).emplace id o } rest).objects =
            List.filter (fun k => decide (k ∉ rest))
              (List.filter (fun k => decide (k ≠ id)) (List.map Prod.fst lp.objects) ++ [id]) ++
            List.filter (fun k => decide (k ∈
              List.filter (fun k => decide (k ≠ id)) (List.map Prod.fst lp.objects) ++ [id]))
              rest := by
          rw [← hk]
          exact h1
        have e1 : List.filter (fun k => decide (k ∉ rest)) [id] = [id] := by
          simp [hord.1]
        have e2 : List.filter (fun k => decide (k ∈ List.map Prod.fst lp.objects)) (id :: rest) =
            id :: List.filter (fun k => decide (k ∈ List.map Prod.fst lp.objects)) rest :=
          List.filter_cons_of_pos (by simpa using hin)
        rw [h1a, List.filter_append, List.filter_filter, e1, e2, List.append_assoc,
          List.singleton_append]
        congr 1
        · apply List.filter_congr
          intro k _
          by_cases e : k = id
          · subst e
            simp [hord.1]
          · simp [e]
        · congr 1
          apply List.filter_congr
          intro k hkr
          have : k ≠ id := fun e => hord.1 (e ▸ hkr)
          simp [this]
      · intro k
        rw [h2]
        exact hfd k
      · rw [h3]

/-- **C19**: `LevelPlayer::order_objects` with a list of distinct IDs moves the listed objects
that exist to the end of the map, in the order of the list, and keeps the others before
them in their previous relative order; every object stays under its ID.  When the list is the
one `LevelPlayer::load` read off the save tree and it lists exactly the objects of the level,
the iteration order of the map after the load is the order of the save. -/
theorem order_objects_moves_listed_to_end (lp : LevelPlayer) (order : List ID)
    (hnd : (lp.objects.map Prod.fst).Nodup) (hord : order.Nodup) :
    (lp.order_objects order).objects.map Prod.fst =
        (lp.objects.map Prod.fst).filter (fun k => decide (k ∉ order)) ++
          order.filter (fun k => decide (k ∈ lp.objects.map Prod.fst)) ∧
    (∀ k, (lp.order_objects order).objects.find k = lp.objects.find k) ∧
    (∀ save_node : Node, objects_save_order save_node = some order →
      (∀ k ∈ order, k ∈ lp.objects.map Prod.fst) →
      (∀ k ∈ lp.objects.map Prod.fst, k ∈ order) →
      (lp.restore_order order).objects.map Prod.fst = order) := by
  obtain ⟨h1, h2, _⟩ := LevelPlayer.order_objects_spec order lp hnd hord
  refine ⟨h1, h2, ?_⟩
  intro _ _ hsub hsup
  unfold LevelPlayer.restore_order
  by_cases he : order.isEmpty = true
  · rw [if_pos he]
    have hnil : order = [] := List.isEmpty_iff.mp he
    subst hnil
    apply List.eq_nil_iff_forall_not_mem.mpr
    intro k hk
    exact List.not_mem_nil _ (hsup k hk)
  · rw [if_neg he, h1]
    have e1 : (lp.objects.map Prod.fst).filter (fun k => decide (k ∉ order)) = [] := by
      apply List.filter_eq_nil_iff.mpr
      intro k hk
      simp [hsup k hk]
    have e2 : order.filter (fun k => decide (k ∈ lp.objects.map Prod.fst)) = order := by
      apply List.filter_eq_self.mpr
      intro k hk
      simpa using hsub k hk
    rw [e1, e2, List.nil_append]

/-- **C19**, witness: the example level player, whose map holds `A` then `B`, loaded with a
save that lists `B` then `A`. -/
theorem order_objects_moves_listed_to_end_witness :
    objects_save_order example_save_node = some ["B".toList, "A".toList] ∧
    example_level_player.objects.map Prod.fst = ["A".toList, "B".toList] ∧
    (example_level_player.restore_order ["B".toList, "A".toList]).objects.map Prod.fst =
      ["B".toList, "A".toList] :=
  ⟨by decide!, by decide!,
    (order_objects_moves_listed_to_end example_level_player ["B".toList, "A".toList]
      (by decide!) (by decide!)).2.2 example_save_node (by decide!) (by decide!) (by decide!)⟩

/-! ## C20: unresolved ID-tree paths -/

theorem OrderedMap.map_modify_congr {α β : Type} (m : OrderedMap α) (key : ID) (f : α → α)
    (g : α → β) (h : ∀ p ∈ m, p.1 = key → g (f p.2) = g p.2) :
    (m.modify key f).map (fun p => (p.1, g p.2)) = m.map (fun p => (p.1, g p.2)) := by
  unfold OrderedMap.modify
  rw [List.map_map]
  apply List.map_congr_left
  intro p hp
  simp only [Function.comp]
  by_cases hk : p.1 = key
  · rw [if_pos hk]
    simp only [h p hp hk]
  · rw [if_neg hk]

theorem OrderedMap.contains_false_of_any {α : Type} (m : OrderedMap α) (key : ID)
    (q : α → Bool) (h : m.any (fun p => decide (p.1 = key) && q p.2) = false)
    (hq : ∀ v, q v = true) : m.contains key = false := by
  unfold OrderedMap.contains
  rw [← h]
  congr 1
  funext p
  simp [hq]

theorem sheet_set_locked_unresolved (s : Sheet) (member : ID) (locked : Bool)
    (h : s.resolves member = false) : (s.set_locked member locked).flags = s.flags := by
  unfold Sheet.resolves at h
  simp only [Sheet.set_locked, Sheet.get_element, Entity.set_idle, h]
  rfl

theorem sheet_hide_unresolved (s : Sheet) (member : ID)
    (h : s.resolves member = false) : (s.hide member).flags = s.flags := by
  unfold Sheet.resolves at h
  simp only [Sheet.hide, Sheet.get_element, Entity.set_idle, h]
  rfl

theorem Binder.unresolved_step (b : Binder) (member : ID) (f : Sheet → ID → Sheet)
    (hf : ∀ s el, s.resolves el = false → (f s el).flags = s.flags)
    (h : b.resolves member = false) :
    Binder.flags
      (if ({ b with entity := b.entity.set_idle false } : Binder).sheets.contains
          (str_split member ID_TREE_DELIM).1 then
        match (str_split member ID_TREE_DELIM).2 with
        | some el =>
          { b with
            entity := b.entity.set_idle false
            sheets := b.sheets.modify (str_split member ID_TREE_DELIM).1 (fun s => f s el) }
        | none => { b with entity := b.entity.set_idle false }
      else { b with entity := b.entity.set_idle false }) = b.flags := by
  unfold Binder.resolves at h
  cases hm : (str_split member ID_TREE_DELIM).2 with
  | none =>
    rw [hm] at h
    have hc := OrderedMap.contains_false_of_any b.sheets _ (fun _ => true) h (fun _ => rfl)
    simp only [hc]
    rfl
  | some el =>
    rw [hm] at h
    simp only
    split
    · simp only [Binder.flags, Entity.flags, Entity.set_idle]
      have := OrderedMap.map_modify_congr b.sheets (str_split member ID_TREE_DELIM).1
        (fun s => f s el) Sheet.flags (by
          intro p hp hk
          apply hf
          have := List.any_eq_false.mp h p hp
          simpa [hk] using this)
      rw [this]
    · rfl

theorem binder_set_locked_unresolved (b : Binder) (member : ID) (locked : Bool)
    (h : b.resolves member = false) : (b.set_locked member locked).flags = b.flags :=
  Binder.unresolved_step b member (fun s el => s.set_locked el locked)
    (fun s el hs => sheet_set_locked_unresolved s el locked hs) h

theorem binder_hide_unresolved (b : Binder) (member : ID)
    (h : b.resolves member = false) : (b.hide member).flags = b.flags :=
  Binder.unresolved_step b member (fun s el => s.hide el)
    (fun s el hs => sheet_hide_unresolved s el hs) h

theorem object_set_locked_unresolved (o : Object) (member : ID) (locked : Bool)
    (h : o.resolves member = false) : (o.set_locked member locked).flags = o.flags := by
  cases o with
  | Sheet s => exact congrArg Sum.inl (sheet_set_locked_unresolved s member locked h)
  | Binder b => exact congrArg Sum.inr (binder_set_locked_unresolved b member locked h)

theorem object_hide_unresolved (o : Object) (member : ID)
    (h : o.resolves member = false) : (o.hide member).flags = o.flags := by
  cases o with
  | Sheet s => exact congrArg Sum.inl (sheet_hide_unresolved s member h)
  | Binder b => exact congrArg Sum.inr (binder_hide_unresolved b member h)

theorem LevelPlayer.unknown_object (lp : LevelPlayer) (id_tree : ID)
    (h : lp.objects.contains (str_split id_tree ID_TREE_DELIM).1 = false) (locked mc : Bool) :
    lp.reveal id_tree mc = lp ∧ lp.hide id_tree mc = lp ∧ lp.set_locked id_tree locked = lp := by
  simp [LevelPlayer.reveal, LevelPlayer.hide, LevelPlayer.set_locked, LevelPlayer.get_object, h]

theorem LevelPlayer.unresolved_cases (lp : LevelPlayer) (id_tree : ID)
    (h : lp.resolves id_tree = false) :
    lp.objects.contains (str_split id_tree ID_TREE_DELIM).1 = false ∨
    ∃ member, (str_split id_tree ID_TREE_DELIM).2 = some member ∧
      ∀ p ∈ lp.objects, p.1 = (str_split id_tree ID_TREE_DELIM).1 →
        p.2.resolves member = false := by
  unfold LevelPlayer.resolves at h
  cases hm : (str_split id_tree ID_TREE_DELIM).2 with
  | none =>
    rw [hm] at h
    exact Or.inl (OrderedMap.contains_false_of_any lp.objects _ (fun _ => true) h (fun _ => rfl))
  | some member =>
    rw [hm] at h
    refine Or.inr ⟨member, rfl, ?_⟩
    intro p hp hk
    have := List.any_eq_false.mp h p hp
    simpa [hk] using this

/-- **C20**, counterexample: `A::nope` names no node of the example (the sheet `A` has no
element `nope`), yet `reveal` moves `A` to the top, and so does `hide` when it moves the
camera. -/
theorem reveal_unresolved_member_reorders :
    example_level_player.resolves "A::nope".toList = false ∧
    example_level_player.objects.map Prod.fst = ["A".toList, "B".toList] ∧
    (example_level_player.reveal "A::nope".toList false).objects.map Prod.fst =
      ["B".toList, "A".toList] ∧
    (example_level_player.hide "A::nope".toList true).objects.map Prod.fst =
      ["B".toList, "A".toList] := by
  decide!

/-! ## C13: relocated commands -/

theorem to_str_FADEIN_DURATION : (to_str FADEIN_DURATION : Str) = "0.5".toList := by
  decide!

theorem Game.store_commands_spec (commands : List Str) :
    ∀ g : Game,
      (g.store_commands commands).stored_command_sequences =
        g.stored_command_sequences ++ commands.map (fun c => (g.loaded_level_path, c)) ∧
      (g.store_commands commands).loaded_level_path = g.loaded_level_path := by
  induction commands with
  | nil => intro g; simp [Game.store_commands]
  | cons c rest ih =>
    intro g
    obtain ⟨h1, h2⟩ := ih { g with stored_command_sequences :=
      g.stored_command_sequences ++ [(g.loaded_level_path, c)] }
    unfold Game.store_commands
    rw [h1, h2]
    simp

theorem take_stored_append (level : Str) (a b : List (Str × Str)) :
    take_stored level (a ++ b) =
      ((take_stored level a).1 ++ (take_stored level b).1,
        (take_stored level a).2 ++ (take_stored level b).2) := by
  induction a with
  | nil => simp [take_stored]
  | cons p rest ih =>
    obtain ⟨l, c⟩ := p
    have e : (l, c) :: rest ++ b = (l, c) :: (rest ++ b) := rfl
    rw [e]
    simp only [take_stored]
    by_cases h : l = level
    · simp only [if_pos h, ih, List.cons_append]
    · simp only [if_neg h, ih, List.cons_append]

theorem take_stored_same (level : Str) (commands : List Str) :
    take_stored level (commands.map (fun c => (level, c))) = (commands, []) := by
  induction commands with
  | nil => rfl
  | cons c rest ih => simp only [List.map_cons, take_stored, if_true, ih]

theorem take_stored_other (level : Str) (entries : List (Str × Str))
    (h : ∀ p ∈ entries, p.1 ≠ level) : take_stored level entries = ([], entries) := by
  induction entries with
  | nil => rfl
  | cons p rest ih =>
    obtain ⟨l, c⟩ := p
    have hl : l ≠ level := h (l, c) (List.mem_cons_self _ _)
    have hr := ih (fun q hq => h q (List.mem_cons_of_mem _ hq))
    simp only [take_stored, if_neg hl, hr]

theorem Executor.queue_single (ex : Executor) (command : Str)
    (h : is_single_command command = true) :
    (ex.queue_execution command 0).commands =
      ex.commands ++ (if command = [] then [] else [command]) ∧
    (ex.queue_execution command 0).postpone_timer = ex.postpone_timer := by
  unfold is_single_command at h
  have h1 := of_decide_eq_true h
  unfold Executor.queue_execution
  by_cases hc : command = []
  · simp [hc]
  · simp only [if_neg hc, ne_eq, not_true_eq_false, if_false, h1]
    exact ⟨trivial, trivial⟩

theorem Executor.queue_singles (commands : List Str)
    (h : ∀ c ∈ commands, is_single_command c = true) :
    ∀ ex : Executor,
      (commands.foldl (fun e cs => e.queue_execution cs 0) ex).commands =
        ex.commands ++ commands.filter (fun c => decide (c ≠ [])) ∧
      (commands.foldl (fun e cs => e.queue_execution cs 0) ex).postpone_timer =
        ex.postpone_timer := by
  induction commands with
  | nil => intro ex; simp
  | cons c rest ih =>
    intro ex
    obtain ⟨h1, h2⟩ := Executor.queue_single ex c (h c (List.mem_cons_self _ _))
    obtain ⟨h3, h4⟩ := ih (fun q hq => h q (List.mem_cons_of_mem _ hq)) (ex.queue_execution c 0)
    rw [List.foldl_cons, h3, h4, h1, h2]
    refine ⟨?_, rfl⟩
    by_cases hc : c = []
    · simp [hc]
    · simp [hc]

theorem scan_separators_cons (prev ch : Char) (t : Str) (i : Nat) (q p : Int) :
    scan_separators prev (ch :: t) i q p =
      (if (scan_step prev ch (t.headD (Char.ofNat 0)) q p).2.2 then [i] else []) ++
        scan_separators ch t (i + 1) (scan_step prev ch (t.headD (Char.ofNat 0)) q p).1
          (scan_step prev ch (t.headD (Char.ofNat 0)) q p).2.1 := by
  rw [scan_separators]
  unfold scan_step
  split_ifs
  all_goals simp_all

theorem scan_step_separator (prev ch next : Char) (q p : Int)
    (h : (scan_step prev ch next q p).2.2 = true) :
    ch = ';' ∧ (scan_step prev ch next q p).1 = 0 ∧ (scan_step prev ch next q p).2.1 = 0 := by
  unfold scan_step at h ⊢
  split_ifs at h ⊢
  all_goals simp_all

theorem scan_step_next (prev ch next next1 : Char) (q p : Int)
    (h : next = ')' ↔ next1 = ')') :
    scan_step prev ch next q p = scan_step prev ch next1 q p := by
  unfold scan_step
  simp only [h]

theorem scan_step_prev (prev prev1 ch next : Char) (q p : Int)
    (h : prev = '(' ↔ prev1 = '(') :
    scan_step prev ch next q p = scan_step prev1 ch next q p := by
  unfold scan_step
  simp only [h]

theorem headD_append_separator (a rest : Str) :
    (a ++ ';' :: rest).headD (Char.ofNat 0) = ')' ↔ a.headD (Char.ofNat 0) = ')' := by
  cases a with
  | nil => simp only [List.nil_append, List.headD_cons, List.headD_nil]; decide
  | cons c r => simp

theorem scan_separators_first (s : Str) :
    ∀ (prev : Char) (i : Nat) (q p : Int),
      scan_separators prev s i q p = [] ∨
      ∃ a rest, s = a ++ ';' :: rest ∧
        scan_separators prev s i q p =
          (i + a.length) :: scan_separators ';' rest (i + a.length + 1) 0 0 ∧
        scan_separators prev a i q p = [] := by
  induction s with
  | nil => intro prev i q p; left; rfl
  | cons ch t ih =>
    intro prev i q p
    rw [scan_separators_cons]
    cases hs : (scan_step prev ch (t.headD (Char.ofNat 0)) q p).2.2 with
    | true =>
      obtain ⟨h1, h2, h3⟩ := scan_step_separator _ _ _ _ _ hs
      right
      refine ⟨[], t, ?_, ?_, rfl⟩
      · rw [h1]; rfl
      · simp only [if_true, List.singleton_append, List.length_nil, Nat.add_zero]
        rw [h2, h3, h1]
    | false =>
      simp only [Bool.false_eq_true, if_false, List.nil_append]
      rcases ih ch (i + 1) (scan_step prev ch (t.headD (Char.ofNat 0)) q p).1
        (scan_step prev ch (t.headD (Char.ofNat 0)) q p).2.1 with h | ⟨a, rest, h1, h2, h3⟩
      · left; exact h
      · right
        refine ⟨ch :: a, rest, ?_, ?_, ?_⟩
        · rw [h1]; rfl
        · rw [h2, List.length_cons]
          have e : i + 1 + a.length = i + (a.length + 1) := by omega
          rw [e]
        · rw [scan_separators_cons]
          have e : scan_step prev ch (a.headD (Char.ofNat 0)) q p =
              scan_step prev ch (t.headD (Char.ofNat 0)) q p := by
            apply scan_step_next
            rw [h1]
            exact (headD_append_separator a rest).symm
          rw [e, hs]
          simp only [Bool.false_eq_true, if_false, List.nil_append]
          exact h3

theorem scan_separators_nil_index (s : Str) :
    ∀ (prev : Char) (i j : Nat) (q p : Int),
      scan_separators prev s i q p = [] → scan_separators prev s j q p = [] := by
  induction s with
  | nil => intro _ _ _ _ _ _; rfl
  | cons ch t ih =>
    intro prev i j q p h
    rw [scan_separators_cons] at h ⊢
    cases hs : (scan_step prev ch (t.headD (Char.ofNat 0)) q p).2.2 with
    | true => rw [hs] at h; simp at h
    | false =>
      rw [hs] at h
      simp only [Bool.false_eq_true, if_false, List.nil_append] at h ⊢
      exact ih ch (i + 1) (j + 1) _ _ h

theorem scan_separators_prev (s : Str) (prev prev1 : Char) (i : Nat) (q p : Int)
    (h : prev = '(' ↔ prev1 = '(') :
    scan_separators prev s i q p = scan_separators prev1 s i q p := by
  cases s with
  | nil => rfl
  | cons ch t =>
    rw [scan_separators_cons, scan_separators_cons, scan_step_prev prev prev1 ch _ q p h]

theorem is_single_of_scan (c : Str)
    (h : scan_separators (Char.ofNat 0) c 0 0 0 = []) : is_single_command c = true := by
  unfold is_single_command command_separator_indices
  simp only [h, true_or, if_true, List.nil_append, split_commands, List.drop_zero,
    Nat.sub_zero, List.take_length, decide_True]

theorem split_commands_mem_append (cs : Str) (l1 l2 : List Nat) :
    ∀ (b : Nat) (c : Str), c ∈ split_commands cs b l1 → c ∈ split_commands cs b (l1 ++ l2) := by
  induction l1 with
  | nil => intro b c h; simp [split_commands] at h
  | cons i rest ih =>
    intro b c h
    simp only [List.cons_append, split_commands, List.mem_cons] at h ⊢
    rcases h with h | h
    · exact Or.inl h
    · exact Or.inr (ih _ _ h)

theorem scan_separators_fresh (s : Str) (prev : Char) (i : Nat) (hp : prev ≠ '(')
    (h : scan_separators prev s i 0 0 = []) :
    scan_separators (Char.ofNat 0) s 0 0 0 = [] := by
  have h1 := scan_separators_nil_index s prev i 0 0 0 h
  rw [← scan_separators_prev s prev (Char.ofNat 0) 0 0 0
    ⟨fun e => absurd e hp, fun e => absurd e (by decide)⟩]
  exact h1

theorem split_pieces_scan (n : Nat) :
    ∀ (s pre : Str) (prev : Char), s.length ≤ n → prev ≠ '(' →
      ∀ c ∈ split_commands (pre ++ s) pre.length
          (scan_separators prev s pre.length 0 0 ++ [(pre ++ s).length]),
        scan_separators (Char.ofNat 0) c 0 0 0 = [] := by
  induction n with
  | zero =>
    intro s pre prev hl _ c hc
    have hs : s = [] := List.length_eq_zero.mp (Nat.le_zero.mp hl)
    subst hs
    simp [scan_separators, split_commands] at hc
    subst hc
    rfl
  | succ n ih =>
    intro s pre prev hl hp c hc
    rcases scan_separators_first s prev pre.length 0 0 with h | ⟨a, rest, h1, h2, h3⟩
    · rw [h] at hc
      simp [split_commands] at hc
      rw [hc]
      exact scan_separators_fresh s prev pre.length hp h
    · rw [h2] at hc
      simp only [List.cons_append, split_commands, List.mem_cons] at hc
      rcases hc with hc | hc
      · have e : List.take (pre.length + a.length - pre.length)
            (List.drop pre.length (pre ++ s)) = a := by
          rw [h1]
          simp
        rw [e] at hc
        rw [hc]
        exact scan_separators_fresh a prev pre.length hp h3
      · have hw : pre ++ s = (pre ++ a ++ [';']) ++ rest := by
          rw [h1]; simp
        have hlen : (pre ++ a ++ [';']).length = pre.length + a.length + 1 := by
          simp only [List.length_append, List.length_singleton]
        rw [hw, ← hlen] at hc
        apply ih rest (pre ++ a ++ [';']) ';' ?_ (by decide) c hc
        have : s.length = a.length + (rest.length + 1) := by rw [h1]; simp
        omega

theorem split_pieces_single (command_sequence : Str) :
    ∀ c ∈ split_commands command_sequence 0 (command_separator_indices command_sequence),
      is_single_command c = true := by
  intro c hc
  apply is_single_of_scan
  have key := split_pieces_scan command_sequence.length command_sequence [] (Char.ofNat 0)
    (Nat.le_refl _) (by decide) c
  apply key
  simp only [List.nil_append, List.length_nil]
  unfold command_separator_indices at hc
  simp only at hc
  split at hc
  · exact hc
  · exact split_commands_mem_append _ _ _ _ _ hc

theorem scan_separators_no_separator (s : Str) :
    ∀ (prev : Char) (i : Nat) (q p : Int), (∀ c ∈ s, c ≠ ';') →
      scan_separators prev s i q p = [] := by
  induction s with
  | nil => intro _ _ _ _ _; rfl
  | cons ch t ih =>
    intro prev i q p h
    rw [scan_separators_cons]
    cases hs : (scan_step prev ch (t.headD (Char.ofNat 0)) q p).2.2 with
    | true =>
      exact absurd (scan_step_separator _ _ _ _ _ hs).1 (h ch (List.mem_cons_self _ _))
    | false =>
      simp only [Bool.false_eq_true, if_false, List.nil_append]
      exact ih _ _ _ _ (fun c hc => h c (List.mem_cons_of_mem _ hc))

theorem nat_to_str_no_separator (n : Nat) : ∀ c ∈ nat_to_str n, c ≠ ';' := by
  intro c hc e
  have := nat_digits_all_digit (n + 1) n c hc
  rw [e] at this
  exact absurd this (by decide)

theorem strip_zeros_subset (ds : Str) : ∀ c ∈ strip_zeros ds, c ∈ ds := by
  intro c hc
  unfold strip_zeros at hc
  rw [List.mem_reverse] at hc
  have := (List.dropWhile_suffix (fun c => decide (c = '0'))).subset hc
  exact List.mem_reverse.mp this

theorem float_body_no_separator (neg : Bool) (e : Int) (ds ex : Str)
    (hds : ∀ d ∈ ds, d ≠ ';') (hex : ∀ d ∈ ex, d ≠ ';') :
    ∀ c ∈ (if -4 ≤ e ∧ e < 6 then
        (if neg then ['-'] else ([] : Str)) ++
          (if 0 ≤ e then ds.take (e.toNat + 1) else ['0']) ++
          (if strip_zeros (if 0 ≤ e then ds.drop (e.toNat + 1)
              else List.replicate ((-e).toNat - 1) '0' ++ ds) = [] then []
            else '.' :: strip_zeros (if 0 ≤ e then ds.drop (e.toNat + 1)
              else List.replicate ((-e).toNat - 1) '0' ++ ds))
      else
        (if neg then ['-'] else ([] : Str)) ++ ds.take 1 ++
          (if strip_zeros (ds.drop 1) = [] then [] else '.' :: strip_zeros (ds.drop 1)) ++
          ['e'] ++ [if e < 0 then '-' else '+'] ++
          (if ex.length < 2 then '0' :: ex else ex)), c ≠ ';' := by
  intro c hc
  have htake : ∀ k, ∀ d ∈ ds.take k, d ≠ ';' := fun k d hd => hds d (List.mem_of_mem_take hd)
  have hdrop : ∀ k, ∀ d ∈ strip_zeros (ds.drop k), d ≠ ';' :=
    fun k d hd => hds d (List.mem_of_mem_drop (strip_zeros_subset _ d hd))
  have hrep : ∀ k, ∀ d ∈ strip_zeros (List.replicate k '0' ++ ds), d ≠ ';' := by
    intro k d hd
    rcases List.mem_append.mp (strip_zeros_subset _ d hd) with h | h
    · rw [(List.mem_replicate.mp h).2]; decide
    · exact hds d h
  have hsign : ∀ d ∈ (if neg then ['-'] else ([] : Str)), d ≠ ';' := by
    intro d hd
    split at hd
    · rw [List.mem_singleton.mp hd]; decide
    · simp at hd
  have hfrac : ∀ fp : Str, (∀ d ∈ fp, d ≠ ';') →
      ∀ d ∈ (if fp = [] then ([] : Str) else '.' :: fp), d ≠ ';' := by
    intro fp hfp d hd
    split at hd
    · simp at hd
    · rcases List.mem_cons.mp hd with h | h
      · rw [h]; decide
      · exact hfp d h
  by_cases hr : -4 ≤ e ∧ e < 6
  · rw [if_pos hr] at hc
    rcases List.mem_append.mp hc with h | h
    · rcases List.mem_append.mp h with h | h
      · exact hsign c h
      · by_cases h0 : 0 ≤ e
        · rw [if_pos h0] at h
          exact htake _ c h
        · rw [if_neg h0] at h
          rw [List.mem_singleton.mp h]; decide
    · refine hfrac _ ?_ c h
      intro d hd
      by_cases h0 : 0 ≤ e
      · rw [if_pos h0] at hd
        exact hdrop _ d hd
      · rw [if_neg h0] at hd
        exact hrep _ d hd
  · rw [if_neg hr] at hc
    rcases List.mem_append.mp hc with h | h
    · rcases List.mem_append.mp h with h | h
      · rcases List.mem_append.mp h with h | h
        · rcases List.mem_append.mp h with h | h
          · rcases List.mem_append.mp h with h | h
            · exact hsign c h
            · exact htake _ c h
          · exact hfrac _ (hdrop _) c h
        · rw [List.mem_singleton.mp h]; decide
      · rw [List.mem_singleton.mp h]
        split <;> decide
    · by_cases h2 : ex.length < 2
      · rw [if_pos h2] at h
        rcases List.mem_cons.mp h with h | h
        · rw [h]; decide
        · exact hex c h
      · rw [if_neg h2] at h
        exact hex c h

theorem float_to_str_no_separator (x : ℚ) : ∀ c ∈ float_to_str x, c ≠ ';' := by
  intro c hc
  unfold float_to_str at hc
  by_cases hx : x = 0
  · rw [if_pos hx] at hc
    rw [List.mem_singleton.mp hc]; decide
  · rw [if_neg hx] at hc
    exact float_body_no_separator (decide (x < 0)) _ _ _
      (nat_to_str_no_separator _) (nat_to_str_no_separator _) c (by simpa using hc)

theorem postpone_command_single (sec : Seconds) :
    is_single_command ("postpone(".toList ++ to_str sec ++ ")".toList) = true := by
  apply is_single_of_scan
  apply scan_separators_no_separator
  intro c hc
  rcases List.mem_append.mp hc with h | h
  · rcases List.mem_append.mp h with h | h
    · intro e
      rw [e] at h
      exact absurd h (by decide)
    · exact float_to_str_no_separator sec c h
  · intro e
    rw [e] at h
    exact absurd h (by decide)

theorem Executor.queue_execution_single (e : Executor) (cs : Str) (postpone : Seconds)
    (h : ∀ c ∈ e.commands, is_single_command c = true) :
    ∀ c ∈ (e.queue_execution cs postpone).commands, is_single_command c = true := by
  intro c hc
  unfold Executor.queue_execution at hc
  by_cases hcs : cs = []
  · rw [if_pos hcs] at hc
    exact h c hc
  · rw [if_neg hcs] at hc
    simp only at hc
    rcases List.mem_append.mp hc with h1 | h1
    · by_cases hp : postpone ≠ 0
      · rw [if_pos hp] at h1
        unfold EMPLACE_POSTPONE_COMMAND at h1
        rcases List.mem_append.mp h1 with h2 | h2
        · exact h c h2
        · rw [List.mem_singleton.mp h2]
          exact postpone_command_single postpone
      · rw [if_neg hp] at h1
        exact h c h1
    · exact split_pieces_single cs c h1

/-- **C13**: `Executor::extract_queue` returns the queued commands in their order and leaves
the queue empty.  When `Game::store_all_queued_commands` stores them under the loaded level
(for which nothing else is stored) and `Game::try_execute_stored_command_sequences` later
runs with that level loaded, whatever was stored for other levels in between, the commands
`postpone(0.5)` and then the non-empty stored commands, each one as a single command and in
their order, are added to the queue of the executor; no entry of the level remains and
the entries of the other levels are kept in order.  The commands of the queue are single
commands because every method that fills the queue keeps them so. -/
theorem relocated_commands_replayed (ex later_ex : Executor) (g : Game)
    (later : List (Str × Str))
    (hsingle : ∀ c ∈ ex.commands, is_single_command c = true)
    (hfresh : ∀ p ∈ g.stored_command_sequences, p.1 ≠ g.loaded_level_path)
    (hlater : ∀ p ∈ later, p.1 ≠ g.loaded_level_path) :
    (ex.extract_queue.1 = ex.commands ∧ ex.extract_queue.2.commands = []) ∧
    (g.store_all_queued_commands ex).2.commands = [] ∧
    (Game.try_execute_stored_command_sequences
        { (g.store_all_queued_commands ex).1 with
          stored_command_sequences :=
            (g.store_all_queued_commands ex).1.stored_command_sequences ++ later }
        later_ex).2.commands =
      later_ex.commands ++
        "postpone(0.5)".toList :: ex.commands.filter (fun c => decide (c ≠ [])) ∧
    (Game.try_execute_stored_command_sequences
        { (g.store_all_queued_commands ex).1 with
          stored_command_sequences :=
            (g.store_all_queued_commands ex).1.stored_command_sequences ++ later }
        later_ex).1.stored_command_sequences = g.stored_command_sequences ++ later ∧
    (∀ (e : Executor) (cs : Str) (postpone : Seconds),
      (∀ c ∈ e.commands, is_single_command c = true) →
      ∀ c ∈ (e.queue_execution cs postpone).commands, is_single_command c = true) := by
  obtain ⟨hs1, hs2⟩ := Game.store_commands_spec ex.commands g
  have htake : take_stored g.loaded_level_path
      ((g.stored_command_sequences ++
        ex.commands.map (fun c => (g.loaded_level_path, c))) ++ later) =
      (ex.commands, g.stored_command_sequences ++ later) := by
    rw [take_stored_append, take_stored_append, take_stored_other _ _ hfresh,
      take_stored_other _ _ hlater, take_stored_same]
    simp
  refine ⟨⟨rfl, rfl⟩, rfl, ?_, ?_, Executor.queue_execution_single⟩
  · unfold Game.try_execute_stored_command_sequences Game.store_all_queued_commands
      Executor.extract_queue
    simp only [hs1, hs2, htake]
    unfold Executor.queue_execution_list
    have hne : FADEIN_DURATION ≠ 0 := by unfold FADEIN_DURATION; norm_num
    rw [if_pos hne]
    rw [(Executor.queue_singles ex.commands hsingle _).1]
    unfold EMPLACE_POSTPONE_COMMAND
    simp only [to_str_FADEIN_DURATION, List.append_assoc, List.singleton_append]
    rfl
  · unfold Game.try_execute_stored_command_sequences Game.store_all_queued_commands
      Executor.extract_queue
    simp only [hs1, hs2, htake]

/-- **C13**, witness: a queue with two commands and an empty one between them, stored under
the level `one`, with an entry for the level `two` stored before the replay. -/
theorem relocated_commands_replayed_witness :
    (Game.try_execute_stored_command_sequences
        { (example_game.store_all_queued_commands example_queue).1 with
          stored_command_sequences :=
            (example_game.store_all_queued_commands example_queue).1.stored_command_sequences ++
              [("two".toList, "lock(c)".toList)] }
        {}).2.commands =
      ["postpone(0.5)".toList, "reveal(a)".toList, "hide(b)".toList] :=
  (relocated_commands_replayed example_queue {} example_game
    [("two".toList, "lock(c)".toList)] (by decide!) (by decide!) (by decide!)).2.2.1

/-! ## C11: the deep merge -/

theorem insert_leaves_append (l1 l2 : List (List Str × Node)) :
    ∀ base : Node, insert_leaves base (l1 ++ l2) =
      (insert_leaves base l1).bind (fun b => insert_leaves b l2) := by
  induction l1 with
  | nil => intro base; rfl
  | cons x rest ih =>
    intro base
    obtain ⟨keys, value⟩ := x
    simp only [List.cons_append, insert_leaves]
    cases Node.set_path keys base value with
    | none => rfl
    | some b => simp only [Option.some_bind]; exact ih b

mutual
theorem insert_all_values_leaves : ∀ (n base : Node) (path : List Str),
    insert_all_values base n path = insert_leaves base (n.leaves path)
  | .Map es, base, path => by
    rw [insert_all_values, Node.leaves]
    exact insert_entries_leaves es base path
  | .Undefined, base, path => by
    simp [insert_all_values, Node.leaves, Node.insert, Node.IsDefined, insert_leaves]
  | .Null, base, path => by
    simp [insert_all_values, Node.leaves, Node.insert, Node.IsDefined, Node.IsNull,
      insert_leaves]
  | .Scalar s, base, path => by
    simp [insert_all_values, Node.leaves, Node.insert, Node.IsDefined, Node.IsNull,
      insert_leaves]
  | .Sequence l, base, path => by
    simp [insert_all_values, Node.leaves, Node.insert, Node.IsDefined, Node.IsNull,
      insert_leaves]
theorem insert_entries_leaves : ∀ (es : List (Str × Node)) (base : Node) (path : List Str),
    insert_entries base es path = insert_leaves base (leaves_entries es path)
  | [], base, path => by simp [insert_entries, leaves_entries, insert_leaves]
  | (key, value) :: rest, base, path => by
    rw [insert_entries, leaves_entries, insert_leaves_append,
      insert_all_values_leaves value base (path ++ [key])]
    congr 1
    funext b
    exact insert_entries_leaves rest b path
end

theorem set_path_step (key : Str) (ks : List Str) (base v : Node) :
    Node.set_path (key :: ks) base v =
      base.entries.bind (fun es =>
        (Node.set_path ks ((es.lookup key).getD .Undefined) v).map
          (fun s => Node.Map (entries_set es key s))) := by
  cases ks with
  | nil =>
    rw [set_path_one]
    unfold Node.assign
    cases base.entries with
    | none => rfl
    | some es => simp [Node.set_path]
  | cons k2 rest =>
    rw [set_path_cons]
    unfold Node.child Node.assign
    cases base.entries with
    | none => rfl
    | some es =>
      simp only [Option.map_some', Option.some_bind]
      cases Node.set_path (k2 :: rest) ((List.lookup key es).getD .Undefined) v with
      | none => rfl
      | some s => rfl

theorem open_entries (base : Node) (h : base.IsOpen = true) :
    ∃ es, base.entries = some es ∧ ∀ k, base.sub k = (es.lookup k).getD .Undefined := by
  cases base with
  | Map es => exact ⟨es, rfl, fun _ => rfl⟩
  | Null => exact ⟨[], rfl, fun _ => rfl⟩
  | Undefined => exact ⟨[], rfl, fun _ => rfl⟩
  | Scalar s => simp [Node.IsOpen] at h
  | Sequence l => simp [Node.IsOpen] at h

theorem sub_map_entries_set (es : List (Str × Node)) (key k : Str) (s : Node) :
    (Node.Map (entries_set es key s)).sub k =
      if k = key then s else (es.lookup k).getD .Undefined := by
  unfold Node.sub
  simp only [lookup_entries_set]
  by_cases h : k = key
  · simp [h]
  · simp [h]

theorem paths_diverge_symm (p : List Str) :
    ∀ q, paths_diverge p q = paths_diverge q p := by
  induction p with
  | nil => intro q; cases q <;> rfl
  | cons a p ih =>
    intro q
    cases q with
    | nil => rfl
    | cons b q =>
      simp only [paths_diverge]
      by_cases h : a = b
      · subst h; simp [ih q]
      · have h1 : ¬ b = a := fun e => h e.symm
        simp [h, h1]

/-- One write into an open base: it succeeds, the value is read back at its key path, what
lies at a diverging key path stays, and so does the openness of diverging key paths. -/
theorem set_path_spec (p : List Str) (v : Node) :
    ∀ base : Node, base.open_at p = true →
      ∃ b1, Node.set_path p base v = some b1 ∧ b1.value_at p = v ∧
        (∀ q, paths_diverge p q = true → b1.value_at q = base.value_at q) ∧
        (∀ q, paths_diverge p q = true → base.open_at q = true → b1.open_at q = true) := by
  induction p with
  | nil =>
    intro base _
    refine ⟨v, rfl, rfl, ?_, ?_⟩
    · intro q hq; simp [paths_diverge] at hq
    · intro q hq; simp [paths_diverge] at hq
  | cons key ks ih =>
    intro base hopen
    simp only [Node.open_at, Bool.and_eq_true] at hopen
    obtain ⟨es, hes, hsub⟩ := open_entries base hopen.1
    have hchild := hopen.2
    rw [hsub key] at hchild
    obtain ⟨s, hs, hval, hframe, hop⟩ := ih _ hchild
    refine ⟨Node.Map (entries_set es key s), ?_, ?_, ?_, ?_⟩
    · rw [set_path_step, hes, Option.some_bind, hs]
      rfl
    · simp only [Node.value_at, sub_map_entries_set, if_true]
      exact hval
    · intro q hq
      cases q with
      | nil => simp [paths_diverge] at hq
      | cons b q =>
        simp only [Node.value_at, sub_map_entries_set, hsub b]
        simp only [paths_diverge] at hq
        by_cases hb : b = key
        · subst hb
          simp only [if_true] at hq ⊢
          exact hframe q hq
        · rw [if_neg hb]
    · intro q hq hoq
      cases q with
      | nil => rfl
      | cons b q =>
        simp only [Node.open_at, Bool.and_eq_true] at hoq ⊢
        refine ⟨rfl, ?_⟩
        rw [sub_map_entries_set]
        simp only [paths_diverge] at hq
        by_cases hb : b = key
        · subst hb
          simp only [if_true] at hq ⊢
          have h2 := hoq.2
          rw [hsub b] at h2
          exact hop q hq h2
        · rw [if_neg hb, ← hsub b]
          exact hoq.2

theorem insert_leaves_spec (l : List (List Str × Node)) :
    ∀ base : Node, l.Pairwise (fun x y => paths_diverge x.1 y.1 = true) →
      (∀ x ∈ l, base.open_at x.1 = true) →
      ∃ merged, insert_leaves base l = some merged ∧
        (∀ x ∈ l, merged.value_at x.1 = x.2) ∧
        (∀ q, (∀ x ∈ l, paths_diverge x.1 q = true) →
          merged.value_at q = base.value_at q) := by
  induction l with
  | nil =>
    intro base _ _
    exact ⟨base, rfl, fun x hx => by simp at hx, fun _ _ => rfl⟩
  | cons x rest ih =>
    intro base hpw hopen
    obtain ⟨p, v⟩ := x
    rw [List.pairwise_cons] at hpw
    obtain ⟨b1, hb1, hval, hframe, hop⟩ :=
      set_path_spec p v base (hopen (p, v) (List.mem_cons_self _ _))
    have hopen1 : ∀ y ∈ rest, b1.open_at y.1 = true := fun y hy =>
      hop y.1 (hpw.1 y hy) (hopen y (List.mem_cons_of_mem _ hy))
    obtain ⟨merged, hm, hvals, hfr⟩ := ih b1 hpw.2 hopen1
    refine ⟨merged, ?_, ?_, ?_⟩
    · simp only [insert_leaves, hb1, Option.some_bind]
      exact hm
    · intro y hy
      rcases List.mem_cons.mp hy with h | h
      · rw [h]
        simp only
        rw [hfr p (fun z hz => by rw [paths_diverge_symm]; exact hpw.1 z hz)]
        exact hval
      · exact hvals y h
    · intro q hq
      rw [hfr q (fun z hz => hq z (List.mem_cons_of_mem _ hz))]
      exact hframe q (hq (p, v) (List.mem_cons_self _ _))

theorem leaves_entries_mem (es : List (Str × Node)) (path : List Str) (k : Str) (v : Node)
    (h : (k, v) ∈ es) : ∀ x ∈ v.leaves (path ++ [k]), x ∈ leaves_entries es path := by
  induction es with
  | nil => simp at h
  | cons e rest ih =>
    obtain ⟨k1, v1⟩ := e
    intro x hx
    rw [leaves_entries]
    rcases List.mem_cons.mp h with h1 | h1
    · have e1 : k = k1 := congrArg Prod.fst h1
      have e2 : v = v1 := congrArg Prod.snd h1
      subst e1; subst e2
      exact List.mem_append_left _ hx
    · exact List.mem_append_right _ (ih h1 x hx)

theorem value_at_undefined (p : List Str) : Node.Undefined.value_at p = .Undefined := by
  induction p with
  | nil => rfl
  | cons k ks ih => simpa [Node.value_at, Node.sub] using ih

theorem leaves_complete (p : List Str) :
    ∀ (n : Node) (path : List Str), (n.value_at p).IsValue = true →
      (path ++ p, n.value_at p) ∈ n.leaves path := by
  induction p with
  | nil =>
    intro n path h
    simp only [Node.value_at, List.append_nil] at h ⊢
    cases n with
    | Scalar s => simp [Node.leaves]
    | Sequence l => simp [Node.leaves]
    | Map es => simp [Node.IsValue] at h
    | Null => simp [Node.IsValue] at h
    | Undefined => simp [Node.IsValue] at h
  | cons k ks ih =>
    intro n path h
    simp only [Node.value_at] at h ⊢
    cases n with
    | Map es =>
      simp only [Node.sub] at h ⊢
      cases hl : List.lookup k es with
      | none =>
        rw [hl] at h
        simp [value_at_undefined, Node.IsValue] at h
      | some v =>
        rw [hl] at h
        simp only [Option.getD_some] at h ⊢
        rw [Node.leaves]
        have hmem := lookup_some_mem k es v hl
        have := ih v (path ++ [k]) h
        rw [List.append_assoc, List.singleton_append] at this
        exact leaves_entries_mem es path k v hmem _ this
    | Scalar s => simp [Node.sub, value_at_undefined, Node.IsValue] at h
    | Sequence l => simp [Node.sub, value_at_undefined, Node.IsValue] at h
    | Null => simp [Node.sub, value_at_undefined, Node.IsValue] at h
    | Undefined => simp [Node.sub, value_at_undefined, Node.IsValue] at h

theorem lookup_of_mem_nodup {β : Type} (es : List (Str × β)) (k : Str) (v : β)
    (hnd : (es.map Prod.fst).Nodup) (h : (k, v) ∈ es) : List.lookup k es = some v := by
  induction es with
  | nil => simp at h
  | cons e rest ih =>
    obtain ⟨k1, v1⟩ := e
    rw [List.map_cons, List.nodup_cons] at hnd
    rw [lookup_cons_entry]
    rcases List.mem_cons.mp h with h1 | h1
    · have e1 : k = k1 := congrArg Prod.fst h1
      have e2 : v = v1 := congrArg Prod.snd h1
      rw [if_pos e1, e2]
    · have hne : k ≠ k1 := by
        intro e
        apply hnd.1
        rw [← e]
        exact List.mem_map.mpr ⟨(k, v), h1, rfl⟩
      rw [if_neg hne]
      exact ih hnd.2 h1

theorem paths_diverge_of_ne (path : List Str) (k1 k2 : Str) (r1 r2 : List Str)
    (h : k1 ≠ k2) : paths_diverge (path ++ k1 :: r1) (path ++ k2 :: r2) = true := by
  induction path with
  | nil => simp [paths_diverge, h]
  | cons a p ih => simpa [paths_diverge] using ih

theorem distinct_keys_map (es : List (Str × Node)) (h : (Node.Map es).distinct_keys = true) :
    (es.map Prod.fst).Nodup ∧ distinct_entries es = true := by
  simpa [Node.distinct_keys] using h

mutual
theorem leaves_sound : ∀ (n : Node) (path : List Str), n.distinct_keys = true →
    ∀ x ∈ n.leaves path, ∃ r, x.1 = path ++ r ∧ n.value_at r = x.2 ∧ x.2.IsValue = true
  | .Map es, path, h, x, hx => by
    obtain ⟨hnd, hde⟩ := distinct_keys_map es h
    rw [Node.leaves] at hx
    obtain ⟨k, v, r, hmem, hx1, hv, hval⟩ := leaves_entries_sound es path hde x hx
    refine ⟨k :: r, hx1, ?_, hval⟩
    simp only [Node.value_at, Node.sub, lookup_of_mem_nodup es k v hnd hmem, Option.getD_some]
    exact hv
  | .Undefined, path, _, x, hx => by simp [Node.leaves] at hx
  | .Null, path, _, x, hx => by simp [Node.leaves] at hx
  | .Scalar s, path, _, x, hx => by
    simp only [Node.leaves, List.mem_singleton] at hx
    rw [hx]
    exact ⟨[], by simp, rfl, rfl⟩
  | .Sequence l, path, _, x, hx => by
    simp only [Node.leaves, List.mem_singleton] at hx
    rw [hx]
    exact ⟨[], by simp, rfl, rfl⟩
theorem leaves_entries_sound : ∀ (es : List (Str × Node)) (path : List Str),
    distinct_entries es = true →
    ∀ x ∈ leaves_entries es path, ∃ k v r, (k, v) ∈ es ∧ x.1 = path ++ k :: r ∧
      v.value_at r = x.2 ∧ x.2.IsValue = true
  | [], path, _, x, hx => by simp [leaves_entries] at hx
  | (k, v) :: rest, path, h, x, hx => by
    simp only [distinct_entries, Bool.and_eq_true] at h
    rw [leaves_entries] at hx
    rcases List.mem_append.mp hx with h1 | h1
    · obtain ⟨r, hr, hv, hval⟩ := leaves_sound v (path ++ [k]) h.1 x h1
      refine ⟨k, v, r, List.mem_cons_self _ _, ?_, hv, hval⟩
      rw [hr, List.append_assoc, List.singleton_append]
    · obtain ⟨k1, v1, r, hmem, hr, hv, hval⟩ := leaves_entries_sound rest path h.2 x h1
      exact ⟨k1, v1, r, List.mem_cons_of_mem _ hmem, hr, hv, hval⟩
end

mutual
theorem leaves_pairwise : ∀ (n : Node) (path : List Str), n.distinct_keys = true →
    (n.leaves path).Pairwise (fun x y => paths_diverge x.1 y.1 = true)
  | .Map es, path, h => by
    obtain ⟨hnd, hde⟩ := distinct_keys_map es h
    rw [Node.leaves]
    exact leaves_entries_pairwise es path hnd hde
  | .Undefined, path, _ => by simp [Node.leaves]
  | .Null, path, _ => by simp [Node.leaves]
  | .Scalar s, path, _ => by simp [Node.leaves]
  | .Sequence l, path, _ => by simp [Node.leaves]
theorem leaves_entries_pairwise : ∀ (es : List (Str × Node)) (path : List Str),
    (es.map Prod.fst).Nodup → distinct_entries es = true →
    (leaves_entries es path).Pairwise (fun x y => paths_diverge x.1 y.1 = true)
  | [], path, _, _ => by simp [leaves_entries]
  | (k, v) :: rest, path, hnd, h => by
    simp only [distinct_entries, Bool.and_eq_true] at h
    rw [List.map_cons, List.nodup_cons] at hnd
    rw [leaves_entries, List.pairwise_append]
    refine ⟨leaves_pairwise v (path ++ [k]) h.1,
      leaves_entries_pairwise rest path hnd.2 h.2, ?_⟩
    intro x hx y hy
    obtain ⟨r, hr, _, _⟩ := leaves_sound v (path ++ [k]) h.1 x hx
    obtain ⟨k1, v1, r1, hmem, hr1, _, _⟩ := leaves_entries_sound rest path h.2 y hy
    have hne : k ≠ k1 := by
      intro e
      apply hnd.1
      rw [e]
      exact List.mem_map.mpr ⟨(k1, v1), hmem, rfl⟩
    rw [hr, hr1, List.append_assoc, List.singleton_append]
    exact paths_diverge_of_ne path k k1 r r1 hne
end

theorem example_overlay_values (p : List Str)
    (h : (example_overlay.value_at p).IsValue = true) : p = ["a".toList, "b".toList] := by
  have hm := leaves_complete p example_overlay [] h
  have hl : example_overlay.leaves [] = [(["a".toList, "b".toList], .Scalar "2".toList)] := rfl
  rw [hl, List.mem_singleton, List.nil_append] at hm
  exact congrArg Prod.fst hm

/-- **C11**, counterexample: the overlay has the scalar `2` at the key path `a`, `b`.  Over a
base with a scalar under `a` the merge throws, and the base does not get the value; over a
base with a sequence under `a` the sequence is turned into a map of its indices. -/
theorem merge_under_scalar_throws :
    example_overlay.value_at ["a".toList, "b".toList] = .Scalar "2".toList ∧
    insert_all_values example_base example_overlay [] = none ∧
    insert_all_values example_base_sequence example_overlay [] =
      some (.Map [("a".toList,
        .Map [("0".toList, .Scalar "x".toList), ("b".toList, .Scalar "2".toList)])]) :=
  ⟨rfl, rfl, rfl⟩

/-- **C11**, amended: when no map of the overlay has a key twice and the base has neither a
scalar nor a sequence strictly above a key path at which the overlay has a scalar or a
sequence, `YAML::insert_all_values(base, overlay)` returns; the merged tree then holds the
value of the overlay at every such key path, and at every key path that parts from all of
them it holds what the base held, so that a base map keeps the keys the overlay does not
name. -/
theorem overlay_wins_on_open_base (base overlay : Node)
    (hkeys : overlay.distinct_keys = true)
    (hopen : ∀ p, (overlay.value_at p).IsValue = true → base.open_at p = true) :
    ∃ merged, insert_all_values base overlay [] = some merged ∧
      (∀ p, (overlay.value_at p).IsValue = true → merged.value_at p = overlay.value_at p) ∧
      (∀ q, (∀ p, (overlay.value_at p).IsValue = true → paths_diverge p q = true) →
        merged.value_at q = base.value_at q) := by
  have hsound := leaves_sound overlay [] hkeys
  have hopen1 : ∀ x ∈ overlay.leaves [], base.open_at x.1 = true := by
    intro x hx
    obtain ⟨r, hr, hv, hval⟩ := hsound x hx
    rw [hr, List.nil_append]
    apply hopen
    rw [hv]
    exact hval
  obtain ⟨merged, hm, hvals, hframe⟩ :=
    insert_leaves_spec (overlay.leaves []) base (leaves_pairwise overlay [] hkeys) hopen1
  refine ⟨merged, ?_, ?_, ?_⟩
  · rw [insert_all_values_leaves]
    exact hm
  · intro p hp
    have := hvals _ (leaves_complete p overlay [] hp)
    simpa using this
  · intro q hq
    apply hframe
    intro x hx
    obtain ⟨r, hr, hv, hval⟩ := hsound x hx
    rw [hr, List.nil_append]
    apply hq
    rw [hv]
    exact hval

/-- **C11**, witness: the overlay with `2` at `a`, `b` over a base with the map `c: 3` under
`a` and `d: 4`. -/
theorem overlay_wins_on_open_base_witness :
    ∃ merged, insert_all_values example_base_map example_overlay [] = some merged ∧
      merged.value_at ["a".toList, "b".toList] = .Scalar "2".toList ∧
      merged.value_at ["a".toList, "c".toList] = .Scalar "3".toList ∧
      merged.value_at ["d".toList] = .Scalar "4".toList := by
  obtain ⟨merged, h1, h2, h3⟩ := overlay_wins_on_open_base example_base_map example_overlay
    (by decide!) (fun p hp => by rw [example_overlay_values p hp]; decide!)
  exact ⟨merged, h1, h2 ["a".toList, "b".toList] rfl,
    h3 ["a".toList, "c".toList] (fun p hp => by rw [example_overlay_values p hp]; decide!),
    h3 ["d".toList] (fun p hp => by rw [example_overlay_values p hp]; decide!)⟩

/-! ## C23: the interaction roles and the topmost object -/

theorem OrderedMap.back_key_keys {α : Type} (m : OrderedMap α) :
    m.back_key = (m.map Prod.fst).getLast? := by
  unfold OrderedMap.back_key
  rw [List.getLast?_map]

theorem set_active_object_keys (lp : LevelPlayer) (object : Option ID) :
    (lp.set_active_object object).objects.map Prod.fst =
      (lp.set_topmost_object object).objects.map Prod.fst := by
  unfold LevelPlayer.set_active_object
  simp only
  split
  · rfl
  · cases hold : (lp.set_topmost_object object).active_object with
    | none =>
      cases object with
      | none => rfl
      | some key => simp only [OrderedMap.keys_modify]
    | some old =>
      cases object with
      | none => simp only [OrderedMap.keys_modify]
      | some key => simp only [OrderedMap.keys_modify]

theorem set_hovered_object_keys (lp : LevelPlayer) (object : Option ID) :
    (lp.set_hovered_object object).objects.map Prod.fst = lp.objects.map Prod.fst := by
  unfold LevelPlayer.set_hovered_object
  split
  · rfl
  · cases hold : lp.hovered_object with
    | none =>
      cases object with
      | none => rfl
      | some key => simp only [OrderedMap.keys_modify]
    | some old =>
      cases object with
      | none => simp only [OrderedMap.keys_modify]
      | some key => simp only [OrderedMap.keys_modify]

/-- **C23**, counterexample: the map holds `A` then `B`; after `set_hovered_object(A)` the
object `A` is the hovered object and the topmost object is still `B`. -/
theorem set_hovered_object_does_not_promote :
    (example_level_player.set_hovered_object (some "A".toList)).hovered_object =
      some "A".toList ∧
    (example_level_player.set_hovered_object (some "A".toList)).objects.back_key =
      some "B".toList := by
  decide!

theorem set_hovered_object_role (lp : LevelPlayer) (object : Option ID) :
    (lp.set_hovered_object object).hovered_object = object := by
  unfold LevelPlayer.set_hovered_object
  split
  · rename_i h; exact h.symm
  · cases lp.hovered_object <;> cases object <;> rfl

theorem set_active_object_role (lp : LevelPlayer) (object : Option ID) :
    (lp.set_active_object object).active_object = object := by
  unfold LevelPlayer.set_active_object
  simp only
  split
  · rename_i h; exact h.symm
  · cases (lp.set_topmost_object object).active_object <;> cases object <;> rfl

/-- **C23**, amended: for an object with a non-empty ID that is in the object map,
`set_active_object`, `clasp` and `mouse_grab` leave it the last (topmost) entry of the map
and make it the active, the clasped and the mouse-grabbed object; `set_hovered_object` makes
it the hovered object and leaves the order of the map as it was. -/
theorem role_setters_promote_except_hover (lp : LevelPlayer) (a : ID) (o : Object)
    (hne : a ≠ []) (hnodup : (lp.objects.map Prod.fst).Nodup)
    (hfind : lp.objects.find a = some o) :
    ((lp.set_active_object (some a)).objects.back_key = some a ∧
      (lp.set_active_object (some a)).active_object = some a) ∧
    ((lp.clasp (some a)).objects.back_key = some a ∧
      (lp.clasp (some a)).clasped_object = some a) ∧
    ((lp.mouse_grab (some a)).objects.back_key = some a ∧
      (lp.mouse_grab (some a)).mouse_grabbed_object = some a) ∧
    ((lp.set_hovered_object (some a)).hovered_object = some a ∧
      (lp.set_hovered_object (some a)).objects.map Prod.fst = lp.objects.map Prod.fst) := by
  have htop := (set_topmost_object_spec lp a o hne hnodup hfind).1
  have hback : (lp.set_topmost_object (some a)).objects.back_key = some a :=
    OrderedMap.back_key_of_getLast? _ _ _ htop
  refine ⟨⟨?_, set_active_object_role lp (some a)⟩, ⟨hback, rfl⟩, ⟨hback, rfl⟩,
    set_hovered_object_role lp (some a), set_hovered_object_keys lp (some a)⟩
  rw [OrderedMap.back_key_keys, set_active_object_keys, ← OrderedMap.back_key_keys]
  exact hback

/-- **C23**, witness: the object `A` of the example, below `B`. -/
theorem role_setters_promote_except_hover_witness :
    example_level_player.objects.back_key = some "B".toList ∧
    (example_level_player.set_active_object (some "A".toList)).objects.back_key =
      some "A".toList :=
  ⟨by decide!,
    (role_setters_promote_except_hover example_level_player "A".toList example_sheet
      (by decide!) (by decide!) (by decide!)).1.1⟩

/-! ## C22: hit-testing -/

theorem topmost_visible_loop_spec (κ : Sheet → PxVec2 → Bool) (p : PxVec2)
    (l : List (ID × Object))
    (hsafe : ∀ q ∈ l, q.2.is_visible = true → (q.2.contains κ p).isSome = true) :
    topmost_visible_loop κ p l =
      some (((l.filter (fun q => q.2.is_hit κ p)).head?).map Prod.fst) := by
  induction l with
  | nil => rfl
  | cons q rest ih =>
    obtain ⟨id, o⟩ := q
    have ih1 := ih (fun r hr => hsafe r (List.mem_cons_of_mem _ hr))
    have hq := hsafe (id, o) (List.mem_cons_self _ _)
    simp only [topmost_visible_loop, List.filter_cons, Object.is_hit]
    by_cases hv : o.is_visible = true
    · simp only [hv, if_true, Bool.true_and]
      have hs := hq hv
      cases hc : o.contains κ p with
      | none => rw [hc] at hs; simp at hs
      | some b =>
        cases b with
        | true => simp
        | false =>
          simp only [beq_iff_eq, Option.some.injEq, Bool.false_eq_true, if_false]
          rw [ih1]
          rfl
    · simp only [hv, Bool.false_eq_true, if_false, Bool.false_and]
      rw [ih1]
      rfl

/-- **C22**: when `contains` can be asked of every visible object (a visible binder has its
active sheet), `LevelPlayer::get_topmost_visible_object(p)` returns the last object in the
order of the map among those that are visible and contain `p`, and no object exactly when no
object of the map is visible and contains `p`; a binder contains `p` exactly when its active
sheet does. -/
theorem topmost_visible_object_is_last_hit (κ : Sheet → PxVec2 → Bool) (lp : LevelPlayer)
    (p : PxVec2)
    (hsafe : ∀ q ∈ lp.objects, q.2.is_visible = true → (q.2.contains κ p).isSome = true) :
    lp.get_topmost_visible_object κ p =
      some (((lp.objects.filter (fun q => q.2.is_hit κ p)).getLast?).map Prod.fst) ∧
    (lp.get_topmost_visible_object κ p = some none ↔
      ∀ q ∈ lp.objects, q.2.is_hit κ p = false) ∧
    (∀ (b : Binder) (k : ID) (s : Sheet), b.active_sheet = some k →
      b.sheets.find k = some s → (Object.Binder b).contains κ p = some (κ s p)) := by
  have h1 : lp.get_topmost_visible_object κ p =
      some (((lp.objects.filter (fun q => q.2.is_hit κ p)).getLast?).map Prod.fst) := by
    unfold LevelPlayer.get_topmost_visible_object
    rw [topmost_visible_loop_spec κ p lp.objects.reverse
      (fun q hq => hsafe q (List.mem_reverse.mp hq))]
    rw [List.filter_reverse, List.head?_reverse]
  refine ⟨h1, ?_, ?_⟩
  · rw [h1]
    constructor
    · intro h q hq
      by_contra hh
      have hmem : q ∈ lp.objects.filter (fun q => q.2.is_hit κ p) :=
        List.mem_filter.mpr ⟨hq, by simpa using hh⟩
      cases hl : (lp.objects.filter (fun q => q.2.is_hit κ p)).getLast? with
      | none =>
        rw [List.getLast?_eq_none_iff] at hl
        rw [hl] at hmem
        simp at hmem
      | some r =>
        rw [hl] at h
        simp at h
    · intro h
      have : lp.objects.filter (fun q => q.2.is_hit κ p) = [] := by
        apply List.filter_eq_nil_iff.mpr
        intro q hq
        simp [h q hq]
      rw [this]
      rfl
  · intro b k s hk hs
    simp [Object.contains, hk, hs]

/-- **C22**, witness: the two visible sheets of the example, with a `contains` that is true
everywhere: the topmost one, `B`, is found. -/
theorem topmost_visible_object_is_last_hit_witness :
    example_level_player.get_topmost_visible_object (fun _ _ => true) (0, 0) =
      some (some "B".toList) :=
  (topmost_visible_object_is_last_hit (fun _ _ => true) example_level_player (0, 0)
    (by decide!)).1

/-! ## C24: turning the sheets of a binder -/

theorem OrderedMap.find_modify_other {α : Type} (m : OrderedMap α) (key other : ID)
    (f : α → α) (h : key ≠ other) : (m.modify other f).find key = m.find key := by
  induction m with
  | nil => rfl
  | cons p ps ih =>
    obtain ⟨k, w⟩ := p
    by_cases hk : k = other
    · have e : OrderedMap.modify ((k, w) :: ps) other f =
          (k, f w) :: OrderedMap.modify ps other f := by
        simp [OrderedMap.modify, hk]
      have hne : key ≠ k := by rw [hk]; exact h
      rw [e, OrderedMap.find_cons, OrderedMap.find_cons, if_neg hne, if_neg hne, ih]
    · have e : OrderedMap.modify ((k, w) :: ps) other f =
          (k, w) :: OrderedMap.modify ps other f := by
        simp [OrderedMap.modify, hk]
      rw [e, OrderedMap.find_cons, OrderedMap.find_cons, ih]

theorem OrderedMap.forall_modify {α : Type} (m : OrderedMap α) (key : ID) (f : α → α)
    (P : α → Prop) (hm : ∀ q ∈ m, P q.2) (hf : ∀ v, P v → P (f v)) :
    ∀ q ∈ m.modify key f, P q.2 := by
  intro q hq
  unfold OrderedMap.modify at hq
  obtain ⟨r, hr, e⟩ := List.mem_map.mp hq
  by_cases hk : r.1 = key
  · rw [if_pos hk] at e
    rw [← e]
    exact hf _ (hm r hr)
  · rw [if_neg hk] at e
    rw [← e]
    exact hm r hr

theorem OrderedMap.find_isSome_of_mem {α : Type} (m : OrderedMap α) (key : ID)
    (h : key ∈ m.map Prod.fst) : ∃ v, m.find key = some v ∧ (key, v) ∈ m := by
  induction m with
  | nil => simp at h
  | cons p ps ih =>
    obtain ⟨k, w⟩ := p
    rw [OrderedMap.find_cons]
    by_cases hk : key = k
    · rw [if_pos hk, hk]
      exact ⟨w, rfl, List.mem_cons_self _ _⟩
    · rw [if_neg hk]
      have : key ∈ ps.map Prod.fst := by
        rcases List.mem_cons.mp h with h1 | h1
        · exact absurd h1 hk
        · exact h1
      obtain ⟨v, hv, hmem⟩ := ih this
      exact ⟨v, hv, List.mem_cons_of_mem _ hmem⟩

/-- The three setters `set_active`, `set_hovered`, `set_visible` on a bound sheet. -/
theorem bound_sheet_turn (s : Sheet) (a h v : Bool)
    (hc : s.entity.config = EntityConfigs.BOUND_SHEET) :
    (((s.set_active a).set_hovered h).set_visible v).entity =
      { s.entity with active := a, hovered := h, visible := v, idle := false } := by
  have hact : s.entity.config.activatable = true := by rw [hc]; rfl
  have e1 : (s.set_active a).entity = { s.entity with active := a, idle := false } := by
    unfold Sheet.set_active
    simp only [hact, Bool.not_true, Bool.false_eq_true, if_false]
    split
    · split <;> rfl
    · rfl
  have hact1 : (s.set_active a).entity.config.activatable = true := by rw [e1]; exact hact
  have e2 : ((s.set_active a).set_hovered h).entity =
      { (s.set_active a).entity with hovered := h, idle := false } := by
    unfold Sheet.set_hovered
    simp only [hact1, Bool.not_true, Bool.false_eq_true, if_false]
    split
    · split <;> rfl
    · rfl
  unfold Sheet.set_visible
  simp only [e2, e1]

theorem set_active_sheet_other (b : Binder) (id : ID) (h : b.ready)
    (hid : id ∈ b.sheets.map Prod.fst) (hne : id ≠ b.active_sheet_id) :
    b.set_active_sheet id =
      { b with
        entity := b.entity.set_idle false
        active_sheet_id := id
        active_sheet := some id
        sheets := ((b.sheets.modify b.active_sheet_id
            (fun s => ((s.set_active false).set_hovered false).set_visible false)).modify id
          (fun s => ((s.set_active b.entity.active).set_hovered b.entity.hovered).set_visible
            b.entity.visible)) } := by
  obtain ⟨_, hact, _, _⟩ := h
  have hcont : b.sheets.contains id = true := by
    unfold OrderedMap.contains
    simpa [List.any_eq_true, List.mem_map] using hid
  have hne1 : ¬ b.active_sheet_id = id := fun e => hne e.symm
  unfold Binder.set_active_sheet
  simp only [hact, hne1, and_false, if_false, hcont, if_true, Entity.set_idle]

theorem set_active_sheet_spec (b : Binder) (id : ID) (h : b.ready)
    (hid : id ∈ b.sheets.map Prod.fst) :
    (b.set_active_sheet id).ready ∧
    (b.set_active_sheet id).sheets.map Prod.fst = b.sheets.map Prod.fst ∧
    (b.set_active_sheet id).active_sheet_id = id ∧
    (b.set_active_sheet id).entity.visible = b.entity.visible ∧
    (b.set_active_sheet id).entity.hovered = b.entity.hovered ∧
    (b.set_active_sheet id).entity.active = b.entity.active ∧
    (id ≠ b.active_sheet_id →
      (∃ out, (b.set_active_sheet id).sheets.find b.active_sheet_id = some out ∧
        out.entity.visible = false ∧ out.entity.hovered = false ∧
        out.entity.active = false) ∧
      (∃ inc, (b.set_active_sheet id).sheets.find id = some inc ∧
        inc.entity.visible = b.entity.visible ∧ inc.entity.hovered = b.entity.hovered ∧
        inc.entity.active = b.entity.active)) := by
  by_cases hne : id = b.active_sheet_id
  · have e : b.set_active_sheet id = b := by
      unfold Binder.set_active_sheet
      rw [if_pos]
      exact ⟨by rw [h.2.1]; rfl, hne.symm⟩
    rw [e]
    exact ⟨h, rfl, hne.symm, rfl, rfl, rfl, fun hh => absurd hne hh⟩
  · rw [set_active_sheet_other b id h hid hne]
    obtain ⟨hnd, hact, hmem, hcfg⟩ := h
    have hkeys : ((b.sheets.modify b.active_sheet_id
        (fun s => ((s.set_active false).set_hovered false).set_visible false)).modify id
        (fun s => ((s.set_active b.entity.active).set_hovered b.entity.hovered).set_visible
          b.entity.visible)).map Prod.fst = b.sheets.map Prod.fst := by
      rw [OrderedMap.keys_modify, OrderedMap.keys_modify]
    have hpres : ∀ (a h v : Bool) (s : Sheet), s.entity.config = EntityConfigs.BOUND_SHEET →
        (((s.set_active a).set_hovered h).set_visible v).entity.config =
          EntityConfigs.BOUND_SHEET := by
      intro a h v s hs
      rw [bound_sheet_turn s a h v hs]
      exact hs
    have hcfg1 := OrderedMap.forall_modify b.sheets b.active_sheet_id
      (fun s => ((s.set_active false).set_hovered false).set_visible false)
      (fun s : Sheet => s.entity.config = EntityConfigs.BOUND_SHEET) hcfg
      (hpres false false false)
    have hcfg2 := OrderedMap.forall_modify _ id
      (fun s => ((s.set_active b.entity.active).set_hovered b.entity.hovered).set_visible
        b.entity.visible)
      (fun s : Sheet => s.entity.config = EntityConfigs.BOUND_SHEET) hcfg1
      (hpres b.entity.active b.entity.hovered b.entity.visible)
    refine ⟨⟨?_, rfl, ?_, hcfg2⟩, hkeys, rfl, rfl, rfl, rfl, fun _ => ⟨?_, ?_⟩⟩
    · simp only [hkeys]; exact hnd
    · simp only [hkeys]; exact hid
    · obtain ⟨old, hold, holdm⟩ := OrderedMap.find_isSome_of_mem b.sheets _ hmem
      refine ⟨((old.set_active false).set_hovered false).set_visible false, ?_, ?_, ?_, ?_⟩
      · simp only
        rw [OrderedMap.find_modify_other _ _ _ _ (fun e => hne e.symm),
          OrderedMap.find_modify_self, hold]
        rfl
      · rw [bound_sheet_turn old false false false (hcfg _ holdm)]
      · rw [bound_sheet_turn old false false false (hcfg _ holdm)]
      · rw [bound_sheet_turn old false false false (hcfg _ holdm)]
    · obtain ⟨new, hnew, hnewm⟩ := OrderedMap.find_isSome_of_mem b.sheets _ hid
      have hnew1 : ∀ q ∈ b.sheets.modify b.active_sheet_id
          (fun s => ((s.set_active false).set_hovered false).set_visible false),
          q.2.entity.config = EntityConfigs.BOUND_SHEET := hcfg1
      refine ⟨((new.set_active b.entity.active).set_hovered b.entity.hovered).set_visible
        b.entity.visible, ?_, ?_, ?_, ?_⟩
      · simp only
        rw [OrderedMap.find_modify_self, OrderedMap.find_modify_other _ _ _ _ hne, hnew]
        rfl
      · rw [bound_sheet_turn new _ _ _ (hcfg _ hnewm)]
      · rw [bound_sheet_turn new _ _ _ (hcfg _ hnewm)]
      · rw [bound_sheet_turn new _ _ _ (hcfg _ hnewm)]

theorem key_index_lt (l : List ID) (key : ID) (h : key ∈ l) : key_index l key < l.length := by
  induction l with
  | nil => simp at h
  | cons k rest ih =>
    unfold key_index
    by_cases hk : k = key
    · rw [if_pos hk]; simp
    · rw [if_neg hk]
      rcases List.mem_cons.mp h with h1 | h1
      · exact absurd h1.symm hk
      · have := ih h1
        simp only [List.length_cons]
        omega

theorem get?_key_index (l : List ID) (key : ID) (h : key ∈ l) :
    l.get? (key_index l key) = some key := by
  induction l with
  | nil => simp at h
  | cons k rest ih =>
    unfold key_index
    by_cases hk : k = key
    · rw [if_pos hk, hk]; rfl
    · rw [if_neg hk]
      rcases List.mem_cons.mp h with h1 | h1
      · exact absurd h1.symm hk
      · simpa using ih h1

theorem key_index_get? (l : List ID) (hnd : l.Nodup) :
    ∀ (i : Nat) (key : ID), l.get? i = some key → key_index l key = i := by
  induction l with
  | nil => intro i key h; simp at h
  | cons k rest ih =>
    intro i key h
    rw [List.nodup_cons] at hnd
    unfold key_index
    cases i with
    | zero =>
      simp only [List.get?_cons_zero, Option.some.injEq] at h
      rw [if_pos h]
    | succ j =>
      simp only [List.get?_cons_succ] at h
      have hmem : key ∈ rest := List.get?_mem h
      have hk : ¬ k = key := fun e => hnd.1 (e ▸ hmem)
      rw [if_neg hk, ih hnd.2 j key h]

theorem next_sheet_id_spec (sheets : OrderedMap Sheet) (id : ID)
    (hmem : id ∈ sheets.map Prod.fst) :
    ∃ nid, next_sheet_id sheets id = some nid ∧
      (sheets.map Prod.fst).get? ((key_index (sheets.map Prod.fst) id + 1) % sheets.length) =
        some nid ∧ nid ∈ sheets.map Prod.fst := by
  have hlen : (sheets.map Prod.fst).length = sheets.length := List.length_map _ _
  have hi : key_index (sheets.map Prod.fst) id < sheets.length := by
    rw [← hlen]; exact key_index_lt _ _ hmem
  have hpos : 0 < sheets.length := by omega
  have hj : (key_index (sheets.map Prod.fst) id + 1) % sheets.length <
      (sheets.map Prod.fst).length := by
    rw [hlen]; exact Nat.mod_lt _ hpos
  refine ⟨(sheets.map Prod.fst).get ⟨_, hj⟩, ?_, ?_, List.get_mem _ _ _⟩
  · unfold next_sheet_id
    rw [if_neg (by omega)]
    by_cases hl : key_index (sheets.map Prod.fst) id = sheets.length - 1
    · rw [if_pos hl]
      have e : (key_index (sheets.map Prod.fst) id + 1) % sheets.length = 0 := by
        rw [hl, Nat.sub_add_cancel hpos, Nat.mod_self]
      rw [List.head?_eq_getElem?, List.getElem?_eq_getElem (by rw [hlen]; exact hpos)]
      simp only [List.get_eq_getElem, e]
    · rw [if_neg hl]
      have e : (key_index (sheets.map Prod.fst) id + 1) % sheets.length =
          key_index (sheets.map Prod.fst) id + 1 := Nat.mod_eq_of_lt (by omega)
      rw [List.get?_eq_getElem?, List.getElem?_eq_getElem (by rw [hlen]; omega)]
      simp only [List.get_eq_getElem, e]
  · rw [List.get?_eq_get hj]

theorem set_next_sheet_step (b : Binder) (h : b.ready) :
    ∃ b1, b.set_next_sheet = some b1 ∧ b1.ready ∧
      b1.sheets.map Prod.fst = b.sheets.map Prod.fst ∧
      (b.sheets.map Prod.fst).get?
        ((key_index (b.sheets.map Prod.fst) b.active_sheet_id + 1) % b.sheets.length) =
          some b1.active_sheet_id ∧
      b1.sheet_turn_cooldown = 2 / 5 ∧
      (b1.entity.visible = b.entity.visible ∧ b1.entity.hovered = b.entity.hovered ∧
        b1.entity.active = b.entity.active) ∧
      (2 ≤ b.sheets.length →
        (∃ out, b1.sheets.find b.active_sheet_id = some out ∧
          out.entity.visible = false ∧ out.entity.hovered = false ∧
          out.entity.active = false) ∧
        (∃ inc, b1.sheets.find b1.active_sheet_id = some inc ∧
          inc.entity.visible = b.entity.visible ∧ inc.entity.hovered = b.entity.hovered ∧
          inc.entity.active = b.entity.active)) := by
  obtain ⟨nid, hn, hget, hnmem⟩ := next_sheet_id_spec b.sheets b.active_sheet_id h.2.2.1
  obtain ⟨hr, hk, hid, hv, hh, ha, hturn⟩ := set_active_sheet_spec b nid h hnmem
  refine ⟨{ b.set_active_sheet nid with sheet_turn_cooldown := SHEET_TURN_COOLDOWN }, ?_, ?_,
    hk, ?_, rfl, ⟨hv, hh, ha⟩, ?_⟩
  · unfold Binder.set_next_sheet
    rw [hn]
    rfl
  · exact hr
  · rw [hget]
    exact congrArg some hid.symm
  · intro h2
    simp only [hid]
    apply hturn
    intro e
    have hlen : (b.sheets.map Prod.fst).length = b.sheets.length := List.length_map _ _
    have hi : key_index (b.sheets.map Prod.fst) b.active_sheet_id < b.sheets.length := by
      rw [← hlen]; exact key_index_lt _ _ h.2.2.1
    rw [e] at hget
    have heq1 := key_index_get? _ h.1 _ _ hget
    by_cases hl : key_index (b.sheets.map Prod.fst) b.active_sheet_id + 1 < b.sheets.length
    · rw [Nat.mod_eq_of_lt hl] at heq1
      omega
    · have : key_index (b.sheets.map Prod.fst) b.active_sheet_id + 1 = b.sheets.length := by
        omega
      rw [this, Nat.mod_self] at heq1
      omega

theorem set_next_sheet_times_spec (k : Nat) :
    ∀ b : Binder, b.ready →
      ∃ bk, b.set_next_sheet_times k = some bk ∧ bk.ready ∧
        bk.sheets.map Prod.fst = b.sheets.map Prod.fst ∧
        (b.sheets.map Prod.fst).get?
          ((key_index (b.sheets.map Prod.fst) b.active_sheet_id + k) % b.sheets.length) =
            some bk.active_sheet_id := by
  induction k with
  | zero =>
    intro b h
    have hlen : (b.sheets.map Prod.fst).length = b.sheets.length := List.length_map _ _
    have hi : key_index (b.sheets.map Prod.fst) b.active_sheet_id < b.sheets.length := by
      rw [← hlen]; exact key_index_lt _ _ h.2.2.1
    refine ⟨b, rfl, h, rfl, ?_⟩
    rw [Nat.add_zero, Nat.mod_eq_of_lt hi]
    exact get?_key_index _ _ h.2.2.1
  | succ k ih =>
    intro b h
    obtain ⟨b1, hs, hr1, hk1, hget1, _⟩ := set_next_sheet_step b h
    obtain ⟨bk, hbk, hrk, hkk, hgetk⟩ := ih b1 hr1
    have hlen : b1.sheets.length = b.sheets.length := by
      have := congrArg List.length hk1
      simpa using this
    have hidx := key_index_get? _ h.1 _ _ hget1
    refine ⟨bk, ?_, hrk, hkk.trans hk1, ?_⟩
    · simp only [Binder.set_next_sheet_times, hs, Option.some_bind]
      exact hbk
    · rw [hk1, hlen, hidx, Nat.mod_add_mod] at hgetk
      rw [← hgetk]
      congr 2
      omega

/-- **C24**: on an initialised binder `set_next_sheet` makes the successor of the active
sheet in the order of the sheet map the active sheet (the first sheet after the last one) and
sets the turn cooldown to 0.4 s; as many calls as there are sheets return to the sheet that
was active.  With two or more sheets the outgoing sheet ends not visible, not hovered and not
active, and the incoming sheet has the visible, hovered and active flags of the binder. -/
theorem set_next_sheet_cycles (b : Binder) (h : b.ready) :
    ∃ b1, b.set_next_sheet = some b1 ∧
      (b.sheets.map Prod.fst).get?
        ((key_index (b.sheets.map Prod.fst) b.active_sheet_id + 1) % b.sheets.length) =
          some b1.active_sheet_id ∧
      b1.active_sheet = some b1.active_sheet_id ∧
      b1.sheets.map Prod.fst = b.sheets.map Prod.fst ∧
      b1.sheet_turn_cooldown = 2 / 5 ∧
      (2 ≤ b.sheets.length →
        (∃ out, b1.sheets.find b.active_sheet_id = some out ∧
          out.entity.visible = false ∧ out.entity.hovered = false ∧
          out.entity.active = false) ∧
        (∃ inc, b1.sheets.find b1.active_sheet_id = some inc ∧
          inc.entity.visible = b.entity.visible ∧ inc.entity.hovered = b.entity.hovered ∧
          inc.entity.active = b.entity.active)) ∧
      ∃ bn, b.set_next_sheet_times b.sheets.length = some bn ∧
        bn.active_sheet_id = b.active_sheet_id ∧ bn.active_sheet = b.active_sheet := by
  obtain ⟨b1, hs, hr1, hk1, hget1, hcd, _, hturn⟩ := set_next_sheet_step b h
  obtain ⟨bn, hbn, hrn, _, hgetn⟩ := set_next_sheet_times_spec b.sheets.length b h
  refine ⟨b1, hs, hget1, hr1.2.1, hk1, hcd, hturn, bn, hbn, ?_⟩
  have hlen : (b.sheets.map Prod.fst).length = b.sheets.length := List.length_map _ _
  have hi : key_index (b.sheets.map Prod.fst) b.active_sheet_id < b.sheets.length := by
    rw [← hlen]; exact key_index_lt _ _ h.2.2.1
  rw [Nat.add_mod_right, Nat.mod_eq_of_lt hi, get?_key_index _ _ h.2.2.1] at hgetn
  have hid : bn.active_sheet_id = b.active_sheet_id := (Option.some.inj hgetn).symm
  refine ⟨hid, ?_⟩
  rw [hrn.2.1, h.2.1, hid]

/-- **C24**, witness: a binder with the sheets `p`, `q` and `r`, `r` being the active one:
the next sheet is `p`. -/
theorem set_next_sheet_cycles_witness :
    example_binder.ready ∧
    ∃ b1, example_binder.set_next_sheet = some b1 ∧
      b1.active_sheet_id = "p".toList ∧ b1.sheet_turn_cooldown = 2 / 5 := by
  obtain ⟨b1, h1, h2, _, _, h5, _⟩ := set_next_sheet_cycles example_binder (by decide!)
  refine ⟨by decide!, b1, h1, ?_, h5⟩
  have e : (example_binder.sheets.map Prod.fst).get?
      ((key_index (example_binder.sheets.map Prod.fst) example_binder.active_sheet_id + 1) %
        example_binder.sheets.length) = some "p".toList := by decide!
  rw [e] at h2
  exact (Option.some.inj h2).symm

/-! ## C25: the dynamic data of an entity -/

theorem open_at_undefined (p : List Str) : Node.Undefined.open_at p = true := by
  induction p with
  | nil => rfl
  | cons k ks ih => simpa [Node.open_at, Node.IsOpen, Node.sub] using ih

theorem serialize_base_sub (κ : Collaborators) (e : Entity) (k : Str) :
    (Node.Map (e.serialize_base κ)).sub k =
      if e.config.visibility_serialization = true ∧ k = "visible".toList then
        Node.of_bool e.visible
      else if e.config.position_save = true ∧ e.initial_origin = .Center ∧
          k = "center".toList then of_PxVec2 κ e.get_center
      else if e.config.position_save = true ∧ e.initial_origin = .TopLeftCorner ∧
          k = "tlc".toList then of_PxVec2 κ e.get_tlc
      else if e.config.position_save = true ∧ e.initial_origin = .TopRightCorner ∧
          k = "trc".toList then of_PxVec2 κ e.get_trc
      else .Undefined := by
  have hnil : ∀ key : Str, List.lookup key ([] : List (Str × Node)) = none := fun _ => rfl
  unfold Entity.serialize_base Node.sub
  cases hv : e.config.visibility_serialization <;> cases hp : e.config.position_save <;>
    cases ho : e.initial_origin <;>
    simp only [if_true, if_false, Bool.false_eq_true, true_and, false_and,
      lookup_entries_set, hnil, reduceCtorEq] <;>
    (try split_ifs) <;> rfl

theorem hook_leaf_paths (hook : Node) (hkeys : hook.distinct_keys = true)
    (hmap : hook.IsValue = false)
    (hfree : ∀ k ∈ ENTITY_KEYS, (hook.sub k).IsDefined = false) :
    ∀ x ∈ hook.leaves [], ∃ k r, x.1 = k :: r ∧ k ∉ ENTITY_KEYS := by
  intro x hx
  obtain ⟨r, hr, hv, hval⟩ := leaves_sound hook [] hkeys x hx
  rw [List.nil_append] at hr
  cases r with
  | nil =>
    simp only [Node.value_at] at hv
    rw [← hv, hmap] at hval
    exact absurd hval (by decide)
  | cons k r1 =>
    refine ⟨k, r1, hr, ?_⟩
    intro hk
    have hu := hfree k hk
    have hund : hook.sub k = .Undefined := by
      cases hs : hook.sub k with
      | Undefined => rfl
      | Null => rw [hs] at hu; simp [Node.IsDefined] at hu
      | Scalar s => rw [hs] at hu; simp [Node.IsDefined] at hu
      | Sequence l => rw [hs] at hu; simp [Node.IsDefined] at hu
      | Map es => rw [hs] at hu; simp [Node.IsDefined] at hu
    simp only [Node.value_at, hund, value_at_undefined] at hv
    rw [← hv] at hval
    exact absurd hval (by decide)

theorem serialize_base_sub_other (κ : Collaborators) (e : Entity) (k : Str)
    (hk : k ∉ ENTITY_KEYS) : (Node.Map (e.serialize_base κ)).sub k = .Undefined := by
  rw [serialize_base_sub]
  have h1 : ¬ k = "visible".toList := fun h => hk (by rw [h]; decide)
  have h2 : ¬ k = "center".toList := fun h => hk (by rw [h]; decide)
  have h3 : ¬ k = "tlc".toList := fun h => hk (by rw [h]; decide)
  have h4 : ¬ k = "trc".toList := fun h => hk (by rw [h]; decide)
  simp only [h1, h2, h3, h4, and_false, if_false]

/-- **C25**: when the node of the subclass hook is not itself a value, has no key twice and
names none of the keys `center`, `tlc`, `trc` and `visible` (as the hooks of `Sheet`,
`Binder`, `Button` and `InputLine` do, and the empty node of `Entity`),
`Entity::serialize_dynamic_data` returns a map that has a position key exactly when
`position_save` is set, namely the one of the origin chosen at initialisation with the
position of that anchor, that has the key `visible` exactly when `visibility_serialization`
is set, with the visible flag, and whose other keys are keys of the hook. -/
theorem serialize_dynamic_data_opt_in (κ : Collaborators) (e : Entity) (hook : Node)
    (hkeys : hook.distinct_keys = true) (hmap : hook.IsValue = false)
    (hfree : ∀ k ∈ ENTITY_KEYS, (hook.sub k).IsDefined = false) :
    ∃ node, e.serialize_dynamic_data κ hook = some node ∧
      node.sub "center".toList =
        (if e.config.position_save = true ∧ e.initial_origin = .Center then
          of_PxVec2 κ e.get_center else .Undefined) ∧
      node.sub "tlc".toList =
        (if e.config.position_save = true ∧ e.initial_origin = .TopLeftCorner then
          of_PxVec2 κ e.get_tlc else .Undefined) ∧
      node.sub "trc".toList =
        (if e.config.position_save = true ∧ e.initial_origin = .TopRightCorner then
          of_PxVec2 κ e.get_trc else .Undefined) ∧
      node.sub "visible".toList =
        (if e.config.visibility_serialization = true then Node.of_bool e.visible
          else .Undefined) ∧
      (∀ k, k ∉ ENTITY_KEYS → (node.sub k).IsDefined = true →
        ∃ x ∈ hook.leaves [], x.1.head? = some k) := by
  have hpaths := hook_leaf_paths hook hkeys hmap hfree
  have hopen : ∀ x ∈ hook.leaves [], (Node.Map (e.serialize_base κ)).open_at x.1 = true := by
    intro x hx
    obtain ⟨k, r, hx1, hk⟩ := hpaths x hx
    rw [hx1]
    simp only [Node.open_at, Node.IsOpen, Bool.true_and, serialize_base_sub_other κ e k hk,
      open_at_undefined]
  obtain ⟨merged, hm, _, hframe⟩ :=
    insert_leaves_spec (hook.leaves []) _ (leaves_pairwise hook [] hkeys) hopen
  have hbase : ∀ k0 ∈ ENTITY_KEYS, merged.sub k0 = (Node.Map (e.serialize_base κ)).sub k0 := by
    intro k0 hk0
    have := hframe [k0] (by
      intro x hx
      obtain ⟨k, r, hx1, hk⟩ := hpaths x hx
      rw [hx1]
      have hne : ¬ k = k0 := fun h => hk (h ▸ hk0)
      simp [paths_diverge, hne])
    simpa [Node.value_at] using this
  refine ⟨merged, ?_, ?_, ?_, ?_, ?_, ?_⟩
  · unfold Entity.serialize_dynamic_data
    rw [insert_all_values_leaves]
    exact hm
  · rw [hbase _ (by decide), serialize_base_sub]
    simp only [(by decide : ¬ "center".toList = "visible".toList),
      (by decide : ¬ "center".toList = "tlc".toList),
      (by decide : ¬ "center".toList = "trc".toList), and_false, and_true, if_false]
  · rw [hbase _ (by decide), serialize_base_sub]
    simp only [(by decide : ¬ "tlc".toList = "visible".toList),
      (by decide : ¬ "tlc".toList = "center".toList),
      (by decide : ¬ "tlc".toList = "trc".toList), and_false, and_true, if_false]
  · rw [hbase _ (by decide), serialize_base_sub]
    simp only [(by decide : ¬ "trc".toList = "visible".toList),
      (by decide : ¬ "trc".toList = "center".toList),
      (by decide : ¬ "trc".toList = "tlc".toList), and_false, and_true, if_false]
  · rw [hbase _ (by decide), serialize_base_sub]
    simp only [(by decide : ¬ "visible".toList = "center".toList),
      (by decide : ¬ "visible".toList = "tlc".toList),
      (by decide : ¬ "visible".toList = "trc".toList), and_false, and_true, if_false]
  · intro k hk hdef
    by_contra hno
    have hdiv : ∀ x ∈ hook.leaves [], paths_diverge x.1 [k] = true := by
      intro x hx
      obtain ⟨k1, r, hx1, _⟩ := hpaths x hx
      rw [hx1]
      have hne : ¬ k1 = k := by
        intro h
        apply hno
        exact ⟨x, hx, by rw [hx1, h]; rfl⟩
      simp [paths_diverge, hne]
    have := hframe [k] hdiv
    simp only [Node.value_at] at this
    rw [this, serialize_base_sub_other κ e k hk] at hdef
    exact absurd hdef (by decide)

/-- **C25**, witness: an independent sheet entity, hidden, with the hook node of a sheet that
has one element. -/
theorem serialize_dynamic_data_opt_in_witness :
    ∃ node, example_entity.serialize_dynamic_data example_collaborators example_hook =
        some node ∧
      node.sub "center".toList = of_PxVec2 example_collaborators (3, 4) ∧
      node.sub "tlc".toList = .Undefined ∧
      node.sub "visible".toList = Node.of_bool false := by
  obtain ⟨node, h1, h2, h3, _, h5, _⟩ :=
    serialize_dynamic_data_opt_in example_collaborators example_entity example_hook
      (by decide!) (by decide!) (by decide!)
  exact ⟨node, h1, h2, h3, h5⟩

/-! ## C26: the placeholder substitution -/

theorem str_find_from_occurrence (what : Str) (s : Str) :
    ∀ (i0 i : Nat), str_find_from what s i0 = some i →
      ∃ pre post, s = pre ++ what ++ post ∧ i = i0 + pre.length := by
  induction s with
  | nil =>
    intro i0 i h
    simp only [str_find_from] at h
    split at h
    · rename_i hw
      refine ⟨[], [], by simp [hw], ?_⟩
      simpa using (Option.some.inj h).symm
    · exact Option.noConfusion h
  | cons c cs ih =>
    intro i0 i h
    simp only [str_find_from] at h
    split at h
    · rename_i hp
      obtain ⟨post, hpost⟩ := List.isPrefixOf_iff_prefix.mp hp
      refine ⟨[], post, by simpa using hpost.symm, ?_⟩
      simpa using (Option.some.inj h).symm
    · obtain ⟨pre, post, hs, hi⟩ := ih (i0 + 1) i h
      refine ⟨c :: pre, post, by rw [hs]; rfl, ?_⟩
      rw [hi, List.length_cons]
      omega

theorem find_and_replace_step (fuel : Nat) (str what replacement : Str) (i : Nat)
    (h : str_find str what = some i) :
    ∃ pre post, str = pre ++ what ++ post ∧
      find_and_replace (fuel + 1) str what replacement =
        find_and_replace fuel (pre ++ replacement ++ post) what replacement := by
  obtain ⟨pre, post, hs, hi⟩ := str_find_from_occurrence what str 0 i h
  refine ⟨pre, post, hs, ?_⟩
  rw [find_and_replace, h]
  simp only
  have e1 : str.take i = pre := by
    rw [hs, hi, Nat.zero_add, List.append_assoc, List.take_left]
  have e2 : str.drop (i + what.length) = post := by
    rw [hs, hi, Nat.zero_add, ← List.length_append, List.drop_left]
  rw [e1, e2]

theorem find_and_replace_self_loops (str what : Str) (i : Nat)
    (h : str_find str what = some i) : ∀ fuel, find_and_replace fuel str what what = none := by
  intro fuel
  induction fuel with
  | zero => rw [find_and_replace, h]
  | succ n ih =>
    obtain ⟨pre, post, hs, hstep⟩ := find_and_replace_step n str what what i h
    rw [hstep, ← hs]
    exact ih

theorem find_and_replace_placeholder_terminates (arg : Str) (harg : ∀ c ∈ arg, c ≠ '{') :
    ∀ (n : Nat) (s : Str), s.count '{' ≤ n →
      ∃ r, find_and_replace n s "{}".toList arg = some r := by
  have hcount : arg.count '{' = 0 := List.count_eq_zero.mpr (fun hm => harg _ hm rfl)
  intro n
  induction n with
  | zero =>
    intro s hs
    cases hf : str_find s "{}".toList with
    | none => exact ⟨s, by rw [find_and_replace, hf]⟩
    | some i =>
      obtain ⟨pre, post, hs1, _⟩ := str_find_from_occurrence _ s 0 i hf
      rw [hs1] at hs
      simp [List.count_append, List.count_cons] at hs
  | succ n ih =>
    intro s hs
    cases hf : str_find s "{}".toList with
    | none => exact ⟨s, by rw [find_and_replace, hf]⟩
    | some i =>
      obtain ⟨pre, post, hs1, hstep⟩ := find_and_replace_step n s "{}".toList arg i hf
      rw [hstep]
      apply ih
      rw [hs1] at hs
      simp only [List.count_append, hcount] at hs ⊢
      have : List.count '{' "{}".toList = 1 := by decide
      omega

/-- **C26**, the divergence: for an executable action whose command sequence holds the
placeholder `{}`, `initiate_execution` with the argument `{}` (text a player can type into
an input line) never leaves the loop of `find_and_replace`: no number of replacements
removes the placeholder.  With an argument that holds no opening brace the loop ends
within as many replacements as the command sequence has opening braces. -/
theorem placeholder_argument_never_returns (a : Action) (rt : Runtime) (i : Nat)
    (hex : a.is_executable = true)
    (hph : str_find a.command_sequence "{}".toList = some i) :
    (∀ fuel, a.initiate_execution fuel "{}".toList rt = none) ∧
    (∀ arg : Str, (∀ c ∈ arg, c ≠ '{') →
      ∃ r, a.initiate_execution (a.command_sequence.count '{') arg rt = some r) := by
  constructor
  · intro fuel
    unfold Action.initiate_execution
    rw [if_pos hex, find_and_replace_self_loops _ _ i hph fuel]
    rfl
  · intro arg harg
    obtain ⟨r, hr⟩ := find_and_replace_placeholder_terminates arg harg _ a.command_sequence
      (Nat.le_refl _)
    unfold Action.initiate_execution
    rw [if_pos hex, hr]
    exact ⟨_, rfl⟩

/-- **C26**, witness: the action `message({})` and the argument `{}`, with room for a
hundred replacements. -/
theorem placeholder_argument_never_returns_witness :
    example_action.initiate_execution 100 "{}".toList example_runtime = none :=
  (placeholder_argument_never_returns example_action example_runtime 8 (by decide!)
    (by decide!)).1 100

/-! ## C27: the bookkeeping of `InputString` -/

/-- **C27**, the divergence.  `set_max_length` shortens the string but leaves `len` and
`index` as they were: after `set_string("abcdef")` and `set_max_length(3)` the string is
`abc` while `len` and `index` are 6.  `set_string` computes the number of characters to
erase from the old `len`: with the limit 3 and the string `abc`, `set_string("abcdef")`
erases nothing and stores six characters.  In a state with `len < max_len`, as after the
constructor or `clear`, `set_string` stores the accepted characters cut to the limit, with
`len` the length of the string, `index` at its end and `len <= max_len`. -/
theorem set_max_length_keeps_len :
    ((({} : InputString).set_string "abcdef".toList).set_max_length 3).string =
        "abc".toList ∧
    ((({} : InputString).set_string "abcdef".toList).set_max_length 3).len = 6 ∧
    ((({} : InputString).set_string "abcdef".toList).set_max_length 3).index = 6 ∧
    (((({} : InputString).set_max_length 3).set_string "abc".toList).set_string
        "abcdef".toList).string = "abcdef".toList ∧
    (((({} : InputString).set_max_length 3).set_string "abc".toList).set_string
        "abcdef".toList).max_len = 3 ∧
    (∀ (i : InputString) (s : Str), 0 ≤ i.max_len → i.len < i.max_len →
      (i.set_string s).string = (s.filter i.char_checker.allows).take i.max_len.toNat ∧
      (i.set_string s).len = ((i.set_string s).string.length : Int) ∧
      (i.set_string s).index = (i.set_string s).len ∧
      (i.set_string s).len ≤ (i.set_string s).max_len) := by
  refine ⟨by decide!, by decide!, by decide!, by decide!, by decide!, ?_⟩
  intro i s hmax hlen
  have hneg : i.len - i.max_len < 0 := by omega
  have hstr : (i.set_string s).string =
      (s.filter i.char_checker.allows).take i.max_len.toNat := by
    unfold InputString.set_string
    simp only
    by_cases h : 0 ≤ i.max_len ∧ i.max_len.toNat < (s.filter i.char_checker.allows).length
    · rw [if_pos h]
      unfold str_erase
      rw [if_pos hneg]
    · rw [if_neg h]
      have : (s.filter i.char_checker.allows).length ≤ i.max_len.toNat := by
        have := fun h2 => h ⟨hmax, h2⟩
        omega
      rw [List.take_of_length_le this]
  have hl : (i.set_string s).len = ((i.set_string s).string.length : Int) := rfl
  refine ⟨hstr, hl, rfl, ?_⟩
  rw [hl, hstr, List.length_take]
  have : (i.set_string s).max_len = i.max_len := rfl
  rw [this]
  omega

/-! ## C28: the interaction roles and the flags of the objects -/

theorem Entity.same_flags_refl (e : Entity) : e.same_flags e := ⟨rfl, rfl, rfl, rfl⟩

theorem Entity.same_flags_idle (e : Entity) (v : Bool) : e.same_flags (e.set_idle v) :=
  ⟨rfl, rfl, rfl, rfl⟩

theorem Sheet.set_active_element_entity (s : Sheet) (el : Option ID) :
    (s.set_active_element el).entity = s.entity := by
  unfold Sheet.set_active_element
  split
  · rfl
  · cases s.active_element <;> cases el <;> rfl

theorem sheet_reveal_flags (s : Sheet) (id : ID) : s.entity.same_flags (s.reveal id).entity := by
  unfold Sheet.reveal Sheet.get_element
  simp only
  split <;> exact ⟨rfl, rfl, rfl, rfl⟩

theorem sheet_hide_flags (s : Sheet) (id : ID) : s.entity.same_flags (s.hide id).entity := by
  unfold Sheet.hide Sheet.get_element
  simp only
  split
  · exact ⟨rfl, rfl, rfl, rfl⟩
  · split
    · exact ⟨rfl, rfl, rfl, rfl⟩
    · split
      · split
        · rw [Sheet.set_active_element_entity]
          exact ⟨rfl, rfl, rfl, rfl⟩
        · exact ⟨rfl, rfl, rfl, rfl⟩
      · exact ⟨rfl, rfl, rfl, rfl⟩

theorem sheet_set_locked_flags (s : Sheet) (id : ID) (locked : Bool) :
    s.entity.same_flags (s.set_locked id locked).entity := by
  unfold Sheet.set_locked Sheet.get_element
  simp only
  split
  · exact ⟨rfl, rfl, rfl, rfl⟩
  · split
    · exact ⟨rfl, rfl, rfl, rfl⟩
    · split
      · split
        · rw [Sheet.set_active_element_entity]
          exact ⟨rfl, rfl, rfl, rfl⟩
        · exact ⟨rfl, rfl, rfl, rfl⟩
      · exact ⟨rfl, rfl, rfl, rfl⟩

theorem binder_set_active_sheet_flags (b : Binder) (id : ID) :
    b.entity.same_flags (b.set_active_sheet id).entity := by
  unfold Binder.set_active_sheet
  split
  · exact ⟨rfl, rfl, rfl, rfl⟩
  · simp only
    split
    · cases b.active_sheet <;> exact ⟨rfl, rfl, rfl, rfl⟩
    · exact ⟨rfl, rfl, rfl, rfl⟩

theorem binder_reveal_flags (b : Binder) (id : ID) :
    b.entity.same_flags (b.reveal id).entity := by
  unfold Binder.reveal
  simp only
  split
  · have h := binder_set_active_sheet_flags { b with entity := b.entity.set_idle false }
      (str_split id ID_TREE_DELIM).1
    split <;> exact h
  · exact ⟨rfl, rfl, rfl, rfl⟩

theorem binder_hide_flags (b : Binder) (id : ID) : b.entity.same_flags (b.hide id).entity := by
  unfold Binder.hide
  simp only
  split
  · split <;> exact ⟨rfl, rfl, rfl, rfl⟩
  · exact ⟨rfl, rfl, rfl, rfl⟩

theorem binder_set_locked_flags (b : Binder) (id : ID) (locked : Bool) :
    b.entity.same_flags (b.set_locked id locked).entity := by
  unfold Binder.set_locked
  simp only
  split
  · split <;> exact ⟨rfl, rfl, rfl, rfl⟩
  · exact ⟨rfl, rfl, rfl, rfl⟩

theorem object_reveal_flags (o : Object) (id : ID) :
    o.entity.same_flags (o.reveal id).entity := by
  cases o with
  | Sheet s => exact sheet_reveal_flags s id
  | Binder b => exact binder_reveal_flags b id

theorem object_hide_flags (o : Object) (id : ID) : o.entity.same_flags (o.hide id).entity := by
  cases o with
  | Sheet s => exact sheet_hide_flags s id
  | Binder b => exact binder_hide_flags b id

theorem object_set_locked_flags (o : Object) (id : ID) (locked : Bool) :
    o.entity.same_flags (o.set_locked id locked).entity := by
  cases o with
  | Sheet s => exact sheet_set_locked_flags s id locked
  | Binder b => exact binder_set_locked_flags b id locked

theorem OrderedMap.find_modify {α : Type} (m : OrderedMap α) (key k : ID) (f : α → α) :
    (m.modify key f).find k = (m.find k).map (fun o => if k = key then f o else o) := by
  by_cases h : k = key
  · subst h
    rw [OrderedMap.find_modify_self]
    simp
  · rw [OrderedMap.find_modify_other _ _ _ _ h]
    cases m.find k <;> simp [h]

theorem OrderedMap.find_map_values {α : Type} (m : OrderedMap α) (f : ID → α → α) (k : ID) :
    OrderedMap.find (m.map (fun p => (p.1, f p.1 p.2))) k = (m.find k).map (f k) := by
  induction m with
  | nil => rfl
  | cons p ps ih =>
    obtain ⟨a, v⟩ := p
    rw [List.map_cons, OrderedMap.find_cons, OrderedMap.find_cons]
    by_cases h : k = a
    · subst h; simp
    · simp only [if_neg h]; exact ih

theorem OrderedMap.move_to_end_nodup {α : Type} (m : OrderedMap α) (id : ID) (o : α)
    (hnd : (m.map Prod.fst).Nodup) (hfind : m.find id = some o) :
    (((m.erase id).emplace id o).map Prod.fst).Nodup := by
  rw [(OrderedMap.move_to_end m id o hnd hfind).1]
  apply List.Nodup.append (hnd.filter _) (List.nodup_singleton _)
  intro a ha hb
  simp only [List.mem_singleton] at hb
  have h2 := (List.mem_filter.mp ha).2
  rw [hb] at h2
  exact absurd h2 (by simp only [ne_eq, not_true_eq_false, decide_False,
    Bool.false_eq_true, not_false_eq_true])

theorem set_topmost_object_find (lp : LevelPlayer) (object : Option ID)
    (hnd : (lp.objects.map Prod.fst).Nodup) :
    ((lp.set_topmost_object object).objects.map Prod.fst).Nodup ∧
    ∀ k, (lp.set_topmost_object object).objects.find k = lp.objects.find k := by
  unfold LevelPlayer.set_topmost_object
  cases object with
  | none => exact ⟨hnd, fun _ => rfl⟩
  | some key =>
    simp only
    split
    · split
      · exact ⟨hnd, fun _ => rfl⟩
      · cases hf : lp.objects.find (lp.get_object_id key) with
        | none => exact ⟨hnd, fun _ => rfl⟩
        | some o =>
          exact ⟨OrderedMap.move_to_end_nodup _ _ _ hnd hf,
            (OrderedMap.move_to_end _ _ _ hnd hf).2⟩
    · exact ⟨hnd, fun _ => rfl⟩

theorem set_active_object_find (lp : LevelPlayer) (object : Option ID)
    (hne : ¬ object = (lp.set_topmost_object object).active_object) :
    (lp.set_active_object object).active_object = object ∧
    (lp.set_active_object object).hovered_object =
      (lp.set_topmost_object object).hovered_object ∧
    ((lp.set_active_object object).objects.map Prod.fst =
      (lp.set_topmost_object object).objects.map Prod.fst) ∧
    ∀ k, (lp.set_active_object object).objects.find k =
      ((lp.set_topmost_object object).objects.find k).map (fun o =>
        if some k = object then o.set_active true
        else if some k = (lp.set_topmost_object object).active_object then
          o.set_active false
        else o) := by
  refine ⟨?_, ?_, set_active_object_keys lp object, ?_⟩
  · unfold LevelPlayer.set_active_object
    simp only [if_neg hne]
    cases (lp.set_topmost_object object).active_object <;> cases object <;> rfl
  · unfold LevelPlayer.set_active_object
    simp only [if_neg hne]
    cases (lp.set_topmost_object object).active_object <;> cases object <;> rfl
  · intro k
    unfold LevelPlayer.set_active_object
    simp only [if_neg hne]
    cases hold : (lp.set_topmost_object object).active_object with
    | none =>
      cases object with
      | none => simp
      | some key =>
        simp only [OrderedMap.find_modify]
        cases (lp.set_topmost_object (some key)).objects.find k with
        | none => rfl
        | some o =>
          by_cases hk : k = key
          · simp [hk]
          · simp [hk]
    | some old =>
      cases object with
      | none =>
        simp only [OrderedMap.find_modify]
        cases (lp.set_topmost_object none).objects.find k with
        | none => rfl
        | some o =>
          by_cases hk : k = old
          · simp [hk]
          · simp [hk]
      | some key =>
        have hko : ¬ key = old := by
          intro e
          apply hne
          rw [hold, e]
        simp only [OrderedMap.find_modify]
        cases (lp.set_topmost_object (some key)).objects.find k with
        | none => rfl
        | some o =>
          by_cases hk : k = key
          · have : ¬ k = old := by rw [hk]; exact hko
            simp [hk, hko]
          · by_cases hk2 : k = old
            · have hok : ¬ old = key := fun e => hko e.symm
              simp [hk, hk2, hok]
            · simp [hk, hk2]

theorem flags_agree_of_find (lp lp1 : LevelPlayer) (G : ID → Object → Object)
    (hA : lp.flags_agree) (hkeys : (lp1.objects.map Prod.fst).Nodup)
    (hfind : ∀ k, lp1.objects.find k = (lp.objects.find k).map (G k))
    (hcfg : ∀ k o, lp.objects.find k = some o → (G k o).entity.config = o.entity.config)
    (hact : ∀ k o, lp.objects.find k = some o →
      ((G k o).entity.active = true ↔ lp1.active_object = some k))
    (hhov : ∀ k o, lp.objects.find k = some o →
      ((G k o).entity.hovered = true ↔ lp1.hovered_object = some k)) :
    lp1.flags_agree := by
  refine ⟨hkeys, ?_⟩
  intro id o1 h1
  rw [hfind id] at h1
  cases hf : lp.objects.find id with
  | none => rw [hf] at h1; exact Option.noConfusion h1
  | some o =>
    rw [hf] at h1
    simp only [Option.map_some', Option.some.injEq] at h1
    rw [← h1]
    refine ⟨?_, hact id o hf, hhov id o hf⟩
    rw [hcfg id o hf]
    exact (hA.2 id o hf).1

theorem is_visible_object_of_find (lp lp1 : LevelPlayer) (r : Option ID)
    (h : ∀ k o, lp.objects.find k = some o → o.is_visible = true →
      ∃ o1, lp1.objects.find k = some o1 ∧ o1.is_visible = true)
    (hr : lp.is_visible_object r = true) : lp1.is_visible_object r = true := by
  cases r with
  | none => rfl
  | some id =>
    unfold LevelPlayer.is_visible_object at hr ⊢
    simp only at hr ⊢
    cases hf : lp.objects.find id with
    | none => rw [hf] at hr; exact absurd hr (by decide)
    | some o =>
      rw [hf] at hr
      obtain ⟨o1, h1, h2⟩ := h id o hf hr
      rw [h1]
      exact h2

/-- A change of one object that keeps its `hovered` and `active` flags and its
configuration keeps the agreement of flags and roles. -/
theorem flags_agree_modify (lp lp1 : LevelPlayer) (a : ID) (f : Object → Object)
    (hA : lp.flags_agree)
    (hobj : lp1.objects = lp.objects.modify a f)
    (ha : lp1.active_object = lp.active_object) (hh : lp1.hovered_object = lp.hovered_object)
    (hf : ∀ o, (f o).entity.hovered = o.entity.hovered ∧
      (f o).entity.active = o.entity.active ∧ (f o).entity.config = o.entity.config) :
    lp1.flags_agree := by
  apply flags_agree_of_find lp lp1 (fun k o => if k = a then f o else o) hA
  · rw [hobj, OrderedMap.keys_modify]; exact hA.1
  · intro k; rw [hobj, OrderedMap.find_modify]
  · intro k o _
    by_cases hk : k = a
    · simp only [hk, if_true]; exact (hf o).2.2
    · simp only [hk, if_false]
  · intro k o ho
    rw [ha]
    by_cases hk : k = a
    · simp only [hk, if_true]
      rw [(hf o).2.1]
      exact hk ▸ (hA.2 k o ho).2.1
    · simp only [hk, if_false]; exact (hA.2 k o ho).2.1
  · intro k o ho
    rw [hh]
    by_cases hk : k = a
    · simp only [hk, if_true]
      rw [(hf o).1]
      exact hk ▸ (hA.2 k o ho).2.2
    · simp only [hk, if_false]; exact (hA.2 k o ho).2.2

theorem set_topmost_object_agree (lp : LevelPlayer) (object : Option ID)
    (hA : lp.flags_agree) : (lp.set_topmost_object object).flags_agree := by
  obtain ⟨hnd, hfind⟩ := set_topmost_object_find lp object hA.1
  obtain ⟨hh, ha, _⟩ := set_topmost_object_roles lp object
  refine ⟨hnd, ?_⟩
  intro id o ho
  rw [hfind id] at ho
  rw [ha, hh]
  exact hA.2 id o ho

theorem set_active_object_agree (lp : LevelPlayer) (object : Option ID)
    (hA : lp.flags_agree) :
    (lp.set_active_object object).flags_agree ∧
    (lp.set_active_object object).active_object = object ∧
    (lp.set_active_object object).hovered_object = lp.hovered_object ∧
    (∀ k, ((lp.set_active_object object).objects.find k).map Object.is_visible =
      (lp.objects.find k).map Object.is_visible) := by
  have hA1 := set_topmost_object_agree lp object hA
  obtain ⟨_, hfind1⟩ := set_topmost_object_find lp object hA.1
  obtain ⟨hh1, _, _⟩ := set_topmost_object_roles lp object
  by_cases hne : object = (lp.set_topmost_object object).active_object
  · have e : lp.set_active_object object = lp.set_topmost_object object := by
      unfold LevelPlayer.set_active_object
      simp only [if_pos hne]
    rw [e]
    exact ⟨hA1, hne.symm, hh1, fun k => by rw [hfind1 k]⟩
  · obtain ⟨ha, hh, hkeys, hfind⟩ := set_active_object_find lp object hne
    refine ⟨?_, ha, hh.trans hh1, ?_⟩
    · apply flags_agree_of_find _ _ _ hA1 (by rw [hkeys]; exact hA1.1) hfind
      · intro k o ho
        have hact := (hA1.2 k o ho).1
        split
        · exact (Object.set_active_flags o true hact).2.2.2
        · split
          · exact (Object.set_active_flags o false hact).2.2.2
          · rfl
      · intro k o ho
        have hact := (hA1.2 k o ho).1
        rw [ha]
        by_cases h1 : some k = object
        · rw [if_pos h1, (Object.set_active_flags o true hact).1]
          exact ⟨fun _ => h1.symm, fun _ => rfl⟩
        · rw [if_neg h1]
          by_cases h2 : some k = (lp.set_topmost_object object).active_object
          · rw [if_pos h2, (Object.set_active_flags o false hact).1]
            exact ⟨fun h => absurd h (by decide), fun h => absurd h.symm h1⟩
          · rw [if_neg h2]
            constructor
            · intro h
              exact absurd ((hA1.2 k o ho).2.1.mp h).symm h2
            · intro h
              exact absurd h.symm h1
      · intro k o ho
        have hact := (hA1.2 k o ho).1
        rw [hh]
        split
        · rw [(Object.set_active_flags o true hact).2.1]
          exact (hA1.2 k o ho).2.2
        · split
          · rw [(Object.set_active_flags o false hact).2.1]
            exact (hA1.2 k o ho).2.2
          · exact (hA1.2 k o ho).2.2
    · intro k
      rw [hfind k, hfind1 k]
      cases hf : lp.objects.find k with
      | none => rfl
      | some o =>
        have hact : o.entity.config.activatable = true := (hA.2 k o hf).1
        simp only [Option.map_some', Option.some.injEq, Object.is_visible]
        split
        · exact (Object.set_active_flags o true hact).2.2.1
        · split
          · exact (Object.set_active_flags o false hact).2.2.1
          · rfl

theorem set_hovered_object_find (lp : LevelPlayer) (object : Option ID)
    (hne : ¬ object = lp.hovered_object) :
    (lp.set_hovered_object object).hovered_object = object ∧
    (lp.set_hovered_object object).active_object = lp.active_object ∧
    ∀ k, (lp.set_hovered_object object).objects.find k =
      (lp.objects.find k).map (fun o =>
        if some k = object then o.set_hovered true
        else if some k = lp.hovered_object then o.set_hovered false
        else o) := by
  refine ⟨?_, ?_, ?_⟩
  · unfold LevelPlayer.set_hovered_object
    simp only [if_neg hne]
    cases lp.hovered_object <;> cases object <;> rfl
  · unfold LevelPlayer.set_hovered_object
    simp only [if_neg hne]
    cases lp.hovered_object <;> cases object <;> rfl
  · intro k
    unfold LevelPlayer.set_hovered_object
    simp only [if_neg hne]
    cases hold : lp.hovered_object with
    | none =>
      cases object with
      | none => simp
      | some key =>
        simp only [OrderedMap.find_modify]
        cases lp.objects.find k with
        | none => rfl
        | some o =>
          by_cases hk : k = key
          · simp [hk]
          · simp [hk]
    | some old =>
      cases object with
      | none =>
        simp only [OrderedMap.find_modify]
        cases lp.objects.find k with
        | none => rfl
        | some o =>
          by_cases hk : k = old
          · simp [hk]
          · simp [hk]
      | some key =>
        have hko : ¬ key = old := by
          intro e
          apply hne
          rw [hold, e]
        simp only [OrderedMap.find_modify]
        cases lp.objects.find k with
        | none => rfl
        | some o =>
          by_cases hk : k = key
          · have : ¬ k = old := by rw [hk]; exact hko
            simp [hk, hko]
          · by_cases hk2 : k = old
            · have hok : ¬ old = key := fun e => hko e.symm
              simp [hk, hk2, hok]
            · simp [hk, hk2]

theorem set_hovered_object_agree (lp : LevelPlayer) (object : Option ID)
    (hA : lp.flags_agree) :
    (lp.set_hovered_object object).flags_agree ∧
    (lp.set_hovered_object object).hovered_object = object ∧
    (lp.set_hovered_object object).active_object = lp.active_object ∧
    (∀ k, ((lp.set_hovered_object object).objects.find k).map Object.is_visible =
      (lp.objects.find k).map Object.is_visible) := by
  by_cases hne : object = lp.hovered_object
  · have e : lp.set_hovered_object object = lp := by
      unfold LevelPlayer.set_hovered_object
      simp only [if_pos hne]
    rw [e]
    exact ⟨hA, hne.symm, rfl, fun k => rfl⟩
  · obtain ⟨hh, ha, hfind⟩ := set_hovered_object_find lp object hne
    refine ⟨?_, hh, ha, ?_⟩
    · apply flags_agree_of_find _ _ _ hA
        (by rw [set_hovered_object_keys]; exact hA.1) hfind
      · intro k o ho
        have hact := (hA.2 k o ho).1
        split
        · exact (Object.set_hovered_flags o true hact).2.2.2
        · split
          · exact (Object.set_hovered_flags o false hact).2.2.2
          · rfl
      · intro k o ho
        have hact := (hA.2 k o ho).1
        rw [ha]
        split
        · rw [(Object.set_hovered_flags o true hact).2.1]
          exact (hA.2 k o ho).2.1
        · split
          · rw [(Object.set_hovered_flags o false hact).2.1]
            exact (hA.2 k o ho).2.1
          · exact (hA.2 k o ho).2.1
      · intro k o ho
        have hact := (hA.2 k o ho).1
        rw [hh]
        by_cases h1 : some k = object
        · rw [if_pos h1, (Object.set_hovered_flags o true hact).1]
          exact ⟨fun _ => h1.symm, fun _ => rfl⟩
        · rw [if_neg h1]
          by_cases h2 : some k = lp.hovered_object
          · rw [if_pos h2, (Object.set_hovered_flags o false hact).1]
            exact ⟨fun h => absurd h (by decide), fun h => absurd h.symm h1⟩
          · rw [if_neg h2]
            constructor
            · intro h
              exact absurd ((hA.2 k o ho).2.2.mp h).symm h2
            · intro h
              exact absurd h.symm h1
    · intro k
      rw [hfind k]
      cases hf : lp.objects.find k with
      | none => rfl
      | some o =>
        have hact : o.entity.config.activatable = true := (hA.2 k o hf).1
        simp only [Option.map_some', Option.some.injEq, Object.is_visible]
        split
        · exact (Object.set_hovered_flags o true hact).2.2.1
        · split
          · exact (Object.set_hovered_flags o false hact).2.2.1
          · rfl

theorem is_visible_object_same (lp lp1 : LevelPlayer) (r : Option ID)
    (h : ∀ k, (lp1.objects.find k).map Object.is_visible =
      (lp.objects.find k).map Object.is_visible) :
    lp1.is_visible_object r = lp.is_visible_object r := by
  cases r with
  | none => rfl
  | some id =>
    unfold LevelPlayer.is_visible_object
    simp only
    have := h id
    cases h1 : lp1.objects.find id <;> cases h2 : lp.objects.find id <;>
      rw [h1, h2] at this <;> simp at this ⊢
    exact this

theorem flags_agree_congr (lp lp1 : LevelPlayer) (hA : lp.flags_agree)
    (ho : lp1.objects = lp.objects) (ha : lp1.active_object = lp.active_object)
    (hh : lp1.hovered_object = lp.hovered_object) : lp1.flags_agree := by
  unfold LevelPlayer.flags_agree
  rw [ho, ha, hh]
  exact hA

theorem is_visible_object_congr (lp lp1 : LevelPlayer) (r : Option ID)
    (ho : lp1.objects = lp.objects) : lp1.is_visible_object r = lp.is_visible_object r := by
  unfold LevelPlayer.is_visible_object
  rw [ho]

theorem find_vis_modify (m : OrderedMap Object) (a k : ID) (f : Object → Object) :
    ((m.modify a f).find k).map Object.is_visible =
      (m.find k).map (fun o => if k = a then (f o).is_visible else o.is_visible) := by
  rw [OrderedMap.find_modify]
  cases m.find k with
  | none => rfl
  | some o =>
    by_cases hk : k = a
    · simp [hk]
    · simp [hk]

theorem find_vis_modify_keep (m : OrderedMap Object) (a k : ID) (f : Object → Object)
    (hf : ∀ o, (f o).is_visible = o.is_visible) :
    ((m.modify a f).find k).map Object.is_visible = (m.find k).map Object.is_visible := by
  rw [find_vis_modify]
  cases m.find k with
  | none => rfl
  | some o =>
    by_cases hk : k = a
    · simp [hk, hf]
    · simp [hk]

/-- The object a role setter takes is visible in the state it leaves. -/
theorem clasp_objects (lp : LevelPlayer) (object : Option ID) :
    (lp.clasp object).objects = (lp.set_topmost_object object).objects ∧
    (lp.clasp object).active_object = lp.active_object ∧
    (lp.clasp object).hovered_object = lp.hovered_object := by
  obtain ⟨hh, ha, _⟩ := set_topmost_object_roles lp object
  unfold LevelPlayer.clasp
  cases object with
  | none => exact ⟨by simp [LevelPlayer.set_topmost_object], rfl, rfl⟩
  | some key => exact ⟨rfl, ha, hh⟩

theorem mouse_grab_objects (lp : LevelPlayer) (object : Option ID) :
    (lp.mouse_grab object).objects = (lp.set_topmost_object object).objects ∧
    (lp.mouse_grab object).active_object = lp.active_object ∧
    (lp.mouse_grab object).hovered_object = lp.hovered_object := by
  obtain ⟨hh, ha, _⟩ := set_topmost_object_roles lp object
  unfold LevelPlayer.mouse_grab
  cases object with
  | none => exact ⟨by simp [LevelPlayer.set_topmost_object], rfl, rfl⟩
  | some key => exact ⟨rfl, ha, hh⟩

/-- What keeps the agreement and the visibility of the role objects: the objects found
under the keys change only in ways that keep the flags, and the two roles stay. -/
theorem agree_of_same_flags (lp lp1 : LevelPlayer)
    (hW : lp.flags_agree ∧ lp.is_visible_object lp.active_object = true ∧
      lp.is_visible_object lp.hovered_object = true)
    (hkeys : (lp1.objects.map Prod.fst).Nodup)
    (G : ID → Object → Object)
    (hfind : ∀ k, lp1.objects.find k = (lp.objects.find k).map (G k))
    (hG : ∀ k o, (G k o).entity.hovered = o.entity.hovered ∧
      (G k o).entity.active = o.entity.active ∧ (G k o).entity.config = o.entity.config ∧
      (o.entity.visible = true → (G k o).entity.visible = true))
    (ha : lp1.active_object = lp.active_object) (hh : lp1.hovered_object = lp.hovered_object) :
    lp1.flags_agree ∧ lp1.is_visible_object lp1.active_object = true ∧
      lp1.is_visible_object lp1.hovered_object = true := by
  obtain ⟨hA, hva, hvh⟩ := hW
  have hvis : ∀ k o, lp.objects.find k = some o → o.is_visible = true →
      ∃ o1, lp1.objects.find k = some o1 ∧ o1.is_visible = true := by
    intro k o ho hv
    refine ⟨G k o, by rw [hfind k, ho]; rfl, (hG k o).2.2.2 hv⟩
  refine ⟨?_, ?_, ?_⟩
  · apply flags_agree_of_find lp lp1 G hA hkeys hfind
    · intro k o _; exact (hG k o).2.2.1
    · intro k o ho; rw [ha, (hG k o).2.1]; exact (hA.2 k o ho).2.1
    · intro k o ho; rw [hh, (hG k o).1]; exact (hA.2 k o ho).2.2
  · rw [ha]; exact is_visible_object_of_find lp lp1 _ hvis hva
  · rw [hh]; exact is_visible_object_of_find lp lp1 _ hvis hvh

theorem agree_modify (lp lp1 : LevelPlayer) (a : ID) (f : Object → Object)
    (hW : lp.flags_agree ∧ lp.is_visible_object lp.active_object = true ∧
      lp.is_visible_object lp.hovered_object = true)
    (hobj : lp1.objects = lp.objects.modify a f)
    (hf : ∀ o, (f o).entity.hovered = o.entity.hovered ∧
      (f o).entity.active = o.entity.active ∧ (f o).entity.config = o.entity.config ∧
      (o.entity.visible = true → (f o).entity.visible = true))
    (ha : lp1.active_object = lp.active_object) (hh : lp1.hovered_object = lp.hovered_object) :
    lp1.flags_agree ∧ lp1.is_visible_object lp1.active_object = true ∧
      lp1.is_visible_object lp1.hovered_object = true := by
  apply agree_of_same_flags lp lp1 hW (by rw [hobj, OrderedMap.keys_modify]; exact hW.1.1)
    (fun k o => if k = a then f o else o) (by intro k; rw [hobj, OrderedMap.find_modify])
    ?_ ha hh
  intro k o
  by_cases hk : k = a
  · have e : (fun k o => if k = a then f o else o) k o = f o := if_pos hk
    rw [e]; exact hf o
  · have e : (fun k o => if k = a then f o else o) k o = o := if_neg hk
    rw [e]; exact ⟨rfl, rfl, rfl, fun h => h⟩

theorem same_flags_keeps (o : Object) (e1 : Entity) (h : o.entity.same_flags e1) :
    e1.hovered = o.entity.hovered ∧ e1.active = o.entity.active ∧
      e1.config = o.entity.config ∧ (o.entity.visible = true → e1.visible = true) :=
  ⟨h.2.1, h.2.2.1, h.2.2.2, fun hv => h.1.trans hv⟩

theorem reveal_visible_keeps (o : Object) :
    ((if !o.is_visible then o.set_visible true else o).entity.hovered = o.entity.hovered ∧
      (if !o.is_visible then o.set_visible true else o).entity.active = o.entity.active ∧
      (if !o.is_visible then o.set_visible true else o).entity.config = o.entity.config ∧
      (o.entity.visible = true →
        (if !o.is_visible then o.set_visible true else o).entity.visible = true)) ∧
    (if !o.is_visible then o.set_visible true else o).entity.visible = true := by
  obtain ⟨h1, h2, h3, h4⟩ := Object.set_visible_flags o true
  cases hv : o.is_visible with
  | true =>
    rw [if_neg (by simp)]
    exact ⟨⟨rfl, rfl, rfl, fun h => h⟩, hv⟩
  | false =>
    rw [if_pos (by simp)]
    exact ⟨⟨h2, h3, h4, fun _ => h1⟩, h1⟩

theorem agree_drop_role (lp lp1 : LevelPlayer) (a : ID) (f : Object → Object)
    (hW : lp.flags_agree ∧ lp.is_visible_object lp.active_object = true ∧
      lp.is_visible_object lp.hovered_object = true)
    (hobj : lp1.objects = lp.objects.modify a f)
    (hcfg : ∀ o, o.entity.config.activatable = true →
      (f o).entity.config = o.entity.config ∧ (f o).entity.visible = o.entity.visible)
    (hact : lp1.active_object = lp.active_object ∧
        (∀ o, o.entity.config.activatable = true → (f o).entity.active = o.entity.active) ∨
      lp.active_object = some a ∧ lp1.active_object = none ∧
        (∀ o, o.entity.config.activatable = true → (f o).entity.active = false))
    (hhov : lp1.hovered_object = lp.hovered_object ∧
        (∀ o, o.entity.config.activatable = true → (f o).entity.hovered = o.entity.hovered) ∨
      lp.hovered_object = some a ∧ lp1.hovered_object = none ∧
        (∀ o, o.entity.config.activatable = true → (f o).entity.hovered = false)) :
    lp1.flags_agree ∧ lp1.is_visible_object lp1.active_object = true ∧
      lp1.is_visible_object lp1.hovered_object = true := by
  obtain ⟨hA, hva, hvh⟩ := hW
  have hfind : ∀ k, lp1.objects.find k =
      (lp.objects.find k).map (fun o => if k = a then f o else o) := by
    intro k; rw [hobj, OrderedMap.find_modify]
  have hvis : ∀ k o, lp.objects.find k = some o → o.is_visible = true →
      ∃ o1, lp1.objects.find k = some o1 ∧ o1.is_visible = true := by
    intro k o ho hv
    refine ⟨if k = a then f o else o, by rw [hfind k, ho]; rfl, ?_⟩
    by_cases hk : k = a
    · simp only [hk, if_true, Object.is_visible]
      rw [(hcfg o (hA.2 k o ho).1).2]
      exact hv
    · simp only [hk, if_false]; exact hv
  refine ⟨?_, ?_, ?_⟩
  · apply flags_agree_of_find lp lp1 _ hA (by rw [hobj, OrderedMap.keys_modify]; exact hA.1)
      hfind
    · intro k o ho
      by_cases hk : k = a
      · simp only [hk, if_true]; exact (hcfg o (hA.2 k o ho).1).1
      · simp only [hk, if_false]
    · intro k o ho
      have hk0 := hA.2 k o ho
      rcases hact with ⟨h1, h2⟩ | ⟨h1, h2, h3⟩
      · rw [h1]
        by_cases hk : k = a
        · simp only [hk, if_true]
          rw [h2 o hk0.1]
          exact hk ▸ hk0.2.1
        · simp only [hk, if_false]; exact hk0.2.1
      · rw [h2]
        by_cases hk : k = a
        · simp only [hk, if_true]
          rw [h3 o hk0.1]
          exact ⟨fun h => absurd h (by decide), fun h => Option.noConfusion h⟩
        · simp only [hk, if_false]
          constructor
          · intro h
            have := hk0.2.1.mp h
            rw [h1] at this
            exact absurd (Option.some.inj this).symm hk
          · intro h; exact Option.noConfusion h
    · intro k o ho
      have hk0 := hA.2 k o ho
      rcases hhov with ⟨h1, h2⟩ | ⟨h1, h2, h3⟩
      · rw [h1]
        by_cases hk : k = a
        · simp only [hk, if_true]
          rw [h2 o hk0.1]
          exact hk ▸ hk0.2.2
        · simp only [hk, if_false]; exact hk0.2.2
      · rw [h2]
        by_cases hk : k = a
        · simp only [hk, if_true]
          rw [h3 o hk0.1]
          exact ⟨fun h => absurd h (by decide), fun h => Option.noConfusion h⟩
        · simp only [hk, if_false]
          constructor
          · intro h
            have := hk0.2.2.mp h
            rw [h1] at this
            exact absurd (Option.some.inj this).symm hk
          · intro h; exact Option.noConfusion h
  · rcases hact with ⟨h1, _⟩ | ⟨_, h2, _⟩
    · rw [h1]; exact is_visible_object_of_find lp lp1 _ hvis hva
    · rw [h2]; rfl
  · rcases hhov with ⟨h1, _⟩ | ⟨_, h2, _⟩
    · rw [h1]; exact is_visible_object_of_find lp lp1 _ hvis hvh
    · rw [h2]; rfl

theorem roles_congr (lp lp1 : LevelPlayer)
    (hW : lp.flags_agree ∧ lp.is_visible_object lp.active_object = true ∧
      lp.is_visible_object lp.hovered_object = true)
    (ho : lp1.objects = lp.objects) (ha : lp1.active_object = lp.active_object)
    (hh : lp1.hovered_object = lp.hovered_object) :
    lp1.flags_agree ∧ lp1.is_visible_object lp1.active_object = true ∧
      lp1.is_visible_object lp1.hovered_object = true := by
  refine ⟨flags_agree_congr lp lp1 hW.1 ho ha hh, ?_, ?_⟩
  · rw [ha, is_visible_object_congr lp lp1 _ ho]; exact hW.2.1
  · rw [hh, is_visible_object_congr lp lp1 _ ho]; exact hW.2.2

theorem roles_set_topmost_object (lp : LevelPlayer) (object : Option ID)
    (hW : lp.flags_agree ∧ lp.is_visible_object lp.active_object = true ∧
      lp.is_visible_object lp.hovered_object = true) :
    (lp.set_topmost_object object).flags_agree ∧
    (lp.set_topmost_object object).is_visible_object
      (lp.set_topmost_object object).active_object = true ∧
    (lp.set_topmost_object object).is_visible_object
      (lp.set_topmost_object object).hovered_object = true := by
  obtain ⟨hnd, hfind⟩ := set_topmost_object_find lp object hW.1.1
  obtain ⟨hh, ha, _⟩ := set_topmost_object_roles lp object
  apply agree_of_same_flags lp (lp.set_topmost_object object) hW hnd (fun _ o => o)
    (by intro k; rw [hfind k]; cases lp.objects.find k <;> rfl)
    (fun _ _ => ⟨rfl, rfl, rfl, fun h => h⟩) ha hh

theorem roles_set_active_object (lp : LevelPlayer) (object : Option ID)
    (hW : lp.flags_agree ∧ lp.is_visible_object lp.active_object = true ∧
      lp.is_visible_object lp.hovered_object = true)
    (hadm : lp.is_visible_object object = true) :
    (lp.set_active_object object).flags_agree ∧
    (lp.set_active_object object).is_visible_object
      (lp.set_active_object object).active_object = true ∧
    (lp.set_active_object object).is_visible_object
      (lp.set_active_object object).hovered_object = true := by
  obtain ⟨hA, ha, hh, hvis⟩ := set_active_object_agree lp object hW.1
  refine ⟨hA, ?_, ?_⟩
  · rw [ha, is_visible_object_same lp _ _ hvis]; exact hadm
  · rw [hh, is_visible_object_same lp _ _ hvis]; exact hW.2.2

theorem roles_set_hovered_object (lp : LevelPlayer) (object : Option ID)
    (hW : lp.flags_agree ∧ lp.is_visible_object lp.active_object = true ∧
      lp.is_visible_object lp.hovered_object = true)
    (hadm : lp.is_visible_object object = true) :
    (lp.set_hovered_object object).flags_agree ∧
    (lp.set_hovered_object object).is_visible_object
      (lp.set_hovered_object object).active_object = true ∧
    (lp.set_hovered_object object).is_visible_object
      (lp.set_hovered_object object).hovered_object = true := by
  obtain ⟨hA, hh, ha, hvis⟩ := set_hovered_object_agree lp object hW.1
  refine ⟨hA, ?_, ?_⟩
  · rw [ha, is_visible_object_same lp _ _ hvis]; exact hW.2.1
  · rw [hh, is_visible_object_same lp _ _ hvis]; exact hadm

theorem roles_set_locked (lp : LevelPlayer) (id_tree : ID) (locked : Bool)
    (hW : lp.flags_agree ∧ lp.is_visible_object lp.active_object = true ∧
      lp.is_visible_object lp.hovered_object = true) :
    (lp.set_locked id_tree locked).flags_agree ∧
    (lp.set_locked id_tree locked).is_visible_object
      (lp.set_locked id_tree locked).active_object = true ∧
    (lp.set_locked id_tree locked).is_visible_object
      (lp.set_locked id_tree locked).hovered_object = true := by
  unfold LevelPlayer.set_locked
  simp only
  cases lp.get_object (str_split id_tree ID_TREE_DELIM).1 with
  | none => exact hW
  | some object =>
    cases (str_split id_tree ID_TREE_DELIM).2 with
    | none => exact hW
    | some member =>
      exact agree_modify lp _ object (fun o => o.set_locked member locked) hW rfl
        (fun o => same_flags_keeps o _ (object_set_locked_flags o member locked)) rfl rfl

theorem roles_reveal_all_objects (lp : LevelPlayer)
    (hW : lp.flags_agree ∧ lp.is_visible_object lp.active_object = true ∧
      lp.is_visible_object lp.hovered_object = true) :
    lp.reveal_all_objects.flags_agree ∧
    lp.reveal_all_objects.is_visible_object lp.reveal_all_objects.active_object = true ∧
    lp.reveal_all_objects.is_visible_object lp.reveal_all_objects.hovered_object = true := by
  apply agree_of_same_flags lp lp.reveal_all_objects hW ?_
    (fun _ o => if !o.is_visible then o.set_visible true else o) ?_
    (fun _ o => (reveal_visible_keeps o).1) rfl rfl
  · unfold LevelPlayer.reveal_all_objects
    simp only [List.map_map]
    exact hW.1.1
  · intro k
    unfold LevelPlayer.reveal_all_objects
    exact OrderedMap.find_map_values lp.objects
      (fun _ o => if !o.is_visible then o.set_visible true else o) k

theorem agree_hide_object (lp lp1 : LevelPlayer) (a : ID) (f : Object → Object)
    (hW : lp.flags_agree ∧ lp.is_visible_object lp.active_object = true ∧
      lp.is_visible_object lp.hovered_object = true)
    (hobj : lp1.objects = lp.objects.modify a f)
    (hf : ∀ o, (f o).entity.hovered = o.entity.hovered ∧
      (f o).entity.active = o.entity.active ∧ (f o).entity.config = o.entity.config)
    (ha : lp1.active_object = lp.active_object) (hh : lp1.hovered_object = lp.hovered_object)
    (hna : lp.active_object ≠ some a) (hnh : lp.hovered_object ≠ some a) :
    lp1.flags_agree ∧ lp1.is_visible_object lp1.active_object = true ∧
      lp1.is_visible_object lp1.hovered_object = true := by
  have hvis : ∀ r : Option ID, r ≠ some a → lp.is_visible_object r = true →
      lp1.is_visible_object r = true := by
    intro r hr hv
    cases r with
    | none => rfl
    | some id =>
      have hne : id ≠ a := fun e => hr (by rw [e])
      unfold LevelPlayer.is_visible_object at hv ⊢
      simp only at hv ⊢
      rw [hobj, OrderedMap.find_modify_other _ _ _ _ hne]
      exact hv
  refine ⟨flags_agree_modify lp lp1 a f hW.1 hobj ha hh hf, ?_, ?_⟩
  · rw [ha]; exact hvis _ hna hW.2.1
  · rw [hh]; exact hvis _ hnh hW.2.2

theorem roles_unclasp (lp : LevelPlayer)
    (hW : lp.flags_agree ∧ lp.is_visible_object lp.active_object = true ∧
      lp.is_visible_object lp.hovered_object = true) :
    lp.unclasp.flags_agree ∧ lp.unclasp.is_visible_object lp.unclasp.active_object = true ∧
      lp.unclasp.is_visible_object lp.unclasp.hovered_object = true :=
  roles_congr lp lp.unclasp hW rfl rfl rfl

theorem roles_hide (lp : LevelPlayer) (id_tree : ID) (mc : Bool)
    (hW : lp.flags_agree ∧ lp.is_visible_object lp.active_object = true ∧
      lp.is_visible_object lp.hovered_object = true) :
    (lp.hide id_tree mc).flags_agree ∧
    (lp.hide id_tree mc).is_visible_object (lp.hide id_tree mc).active_object = true ∧
    (lp.hide id_tree mc).is_visible_object (lp.hide id_tree mc).hovered_object = true := by
  unfold LevelPlayer.hide
  simp only
  cases lp.get_object (str_split id_tree ID_TREE_DELIM).1 with
  | none => exact hW
  | some object =>
    simp only
    have hW1 : (if mc = true then (lp.set_topmost_object (some object)).unclasp
          else lp).flags_agree ∧
        (if mc = true then (lp.set_topmost_object (some object)).unclasp
          else lp).is_visible_object
          (if mc = true then (lp.set_topmost_object (some object)).unclasp
            else lp).active_object = true ∧
        (if mc = true then (lp.set_topmost_object (some object)).unclasp
          else lp).is_visible_object
          (if mc = true then (lp.set_topmost_object (some object)).unclasp
            else lp).hovered_object = true := by
      cases mc with
      | true => exact roles_unclasp _ (roles_set_topmost_object lp (some object) hW)
      | false => exact hW
    generalize (if mc = true then (lp.set_topmost_object (some object)).unclasp else lp) = lp1
      at hW1 ⊢
    cases (str_split id_tree ID_TREE_DELIM).2 with
    | some member =>
      exact agree_modify lp1 _ object (fun o => o.hide member) hW1 rfl
        (fun o => same_flags_keeps o _ (object_hide_flags o member)) rfl rfl
    | none =>
      simp only
      have hW2 : ∃ lp2 : LevelPlayer,
          lp2 = (if some object = lp1.hovered_object then
            { lp1 with
              objects := lp1.objects.modify object (fun o => o.set_hovered false)
              hovered_object := none }
            else lp1) ∧
          (lp2.flags_agree ∧ lp2.is_visible_object lp2.active_object = true ∧
            lp2.is_visible_object lp2.hovered_object = true) ∧
          lp2.hovered_object ≠ some object := by
        refine ⟨_, rfl, ?_, ?_⟩
        · by_cases h : some object = lp1.hovered_object
          · rw [if_pos h]
            exact agree_drop_role lp1 _ object (fun o => o.set_hovered false) hW1 rfl
              (fun o ho => ⟨(Object.set_hovered_flags o false ho).2.2.2,
                (Object.set_hovered_flags o false ho).2.2.1⟩)
              (Or.inl ⟨rfl, fun o ho => (Object.set_hovered_flags o false ho).2.1⟩)
              (Or.inr ⟨h.symm, rfl, fun o ho => (Object.set_hovered_flags o false ho).1⟩)
          · rw [if_neg h]; exact hW1
        · by_cases h : some object = lp1.hovered_object
          · rw [if_pos h]; exact fun e => Option.noConfusion e
          · rw [if_neg h]; exact fun e => h e.symm
      obtain ⟨lp2, hl2, hW2a, hnh2⟩ := hW2
      rw [← hl2]
      have hW3 : ∃ lp3 : LevelPlayer,
          lp3 = (if some object = lp2.active_object then
            { lp2 with
              objects := lp2.objects.modify object (fun o => o.set_active false)
              active_object := none }
            else lp2) ∧
          (lp3.flags_agree ∧ lp3.is_visible_object lp3.active_object = true ∧
            lp3.is_visible_object lp3.hovered_object = true) ∧
          lp3.active_object ≠ some object ∧ lp3.hovered_object ≠ some object := by
        refine ⟨_, rfl, ?_, ?_, ?_⟩
        · by_cases h : some object = lp2.active_object
          · rw [if_pos h]
            exact agree_drop_role lp2 _ object (fun o => o.set_active false) hW2a rfl
              (fun o ho => ⟨(Object.set_active_flags o false ho).2.2.2,
                (Object.set_active_flags o false ho).2.2.1⟩)
              (Or.inr ⟨h.symm, rfl, fun o ho => (Object.set_active_flags o false ho).1⟩)
              (Or.inl ⟨rfl, fun o ho => (Object.set_active_flags o false ho).2.1⟩)
          · rw [if_neg h]; exact hW2a
        · by_cases h : some object = lp2.active_object
          · rw [if_pos h]; exact fun e => Option.noConfusion e
          · rw [if_neg h]; exact fun e => h e.symm
        · by_cases h : some object = lp2.active_object
          · rw [if_pos h]; exact hnh2
          · rw [if_neg h]; exact hnh2
      obtain ⟨lp3, hl3, hW3a, hna3, hnh3⟩ := hW3
      rw [← hl3]
      have hf : ∀ o : Object,
          ((fun o : Object => if o.is_visible then o.set_visible false else o) o).entity.hovered
            = o.entity.hovered ∧
          ((fun o : Object => if o.is_visible then o.set_visible false else o) o).entity.active
            = o.entity.active ∧
          ((fun o : Object => if o.is_visible then o.set_visible false else o) o).entity.config
            = o.entity.config := by
        intro o
        obtain ⟨_, h2, h3, h4⟩ := Object.set_visible_flags o false
        simp only
        split
        · exact ⟨h2, h3, h4⟩
        · exact ⟨rfl, rfl, rfl⟩
      exact agree_hide_object lp3
        { lp3 with
          objects := (lp3.objects.modify object
            (fun o => if o.is_visible then o.set_visible false else o)) }
        object (fun o => if o.is_visible then o.set_visible false else o)
        hW3a rfl hf rfl rfl hna3 hnh3

theorem roles_clasp (lp : LevelPlayer) (object : Option ID)
    (hW : lp.flags_agree ∧ lp.is_visible_object lp.active_object = true ∧
      lp.is_visible_object lp.hovered_object = true) :
    (lp.clasp object).flags_agree ∧
    (lp.clasp object).is_visible_object (lp.clasp object).active_object = true ∧
    (lp.clasp object).is_visible_object (lp.clasp object).hovered_object = true := by
  obtain ⟨ho, ha, hh⟩ := clasp_objects lp object
  obtain ⟨hh1, ha1, _⟩ := set_topmost_object_roles lp object
  exact roles_congr (lp.set_topmost_object object) (lp.clasp object)
    (roles_set_topmost_object lp object hW) ho (ha.trans ha1.symm) (hh.trans hh1.symm)

theorem roles_mouse_grab (lp : LevelPlayer) (object : Option ID)
    (hW : lp.flags_agree ∧ lp.is_visible_object lp.active_object = true ∧
      lp.is_visible_object lp.hovered_object = true) :
    (lp.mouse_grab object).flags_agree ∧
    (lp.mouse_grab object).is_visible_object (lp.mouse_grab object).active_object = true ∧
    (lp.mouse_grab object).is_visible_object (lp.mouse_grab object).hovered_object = true := by
  obtain ⟨ho, ha, hh⟩ := mouse_grab_objects lp object
  obtain ⟨hh1, ha1, _⟩ := set_topmost_object_roles lp object
  exact roles_congr (lp.set_topmost_object object) (lp.mouse_grab object)
    (roles_set_topmost_object lp object hW) ho (ha.trans ha1.symm) (hh.trans hh1.symm)

theorem roles_mouse_ungrab (lp : LevelPlayer)
    (hW : lp.flags_agree ∧ lp.is_visible_object lp.active_object = true ∧
      lp.is_visible_object lp.hovered_object = true) :
    lp.mouse_ungrab.flags_agree ∧
    lp.mouse_ungrab.is_visible_object lp.mouse_ungrab.active_object = true ∧
    lp.mouse_ungrab.is_visible_object lp.mouse_ungrab.hovered_object = true :=
  roles_congr lp lp.mouse_ungrab hW rfl rfl rfl

theorem find_of_contains {α : Type} (m : OrderedMap α) (key : ID)
    (h : m.contains key = true) : ∃ v, m.find key = some v := by
  unfold OrderedMap.contains at h
  rw [List.any_eq_true] at h
  obtain ⟨p, hp, hk⟩ := h
  have hk1 : p.1 = key := by simpa using hk
  obtain ⟨v, hv, _⟩ := OrderedMap.find_isSome_of_mem m key
    (List.mem_map.mpr ⟨p, hp, hk1⟩)
  exact ⟨v, hv⟩

theorem is_visible_object_reveal_step (lp2 lp3 : LevelPlayer) (object : ID) (r : Option ID)
    (hobj : lp3.objects = lp2.objects.modify object
      (fun o => if !o.is_visible then o.set_visible true else o))
    (hr : lp2.is_visible_object r = true ∨
      (r = some object ∧ ∃ o, lp2.objects.find object = some o)) :
    lp3.is_visible_object r = true := by
  cases r with
  | none => rfl
  | some id =>
    unfold LevelPlayer.is_visible_object at hr ⊢
    simp only at hr ⊢
    rw [hobj, OrderedMap.find_modify]
    rcases hr with hr | ⟨hid, o, ho⟩
    · cases hf : lp2.objects.find id with
      | none => rw [hf] at hr; simp at hr
      | some o =>
        rw [hf] at hr
        simp only at hr
        simp only [Option.map_some']
        split
        · exact (reveal_visible_keeps o).2
        · exact hr
    · have hid1 : id = object := Option.some.inj hid
      rw [hid1, ho]
      simp only [Option.map_some', if_true]
      exact (reveal_visible_keeps o).2

theorem roles_reveal (lp : LevelPlayer) (id_tree : ID) (mc : Bool)
    (hW : lp.flags_agree ∧ lp.is_visible_object lp.active_object = true ∧
      lp.is_visible_object lp.hovered_object = true) :
    (lp.reveal id_tree mc).flags_agree ∧
    (lp.reveal id_tree mc).is_visible_object (lp.reveal id_tree mc).active_object = true ∧
    (lp.reveal id_tree mc).is_visible_object (lp.reveal id_tree mc).hovered_object = true := by
  unfold LevelPlayer.reveal
  simp only
  cases hget : lp.get_object (str_split id_tree ID_TREE_DELIM).1 with
  | none => exact hW
  | some object =>
    simp only
    have hin : ∃ o, lp.objects.find object = some o := by
      unfold LevelPlayer.get_object at hget
      split at hget
      · rename_i hc
        rw [← Option.some.inj hget]
        exact find_of_contains lp.objects _ hc
      · exact Option.noConfusion hget
    have hW1 := roles_set_topmost_object lp (some object) hW
    obtain ⟨hnd1, hfind1⟩ := set_topmost_object_find lp (some object) hW.1.1
    have hin1 : ∃ o, (lp.set_topmost_object (some object)).objects.find object = some o := by
      rw [hfind1]; exact hin
    generalize lp.set_topmost_object (some object) = lp1 at hW1 hin1 ⊢
    have hW2 : ∃ lp2 : LevelPlayer,
        lp2 = (if mc = true then (lp1.set_active_object (some object)).unclasp else lp1) ∧
        lp2.flags_agree ∧
        (lp2.is_visible_object lp2.active_object = true ∨
          (lp2.active_object = some object ∧ ∃ o, lp2.objects.find object = some o)) ∧
        lp2.is_visible_object lp2.hovered_object = true := by
      refine ⟨_, rfl, ?_⟩
      cases mc with
      | false => exact ⟨hW1.1, Or.inl hW1.2.1, hW1.2.2⟩
      | true =>
        obtain ⟨hA, ha, hh, hvis⟩ := set_active_object_agree lp1 (some object) hW1.1
        rw [if_pos rfl]
        refine ⟨flags_agree_congr _ _ hA rfl rfl rfl, Or.inr ⟨ha, ?_⟩, ?_⟩
        · obtain ⟨o, ho⟩ := hin1
          have h1 := hvis object
          rw [ho] at h1
          show ∃ o, (lp1.set_active_object (some object)).objects.find object = some o
          cases hf : (lp1.set_active_object (some object)).objects.find object with
          | none => rw [hf] at h1; simp at h1
          | some o1 => exact ⟨o1, rfl⟩
        · show (lp1.set_active_object (some object)).is_visible_object
            (lp1.set_active_object (some object)).hovered_object = true
          rw [hh, is_visible_object_same lp1 _ _ hvis]
          exact hW1.2.2
    obtain ⟨lp2, hl2, hA2, hva2, hvh2⟩ := hW2
    rw [← hl2]
    have hW3 : ∃ lp3 : LevelPlayer,
        lp3 = { lp2 with objects := (lp2.objects.modify object
          (fun o => if !o.is_visible then o.set_visible true else o)) } ∧
        (lp3.flags_agree ∧ lp3.is_visible_object lp3.active_object = true ∧
          lp3.is_visible_object lp3.hovered_object = true) := by
      refine ⟨_, rfl, ?_, ?_, ?_⟩
      · exact flags_agree_modify lp2 _ object
          (fun o => if !o.is_visible then o.set_visible true else o) hA2 rfl rfl rfl
          (fun o => ⟨(reveal_visible_keeps o).1.1, (reveal_visible_keeps o).1.2.1,
            (reveal_visible_keeps o).1.2.2.1⟩)
      · exact is_visible_object_reveal_step lp2 _ object lp2.active_object rfl hva2
      · exact is_visible_object_reveal_step lp2 _ object lp2.hovered_object rfl (Or.inl hvh2)
    obtain ⟨lp3, hl3, hW3a⟩ := hW3
    subst hl3
    cases (str_split id_tree ID_TREE_DELIM).2 with
    | none => exact hW3a
    | some member =>
      exact agree_modify _ _ object (fun o => o.reveal member) hW3a rfl
        (fun o => same_flags_keeps o _ (object_reveal_flags o member)) rfl rfl

theorem roles_call (lp : LevelPlayer) (c : LevelCall)
    (hW : lp.flags_agree ∧ lp.is_visible_object lp.active_object = true ∧
      lp.is_visible_object lp.hovered_object = true)
    (hadm : c.admissible lp = true) :
    (lp.call c).flags_agree ∧ (lp.call c).is_visible_object (lp.call c).active_object = true ∧
      (lp.call c).is_visible_object (lp.call c).hovered_object = true := by
  cases c with
  | reveal id_tree mc => exact roles_reveal lp id_tree mc hW
  | hide id_tree mc => exact roles_hide lp id_tree mc hW
  | set_locked id_tree locked => exact roles_set_locked lp id_tree locked hW
  | set_active_object object => exact roles_set_active_object lp object hW hadm
  | set_hovered_object object => exact roles_set_hovered_object lp object hW hadm
  | clasp object => exact roles_clasp lp object hW
  | unclasp => exact roles_unclasp lp hW
  | mouse_grab object => exact roles_mouse_grab lp object hW
  | mouse_ungrab => exact roles_mouse_ungrab lp hW
  | reveal_all_objects => exact roles_reveal_all_objects lp hW

theorem roles_calls (cs : List LevelCall) : ∀ lp : LevelPlayer,
    (lp.flags_agree ∧ lp.is_visible_object lp.active_object = true ∧
      lp.is_visible_object lp.hovered_object = true) →
    lp.admits cs = true →
    (lp.calls cs).flags_agree ∧
      (lp.calls cs).is_visible_object (lp.calls cs).active_object = true ∧
      (lp.calls cs).is_visible_object (lp.calls cs).hovered_object = true := by
  induction cs with
  | nil => intro lp hW _; exact hW
  | cons c cs ih =>
    intro lp hW hadm
    unfold LevelPlayer.admits at hadm
    rw [Bool.and_eq_true] at hadm
    exact ih (lp.call c) (roles_call lp c hW hadm.1) hadm.2

theorem flags_agree_of_loaded (lp : LevelPlayer) (h : lp.loaded) :
    lp.flags_agree ∧ lp.is_visible_object lp.active_object = true ∧
      lp.is_visible_object lp.hovered_object = true := by
  obtain ⟨hnd, ha, hh, hall⟩ := h
  refine ⟨⟨hnd, ?_⟩, by rw [ha]; rfl, by rw [hh]; rfl⟩
  intro id o hf
  have hmem : (id, o) ∈ lp.objects := lookup_some_mem id lp.objects o hf
  obtain ⟨h1, h2, h3⟩ := hall (id, o) hmem
  rw [ha, hh]
  refine ⟨h1, ?_, ?_⟩
  · constructor
    · intro h; rw [h2] at h; exact Bool.noConfusion h
    · intro h; exact Option.noConfusion h
  · constructor
    · intro h; rw [h3] at h; exact Bool.noConfusion h
    · intro h; exact Option.noConfusion h

theorem roles_agree_of_flags (lp : LevelPlayer)
    (hW : lp.flags_agree ∧ lp.is_visible_object lp.active_object = true ∧
      lp.is_visible_object lp.hovered_object = true) : lp.roles_agree := by
  refine ⟨?_, hW.2.1, hW.2.2⟩
  intro p hp
  have hf : lp.objects.find p.1 = some p.2 := lookup_of_mem_nodup lp.objects p.1 p.2 hW.1.1 hp
  exact (hW.1.2 p.1 p.2 hf).2

/-- C28. In every state reached from a loaded level through `reveal`, `hide`, `set_locked`,
`set_active_object`, `set_hovered_object`, `clasp`, `unclasp`, `mouse_grab`, `mouse_ungrab`
and the `RevealAllObjects` event, where the two private role setters are handed no object or
a visible object of the map as their callers do, an object of the map is active exactly when
it is the active object and hovered exactly when it is the hovered object, and the active and
the hovered object are each empty or a visible object of the map; hence at most one object is
active and at most one is hovered. -/
theorem roles_and_flags_agree (lp : LevelPlayer) (cs : List LevelCall)
    (hloaded : lp.loaded) (hadm : lp.admits cs = true) :
    (lp.calls cs).roles_agree ∧
    (∀ p ∈ (lp.calls cs).objects, ∀ q ∈ (lp.calls cs).objects,
      (p.2.entity.active = true → q.2.entity.active = true → p.1 = q.1) ∧
      (p.2.entity.hovered = true → q.2.entity.hovered = true → p.1 = q.1)) := by
  have hR := roles_agree_of_flags (lp.calls cs)
    (roles_calls cs lp (flags_agree_of_loaded lp hloaded) hadm)
  refine ⟨hR, ?_⟩
  intro p hp q hq
  constructor
  · intro h1 h2
    have e1 := ((hR.1 p hp).1).mp h1
    have e2 := ((hR.1 q hq).1).mp h2
    exact Option.some.inj (e1.symm.trans e2)
  · intro h1 h2
    have e1 := ((hR.1 p hp).2).mp h1
    have e2 := ((hR.1 q hq).2).mp h2
    exact Option.some.inj (e1.symm.trans e2)

theorem roles_and_flags_agree_witness :
    example_level_player.loaded ∧ example_level_player.admits example_level_calls = true ∧
    (example_level_player.calls example_level_calls).roles_agree :=
  ⟨by decide!, by decide!,
    (roles_and_flags_agree example_level_player example_level_calls (by decide!)
      (by decide!)).1⟩

theorem join_commands_cons (c : Str) (l : List Str) (h : l ≠ []) :
    join_commands (c :: l) = c ++ ';' :: join_commands l := by
  cases l with
  | nil => exact absurd rfl h
  | cons d cs => rfl

theorem split_commands_length (s : Str) (l : List Nat) :
    ∀ b, (split_commands s b l).length = l.length := by
  induction l with
  | nil => intro b; rfl
  | cons i rest ih => intro b; simp only [split_commands, List.length_cons, ih]

theorem split_commands_ne_nil (s : Str) (l : List Nat) (b : Nat) (h : l ≠ []) :
    split_commands s b l ≠ [] := by
  intro e
  have h1 := split_commands_length s l b
  rw [e] at h1
  exact h (List.length_eq_zero.mp h1.symm)

theorem join_split_scan (n : Nat) :
    ∀ (s pre : Str) (prev : Char) (q p : Int), s.length ≤ n →
      join_commands (split_commands (pre ++ s) pre.length
        (scan_separators prev s pre.length q p ++ [(pre ++ s).length])) = s ∧
      ((scan_separators prev s pre.length q p).getLast? = some ((pre ++ s).length - 1) →
        join_commands (split_commands (pre ++ s) pre.length
          (scan_separators prev s pre.length q p)) ++ [';'] = s) := by
  induction n with
  | zero =>
    intro s pre prev q p hl
    have hs : s = [] := List.length_eq_zero.mp (Nat.le_zero.mp hl)
    subst hs
    constructor
    · simp [scan_separators, split_commands, join_commands]
    · intro h; simp [scan_separators] at h
  | succ n ih =>
    intro s pre prev q p hl
    rcases scan_separators_first s prev pre.length q p with h | ⟨a, rest, h1, h2, h3⟩
    · rw [h]
      constructor
      · simp [split_commands, join_commands]
      · intro e; simp at e
    · have hw : pre ++ s = (pre ++ a ++ [';']) ++ rest := by
        rw [h1]; simp
      have hlen : (pre ++ a ++ [';']).length = pre.length + a.length + 1 := by
        simp only [List.length_append, List.length_singleton]
      have hrl : rest.length ≤ n := by
        have : s.length = a.length + (rest.length + 1) := by rw [h1]; simp
        omega
      have e : List.take (pre.length + a.length - pre.length)
          (List.drop pre.length (pre ++ s)) = a := by
        rw [h1]
        simp
      obtain ⟨ihA, ihB⟩ := ih rest (pre ++ a ++ [';']) ';' 0 0 hrl
      rw [hlen, ← hw] at ihA ihB
      rw [h2]
      constructor
      · have hc : split_commands (pre ++ s) pre.length
            ((pre.length + a.length) ::
              scan_separators ';' rest (pre.length + a.length + 1) 0 0 ++ [(pre ++ s).length]) =
            a :: split_commands (pre ++ s) (pre.length + a.length + 1)
              (scan_separators ';' rest (pre.length + a.length + 1) 0 0 ++
                [(pre ++ s).length]) := by
          rw [List.cons_append, split_commands, e]
        rw [hc, join_commands_cons _ _ (split_commands_ne_nil _ _ _ (by simp)), ihA, h1]
      · intro hlast
        simp only [split_commands]
        rw [e]
        cases hsc : scan_separators ';' rest (pre.length + a.length + 1) 0 0 with
        | nil =>
          rw [hsc] at hlast
          simp only [List.getLast?_singleton, Option.some.injEq] at hlast
          have hr : rest = [] := by
            apply List.length_eq_zero.mp
            have : (pre ++ s).length = pre.length + a.length + 1 + rest.length := by
              rw [hw, List.length_append, hlen]
            omega
          simp only [split_commands, join_commands]
          conv_rhs => rw [h1, hr]
        | cons j more =>
          rw [hsc] at hlast ihB
          have hl2 : (j :: more).getLast? = some ((pre ++ s).length - 1) := by
            rw [List.getLast?_cons_cons] at hlast
            exact hlast
          have hB := ihB hl2
          rw [join_commands_cons _ _ (split_commands_ne_nil _ _ _ (by simp))]
          conv_rhs => rw [h1, ← hB]
          simp

theorem join_split_indices (s : Str) :
    (ends_in_separator s = false →
      join_commands (split_commands s 0 (command_separator_indices s)) = s) ∧
    (ends_in_separator s = true →
      join_commands (split_commands s 0 (command_separator_indices s)) ++ [';'] = s) := by
  have key := join_split_scan s.length s [] (Char.ofNat 0) 0 0 (Nat.le_refl _)
  simp only [List.nil_append, List.length_nil] at key
  unfold ends_in_separator command_separator_indices
  simp only
  constructor
  · intro h
    have hc : scan_separators (Char.ofNat 0) s 0 0 0 = [] ∨
        (scan_separators (Char.ofNat 0) s 0 0 0).getLast? ≠ some (s.length - 1) := by
      by_contra hn
      rw [decide_eq_false_iff_not] at h
      exact h hn
    rw [if_pos hc]
    exact key.1
  · intro h
    have hc : ¬ (scan_separators (Char.ofNat 0) s 0 0 0 = [] ∨
        (scan_separators (Char.ofNat 0) s 0 0 0).getLast? ≠ some (s.length - 1)) :=
      of_decide_eq_true h
    rw [if_neg hc]
    apply key.2
    by_contra hn
    exact hc (Or.inr hn)

theorem command_separator_indices_ne_nil (s : Str) : command_separator_indices s ≠ [] := by
  unfold command_separator_indices
  simp only
  split
  · simp
  · rename_i hc
    intro e
    exact hc (Or.inl e)

/-- C29. For every non-empty command sequence `s`, `Executor::queue_execution(s, 0)` appends
the commands `c1, ..., ck` of the split to the queue and nothing else, `k` is at least one,
and `c1 + ";" + ... + ";" + ck` is `s` when the scan found no separator at the final index
and is `s` without its final `;` when it did; an empty sequence leaves the executor as it
was, whatever the postpone argument. -/
theorem splitting_loses_no_character (ex : Executor) (s : Str) (postpone : Seconds)
    (h : s ≠ []) :
    (ex.queue_execution s 0).commands =
      ex.commands ++ split_commands s 0 (command_separator_indices s) ∧
    1 ≤ (split_commands s 0 (command_separator_indices s)).length ∧
    (ends_in_separator s = false →
      join_commands (split_commands s 0 (command_separator_indices s)) = s) ∧
    (ends_in_separator s = true →
      join_commands (split_commands s 0 (command_separator_indices s)) ++ [';'] = s ∧
      join_commands (split_commands s 0 (command_separator_indices s)) = s.dropLast) ∧
    ex.queue_execution [] postpone = ex := by
  refine ⟨?_, ?_, (join_split_indices s).1, ?_, ?_⟩
  · unfold Executor.queue_execution
    rw [if_neg h]
    simp
  · rw [split_commands_length]
    exact Nat.pos_of_ne_zero
      (fun e => command_separator_indices_ne_nil s (List.length_eq_zero.mp e))
  · intro he
    have h1 := (join_split_indices s).2 he
    refine ⟨h1, ?_⟩
    conv_rhs => rw [← h1]
    rw [List.dropLast_concat]
  · unfold Executor.queue_execution
    rw [if_pos rfl]

theorem splitting_loses_no_character_witness :
    example_sequence ≠ [] ∧
    (example_queue.queue_execution example_sequence 0).commands =
      example_queue.commands ++ ["reveal(a)".toList, "hide(b)".toList] ∧
    join_commands ["reveal(a)".toList, "hide(b)".toList] ++ [';'] = example_sequence :=
  ⟨by decide,
    (splitting_loses_no_character example_queue example_sequence 0 (by decide)).1.trans
      (by decide!),
    by decide⟩

theorem action_call_done (fuel : Nat) (a : Action) (rt : Runtime) (c : ActionCall)
    (hrep : a.repeatable = false) (hex : a.executed = true) (hd : a.delay_remaining ≤ 0) :
    Action.call fuel (a, rt) c = some (a, rt) := by
  cases c with
  | initiate_execution arg =>
    unfold Action.call Action.initiate_execution Action.is_executable
    simp [hrep, hex]
  | update dt =>
    unfold Action.call Action.update
    simp only
    rw [if_neg (not_lt.mpr hd)]

theorem action_calls_done (fuel : Nat) (cs : List ActionCall) (a : Action) (rt : Runtime)
    (hrep : a.repeatable = false) (hex : a.executed = true) (hd : a.delay_remaining ≤ 0) :
    Action.calls fuel (a, rt) cs = some (a, rt) := by
  induction cs with
  | nil => rfl
  | cons c cs ih =>
    rw [Action.calls, action_call_done fuel a rt c hrep hex hd]
    exact ih

theorem action_call_step (fuel : Nat) (a a1 : Action) (rt rt1 : Runtime) (c : ActionCall)
    (hrep : a.repeatable = false) (h : Action.call fuel (a, rt) c = some (a1, rt1)) :
    a1.repeatable = false ∧
    ((rt1 = rt ∧ a1.executed = a.executed) ∨
      (rt1 = { rt with
          executor := rt.executor.queue_execution a1.formatted_command_sequence 0 } ∧
        a1.executed = true ∧ a1.delay_remaining ≤ 0)) := by
  cases c with
  | initiate_execution arg =>
    unfold Action.call Action.initiate_execution at h
    simp only at h
    by_cases hx : a.is_executable = true
    · rw [if_pos hx] at h
      cases hf : find_and_replace fuel a.command_sequence "{}".toList arg with
      | none => rw [hf] at h; exact Option.noConfusion h
      | some formatted =>
        rw [hf] at h
        simp only [Option.map_some'] at h
        have hdr : a.delay_remaining ≤ 0 := by
          unfold Action.is_executable at hx
          simp [hrep] at hx
          exact hx.2
        by_cases hz : a.delay = 0
        · rw [if_pos hz] at h
          have h1 := Option.some.inj h
          obtain ⟨ha, hr⟩ := Prod.mk.inj h1
          subst ha
          subst hr
          exact ⟨hrep, Or.inr ⟨rfl, rfl, hdr⟩⟩
        · rw [if_neg hz] at h
          have h1 := Option.some.inj h
          obtain ⟨ha, hr⟩ := Prod.mk.inj h1
          subst ha
          subst hr
          exact ⟨hrep, Or.inl ⟨rfl, rfl⟩⟩
    · rw [if_neg hx] at h
      have h1 := Option.some.inj h
      obtain ⟨ha, hr⟩ := Prod.mk.inj h1
      subst ha
      subst hr
      exact ⟨hrep, Or.inl ⟨rfl, rfl⟩⟩
  | update dt =>
    unfold Action.call Action.update at h
    simp only at h
    have h1 := Option.some.inj h
    by_cases hp : a.delay_remaining > 0
    · rw [if_pos hp] at h1
      by_cases hq : round_to_float (a.delay_remaining - dt) ≤ 0
      · rw [if_pos hq] at h1
        obtain ⟨ha, hr⟩ := Prod.mk.inj h1
        subst ha
        subst hr
        exact ⟨hrep, Or.inr ⟨rfl, rfl, hq⟩⟩
      · rw [if_neg hq] at h1
        obtain ⟨ha, hr⟩ := Prod.mk.inj h1
        subst ha
        subst hr
        exact ⟨hrep, Or.inl ⟨rfl, rfl⟩⟩
    · rw [if_neg hp] at h1
      obtain ⟨ha, hr⟩ := Prod.mk.inj h1
      subst ha
      subst hr
      exact ⟨hrep, Or.inl ⟨rfl, rfl⟩⟩

theorem action_calls_once (fuel : Nat) (cs : List ActionCall) :
    ∀ (a a1 : Action) (rt rt1 : Runtime), a.repeatable = false →
      Action.calls fuel (a, rt) cs = some (a1, rt1) →
      (rt1 = rt ∧ a1.executed = a.executed) ∨
        (rt1 = { rt with
            executor := rt.executor.queue_execution a1.formatted_command_sequence 0 } ∧
          a1.executed = true ∧ a1.delay_remaining ≤ 0) := by
  induction cs with
  | nil =>
    intro a a1 rt rt1 _ h
    have h1 := Option.some.inj h
    obtain ⟨ha, hr⟩ := Prod.mk.inj h1
    subst ha
    subst hr
    exact Or.inl ⟨rfl, rfl⟩
  | cons c cs ih =>
    intro a a1 rt rt1 hrep h
    rw [Action.calls] at h
    cases hc : Action.call fuel (a, rt) c with
    | none => rw [hc] at h; exact Option.noConfusion h
    | some s =>
      obtain ⟨a2, rt2⟩ := s
      rw [hc] at h
      simp only [Option.some_bind] at h
      obtain ⟨hrep2, hstep⟩ := action_call_step fuel a a2 rt rt2 c hrep hc
      rcases hstep with ⟨hr, he⟩ | ⟨hr, he, hd⟩
      · rcases ih a2 a1 rt2 rt1 hrep2 h with ⟨hr1, he1⟩ | ⟨hr1, he1, hd1⟩
        · exact Or.inl ⟨hr1.trans hr, he1.trans he⟩
        · rw [hr] at hr1
          exact Or.inr ⟨hr1, he1, hd1⟩
      · rw [action_calls_done fuel cs a2 rt2 hrep2 he hd] at h
        have h1 := Option.some.inj h
        obtain ⟨ha, hr⟩ := Prod.mk.inj h1
        subst ha
        subst hr
        exact Or.inr ⟨hr, he, hd⟩

theorem action_call_returns (n : Nat) (a : Action) (rt : Runtime) (c : ActionCall)
    (hn : a.command_sequence.count '{' ≤ n)
    (hc : ∀ arg, c = .initiate_execution arg → ∀ ch ∈ arg, ch ≠ '{') :
    ∃ r, Action.call n (a, rt) c = some r ∧ r.1.command_sequence = a.command_sequence := by
  cases c with
  | initiate_execution arg =>
    obtain ⟨f, hf⟩ := find_and_replace_placeholder_terminates arg (hc arg rfl) n
      a.command_sequence hn
    unfold Action.call Action.initiate_execution
    simp only
    split
    · rw [hf]
      simp only [Option.map_some']
      split
      · exact ⟨_, rfl, rfl⟩
      · exact ⟨_, rfl, rfl⟩
    · exact ⟨_, rfl, rfl⟩
  | update dt =>
    unfold Action.call Action.update
    simp only
    split
    · split
      · exact ⟨_, rfl, rfl⟩
      · exact ⟨_, rfl, rfl⟩
    · exact ⟨_, rfl, rfl⟩

theorem action_calls_return (n : Nat) (cs : List ActionCall) :
    ∀ (a : Action) (rt : Runtime), a.command_sequence.count '{' ≤ n →
      (∀ c ∈ cs, ∀ arg, c = .initiate_execution arg → ∀ ch ∈ arg, ch ≠ '{') →
      ∃ r, Action.calls n (a, rt) cs = some r := by
  induction cs with
  | nil => intro a rt _ _; exact ⟨_, rfl⟩
  | cons c cs ih =>
    intro a rt hn hc
    obtain ⟨r, hr, hcs⟩ := action_call_returns n a rt c hn
      (hc c (List.mem_cons_self _ _))
    obtain ⟨a2, rt2⟩ := r
    rw [Action.calls, hr]
    simp only [Option.some_bind]
    exact ih a2 rt2 (by rw [hcs]; exact hn) (fun d hd => hc d (List.mem_cons_of_mem _ hd))

theorem action_initialize_delay_remaining (a0 a : Action) (node : Node)
    (h : Action.initialize a0 node = some a) : a.delay_remaining = a0.delay_remaining := by
  unfold Action.initialize at h
  simp only at h
  split at h
  · simp only [Option.bind_eq_some, Option.map_eq_some'] at h
    obtain ⟨_, _, _, _, _, _, c, _, r, _, e, _, he⟩ := h
    rw [← he]
  · rw [← Option.some.inj h]

theorem option_eq_some_getD {α β : Type} (o : Option (α × β)) (d : α × β)
    (h : o.isSome = true) : o = some ((o.getD d).1, (o.getD d).2) := by
  cases o with
  | none => exact Bool.noConfusion h
  | some v => rfl

/-- **C30**.  For an action with `repeatable == false`, whatever its delay and whatever the
elapsed times, after any sequence of `initiate_execution` and `update` calls that returns
the runtime is either as it was, with `executed` as it was, or it is the initial runtime
with one `queue_execution` of the formatted command sequence, and then `executed` is true and
no delay is running; the calls return when no argument holds an opening brace; and an action
that `initialize` restored with `executed == true`, with no delay running before, leaves the
runtime as it was. -/
theorem non_repeatable_fires_at_most_once (a : Action) (rt : Runtime) (cs : List ActionCall)
    (hrep : a.repeatable = false) :
    (∀ (fuel : Nat) (a1 : Action) (rt1 : Runtime),
      Action.calls fuel (a, rt) cs = some (a1, rt1) →
      (rt1 = rt ∧ a1.executed = a.executed) ∨
        (rt1 = { rt with
            executor := rt.executor.queue_execution a1.formatted_command_sequence 0 } ∧
          a1.executed = true ∧ a1.delay_remaining ≤ 0)) ∧
    ((∀ c ∈ cs, ∀ arg, c = .initiate_execution arg → ∀ ch ∈ arg, ch ≠ '{') →
      ∃ r, Action.calls (a.command_sequence.count '{') (a, rt) cs = some r) ∧
    (∀ (a0 : Action) (node : Node), a0.delay_remaining ≤ 0 →
      Action.initialize a0 node = some a → a.executed = true →
      ∀ fuel, Action.calls fuel (a, rt) cs = some (a, rt)) := by
  refine ⟨?_, ?_, ?_⟩
  · intro fuel a1 rt1 h
    exact action_calls_once fuel cs a a1 rt rt1 hrep h
  · intro hc
    exact action_calls_return _ cs a rt (Nat.le_refl _) hc
  · intro a0 node hd hinit hex fuel
    have hdr := action_initialize_delay_remaining a0 a node hinit
    exact action_calls_done fuel cs a rt hrep hex (by rw [hdr]; exact hd)

/-- **C30**, witness: a non-repeatable action with a delay of half a second is initiated
twice, its delay runs out, and it is initiated again: the command is queued once. -/
theorem non_repeatable_fires_at_most_once_witness :
    example_once.repeatable = false ∧
    ((example_once_final.2 = example_runtime ∧
        example_once_final.1.executed = example_once.executed) ∨
      (example_once_final.2 = { example_runtime with
          executor := example_runtime.executor.queue_execution
            example_once_final.1.formatted_command_sequence 0 } ∧
        example_once_final.1.executed = true ∧ example_once_final.1.delay_remaining ≤ 0)) :=
  ⟨rfl, (non_repeatable_fires_at_most_once example_once example_runtime example_action_calls
    rfl).1 0 example_once_final.1 example_once_final.2
      (option_eq_some_getD _ _ (by decide!))⟩

/-! ## C9 and C16: objects whose ID is empty or holds the delimiter -/

/-- **C9**, counterexample.  The sheet with the empty ID owns the element `B` and is not
topmost.  `reveal("::B", true)` finds it and makes it and `B` visible, but
`set_topmost_object` returns at the empty ID and `C` stays the last entry of the map. -/
theorem reveal_empty_id_not_promoted :
    example_unnamed_player.objects.contains [] = true ∧
    example_owner.elements.contains "B".toList = true ∧
    (example_unnamed_player.reveal ([] ++ ID_TREE_DELIM ++ "B".toList) true).objects.back_key =
      some "C".toList ∧
    (example_unnamed_player.reveal ([] ++ ID_TREE_DELIM ++ "B".toList) false).objects.back_key =
      some "C".toList ∧
    ((example_unnamed_player.reveal ([] ++ ID_TREE_DELIM ++ "B".toList) true).objects.find
      []).map Object.is_visible = some true := by
  decide!

/-- **C16**, counterexample.  The visible object `X::Y` is in the map; `hide("X::Y", false)`
looks for an object `X`, finds none and leaves `X::Y` visible. -/
theorem hide_delimited_id_stays_visible :
    example_delimited_player.objects.contains "X::Y".toList = true ∧
    ((example_delimited_player.hide "X::Y".toList false).objects.find "X::Y".toList).map
      Object.is_visible = some true := by
  decide!

/-! ## C20: what an unresolved path still changes -/

theorem reveal_object_known (lp : LevelPlayer) (id_tree a member : ID) (o : Object)
    (mc : Bool) (hsplit : str_split id_tree ID_TREE_DELIM = (a, some member))
    (ha : a ≠ []) (hnodup : (lp.objects.map Prod.fst).Nodup)
    (hfind : lp.objects.find a = some o) :
    (lp.reveal id_tree mc).objects.back_key = some a ∧
    (∃ o1, (lp.reveal id_tree mc).objects.find a = some o1 ∧ o1.is_visible = true) ∧
    (mc = true → (lp.reveal id_tree mc).active_object = some a ∧
      (lp.reveal id_tree mc).clasped_object = none) := by
  have hcont := OrderedMap.contains_of_find _ _ _ hfind
  have htop := (set_topmost_object_spec lp a o ha hnodup hfind).1
  have hback : (lp.set_topmost_object (some a)).objects.back_key = some a :=
    OrderedMap.back_key_of_getLast? _ _ _ htop
  have h2 : ∃ lp2 : LevelPlayer,
      lp2 = (if mc = true then
        ((lp.set_topmost_object (some a)).set_active_object (some a)).unclasp
        else lp.set_topmost_object (some a)) ∧
      lp2.objects.map Prod.fst = (lp.set_topmost_object (some a)).objects.map Prod.fst ∧
      (mc = true → lp2.active_object = some a ∧ lp2.clasped_object = none) := by
    refine ⟨_, rfl, ?_, ?_⟩
    · cases mc with
      | false => rfl
      | true =>
        rw [if_pos rfl]
        show ((lp.set_topmost_object (some a)).set_active_object (some a)).objects.map
          Prod.fst = _
        rw [set_active_object_keys, set_topmost_object_of_back _ a hback]
    · intro hmc
      rw [if_pos hmc]
      exact ⟨set_active_object_role _ _, rfl⟩
  obtain ⟨lp2, hl2, hk2, hr2⟩ := h2
  have hres : lp.reveal id_tree mc =
      { lp2 with objects := ((lp2.objects.modify a
        (fun o => if !o.is_visible then o.set_visible true else o)).modify a
          (fun o => o.reveal member)) } := by
    unfold LevelPlayer.reveal
    simp only [hsplit, LevelPlayer.get_object, hcont, if_true]
    rw [← hl2]
  rw [hres]
  have hkeys : ((lp2.objects.modify a
        (fun o => if !o.is_visible then o.set_visible true else o)).modify a
          (fun o => o.reveal member)).map Prod.fst =
      (lp.set_topmost_object (some a)).objects.map Prod.fst := by
    rw [OrderedMap.keys_modify, OrderedMap.keys_modify, hk2]
  have hmem : a ∈ lp2.objects.map Prod.fst := by
    rw [hk2]
    have hl := htop
    rw [List.getLast?_eq_some_iff] at hl
    obtain ⟨ys, hys⟩ := hl
    rw [hys]
    simp
  obtain ⟨o2, ho2, _⟩ := OrderedMap.find_isSome_of_mem lp2.objects a hmem
  refine ⟨?_, ?_, hr2⟩
  · show OrderedMap.back_key _ = some a
    rw [OrderedMap.back_key_keys, hkeys, ← OrderedMap.back_key_keys]
    exact hback
  · refine ⟨(if !o2.is_visible then o2.set_visible true else o2).reveal member, ?_, ?_⟩
    · show OrderedMap.find _ a = _
      rw [OrderedMap.find_modify_self, OrderedMap.find_modify_self, ho2]
      rfl
    · have hv := (reveal_visible_keeps o2).2
      have hs := object_reveal_flags (if !o2.is_visible then o2.set_visible true else o2)
        member
      show ((if !o2.is_visible then o2.set_visible true else o2).reveal member).entity.visible
        = true
      rw [hs.1]
      exact hv

theorem hide_object_known (lp : LevelPlayer) (id_tree a member : ID) (o : Object)
    (hsplit : str_split id_tree ID_TREE_DELIM = (a, some member))
    (ha : a ≠ []) (hnodup : (lp.objects.map Prod.fst).Nodup)
    (hfind : lp.objects.find a = some o) :
    (lp.hide id_tree true).objects.back_key = some a ∧
    (lp.hide id_tree true).clasped_object = none := by
  have hcont := OrderedMap.contains_of_find _ _ _ hfind
  have htop := (set_topmost_object_spec lp a o ha hnodup hfind).1
  have hback : (lp.set_topmost_object (some a)).objects.back_key = some a :=
    OrderedMap.back_key_of_getLast? _ _ _ htop
  have hres : lp.hide id_tree true =
      { (lp.set_topmost_object (some a)).unclasp with
        objects := ((lp.set_topmost_object (some a)).unclasp.objects.modify a
          (fun o => o.hide member)) } := by
    unfold LevelPlayer.hide
    simp only [hsplit, LevelPlayer.get_object, hcont, if_true]
  rw [hres]
  refine ⟨?_, rfl⟩
  show OrderedMap.back_key _ = some a
  rw [OrderedMap.back_key_keys, OrderedMap.keys_modify, ← OrderedMap.back_key_keys]
  exact hback

/-- **C20**, amended: for an ID-tree that names no existing node, `LevelPlayer::set_locked`
and `LevelPlayer::hide` without the camera leave the object order, the visible, hovered,
active and locked flags of every object, sheet and element, and all interaction-role
references unchanged; when the object itself is not in the map, `reveal`, `hide` and
`set_locked` change nothing at all.  When the object (non-empty ID, keys of the map unique)
is in the map and only the member is missing, `reveal` still leaves the object topmost and
visible, and active and unclasped when the camera moves, and `hide` with the camera still
leaves it topmost and unclasps. -/
theorem unresolved_path_keeps_flags (lp : LevelPlayer) (id_tree : ID) (locked mc : Bool)
    (h : lp.resolves id_tree = false) :
    ((lp.set_locked id_tree locked).objects.map (fun p => (p.1, p.2.flags)) =
        lp.objects.map (fun p => (p.1, p.2.flags)) ∧
      (lp.set_locked id_tree locked).roles = lp.roles) ∧
    ((lp.hide id_tree false).objects.map (fun p => (p.1, p.2.flags)) =
        lp.objects.map (fun p => (p.1, p.2.flags)) ∧
      (lp.hide id_tree false).roles = lp.roles) ∧
    (lp.objects.contains (str_split id_tree ID_TREE_DELIM).1 = false →
      lp.reveal id_tree mc = lp ∧ lp.hide id_tree mc = lp ∧
        lp.set_locked id_tree locked = lp) ∧
    (∀ (a member : ID) (o : Object),
      str_split id_tree ID_TREE_DELIM = (a, some member) → a ≠ [] →
      (lp.objects.map Prod.fst).Nodup → lp.objects.find a = some o →
      ((lp.reveal id_tree mc).objects.back_key = some a ∧
        (∃ o1, (lp.reveal id_tree mc).objects.find a = some o1 ∧ o1.is_visible = true) ∧
        (mc = true → (lp.reveal id_tree mc).active_object = some a ∧
          (lp.reveal id_tree mc).clasped_object = none)) ∧
      ((lp.hide id_tree true).objects.back_key = some a ∧
        (lp.hide id_tree true).clasped_object = none)) := by
  refine ⟨?_, ?_, fun hc => LevelPlayer.unknown_object lp id_tree hc locked mc,
    fun a member o hsplit ha hnodup hfind =>
      ⟨reveal_object_known lp id_tree a member o mc hsplit ha hnodup hfind,
        hide_object_known lp id_tree a member o hsplit ha hnodup hfind⟩⟩
  · rcases LevelPlayer.unresolved_cases lp id_tree h with hc | ⟨member, hm, hall⟩
    · rw [(LevelPlayer.unknown_object lp id_tree hc locked mc).2.2]
      exact ⟨rfl, rfl⟩
    · by_cases hc : lp.objects.contains (str_split id_tree ID_TREE_DELIM).1 = true
      · have e : lp.set_locked id_tree locked =
            { lp with objects := (lp.objects.modify (str_split id_tree ID_TREE_DELIM).1
                (fun o => o.set_locked member locked)) } := by
          simp only [LevelPlayer.set_locked, LevelPlayer.get_object, hm, hc, if_true]
        rw [e]
        refine ⟨?_, rfl⟩
        exact OrderedMap.map_modify_congr lp.objects (str_split id_tree ID_TREE_DELIM).1
          (fun o => o.set_locked member locked) Object.flags
          (fun p hp hk => object_set_locked_unresolved p.2 member locked (hall p hp hk))
      · rw [(LevelPlayer.unknown_object lp id_tree (by simpa using hc) locked mc).2.2]
        exact ⟨rfl, rfl⟩
  · rcases LevelPlayer.unresolved_cases lp id_tree h with hc | ⟨member, hm, hall⟩
    · rw [(LevelPlayer.unknown_object lp id_tree hc locked false).2.1]
      exact ⟨rfl, rfl⟩
    · by_cases hc : lp.objects.contains (str_split id_tree ID_TREE_DELIM).1 = true
      · have e : lp.hide id_tree false =
            { lp with objects := (lp.objects.modify (str_split id_tree ID_TREE_DELIM).1
                (fun o => o.hide member)) } := by
          simp only [LevelPlayer.hide, LevelPlayer.get_object, hm, hc, if_true,
            Bool.false_eq_true, if_false]
        rw [e]
        refine ⟨?_, rfl⟩
        exact OrderedMap.map_modify_congr lp.objects (str_split id_tree ID_TREE_DELIM).1
          (fun o => o.hide member) Object.flags
          (fun p hp hk => object_hide_unresolved p.2 member (hall p hp hk))
      · rw [(LevelPlayer.unknown_object lp id_tree (by simpa using hc) locked false).2.1]
        exact ⟨rfl, rfl⟩

/-- **C20**, witness: the path `A::nope` on the example, whose sheet `A` has no element
`nope`. -/
theorem unresolved_path_keeps_flags_witness :
    example_level_player.resolves "A::nope".toList = false ∧
    (example_level_player.set_locked "A::nope".toList true).objects.map
        (fun p => (p.1, p.2.flags)) =
      example_level_player.objects.map (fun p => (p.1, p.2.flags)) ∧
    (example_level_player.hide "A::nope".toList false).roles = example_level_player.roles :=
  ⟨by decide!,
    (unresolved_path_keeps_flags example_level_player "A::nope".toList true false
      (by decide!)).1.1,
    (unresolved_path_keeps_flags example_level_player "A::nope".toList true false
      (by decide!)).2.1.2⟩

/-! ## C3: a sequence of commands through the splitter -/

theorem scan_separators_shift (s : Str) : ∀ (prev : Char) (i k : Nat) (q p : Int),
    scan_separators prev s (i + k) q p = (scan_separators prev s i q p).map (fun j => j + k) := by
  induction s with
  | nil => intro prev i k q p; rfl
  | cons ch t ih =>
    intro prev i k q p
    rw [scan_separators_cons, scan_separators_cons, List.map_append,
      show i + k + 1 = i + 1 + k by omega, ih]
    congr 1
    split <;> rfl

theorem scan_separators_bounds (s : Str) : ∀ (prev : Char) (i : Nat) (q p : Int),
    ∀ j ∈ scan_separators prev s i q p, i ≤ j ∧ j < i + s.length := by
  induction s with
  | nil => intro prev i q p j hj; simp [scan_separators] at hj
  | cons ch t ih =>
    intro prev i q p j hj
    rw [scan_separators_cons] at hj
    rw [List.length_cons]
    rcases List.mem_append.mp hj with h | h
    · split at h
      · rw [List.mem_singleton.mp h]; omega
      · simp at h
    · have := ih _ _ _ _ j h
      omega

theorem headD_append_cons (a rest : Str) (c d : Char) :
    (a ++ c :: rest).headD d = (a ++ [c]).headD d := by
  cases a <;> rfl

theorem scan_step_semicolon (prev next next1 : Char) (q p : Int) :
    scan_step prev ';' next q p = scan_step prev ';' next1 q p := by
  unfold scan_step
  simp [show ¬ (';' = QUOTE) by decide]

theorem scan_separators_recognised (a : Str) :
    ∀ (prev : Char) (i : Nat) (q p : Int) (rest : Str),
    (i + a.length) ∈ scan_separators prev (a ++ [';']) i q p →
    scan_separators prev (a ++ ';' :: rest) i q p =
      scan_separators prev (a ++ [';']) i q p ++
        scan_separators ';' rest (i + a.length + 1) 0 0 := by
  induction a with
  | nil =>
    intro prev i q p rest h
    simp only [List.nil_append, List.length_nil, Nat.add_zero] at h ⊢
    rw [scan_separators_cons] at h ⊢
    rw [scan_separators_cons prev ';' []]
    rw [scan_step_semicolon prev (rest.headD (Char.ofNat 0))
      (([] : Str).headD (Char.ofNat 0))]
    cases hs : (scan_step prev ';' (([] : Str).headD (Char.ofNat 0)) q p).2.2 with
    | false =>
      rw [hs] at h
      simp [scan_separators] at h
    | true =>
      obtain ⟨_, h2, h3⟩ := scan_step_separator _ _ _ _ _ hs
      rw [h2, h3]
      simp [scan_separators]
  | cons c a ih =>
    intro prev i q p rest h
    rw [List.cons_append, scan_separators_cons] at h ⊢
    rw [List.cons_append, scan_separators_cons prev c (a ++ [';'])]
    rw [headD_append_cons a rest ';' (Char.ofNat 0)]
    have hmem : (i + 1 + a.length) ∈ scan_separators c (a ++ [';']) (i + 1)
        (scan_step prev c ((a ++ [';']).headD (Char.ofNat 0)) q p).1
        (scan_step prev c ((a ++ [';']).headD (Char.ofNat 0)) q p).2.1 := by
      rw [List.length_cons] at h
      rcases List.mem_append.mp h with h1 | h1
      · split at h1
        · have := List.mem_singleton.mp h1
          omega
        · simp at h1
      · rw [show i + 1 + a.length = i + (a.length + 1) by omega]
        exact h1
    rw [ih _ _ _ _ rest hmem, List.append_assoc, List.length_cons]
    rw [show i + 1 + a.length + 1 = i + (a.length + 1) + 1 by omega]

theorem scan_separators_without_end (a : Str) : ∀ (prev : Char) (i : Nat) (q p : Int),
    ∀ j ∈ scan_separators prev a i q p, j ∈ scan_separators prev (a ++ [';']) i q p := by
  induction a with
  | nil => intro prev i q p j hj; simp [scan_separators] at hj
  | cons c a ih =>
    intro prev i q p j hj
    rw [List.cons_append, scan_separators_cons]
    rw [scan_separators_cons] at hj
    have hn : scan_step prev c ((a ++ [';']).headD (Char.ofNat 0)) q p =
        scan_step prev c (a.headD (Char.ofNat 0)) q p := by
      apply scan_step_next
      cases a with
      | nil => simp only [List.nil_append, List.headD_cons, List.headD_nil]; decide
      | cons d r => simp
    rw [hn]
    rcases List.mem_append.mp hj with h | h
    · exact List.mem_append_left _ h
    · exact List.mem_append_right _ (ih _ _ _ _ j h)

theorem closed_scan (t : Str)
    (h : scan_separators (Char.ofNat 0) (t ++ [';']) 0 0 0 = [t.length])
    (prev : Char) (hp : prev ≠ '(') (i : Nat) :
    scan_separators prev (t ++ [';']) i 0 0 = [i + t.length] ∧
    scan_separators prev t i 0 0 = [] := by
  have h1 : scan_separators prev (t ++ [';']) i 0 0 = [i + t.length] := by
    rw [scan_separators_prev _ prev (Char.ofNat 0) i 0 0
      ⟨fun e => absurd e hp, fun e => absurd e (by decide)⟩]
    have := scan_separators_shift (t ++ [';']) (Char.ofNat 0) 0 i 0 0
    rw [Nat.zero_add] at this
    rw [this, h]
    simp [Nat.add_comm]
  refine ⟨h1, ?_⟩
  cases hs : scan_separators prev t i 0 0 with
  | nil => rfl
  | cons j l =>
    have hj : j ∈ scan_separators prev t i 0 0 := by rw [hs]; exact List.mem_cons_self _ _
    have hb := (scan_separators_bounds t prev i 0 0 j hj).2
    have hm := scan_separators_without_end t prev i 0 0 j hj
    rw [h1, List.mem_singleton] at hm
    omega

theorem split_join_closed (ts : List Str) :
    ts ≠ [] →
    (∀ t ∈ ts, scan_separators (Char.ofNat 0) (t ++ [';']) 0 0 0 = [t.length] ∧ t ≠ []) →
    ∀ (pre : Str) (prev : Char), prev ≠ '(' →
      split_commands (pre ++ join_commands ts) pre.length
        (scan_separators prev (join_commands ts) pre.length 0 0 ++
          [(pre ++ join_commands ts).length]) = ts ∧
      (∀ j ∈ scan_separators prev (join_commands ts) pre.length 0 0,
        j + 2 ≤ (pre ++ join_commands ts).length) ∧
      join_commands ts ≠ [] := by
  induction ts with
  | nil => intro h; exact absurd rfl h
  | cons t rest ih =>
    intro _ hall pre prev hp
    obtain ⟨hct, htne⟩ := hall t (List.mem_cons_self _ _)
    obtain ⟨hc1, hc2⟩ := closed_scan t hct prev hp pre.length
    cases rest with
    | nil =>
      simp only [join_commands]
      rw [hc2]
      refine ⟨?_, by intro j hj; simp at hj, htne⟩
      simp [split_commands]
    | cons t1 rest1 =>
      have hall1 : ∀ u ∈ t1 :: rest1,
          scan_separators (Char.ofNat 0) (u ++ [';']) 0 0 0 = [u.length] ∧ u ≠ [] :=
        fun u hu => hall u (List.mem_cons_of_mem _ hu)
      have hj : join_commands (t :: t1 :: rest1) = t ++ ';' :: join_commands (t1 :: rest1) :=
        rfl
      obtain ⟨ih1, ih2, ih3⟩ := ih (by simp) hall1 (pre ++ t ++ [';']) ';' (by decide)
      have hlen : (pre ++ t ++ [';']).length = pre.length + t.length + 1 := by
        simp only [List.length_append, List.length_singleton]
      have hw : pre ++ (t ++ ';' :: join_commands (t1 :: rest1)) =
          (pre ++ t ++ [';']) ++ join_commands (t1 :: rest1) := by simp
      have hscan : scan_separators prev (t ++ ';' :: join_commands (t1 :: rest1))
          pre.length 0 0 = (pre.length + t.length) ::
            scan_separators ';' (join_commands (t1 :: rest1)) (pre.length + t.length + 1)
              0 0 := by
        rw [scan_separators_recognised t prev pre.length 0 0 _
          (by rw [hc1]; exact List.mem_singleton_self _), hc1]
        rfl
      rw [hj, hscan]
      rw [hlen, ← hw] at ih1 ih2
      refine ⟨?_, ?_, by simp⟩
      · rw [List.cons_append, split_commands, ih1]
        congr 1
        simp
      · intro j hj1
        rcases List.mem_cons.mp hj1 with h | h
        · have hl : 0 < (join_commands (t1 :: rest1)).length :=
            List.length_pos.mpr ih3
          rw [h]
          simp only [List.length_append, List.length_cons]
          omega
        · exact ih2 j h

theorem separator_indices_of_joined (ts : List Str) (hne : ts ≠ [])
    (hall : ∀ t ∈ ts,
      scan_separators (Char.ofNat 0) (t ++ [';']) 0 0 0 = [t.length] ∧ t ≠ []) :
    split_commands (join_commands ts) 0 (command_separator_indices (join_commands ts)) =
      ts := by
  obtain ⟨h1, h2, _⟩ := split_join_closed ts hne hall [] (Char.ofNat 0) (by decide)
  simp only [List.nil_append, List.length_nil] at h1 h2
  have hc : command_separator_indices (join_commands ts) =
      scan_separators (Char.ofNat 0) (join_commands ts) 0 0 0 ++
        [(join_commands ts).length] := by
    unfold command_separator_indices
    simp only
    rw [if_pos]
    by_cases he : scan_separators (Char.ofNat 0) (join_commands ts) 0 0 0 = []
    · exact Or.inl he
    · right
      intro hl
      have hm : (join_commands ts).length - 1 ∈
          scan_separators (Char.ofNat 0) (join_commands ts) 0 0 0 :=
        List.mem_of_mem_getLast? (by rw [hl]; exact rfl)
      have := h2 _ hm
      omega
  rw [hc]
  exact h1

theorem scan_separators_quoted (t rest : Str) (prev : Char) (i : Nat) (q p : Int)
    (hq : q ≠ 0) (ht : ∀ c ∈ t, c ≠ QUOTE) :
    scan_separators prev (t ++ rest) i q p =
      scan_separators (t.getLast?.getD prev) rest (i + t.length) q p := by
  induction t generalizing prev i with
  | nil => simp
  | cons c cs ih =>
    have hc := ht c (List.mem_cons_self _ _)
    have ih1 := ih c (i + 1) (fun d hd => ht d (List.mem_cons_of_mem _ hd))
    have hl : (c :: cs).getLast?.getD prev = cs.getLast?.getD c := by
      cases cs with
      | nil => simp
      | cons d ds =>
        rw [List.getLast?_cons_cons]
        cases hd : (d :: ds).getLast? with
        | none => simp at hd
        | some x => rfl
    have e : i + 1 + cs.length = i + (cs.length + 1) := by omega
    rw [hl, List.length_cons, ← e, ← ih1]
    simp only [List.cons_append, scan_separators, hc, false_and, if_false, hq]
    rfl

theorem scan_separators_quote_open (rest : Str) (i : Nat) (q p : Int) :
    scan_separators '(' (QUOTE :: rest) i q p =
      scan_separators QUOTE rest (i + 1) (q + 1) p := by
  rw [scan_separators]
  simp

theorem scan_separators_quote_close (prev : Char) (rest : Str) (i : Nat) (q p : Int)
    (hp : prev ≠ '(') :
    scan_separators prev (QUOTE :: ')' :: rest) i q p =
      scan_separators QUOTE (')' :: rest) (i + 1) (q - 1) p := by
  rw [scan_separators]
  simp [hp]

theorem closed_of_simple (c : Command) (h : c.simple = true) : c.closed = true := by
  obtain ⟨name, args⟩ := c
  unfold Command.simple at h
  simp only [Bool.and_eq_true, List.all_eq_true] at h
  obtain ⟨hname, hargs⟩ := h
  unfold Command.closed
  apply decide_eq_true
  cases args with
  | none =>
    simp only [Command.text]
    rw [scan_separators_plain _ _ _ _ _ _ hname, scan_separators_semicolon]
    simp [scan_separators]
  | some a =>
    simp only [Command.text]
    have e1 : name ++ '(' :: (a ++ [')']) ++ [';'] = name ++ ('(' :: (a ++ [')', ';'])) := by
      simp
    rw [e1, scan_separators_plain _ _ _ _ _ _ hname, scan_separators_open]
    simp only at hargs
    rcases Bool.or_eq_true _ _ ▸ hargs with hp | hquoted
    · rw [scan_separators_plain _ _ _ _ _ _ (by simpa using hp), scan_separators_close,
        show (0 : Int) + 1 - 1 = 0 by norm_num, scan_separators_semicolon]
      simp [scan_separators]
      omega
    · cases a with
      | nil => simp at hquoted
      | cons ch r =>
        simp only [Bool.and_eq_true, decide_eq_true_eq, List.all_eq_true] at hquoted
        obtain ⟨⟨⟨hch, hlast⟩, hnoq⟩, hnp⟩ := hquoted
        have hr : r = r.dropLast ++ [QUOTE] := by
          have := List.dropLast_append_getLast? QUOTE (by rw [hlast]; rfl : QUOTE ∈ r.getLast?)
          exact this.symm
        rw [hch, hr]
        have e2 : QUOTE :: (r.dropLast ++ [QUOTE]) ++ [')', ';'] =
            QUOTE :: (r.dropLast ++ (QUOTE :: ')' :: [';'])) := by simp
        rw [e2, scan_separators_quote_open,
          scan_separators_quoted _ _ _ _ _ _ (by norm_num) (by simpa using hnoq),
          scan_separators_quote_close _ _ _ _ _ (by
            cases hl : r.dropLast.getLast? with
            | none => simp only [Option.getD_none]; decide
            | some x =>
              simp only [Option.getD_some]
              intro e
              exact hnp (by rw [hl, e])),
          show (0 : Int) + 1 - 1 = 0 by norm_num, scan_separators_close,
          show (0 : Int) + 1 - 1 = 0 by norm_num, scan_separators_semicolon]
        simp [scan_separators]
        omega

theorem command_text_ne_nil (c : Command)
    (h : (COMMAND_EVENTS.lookup c.name).isSome = true) : c.text ≠ [] := by
  obtain ⟨event, hev⟩ := Option.isSome_iff_exists.mp h
  have hn := (COMMAND_EVENTS_names c.name event hev).1
  obtain ⟨name, args⟩ := c
  cases args with
  | none => exact hn
  | some a =>
    unfold Command.text
    simp only
    intro e
    exact hn (List.append_eq_nil.mp e).1

/-- C3, amended: for commands `c1, ..., cn` that the splitter keeps apart (for each `ci` the
scan of `queue_execution` over `ci;` records that `;` and nothing before it) and whose names
are all in `COMMAND_EVENTS`: `queue_execution("c1;...;cn")` on an idle executor whose stall
timer is expired queues the `n` commands, and one `Executor::update` then appends exactly
`n` entries to the event queue, the i-th being the event mapped from the name of `ci` with,
as payload, the argument text of `ci` without its leading and trailing whitespace and then
without one pair of surrounding double quotes when both are present; it leaves the command
queue empty and the stall timer unchanged.  The splitter keeps apart every command without
double quotes, parentheses and semicolons in its name and argument, and every command whose
argument is one quoted text without a double quote inside that does not end in `(`. -/
theorem update_translates_commands (cs : List Command) (rt : Runtime) (dt : Seconds)
    (hall : ∀ c ∈ cs, (COMMAND_EVENTS.lookup c.name).isSome = true)
    (hclosed : ∀ c ∈ cs, c.closed = true)
    (hidle : rt.executor.commands = [])
    (ht : rt.executor.postpone_timer ≤ 0) :
    (rt.executor.queue_execution (join_commands (cs.map Command.text)) 0).commands =
        cs.map Command.text ∧
      (Executor.update dt { rt with executor :=
          (rt.executor.queue_execution
            (join_commands (cs.map Command.text)) 0) }).ear.queued_events =
        rt.ear.queued_events ++ cs.filterMap Command.event ∧
      (cs.filterMap Command.event).length = cs.length ∧
      (Executor.update dt { rt with executor :=
          (rt.executor.queue_execution
            (join_commands (cs.map Command.text)) 0) }).executor.commands = [] ∧
      (Executor.update dt { rt with executor :=
          (rt.executor.queue_execution
            (join_commands (cs.map Command.text)) 0) }).executor.postpone_timer =
        rt.executor.postpone_timer ∧
      (∀ c : Command, c.simple = true → c.closed = true) := by
  have hq : (rt.executor.queue_execution (join_commands (cs.map Command.text)) 0).commands =
      cs.map Command.text := by
    by_cases hne : cs = []
    · subst hne
      simp [Executor.queue_execution, join_commands, hidle]
    · have hts : cs.map Command.text ≠ [] := by simpa using hne
      have hall2 : ∀ t ∈ cs.map Command.text,
          scan_separators (Char.ofNat 0) (t ++ [';']) 0 0 0 = [t.length] ∧ t ≠ [] := by
        intro t ht1
        obtain ⟨c, hc, rfl⟩ := List.mem_map.mp ht1
        exact ⟨of_decide_eq_true (hclosed c hc), command_text_ne_nil c (hall c hc)⟩
      have hsplit := separator_indices_of_joined (cs.map Command.text) hts hall2
      have hjne : join_commands (cs.map Command.text) ≠ [] :=
        (split_join_closed _ hts hall2 [] (Char.ofNat 0) (by decide)).2.2
      unfold Executor.queue_execution
      rw [if_neg hjne]
      simp [hsplit, hidle]
  have htimer : (rt.executor.queue_execution (join_commands (cs.map Command.text))
      0).postpone_timer = rt.executor.postpone_timer := by
    unfold Executor.queue_execution
    split
    · rfl
    · simp
  obtain ⟨h1, h2, h3, h4⟩ := update_translates_queue cs
    { rt with executor :=
      (rt.executor.queue_execution (join_commands (cs.map Command.text)) 0) } dt hall hq
    (by rw [htimer]; exact ht)
  exact ⟨hq, h1, h2, h3, h4.trans htimer, closed_of_simple⟩

/-- C3, witness: the sequence `message( "hi" );exit` queued on an empty runtime. -/
theorem update_translates_commands_witness :
    (∀ c ∈ example_commands, (COMMAND_EVENTS.lookup c.name).isSome = true) ∧
    (∀ c ∈ example_commands, c.closed = true) ∧
    join_commands (example_commands.map Command.text) = "message( \"hi\" );exit".toList ∧
    (Executor.update 1 { ({} : Runtime) with executor :=
      (({} : Runtime).executor.queue_execution
        (join_commands (example_commands.map Command.text)) 0) }).ear.queued_events =
      [(Event.DisplayMessage, Data.of "hi".toList),
        (Event.FadeAndTerminate, Data.of ([] : Str))] :=
  ⟨by decide, by decide, by decide,
    (update_translates_commands example_commands {} 1 (by decide) (by decide) rfl
      (le_refl _)).2.1⟩

/-! ## Rounding to `float` -/

theorem rat_floor_facts (q : ℚ) : ((q.floor : ℤ) : ℚ) ≤ q ∧ q < ((q.floor : ℤ) : ℚ) + 1 := by
  have h1 : ((Int.floor q : ℤ) : ℚ) ≤ q := Int.floor_le q
  have h2 : q < ((Int.floor q : ℤ) : ℚ) + 1 := Int.lt_floor_add_one q
  exact ⟨h1, h2⟩

theorem round_half_even_error (q : ℚ) : |((round_half_even q : ℤ) : ℚ) - q| ≤ 1 / 2 := by
  obtain ⟨h1, h2⟩ := rat_floor_facts q
  unfold round_half_even
  rw [abs_le]
  split_ifs with a b c
  · constructor <;> linarith
  · push_cast; constructor <;> linarith
  · constructor <;> linarith
  · push_cast; constructor <;> linarith

theorem round_half_even_of_close (q : ℚ) (n : ℤ) (h : |q - (n : ℚ)| < 1 / 2) :
    round_half_even q = n := by
  rw [abs_lt] at h
  obtain ⟨h1, h2⟩ := h
  obtain ⟨f1, f2⟩ := rat_floor_facts q
  by_cases hq : (n : ℚ) ≤ q
  · have hf : q.floor = n := by
      show Int.floor q = n
      rw [Int.floor_eq_iff]
      constructor <;> linarith
    unfold round_half_even
    rw [hf, if_pos (by linarith)]
  · have hf : q.floor = n - 1 := by
      show Int.floor q = n - 1
      rw [Int.floor_eq_iff]
      push_cast
      constructor <;> linarith
    unfold round_half_even
    rw [hf, if_neg (by push_cast; linarith), if_pos (by push_cast; linarith)]
    ring

theorem round_half_even_le (q : ℚ) (N : ℤ) (h : q ≤ (N : ℚ)) : round_half_even q ≤ N := by
  obtain ⟨f1, f2⟩ := rat_floor_facts q
  have hfl : q.floor ≤ N := by
    have : ((q.floor : ℤ) : ℚ) ≤ (N : ℚ) := le_trans f1 h
    exact_mod_cast this
  by_cases he : q.floor = N
  · have hq : q = (N : ℚ) := by
      rw [he] at f1
      exact le_antisymm h f1
    unfold round_half_even
    rw [if_pos (by rw [he, hq]; norm_num), he]
  · have hlt : q.floor + 1 ≤ N := by omega
    unfold round_half_even
    split_ifs <;> omega

theorem round_half_even_nonneg (q : ℚ) (h : 0 ≤ q) : 0 ≤ round_half_even q := by
  have hf : 0 ≤ q.floor := by
    show 0 ≤ Int.floor q
    exact Int.floor_nonneg.mpr h
  unfold round_half_even
  split_ifs <;> omega

theorem binary_exponent_up_facts (n : Nat) (x : ℚ) : ∀ e : Int,
    e ≤ binary_exponent_up n x e ∧
      (binary_exponent_up n x e = e ∨ (2 : ℚ) ^ (binary_exponent_up n x e) ≤ x) := by
  induction n with
  | zero => intro e; rw [binary_exponent_up]; exact ⟨le_refl _, Or.inl rfl⟩
  | succ n ih =>
    intro e
    rw [binary_exponent_up]
    split
    · rename_i h
      obtain ⟨h1, h2⟩ := ih (e + 1)
      refine ⟨by omega, Or.inr ?_⟩
      rcases h2 with h2 | h2
      · rw [h2]; exact h
      · exact h2
    · exact ⟨le_refl _, Or.inl rfl⟩

theorem binary_exponent_down_le (n : Nat) (x : ℚ) : ∀ e : Int,
    binary_exponent_down n x e ≤ e := by
  induction n with
  | zero => intro e; rw [binary_exponent_down]
  | succ n ih =>
    intro e
    rw [binary_exponent_down]
    split
    · have := ih (e - 1); omega
    · exact le_refl _

theorem binary_exponent_le (x : ℚ) (k : Int) (hk : 0 ≤ k) (hx : x < (2 : ℚ) ^ (k + 1)) :
    binary_exponent x ≤ k := by
  unfold binary_exponent
  have h1 := binary_exponent_down_le 160 x (binary_exponent_up 160 x 0)
  obtain ⟨_, h2⟩ := binary_exponent_up_facts 160 x 0
  rcases h2 with h2 | h2
  · omega
  · have hlt : (2 : ℚ) ^ (binary_exponent_up 160 x 0) < (2 : ℚ) ^ (k + 1) :=
      lt_of_le_of_lt h2 hx
    have := (zpow_lt_zpow_iff_right₀ (by norm_num : (1 : ℚ) < 2)).mp hlt
    omega

theorem binary_exponent_up_spec (n : Nat) (x : ℚ) (E : Int)
    (hlo : (2 : ℚ) ^ E ≤ x) (hhi : x < (2 : ℚ) ^ (E + 1)) :
    ∀ e : Int, (e ≤ E → E - e ≤ n → binary_exponent_up n x e = E) ∧
      (E ≤ e → binary_exponent_up n x e = e) := by
  induction n with
  | zero =>
    intro e
    constructor
    · intro h1 h2
      rw [binary_exponent_up]
      omega
    · intro _; rw [binary_exponent_up]
  | succ n ih =>
    intro e
    constructor
    · intro h1 h2
      rw [binary_exponent_up]
      split
      · rename_i hle
        have hlt : (2 : ℚ) ^ (e + 1) < (2 : ℚ) ^ (E + 1) := lt_of_le_of_lt hle hhi
        have h3 : e + 1 < E + 1 := (zpow_lt_zpow_iff_right₀ (by norm_num)).mp hlt
        exact (ih (e + 1)).1 (by omega) (by omega)
      · rename_i hnle
        have hlt : (2 : ℚ) ^ E < (2 : ℚ) ^ (e + 1) := lt_of_le_of_lt hlo (not_le.mp hnle)
        have h3 : E < e + 1 := (zpow_lt_zpow_iff_right₀ (by norm_num)).mp hlt
        omega
    · intro h1
      rw [binary_exponent_up]
      split
      · rename_i hle
        have hlt : (2 : ℚ) ^ (e + 1) < (2 : ℚ) ^ (E + 1) := lt_of_le_of_lt hle hhi
        have h3 : e + 1 < E + 1 := (zpow_lt_zpow_iff_right₀ (by norm_num)).mp hlt
        omega
      · rfl

theorem binary_exponent_down_spec (n : Nat) (x : ℚ) (E : Int)
    (hlo : (2 : ℚ) ^ E ≤ x) (hhi : x < (2 : ℚ) ^ (E + 1)) :
    ∀ e : Int, E ≤ e → e - E ≤ n → binary_exponent_down n x e = E := by
  induction n with
  | zero =>
    intro e h1 h2
    rw [binary_exponent_down]
    omega
  | succ n ih =>
    intro e h1 h2
    rw [binary_exponent_down]
    split
    · rename_i hlt
      have hlt1 : (2 : ℚ) ^ E < (2 : ℚ) ^ e := lt_of_le_of_lt hlo hlt
      have h3 : E < e := (zpow_lt_zpow_iff_right₀ (by norm_num)).mp hlt1
      exact ih (e - 1) (by omega) (by omega)
    · rename_i hnlt
      have hlt1 : (2 : ℚ) ^ e < (2 : ℚ) ^ (E + 1) := lt_of_le_of_lt (not_lt.mp hnlt) hhi
      have h3 : e < E + 1 := (zpow_lt_zpow_iff_right₀ (by norm_num)).mp hlt1
      omega

theorem binary_exponent_spec (x : ℚ) (E : Int)
    (hlo : (2 : ℚ) ^ E ≤ x) (hhi : x < (2 : ℚ) ^ (E + 1))
    (h1 : -160 ≤ E) (h2 : E ≤ 160) : binary_exponent x = E := by
  unfold binary_exponent
  by_cases h : 0 ≤ E
  · rw [((binary_exponent_up_spec 160 x E hlo hhi) 0).1 h (by omega)]
    exact binary_exponent_down_spec 160 x E hlo hhi E (le_refl _) (by omega)
  · rw [((binary_exponent_up_spec 160 x E hlo hhi) 0).2 (by omega)]
    exact binary_exponent_down_spec 160 x E hlo hhi 0 (by omega) (by omega)

theorem FLT_MAX_pos : 0 < FLT_MAX := by unfold FLT_MAX; norm_num

theorem round_to_float_pos (x : ℚ) (e : Int) (hx : 0 < x)
    (he : max (binary_exponent x) (-126) = e)
    (hle : ((round_half_even (x / (2 : ℚ) ^ (e - 23)) : ℤ) : ℚ) * (2 : ℚ) ^ (e - 23) ≤ FLT_MAX) :
    round_to_float x =
      ((round_half_even (x / (2 : ℚ) ^ (e - 23)) : ℤ) : ℚ) * (2 : ℚ) ^ (e - 23) := by
  unfold round_to_float
  rw [if_neg (ne_of_gt hx)]
  simp only [abs_of_pos hx, he]
  rw [if_neg (not_lt.mpr hle), if_neg (not_lt.mpr (le_of_lt hx))]

theorem round_to_float_neg (x : ℚ) : round_to_float (-x) = -round_to_float x := by
  unfold round_to_float
  by_cases h0 : x = 0
  · simp [h0]
  · have hn : -x ≠ 0 := neg_ne_zero.mpr h0
    rw [if_neg h0, if_neg hn]
    simp only [abs_neg]
    rcases lt_or_gt_of_ne h0 with h | h
    · rw [if_neg (by linarith : ¬ (-x < 0)), if_pos h, neg_neg]
    · rw [if_pos (by linarith : -x < 0), if_neg (by linarith : ¬ (x < 0))]

theorem round_to_float_nonneg (x : ℚ) (h : 0 ≤ x) : 0 ≤ round_to_float x := by
  unfold round_to_float
  by_cases h0 : x = 0
  · rw [if_pos h0]
  · rw [if_neg h0]
    simp only
    rw [if_neg (not_lt.mpr h)]
    have hpos : (0 : ℚ) < (2 : ℚ) ^ (max (binary_exponent |x|) (-126) - 23) :=
      zpow_pos (by norm_num) _
    have hr := round_half_even_nonneg
      (|x| / (2 : ℚ) ^ (max (binary_exponent |x|) (-126) - 23))
      (div_nonneg (abs_nonneg x) (le_of_lt hpos))
    have hr' : (0 : ℚ) ≤ ((round_half_even
        (|x| / (2 : ℚ) ^ (max (binary_exponent |x|) (-126) - 23)) : ℤ) : ℚ) := by
      exact_mod_cast hr
    split
    · exact le_of_lt FLT_MAX_pos
    · exact mul_nonneg hr' (le_of_lt hpos)

theorem round_to_float_nonpos (x : ℚ) (h : x ≤ 0) : round_to_float x ≤ 0 := by
  have := round_to_float_nonneg (-x) (by linarith)
  rw [round_to_float_neg] at this
  linarith

theorem round_to_float_zero : round_to_float 0 = 0 := by
  unfold round_to_float
  rw [if_pos rfl]

theorem round_to_float_small (x : ℚ) (h0 : 0 ≤ x) (h16 : x < 16) :
    |round_to_float x - x| ≤ 1 / 2097152 ∧ round_to_float x ≤ 16 := by
  by_cases hx0 : x = 0
  · rw [hx0, round_to_float_zero]
    norm_num
  have hx : 0 < x := lt_of_le_of_ne h0 (Ne.symm hx0)
  have he3 : max (binary_exponent x) (-126) ≤ 3 := by
    have := binary_exponent_le x 3 (by norm_num) (by norm_num; exact h16)
    omega
  generalize hE : max (binary_exponent x) (-126) = e at he3
  have hpos : (0 : ℚ) < (2 : ℚ) ^ (e - 23) := zpow_pos (by norm_num) _
  have hN : x / (2 : ℚ) ^ (e - 23) ≤ (((2 : ℤ) ^ (27 - e).toNat : ℤ) : ℚ) := by
    rw [div_le_iff₀ hpos]
    push_cast
    rw [← zpow_natCast, Int.toNat_of_nonneg (by omega), ← zpow_add₀ (by norm_num)]
    rw [show 27 - e + (e - 23) = 4 by ring]
    norm_num
    exact le_of_lt h16
  have hr := round_half_even_le _ _ hN
  have hr' : ((round_half_even (x / (2 : ℚ) ^ (e - 23)) : ℤ) : ℚ) ≤
      (((2 : ℤ) ^ (27 - e).toNat : ℤ) : ℚ) := by exact_mod_cast hr
  have h16' : ((round_half_even (x / (2 : ℚ) ^ (e - 23)) : ℤ) : ℚ) * (2 : ℚ) ^ (e - 23)
      ≤ 16 := by
    have := mul_le_mul_of_nonneg_right hr' (le_of_lt hpos)
    refine le_trans this ?_
    push_cast
    rw [← zpow_natCast, Int.toNat_of_nonneg (by omega), ← zpow_add₀ (by norm_num)]
    rw [show 27 - e + (e - 23) = 4 by ring]
    norm_num
  have hmax : (16 : ℚ) ≤ FLT_MAX := by unfold FLT_MAX; norm_num
  rw [round_to_float_pos x e hx hE (le_trans h16' hmax)]
  refine ⟨?_, h16'⟩
  have herr := round_half_even_error (x / (2 : ℚ) ^ (e - 23))
  have e1 : ((round_half_even (x / (2 : ℚ) ^ (e - 23)) : ℤ) : ℚ) * (2 : ℚ) ^ (e - 23) - x =
      (((round_half_even (x / (2 : ℚ) ^ (e - 23)) : ℤ) : ℚ) - x / (2 : ℚ) ^ (e - 23)) *
        (2 : ℚ) ^ (e - 23) := by
    field_simp
  rw [e1, abs_mul, abs_of_pos hpos]
  have hulp : (2 : ℚ) ^ (e - 23) ≤ (2 : ℚ) ^ ((-20 : ℤ)) :=
    (zpow_le_zpow_iff_right₀ (by norm_num : (1 : ℚ) < 2)).mpr (by omega)
  calc |((round_half_even (x / (2 : ℚ) ^ (e - 23)) : ℤ) : ℚ) - x / (2 : ℚ) ^ (e - 23)| *
        (2 : ℚ) ^ (e - 23)
      ≤ 1 / 2 * (2 : ℚ) ^ ((-20 : ℤ)) :=
        mul_le_mul herr hulp (le_of_lt hpos) (by norm_num)
    _ = 1 / 2097152 := by norm_num

/-! ## C2: the postponed queue and the `float` timer -/

theorem terminate_count_queue_exit (rt : Runtime) (ex : Executor) :
    ({ rt with
        executor := ex
        ear := rt.ear.queue_event Event.FadeAndTerminate (Data.of (dequote [])) } :
      Runtime).terminate_count = rt.terminate_count + 1 := by
  simp [Runtime.terminate_count, EARManager.queue_event]

theorem exit_after_float_timer (dts : List Seconds) (hpos : ∀ dt ∈ dts, 0 < dt) :
    ∀ (rt : Runtime), rt.executor.commands = ["exit".toList] →
      0 < rt.executor.postpone_timer → rt.executor.postpone_timer ≤ 16 →
      ((Executor.run_updates dts rt).terminate_count = rt.terminate_count ∨
        (Executor.run_updates dts rt).terminate_count = rt.terminate_count + 1) ∧
      (dts.sum + (dts.length : ℚ) / 2097152 < rt.executor.postpone_timer →
        (Executor.run_updates dts rt).terminate_count = rt.terminate_count) ∧
      (rt.executor.postpone_timer + (dts.length : ℚ) / 2097152 ≤ dts.sum →
        (Executor.run_updates dts rt).terminate_count = rt.terminate_count + 1) := by
  induction dts with
  | nil =>
    intro rt _ hτ _
    refine ⟨Or.inl rfl, fun _ => rfl, ?_⟩
    intro h
    simp at h
    linarith
  | cons dt dts ih =>
    intro rt hc hτ h16
    have hdt : 0 < dt := hpos dt (List.mem_cons_self _ _)
    have hpos1 : ∀ d ∈ dts, 0 < d := fun d hd => hpos d (List.mem_cons_of_mem _ hd)
    have hsum : 0 ≤ dts.sum := List.sum_nonneg (fun d hd => le_of_lt (hpos1 d hd))
    have hlen : (0 : ℚ) ≤ (dts.length : ℚ) / 2097152 := by positivity
    have hx : ∀ r : Runtime, Executor.execute ['e', 'x', 'i', 't'] r =
        { r with ear := r.ear.queue_event Event.FadeAndTerminate (Data.of (dequote [])) } :=
      execute_exit
    have hc1 : rt.executor.commands = [['e', 'x', 'i', 't']] := hc
    have hrun : Executor.run_updates (dt :: dts) rt =
        Executor.run_updates dts (Executor.update dt rt) := rfl
    rw [hrun]
    simp only [List.sum_cons, List.length_cons, Nat.cast_succ]
    by_cases hfire : round_to_float (rt.executor.postpone_timer - dt) ≤ 0
    · have hupd : Executor.update dt rt =
          { rt with
            executor := { rt.executor with
              commands := []
              postpone_timer := round_to_float (rt.executor.postpone_timer - dt) }
            ear := rt.ear.queue_event Event.FadeAndTerminate (Data.of (dequote [])) } := by
        simp [Executor.update, hτ, hc1, Executor.update_loop, hfire, hx]
      have hidle := run_updates_idle dts (Executor.update dt rt) (by rw [hupd])
      have hcount : (Executor.run_updates dts (Executor.update dt rt)).terminate_count =
          rt.terminate_count + 1 := by
        unfold Runtime.terminate_count
        rw [hidle, hupd]
        simp [EARManager.queue_event]
      refine ⟨Or.inr hcount, ?_, fun _ => hcount⟩
      intro h
      exfalso
      have hx0 : 0 ≤ rt.executor.postpone_timer - dt := by linarith
      have hx16 : rt.executor.postpone_timer - dt < 16 := by linarith
      have herr := (round_to_float_small _ hx0 hx16).1
      rw [abs_le] at herr
      have : (1 : ℚ) / 2097152 > 0 := by norm_num
      linarith [herr.1]
    · have hupd : Executor.update dt rt =
          { rt with executor := { rt.executor with
              postpone_timer := round_to_float (rt.executor.postpone_timer - dt) } } := by
        simp [Executor.update, hτ, hc1, Executor.update_loop, hfire]
      have hx0 : 0 < rt.executor.postpone_timer - dt := by
        by_contra hneg
        exact hfire (round_to_float_nonpos _ (not_lt.mp hneg))
      have hx16 : rt.executor.postpone_timer - dt < 16 := by linarith
      obtain ⟨herr, hle16⟩ := round_to_float_small _ (le_of_lt hx0) hx16
      rw [abs_le] at herr
      obtain ⟨i1, i2, i3⟩ := ih hpos1 (Executor.update dt rt) (by rw [hupd]; exact hc)
        (by rw [hupd]; exact not_le.mp hfire) (by rw [hupd]; exact hle16)
      have hcnt : (Executor.update dt rt).terminate_count = rt.terminate_count := by
        rw [hupd]; rfl
      have htim : (Executor.update dt rt).executor.postpone_timer =
          round_to_float (rt.executor.postpone_timer - dt) := by rw [hupd]
      rw [hcnt] at i1 i2 i3
      rw [htim] at i2 i3
      refine ⟨i1, ?_, ?_⟩
      · intro h
        apply i2
        linarith [herr.1]
      · intro h
        apply i3
        linarith [herr.2]
theorem postpone_exit_first_update_float (s : Str) (dt1 : Seconds) (rt0 : Runtime)
    (hs : ∀ c ∈ s, is_decimal_char c = true)
    (hidle : rt0.executor.commands = []) (htimer : rt0.executor.postpone_timer ≤ 0) :
    Executor.update dt1 { rt0 with executor :=
        (rt0.executor.queue_execution ("postpone(".toList ++ s ++ ");exit".toList) 0) } =
      (if (assure_bounds (Convert.str_to_Seconds s) 0 10).1 ≤ 0 then
        { rt0 with
          executor :=
            { commands := [],
              postpone_timer := (assure_bounds (Convert.str_to_Seconds s) 0 10).1 }
          ear := rt0.ear.queue_event Event.FadeAndTerminate (Data.of (dequote [])) }
      else
        { rt0 with executor :=
          { commands := ["exit".toList],
            postpone_timer := (assure_bounds (Convert.str_to_Seconds s) 0 10).1 } }) := by
  obtain ⟨hq1, hq2⟩ := queue_postpone_exit s rt0.executor hs
  rw [hidle, List.nil_append] at hq1
  have h1 : trim_spaces s = s :=
    trim_spaces_eq_self s (fun c hc => (is_decimal_char_facts c (hs c hc)).2.1)
  have h2 : dequote s = s := by
    apply dequote_eq_self
    cases s with
    | nil => simp
    | cons c cs =>
      have := (is_decimal_char_facts c (hs c (List.mem_cons_self _ _))).2.2
      simpa using this
  have hnot0 : ¬ (0 < rt0.executor.postpone_timer) := not_lt.mpr htimer
  unfold Executor.update
  simp only [gt_iff_lt, hq2, hnot0, if_false, hq1, List.length_cons, List.length_nil]
  rw [Executor.update_loop]
  simp only [hq1, hq2, htimer, if_true, execute_postpone, h1, h2]
  rw [Executor.update_loop]
  by_cases hT : (assure_bounds (Convert.str_to_Seconds s) 0 10).1 ≤ 0
  · simp only [hT, if_true]
    rw [execute_exit]
    rfl
  · simp only [hT, if_false]

theorem armed_timer_facts (d : ℚ) (hd0 : 0 < d) (hd10 : d ≤ 10) :
    0 ≤ (assure_bounds (round_to_float d) 0 10).1 ∧
    (assure_bounds (round_to_float d) 0 10).1 ≤ 10 ∧
    |(assure_bounds (round_to_float d) 0 10).1 - d| ≤ 1 / 2097152 := by
  obtain ⟨herr, _⟩ := round_to_float_small d (le_of_lt hd0) (by linarith)
  have hnn := round_to_float_nonneg d (le_of_lt hd0)
  rw [abs_le] at herr
  unfold assure_bounds
  rw [if_neg (not_lt.mpr hnn)]
  by_cases h : round_to_float d > 10
  · rw [if_pos h]
    refine ⟨by norm_num, le_refl _, ?_⟩
    rw [abs_le]
    constructor <;> linarith [herr.1, herr.2]
  · rw [if_neg h]
    refine ⟨hnn, not_lt.mp h, ?_⟩
    rw [abs_le]
    exact herr

/-- C2, amended: after `queue_execution("postpone(d);exit")` on an idle executor, `d` written
as a decimal numeral with `0 < d ≤ 10`, the first update executes `postpone` and arms the
timer with the `float` nearest to `d`, its own elapsed time not being counted.  Over the `n`
updates that follow it (each with `dt > 0`) the `FadeAndTerminate` event is queued at most
once; it has not been queued while their cumulative elapsed time is below
`d - (n + 1) / 2097152`, and it has been queued exactly once when that time has reached
`d + (n + 1) / 2097152`: the `float` timer takes a rounding error of at most `2 ^ (-21)` when
it is armed and at every subtraction. -/
theorem postpone_stalls_queue (s : Str) (dt1 : Seconds) (dts : List Seconds) (rt0 : Runtime)
    (hs : ∀ c ∈ s, is_decimal_char c = true)
    (hd0 : 0 < Convert.read_decimal s) (hd10 : Convert.read_decimal s ≤ 10)
    (hidle : rt0.executor.commands = []) (htimer : rt0.executor.postpone_timer ≤ 0)
    (hpos : ∀ dt ∈ dts, 0 < dt) :
    ((Executor.run_updates (dt1 :: dts)
        { rt0 with executor := (rt0.executor.queue_execution
            ("postpone(".toList ++ s ++ ");exit".toList) 0) }).terminate_count =
          rt0.terminate_count ∨
      (Executor.run_updates (dt1 :: dts)
        { rt0 with executor := (rt0.executor.queue_execution
            ("postpone(".toList ++ s ++ ");exit".toList) 0) }).terminate_count =
          rt0.terminate_count + 1) ∧
    (dts.sum + ((dts.length : ℚ) + 1) / 2097152 < Convert.read_decimal s →
      (Executor.run_updates (dt1 :: dts)
        { rt0 with executor := (rt0.executor.queue_execution
            ("postpone(".toList ++ s ++ ");exit".toList) 0) }).terminate_count =
          rt0.terminate_count) ∧
    (Convert.read_decimal s + ((dts.length : ℚ) + 1) / 2097152 ≤ dts.sum →
      (Executor.run_updates (dt1 :: dts)
        { rt0 with executor := (rt0.executor.queue_execution
            ("postpone(".toList ++ s ++ ");exit".toList) 0) }).terminate_count =
          rt0.terminate_count + 1) ∧
    (Executor.update dt1
        { rt0 with executor := (rt0.executor.queue_execution
            ("postpone(".toList ++ s ++ ");exit".toList) 0) }).executor.postpone_timer =
      (assure_bounds (Convert.str_to_Seconds s) 0 10).1 ∧
    |(assure_bounds (Convert.str_to_Seconds s) 0 10).1 - Convert.read_decimal s| ≤
      1 / 2097152 := by
  have h1 := postpone_exit_first_update_float s dt1 rt0 hs hidle htimer
  obtain ⟨a1, a2, a3⟩ := armed_timer_facts (Convert.read_decimal s) hd0 hd10
  have hstr : Convert.str_to_Seconds s = round_to_float (Convert.read_decimal s) := rfl
  rw [← hstr] at a1 a2 a3
  have hsum : 0 ≤ dts.sum := List.sum_nonneg (fun d hd => le_of_lt (hpos d hd))
  have hlen : (0 : ℚ) ≤ (dts.length : ℚ) := Nat.cast_nonneg _
  have hrun : Executor.run_updates (dt1 :: dts)
      { rt0 with executor := (rt0.executor.queue_execution
        ("postpone(".toList ++ s ++ ");exit".toList) 0) } =
      Executor.run_updates dts (Executor.update dt1
        { rt0 with executor := (rt0.executor.queue_execution
          ("postpone(".toList ++ s ++ ");exit".toList) 0) }) := rfl
  rw [hrun, h1]
  rw [abs_le] at a3
  by_cases hT : (assure_bounds (Convert.str_to_Seconds s) 0 10).1 ≤ 0
  · rw [if_pos hT]
    have hidle2 := run_updates_idle dts
      { rt0 with
        executor :=
          { commands := [],
            postpone_timer := (assure_bounds (Convert.str_to_Seconds s) 0 10).1 }
        ear := rt0.ear.queue_event Event.FadeAndTerminate (Data.of (dequote [])) } rfl
    have hcount : (Executor.run_updates dts
        { rt0 with
          executor :=
            { commands := [],
              postpone_timer := (assure_bounds (Convert.str_to_Seconds s) 0 10).1 }
          ear := rt0.ear.queue_event Event.FadeAndTerminate
            (Data.of (dequote [])) }).terminate_count = rt0.terminate_count + 1 := by
      unfold Runtime.terminate_count
      rw [hidle2]
      simp [EARManager.queue_event]
    refine ⟨Or.inr hcount, ?_, fun _ => hcount, rfl, abs_le.mpr a3⟩
    intro h
    exfalso
    have : (0 : ℚ) ≤ (dts.length : ℚ) / 2097152 := by positivity
    have e : ((dts.length : ℚ) + 1) / 2097152 = (dts.length : ℚ) / 2097152 + 1 / 2097152 := by
      ring
    rw [e] at h
    linarith [a3.1]
  · rw [if_neg hT]
    obtain ⟨i1, i2, i3⟩ := exit_after_float_timer dts hpos
      { rt0 with executor :=
        { commands := ["exit".toList],
          postpone_timer := (assure_bounds (Convert.str_to_Seconds s) 0 10).1 } }
      rfl (not_le.mp hT) (by show (assure_bounds (Convert.str_to_Seconds s) 0 10).1 ≤ 16
                             linarith)
    have e : ((dts.length : ℚ) + 1) / 2097152 = (dts.length : ℚ) / 2097152 + 1 / 2097152 := by
      ring
    refine ⟨i1, ?_, ?_, rfl, abs_le.mpr a3⟩
    · intro h
      apply i2
      show dts.sum + (dts.length : ℚ) / 2097152 <
        (assure_bounds (Convert.str_to_Seconds s) 0 10).1
      rw [e] at h
      linarith [a3.1]
    · intro h
      apply i3
      show (assure_bounds (Convert.str_to_Seconds s) 0 10).1 + (dts.length : ℚ) / 2097152 ≤
        dts.sum
      rw [e] at h
      linarith [a3.2]

/-- C2, witness: `postpone(2);exit` with a first update of `1` and then one update of `1/2`:
nothing has been queued. -/
theorem postpone_stalls_queue_witness :
    (∀ c ∈ "2".toList, is_decimal_char c = true) ∧
      0 < Convert.read_decimal "2".toList ∧ Convert.read_decimal "2".toList ≤ 10 ∧
      (∀ dt ∈ [(1 / 2 : Seconds)], 0 < dt) ∧
      (Executor.run_updates (1 :: [1 / 2])
        { ({} : Runtime) with executor := (({} : Runtime).executor.queue_execution
            ("postpone(".toList ++ "2".toList ++ ");exit".toList) 0) }).terminate_count =
        ({} : Runtime).terminate_count :=
  ⟨by decide, by decide!, by decide!, by decide!,
    (postpone_stalls_queue "2".toList 1 [1 / 2] {} (by decide) (by decide!) (by decide!) rfl
      (le_refl _) (by decide!)).2.1 (by decide!)⟩

/-- C2, counterexample: after `queue_execution("postpone(2);exit")` and the updates `1.5`
and `1` the cumulative elapsed time `2.5` has passed `2`, but no `FadeAndTerminate` event
has been queued: the first update only arms the timer.  And after `postpone(1);exit`, a first
update and five updates of the `float` `0.2f` (cumulative time above `1`) nothing has been
queued either: the `float` timer has lost the excess in rounding. -/
theorem postpone_cumulative_time_counterexample :
    ((2 : ℚ) < 3 / 2 + 1 ∧
      (Executor.run_updates [3 / 2, 1]
        { executor :=
            ({} : Executor).queue_execution "postpone(2);exit".toList 0 }).terminate_count
        = 0) ∧
    (round_to_float (1 / 5) = 13421773 / 67108864 ∧
      (1 : ℚ) < (List.replicate 5 (13421773 / 67108864 : ℚ)).sum ∧
      (Executor.run_updates (1 :: List.replicate 5 (13421773 / 67108864))
        { executor :=
            ({} : Executor).queue_execution "postpone(1);exit".toList 0 }).terminate_count
        = 0) := by
  decide!

/-! ## C21: the string form of a `float` read back -/

theorem decimal_exponent_up_spec (n : Nat) (x : ℚ) (E : Int)
    (hlo : (10 : ℚ) ^ E ≤ x) (hhi : x < (10 : ℚ) ^ (E + 1)) :
    ∀ e : Int, (e ≤ E → E - e ≤ n → decimal_exponent_up n x e = E) ∧
      (E ≤ e → decimal_exponent_up n x e = e) := by
  induction n with
  | zero =>
    intro e
    constructor
    · intro h1 h2
      rw [decimal_exponent_up]
      omega
    · intro _; rw [decimal_exponent_up]
  | succ n ih =>
    intro e
    constructor
    · intro h1 h2
      rw [decimal_exponent_up]
      split
      · rename_i hle
        have hlt : (10 : ℚ) ^ (e + 1) < (10 : ℚ) ^ (E + 1) := lt_of_le_of_lt hle hhi
        have h3 : e + 1 < E + 1 := (zpow_lt_zpow_iff_right₀ (by norm_num)).mp hlt
        exact (ih (e + 1)).1 (by omega) (by omega)
      · rename_i hnle
        have hlt : (10 : ℚ) ^ E < (10 : ℚ) ^ (e + 1) := lt_of_le_of_lt hlo (not_le.mp hnle)
        have h3 : E < e + 1 := (zpow_lt_zpow_iff_right₀ (by norm_num)).mp hlt
        omega
    · intro h1
      rw [decimal_exponent_up]
      split
      · rename_i hle
        have hlt : (10 : ℚ) ^ (e + 1) < (10 : ℚ) ^ (E + 1) := lt_of_le_of_lt hle hhi
        have h3 : e + 1 < E + 1 := (zpow_lt_zpow_iff_right₀ (by norm_num)).mp hlt
        omega
      · rfl

theorem decimal_exponent_down_spec (n : Nat) (x : ℚ) (E : Int)
    (hlo : (10 : ℚ) ^ E ≤ x) (hhi : x < (10 : ℚ) ^ (E + 1)) :
    ∀ e : Int, E ≤ e → e - E ≤ n → decimal_exponent_down n x e = E := by
  induction n with
  | zero =>
    intro e h1 h2
    rw [decimal_exponent_down]
    omega
  | succ n ih =>
    intro e h1 h2
    rw [decimal_exponent_down]
    split
    · rename_i hlt
      have hlt1 : (10 : ℚ) ^ E < (10 : ℚ) ^ e := lt_of_le_of_lt hlo hlt
      have h3 : E < e := (zpow_lt_zpow_iff_right₀ (by norm_num)).mp hlt1
      exact ih (e - 1) (by omega) (by omega)
    · rename_i hnlt
      have hlt1 : (10 : ℚ) ^ e < (10 : ℚ) ^ (E + 1) := lt_of_le_of_lt (not_lt.mp hnlt) hhi
      have h3 : e < E + 1 := (zpow_lt_zpow_iff_right₀ (by norm_num)).mp hlt1
      omega

theorem decimal_exponent_spec (x : ℚ) (E : Int)
    (hlo : (10 : ℚ) ^ E ≤ x) (hhi : x < (10 : ℚ) ^ (E + 1))
    (h1 : -64 ≤ E) (h2 : E ≤ 64) : decimal_exponent x = E := by
  unfold decimal_exponent
  by_cases h : 0 ≤ E
  · rw [((decimal_exponent_up_spec 64 x E hlo hhi) 0).1 h (by omega)]
    exact decimal_exponent_down_spec 64 x E hlo hhi E (le_refl _) (by omega)
  · rw [((decimal_exponent_up_spec 64 x E hlo hhi) 0).2 (by omega)]
    exact decimal_exponent_down_spec 64 x E hlo hhi 0 (by omega) (by omega)

theorem parse_nat_foldl (B : Str) : ∀ acc : Nat,
    B.foldl (fun acc c => 10 * acc + digit_val c) acc = acc * 10 ^ B.length + parse_nat B := by
  induction B with
  | nil => intro acc; simp [parse_nat]
  | cons c cs ih =>
    intro acc
    have e : parse_nat (c :: cs) = (10 * 0 + digit_val c) * 10 ^ cs.length + parse_nat cs :=
      ih (10 * 0 + digit_val c)
    rw [List.foldl_cons, ih, e, List.length_cons, pow_succ]
    ring

theorem parse_nat_app (A B : Str) :
    parse_nat (A ++ B) = parse_nat A * 10 ^ B.length + parse_nat B := by
  rw [parse_nat, List.foldl_append, parse_nat_foldl]
  rfl

theorem parse_nat_zeros (k : Nat) : parse_nat (List.replicate k '0') = 0 := by
  induction k with
  | zero => rfl
  | succ k ih =>
    rw [List.replicate_succ', parse_nat_append, ih]
    rfl

theorem strip_zeros_spec (B : Str) :
    ∃ z, B = strip_zeros B ++ List.replicate z '0' := by
  refine ⟨(B.reverse.takeWhile (fun c => c = '0')).length, ?_⟩
  have h1 : B.reverse = B.reverse.takeWhile (fun c => decide (c = '0')) ++
      B.reverse.dropWhile (fun c => decide (c = '0')) :=
    (List.takeWhile_append_dropWhile _ _).symm
  have h2 : B = (B.reverse.dropWhile (fun c => decide (c = '0'))).reverse ++
      (B.reverse.takeWhile (fun c => decide (c = '0'))).reverse := by
    rw [← List.reverse_append, ← h1, List.reverse_reverse]
  have h3 : (B.reverse.takeWhile (fun c => decide (c = '0'))).reverse =
      List.replicate (B.reverse.takeWhile (fun c => decide (c = '0'))).length '0' := by
    rw [List.eq_replicate_iff]
    refine ⟨by simp, ?_⟩
    intro c hc
    have := List.mem_takeWhile_imp (List.mem_reverse.mp hc)
    simpa using this
  unfold strip_zeros
  rw [← h3]
  exact h2

theorem value_of_split (A B : Str) :
    (parse_nat A : ℚ) + (parse_nat (strip_zeros B) : ℚ) / 10 ^ (strip_zeros B).length =
      (parse_nat (A ++ B) : ℚ) / 10 ^ B.length := by
  obtain ⟨z, hz⟩ := strip_zeros_spec B
  have hB : parse_nat B = parse_nat (strip_zeros B) * 10 ^ z := by
    conv_lhs => rw [hz]
    rw [parse_nat_app, parse_nat_zeros, List.length_replicate, Nat.add_zero]
  have hl : B.length = (strip_zeros B).length + z := by
    conv_lhs => rw [hz]
    rw [List.length_append, List.length_replicate]
  rw [parse_nat_app, hB, hl]
  push_cast
  have h10 : (10 : ℚ) ^ (strip_zeros B).length ≠ 0 := pow_ne_zero _ (by norm_num)
  have h10z : (10 : ℚ) ^ z ≠ 0 := pow_ne_zero _ (by norm_num)
  field_simp
  ring

theorem takeWhile_digits (ds rest : Str) (hds : ∀ c ∈ ds, isdigit c = true)
    (hrest : rest.takeWhile isdigit = []) :
    (ds ++ rest).takeWhile isdigit = ds ∧ (ds ++ rest).dropWhile isdigit = rest := by
  induction ds with
  | nil =>
    refine ⟨hrest, ?_⟩
    cases rest with
    | nil => rfl
    | cons c cs =>
      rw [List.nil_append]
      rw [List.takeWhile_cons] at hrest
      rw [List.dropWhile_cons]
      split at hrest
      · exact absurd hrest (List.cons_ne_nil _ _)
      · rename_i h; rw [if_neg h]
  | cons d ds ih =>
    have hd := hds d (List.mem_cons_self _ _)
    obtain ⟨h1, h2⟩ := ih (fun c hc => hds c (List.mem_cons_of_mem _ hc))
    rw [List.cons_append, List.takeWhile_cons, List.dropWhile_cons, if_pos hd, if_pos hd, h1, h2]
    exact ⟨rfl, rfl⟩

theorem read_decimal_steps (S R : Str) (neg : Bool) (ip fp frac tail : Str) (ex : Int)
    (h1 : S.dropWhile isspace = S) (h2 : take_sign S = (neg, R))
    (h3 : R.takeWhile isdigit = ip) (h4 : R.dropWhile isdigit = frac ++ tail)
    (hip : ip ≠ [])
    (hfrac : (frac = [] ∧ fp = []) ∨
      (frac = '.' :: fp ∧ (fp ++ tail).takeWhile isdigit = fp ∧
        (fp ++ tail).dropWhile isdigit = tail))
    (htail : (tail = [] ∧ ex = 0) ∨
      (∃ r, tail = 'e' :: r ∧
        ex = (if (take_sign r).1 then -1 else 1) *
          (parse_nat ((take_sign r).2.takeWhile isdigit) : Int))) :
    Convert.read_decimal S =
      (if neg then -1 else 1) *
        (((parse_nat ip : ℚ) + (parse_nat fp : ℚ) / 10 ^ fp.length) * (10 : ℚ) ^ ex) := by
  unfold Convert.read_decimal
  simp only [h1, h2, h3, h4]
  rcases hfrac with ⟨hf, hfp⟩ | ⟨hf, hf1, hf2⟩
  · rcases htail with ⟨ht, hex⟩ | ⟨r, ht, hex⟩
    · subst hf hfp ht hex
      simp [hip]
    · subst hf hfp ht
      simp [hip, ← hex]
  · rcases htail with ⟨ht, hex⟩ | ⟨r, ht, hex⟩
    · subst hf ht hex
      simp only [List.append_nil] at hf1 hf2
      simp [hip, hf1, hf2]
    · subst hf ht
      simp [hip, hf1, hf2, ← hex]

theorem sign_digits_facts (neg : Bool) (ip rest : Str) (hip : ∀ c ∈ ip, isdigit c = true)
    (hne : ip ≠ []) :
    ((if neg then ['-'] else ([] : Str)) ++ ip ++ rest).dropWhile isspace =
      (if neg then ['-'] else ([] : Str)) ++ ip ++ rest ∧
    take_sign ((if neg then ['-'] else ([] : Str)) ++ ip ++ rest) = (neg, ip ++ rest) := by
  cases ip with
  | nil => exact absurd rfl hne
  | cons c cs =>
    have hc := hip c (List.mem_cons_self _ _)
    have hsp : isspace c = false := (isdigit_facts c hc).1
    cases neg with
    | true =>
      constructor
      · simp only [if_true, List.singleton_append, List.cons_append]
        rw [List.dropWhile_cons, if_neg (by decide)]
      · rfl
    | false =>
      constructor
      · simp only [Bool.false_eq_true, if_false, List.nil_append, List.cons_append]
        rw [List.dropWhile_cons, if_neg (by rw [hsp]; decide)]
      · simp only [Bool.false_eq_true, if_false, List.nil_append, List.cons_append]
        exact take_sign_digit c _ hc

theorem frac_facts (fp tail : Str) (hfp : ∀ c ∈ fp, isdigit c = true)
    (htail : tail.takeWhile isdigit = []) :
    ((if fp = [] then ([] : Str) else '.' :: fp) ++ tail).takeWhile isdigit = [] ∧
    (((if fp = [] then ([] : Str) else '.' :: fp) = [] ∧ fp = []) ∨
      ((if fp = [] then ([] : Str) else '.' :: fp) = '.' :: fp ∧
        (fp ++ tail).takeWhile isdigit = fp ∧ (fp ++ tail).dropWhile isdigit = tail)) := by
  by_cases h : fp = []
  · rw [if_pos h]
    exact ⟨htail, Or.inl ⟨rfl, h⟩⟩
  · rw [if_neg h]
    refine ⟨?_, Or.inr ⟨rfl, takeWhile_digits fp tail hfp htail⟩⟩
    rw [List.cons_append, List.takeWhile_cons, if_neg (by decide)]

theorem read_decimal_text (neg : Bool) (ip B tail : Str) (ex : Int)
    (hip : ∀ c ∈ ip, isdigit c = true) (hne : ip ≠ []) (hB : ∀ c ∈ B, isdigit c = true)
    (htw : tail.takeWhile isdigit = [])
    (htail : (tail = [] ∧ ex = 0) ∨
      (∃ r, tail = 'e' :: r ∧
        ex = (if (take_sign r).1 then -1 else 1) *
          (parse_nat ((take_sign r).2.takeWhile isdigit) : Int))) :
    Convert.read_decimal ((if neg then ['-'] else ([] : Str)) ++ ip ++
        (if strip_zeros B = [] then [] else '.' :: strip_zeros B) ++ tail) =
      (if neg then -1 else 1) *
        ((parse_nat (ip ++ B) : ℚ) / 10 ^ B.length * (10 : ℚ) ^ ex) := by
  have hfp : ∀ c ∈ strip_zeros B, isdigit c = true :=
    fun c hc => hB c (strip_zeros_subset B c hc)
  obtain ⟨hf0, hf⟩ := frac_facts (strip_zeros B) tail hfp htw
  obtain ⟨hs1, hs2⟩ := sign_digits_facts neg ip
    ((if strip_zeros B = [] then ([] : Str) else '.' :: strip_zeros B) ++ tail) hip hne
  obtain ⟨ht1, ht2⟩ := takeWhile_digits ip
    ((if strip_zeros B = [] then ([] : Str) else '.' :: strip_zeros B) ++ tail) hip hf0
  rw [← value_of_split]
  rw [List.append_assoc]
  exact read_decimal_steps _ _ neg ip (strip_zeros B) _ tail ex hs1 hs2 ht1 ht2 hne hf htail

theorem nat_digits_length (k : Nat) : ∀ (fuel n : Nat), n < fuel → 10 ^ k ≤ n →
    n < 10 ^ (k + 1) → (nat_digits fuel n).length = k + 1 := by
  induction k with
  | zero =>
    intro fuel n hf _ h2
    cases fuel with
    | zero => omega
    | succ fuel =>
      rw [nat_digits, if_pos (by simpa using h2)]
      rfl
  | succ k ih =>
    intro fuel n hf h1 h2
    cases fuel with
    | zero => omega
    | succ fuel =>
      have h10 : 10 ≤ n := by
        have : 10 ^ 1 ≤ 10 ^ (k + 1) := Nat.pow_le_pow_right (by norm_num) (by omega)
        omega
      rw [nat_digits, if_neg (by omega), List.length_append, List.length_singleton]
      rw [ih fuel (n / 10) (by omega)
        (by rw [Nat.le_div_iff_mul_le (by norm_num)]; rw [pow_succ] at h1; exact h1)
        (by rw [Nat.div_lt_iff_lt_mul (by norm_num)]; rw [pow_succ] at h2; exact h2)]

theorem nat_to_str_six (mm : Nat) (h1 : 100000 ≤ mm) (h2 : mm < 1000000) :
    (nat_to_str mm).length = 6 ∧ parse_nat (nat_to_str mm) = mm ∧
      ∀ c ∈ nat_to_str mm, isdigit c = true :=
  ⟨nat_digits_length 5 (mm + 1) mm (Nat.lt_succ_self _) (by norm_num; exact h1)
      (by norm_num; exact h2),
    parse_nat_digits _ _ (Nat.lt_succ_self _), nat_digits_all_digit _ _⟩

theorem exponent_text (e : Int) :
    (if (take_sign ((if e < 0 then '-' else '+') ::
          (if (nat_to_str e.natAbs).length < 2 then '0' :: nat_to_str e.natAbs
            else nat_to_str e.natAbs))).1 then -1 else 1) *
      (parse_nat ((take_sign ((if e < 0 then '-' else '+') ::
          (if (nat_to_str e.natAbs).length < 2 then '0' :: nat_to_str e.natAbs
            else nat_to_str e.natAbs))).2.takeWhile isdigit) : Int) = e := by
  have hall : ∀ c ∈ (if (nat_to_str e.natAbs).length < 2 then '0' :: nat_to_str e.natAbs
      else nat_to_str e.natAbs), isdigit c = true := by
    intro c hc
    split at hc
    · rcases List.mem_cons.mp hc with h | h
      · rw [h]; decide
      · exact nat_digits_all_digit _ _ c h
    · exact nat_digits_all_digit _ _ c hc
  have hparse : parse_nat (if (nat_to_str e.natAbs).length < 2 then '0' :: nat_to_str e.natAbs
      else nat_to_str e.natAbs) = e.natAbs := by
    split
    · have := parse_nat_app ['0'] (nat_to_str e.natAbs)
      rw [List.singleton_append] at this
      have hp : parse_nat (nat_to_str e.natAbs) = e.natAbs :=
        parse_nat_digits _ _ (Nat.lt_succ_self _)
      have h0 : parse_nat ['0'] = 0 := rfl
      rw [this, hp, h0, Nat.zero_mul, Nat.zero_add]
    · exact parse_nat_digits _ _ (Nat.lt_succ_self _)
  by_cases he : e < 0
  · simp only [if_pos he, take_sign, if_true, takeWhile_all isdigit _ hall, hparse]
    omega
  · simp only [if_neg he, take_sign, Bool.false_eq_true, if_false,
      takeWhile_all isdigit _ hall, hparse]
    omega

theorem take_ne_nil (ds : Str) (k : Nat) (hlen : ds.length = 6) : ds.take (k + 1) ≠ [] := by
  intro h
  have := congrArg List.length h
  rw [List.length_take, hlen] at this
  simp at this

theorem read_decimal_float_body (neg : Bool) (e : Int) (ds : Str)
    (hds : ∀ c ∈ ds, isdigit c = true) (hlen : ds.length = 6) :
    Convert.read_decimal (if -4 ≤ e ∧ e < 6 then
        (if neg then ['-'] else ([] : Str)) ++
          (if 0 ≤ e then ds.take (e.toNat + 1) else ['0']) ++
          (if strip_zeros (if 0 ≤ e then ds.drop (e.toNat + 1)
              else List.replicate ((-e).toNat - 1) '0' ++ ds) = [] then []
            else '.' :: strip_zeros (if 0 ≤ e then ds.drop (e.toNat + 1)
              else List.replicate ((-e).toNat - 1) '0' ++ ds))
      else
        (if neg then ['-'] else ([] : Str)) ++ ds.take 1 ++
          (if strip_zeros (ds.drop 1) = [] then [] else '.' :: strip_zeros (ds.drop 1)) ++
          ['e'] ++ [if e < 0 then '-' else '+'] ++
          (if (nat_to_str e.natAbs).length < 2 then '0' :: nat_to_str e.natAbs
            else nat_to_str e.natAbs)) =
      (if neg then -1 else 1) * ((parse_nat ds : ℚ) * (10 : ℚ) ^ (e - 5)) := by
  have htake : ∀ k, ∀ c ∈ ds.take k, isdigit c = true :=
    fun k c hc => hds c (List.mem_of_mem_take hc)
  have hdrop : ∀ k, ∀ c ∈ ds.drop k, isdigit c = true :=
    fun k c hc => hds c (List.mem_of_mem_drop hc)
  by_cases hr : -4 ≤ e ∧ e < 6
  · rw [if_pos hr]
    by_cases h0 : 0 ≤ e
    · simp only [if_pos h0]
      have key := read_decimal_text neg (ds.take (e.toNat + 1)) (ds.drop (e.toNat + 1)) [] 0
        (htake _) (take_ne_nil ds _ hlen) (hdrop _) rfl (Or.inl ⟨rfl, rfl⟩)
      rw [List.append_nil] at key
      rw [key, List.take_append_drop, List.length_drop, hlen]
      have he : e - 5 = -((6 - (e.toNat + 1) : ℕ) : ℤ) := by omega
      rw [he, zpow_neg, zpow_natCast, zpow_zero, mul_one, div_eq_mul_inv]
    · simp only [if_neg h0]
      have hB : ∀ c ∈ List.replicate ((-e).toNat - 1) '0' ++ ds, isdigit c = true := by
        intro c hc
        rcases List.mem_append.mp hc with h | h
        · rw [(List.mem_replicate.mp h).2]; decide
        · exact hds c h
      have key := read_decimal_text neg ['0'] (List.replicate ((-e).toNat - 1) '0' ++ ds) [] 0
        (by intro c hc; rw [List.mem_singleton.mp hc]; decide) (by simp) hB rfl
        (Or.inl ⟨rfl, rfl⟩)
      rw [List.append_nil] at key
      rw [key]
      have hp : parse_nat (['0'] ++ (List.replicate ((-e).toNat - 1) '0' ++ ds)) =
          parse_nat ds := by
        rw [parse_nat_app, parse_nat_app, parse_nat_zeros]
        have h0 : parse_nat ['0'] = 0 := rfl
        rw [h0]
        simp
      rw [hp, List.length_append, List.length_replicate, hlen]
      have he : e - 5 = -(((-e).toNat - 1 + 6 : ℕ) : ℤ) := by omega
      rw [he, zpow_neg, zpow_natCast, zpow_zero, mul_one, div_eq_mul_inv]
  · rw [if_neg hr]
    have hshape : (if neg then ['-'] else ([] : Str)) ++ ds.take 1 ++
          (if strip_zeros (ds.drop 1) = [] then [] else '.' :: strip_zeros (ds.drop 1)) ++
          ['e'] ++ [if e < 0 then '-' else '+'] ++
          (if (nat_to_str e.natAbs).length < 2 then '0' :: nat_to_str e.natAbs
            else nat_to_str e.natAbs) =
        (if neg then ['-'] else ([] : Str)) ++ ds.take 1 ++
          (if strip_zeros (ds.drop 1) = [] then [] else '.' :: strip_zeros (ds.drop 1)) ++
          ('e' :: (if e < 0 then '-' else '+') ::
            (if (nat_to_str e.natAbs).length < 2 then '0' :: nat_to_str e.natAbs
              else nat_to_str e.natAbs)) := by
      simp only [List.append_assoc, List.singleton_append, List.cons_append, List.nil_append]
    rw [hshape]
    have key := read_decimal_text neg (ds.take 1) (ds.drop 1)
      ('e' :: (if e < 0 then '-' else '+') ::
        (if (nat_to_str e.natAbs).length < 2 then '0' :: nat_to_str e.natAbs
          else nat_to_str e.natAbs)) e
      (htake _) (take_ne_nil ds 0 hlen) (hdrop _)
      (by rw [List.takeWhile_cons, if_neg (by decide)])
      (Or.inr ⟨_, rfl, (exponent_text e).symm⟩)
    rw [key, List.take_append_drop, List.length_drop, hlen]
    have h10 : (10 : ℚ) ≠ 0 := by norm_num
    have h5 : (10 : ℚ) ^ (5 : ℤ) = (10 : ℚ) ^ (6 - 1 : ℕ) := by norm_num
    rw [zpow_sub₀ h10, h5]
    ring

theorem float_to_str_of (x : ℚ) (neg : Bool) (mm m0 : Nat) (e e0 : Int) (hx : x ≠ 0)
    (hneg : x < 0 ↔ neg = true) (he0 : decimal_exponent |x| = e0)
    (hm0 : (round_half_even (|x| / (10 : ℚ) ^ (e0 - 5))).toNat = m0)
    (he : (if 1000000 ≤ m0 then e0 + 1 else e0) = e)
    (hm : (if 1000000 ≤ m0 then m0 / 10 else m0) = mm) :
    float_to_str x =
      (if -4 ≤ e ∧ e < 6 then
        (if neg then ['-'] else ([] : Str)) ++
          (if 0 ≤ e then (nat_to_str mm).take (e.toNat + 1) else ['0']) ++
          (if strip_zeros (if 0 ≤ e then (nat_to_str mm).drop (e.toNat + 1)
              else List.replicate ((-e).toNat - 1) '0' ++ nat_to_str mm) = [] then []
            else '.' :: strip_zeros (if 0 ≤ e then (nat_to_str mm).drop (e.toNat + 1)
              else List.replicate ((-e).toNat - 1) '0' ++ nat_to_str mm))
      else
        (if neg then ['-'] else ([] : Str)) ++ (nat_to_str mm).take 1 ++
          (if strip_zeros ((nat_to_str mm).drop 1) = [] then []
            else '.' :: strip_zeros ((nat_to_str mm).drop 1)) ++
          ['e'] ++ [if e < 0 then '-' else '+'] ++
          (if (nat_to_str e.natAbs).length < 2 then '0' :: nat_to_str e.natAbs
            else nat_to_str e.natAbs)) := by
  have hs : (if x < 0 then ['-'] else ([] : Str)) = (if neg then ['-'] else ([] : Str)) := by
    cases neg with
    | true => rw [if_pos (hneg.mpr rfl)]; rfl
    | false => rw [if_neg (fun h => Bool.noConfusion (hneg.mp h))]; rfl
  unfold float_to_str
  rw [if_neg hx]
  simp only [he0, hm0, he, hm, hs]

theorem round_to_float_normal (d : ℚ) (hlo : FLT_MIN ≤ d) (hhi : d ≤ FLT_MAX) :
    |round_to_float d - d| ≤ d / 16777216 ∧ 0 < round_to_float d := by
  have h2 : (1 : ℚ) < 2 := by norm_num
  have hmin : (0 : ℚ) < FLT_MIN := by unfold FLT_MIN; norm_num
  have hd : 0 < d := lt_of_lt_of_le hmin hlo
  have hE1 : (2 : ℚ) ^ (Int.log 2 d) ≤ d := Int.zpow_log_le_self (by norm_num) hd
  have hE2 : d < (2 : ℚ) ^ (Int.log 2 d + 1) := Int.lt_zpow_succ_log_self (by norm_num) d
  generalize Int.log 2 d = E at hE1 hE2
  have hmin2 : FLT_MIN = (2 : ℚ) ^ (-126 : ℤ) := by unfold FLT_MIN; norm_num
  have hmax2 : FLT_MAX < (2 : ℚ) ^ (128 : ℤ) := by unfold FLT_MAX; norm_num
  have hElo : -126 ≤ E := by
    have : (2 : ℚ) ^ (-126 : ℤ) < (2 : ℚ) ^ (E + 1) := by
      rw [← hmin2]; exact lt_of_le_of_lt hlo hE2
    have := (zpow_lt_zpow_iff_right₀ h2).mp this
    omega
  have hEhi : E ≤ 127 := by
    have : (2 : ℚ) ^ E < (2 : ℚ) ^ (128 : ℤ) := lt_of_le_of_lt (le_trans hE1 hhi) hmax2
    have := (zpow_lt_zpow_iff_right₀ h2).mp this
    omega
  have hbe : binary_exponent d = E := binary_exponent_spec d E hE1 hE2 (by omega) (by omega)
  have hmaxe : max (binary_exponent d) (-126) = E := by rw [hbe]; exact max_eq_left hElo
  have hulp : (0 : ℚ) < (2 : ℚ) ^ (E - 23) := zpow_pos (by norm_num) _
  have h20 : (2 : ℚ) ≠ 0 := by norm_num
  have hq24 : d / (2 : ℚ) ^ (E - 23) ≤ ((16777216 : ℤ) : ℚ) := by
    rw [div_le_iff₀ hulp]
    have e1 : ((16777216 : ℤ) : ℚ) * (2 : ℚ) ^ (E - 23) = (2 : ℚ) ^ (E + 1) := by
      rw [show E + 1 = (24 : ℤ) + (E - 23) by ring, zpow_add₀ h20]
      norm_num
    rw [e1]
    exact le_of_lt hE2
  have hle : ((round_half_even (d / (2 : ℚ) ^ (E - 23)) : ℤ) : ℚ) * (2 : ℚ) ^ (E - 23) ≤
      FLT_MAX := by
    by_cases h127 : E = 127
    · subst h127
      have hq : d / (2 : ℚ) ^ ((127 : ℤ) - 23) ≤ ((16777215 : ℤ) : ℚ) := by
        rw [div_le_iff₀ hulp]
        have e1 : ((16777215 : ℤ) : ℚ) * (2 : ℚ) ^ ((127 : ℤ) - 23) = FLT_MAX := by
          unfold FLT_MAX; norm_num
        rw [e1]
        exact hhi
      have hr := round_half_even_le _ _ hq
      have hr2 : ((round_half_even (d / (2 : ℚ) ^ ((127 : ℤ) - 23)) : ℤ) : ℚ) ≤
          ((16777215 : ℤ) : ℚ) := by exact_mod_cast hr
      have e1 : ((16777215 : ℤ) : ℚ) * (2 : ℚ) ^ ((127 : ℤ) - 23) = FLT_MAX := by
        unfold FLT_MAX; norm_num
      rw [← e1]
      exact mul_le_mul_of_nonneg_right hr2 (le_of_lt hulp)
    · have hr := round_half_even_le _ _ hq24
      have hr2 : ((round_half_even (d / (2 : ℚ) ^ (E - 23)) : ℤ) : ℚ) ≤
          ((16777216 : ℤ) : ℚ) := by exact_mod_cast hr
      have e1 : ((16777216 : ℤ) : ℚ) * (2 : ℚ) ^ (E - 23) = (2 : ℚ) ^ (E + 1) := by
        rw [show E + 1 = (24 : ℤ) + (E - 23) by ring, zpow_add₀ h20]
        norm_num
      have h3 : (2 : ℚ) ^ (E + 1) ≤ (2 : ℚ) ^ (127 : ℤ) :=
        (zpow_le_zpow_iff_right₀ h2).mpr (by omega)
      have h4 : (2 : ℚ) ^ (127 : ℤ) ≤ FLT_MAX := by unfold FLT_MAX; norm_num
      calc ((round_half_even (d / (2 : ℚ) ^ (E - 23)) : ℤ) : ℚ) * (2 : ℚ) ^ (E - 23)
          ≤ ((16777216 : ℤ) : ℚ) * (2 : ℚ) ^ (E - 23) :=
            mul_le_mul_of_nonneg_right hr2 (le_of_lt hulp)
        _ = (2 : ℚ) ^ (E + 1) := e1
        _ ≤ FLT_MAX := le_trans h3 h4
  rw [round_to_float_pos d E hd hmaxe hle]
  have herr := round_half_even_error (d / (2 : ℚ) ^ (E - 23))
  have e1 : ((round_half_even (d / (2 : ℚ) ^ (E - 23)) : ℤ) : ℚ) * (2 : ℚ) ^ (E - 23) - d =
      (((round_half_even (d / (2 : ℚ) ^ (E - 23)) : ℤ) : ℚ) - d / (2 : ℚ) ^ (E - 23)) *
        (2 : ℚ) ^ (E - 23) := by
    field_simp
  have hbound : (2 : ℚ) ^ (E - 23) * (1 / 2) ≤ d / 16777216 := by
    have e2 : (2 : ℚ) ^ (E - 23) = (2 : ℚ) ^ E / 8388608 := by
      rw [zpow_sub₀ h20]
      norm_num
    rw [e2]
    linarith
  have habs : |((round_half_even (d / (2 : ℚ) ^ (E - 23)) : ℤ) : ℚ) * (2 : ℚ) ^ (E - 23) - d| ≤
      d / 16777216 := by
    rw [e1, abs_mul, abs_of_pos hulp]
    calc |((round_half_even (d / (2 : ℚ) ^ (E - 23)) : ℤ) : ℚ) - d / (2 : ℚ) ^ (E - 23)| *
          (2 : ℚ) ^ (E - 23)
        ≤ 1 / 2 * (2 : ℚ) ^ (E - 23) := mul_le_mul_of_nonneg_right herr (le_of_lt hulp)
      _ = (2 : ℚ) ^ (E - 23) * (1 / 2) := mul_comm _ _
      _ ≤ d / 16777216 := hbound
  refine ⟨habs, ?_⟩
  rw [abs_le] at habs
  linarith [habs.1]

theorem read_back_nearest_float (neg : Bool) (mm : Nat) (jj : Int)
    (h1 : 100000 ≤ mm) (h2 : mm < 1000000)
    (hlo : FLT_MIN ≤ (mm : ℚ) * 10 ^ jj) (hhi : (mm : ℚ) * 10 ^ jj ≤ FLT_MAX) :
    Convert.read_decimal
        (float_to_str (round_to_float ((if neg then -1 else 1) * ((mm : ℚ) * 10 ^ jj)))) =
      (if neg then -1 else 1) * ((mm : ℚ) * 10 ^ jj) := by
  have h10 : (10 : ℚ) ≠ 0 := by norm_num
  have h110 : (1 : ℚ) < 10 := by norm_num
  have hP : 0 < (10 : ℚ) ^ jj := zpow_pos (by norm_num) _
  have hmq : (100000 : ℚ) ≤ (mm : ℚ) := by exact_mod_cast h1
  have hmq2 : (mm : ℚ) ≤ 999999 := by
    have : mm ≤ 999999 := by omega
    exact_mod_cast this
  obtain ⟨herr, hxpos⟩ := round_to_float_normal _ hlo hhi
  -- bounds on the decimal exponent
  have hjlo : -44 ≤ jj := by
    have a1 : (10 : ℚ) ^ (-38 : ℤ) ≤ FLT_MIN := by unfold FLT_MIN; norm_num
    have a2 : (mm : ℚ) * 10 ^ jj < (10 : ℚ) ^ (jj + 6) := by
      rw [zpow_add₀ h10, mul_comm ((10 : ℚ) ^ jj)]
      exact mul_lt_mul_of_pos_right (by norm_num; linarith) hP
    have a3 : (10 : ℚ) ^ (-38 : ℤ) < (10 : ℚ) ^ (jj + 6) :=
      lt_of_le_of_lt (le_trans a1 hlo) a2
    have := (zpow_lt_zpow_iff_right₀ h110).mp a3
    omega
  have hjhi : jj ≤ 34 := by
    have a1 : FLT_MAX < (10 : ℚ) ^ (39 : ℤ) := by unfold FLT_MAX; norm_num
    have a2 : (10 : ℚ) ^ (jj + 5) ≤ (mm : ℚ) * 10 ^ jj := by
      rw [zpow_add₀ h10, mul_comm ((10 : ℚ) ^ jj)]
      exact mul_le_mul_of_nonneg_right
        (by rw [show (10 : ℚ) ^ (5 : ℤ) = 100000 by norm_num]; exact hmq) (le_of_lt hP)
    have a3 : (10 : ℚ) ^ (jj + 5) < (10 : ℚ) ^ (39 : ℤ) :=
      lt_of_le_of_lt (le_trans a2 hhi) a1
    have := (zpow_lt_zpow_iff_right₀ h110).mp a3
    omega
  -- the float, scaled by the power of ten
  generalize hxdef : round_to_float ((mm : ℚ) * 10 ^ jj) = x at herr hxpos
  have hX : round_to_float ((if neg then -1 else 1) * ((mm : ℚ) * 10 ^ jj)) =
      (if neg then -1 else 1) * x := by
    cases neg with
    | true =>
      simp only [if_true, neg_mul, one_mul]
      rw [round_to_float_neg, hxdef]
    | false =>
      simp only [Bool.false_eq_true, if_false, one_mul]
      exact hxdef
  have habs : |(if neg then -1 else 1) * x| = x := by
    cases neg with
    | true => simp only [if_true, neg_mul, one_mul, abs_neg, abs_of_pos hxpos]
    | false => simp only [Bool.false_eq_true, if_false, one_mul, abs_of_pos hxpos]
  have hxne : (if neg then -1 else 1) * x ≠ 0 := by
    intro h
    rw [h, abs_zero] at habs
    linarith
  have hneg : (if neg then -1 else 1) * x < 0 ↔ neg = true := by
    cases neg with
    | true => simp only [if_true, neg_mul, one_mul, iff_true]; linarith
    | false =>
      simp only [Bool.false_eq_true, if_false, one_mul, iff_false, not_lt]
      linarith
  have hxu : x = x / (10 : ℚ) ^ jj * (10 : ℚ) ^ jj := by field_simp
  generalize hudef : x / (10 : ℚ) ^ jj = u at hxu
  rw [abs_le] at herr
  have hu1 : u - (mm : ℚ) ≤ (mm : ℚ) / 16777216 := by
    have : (u - (mm : ℚ)) * (10 : ℚ) ^ jj ≤ (mm : ℚ) / 16777216 * (10 : ℚ) ^ jj := by
      have := herr.2
      rw [hxu] at this
      linarith
    exact le_of_mul_le_mul_right this hP
  have hu2 : -((mm : ℚ) / 16777216) ≤ u - (mm : ℚ) := by
    have : -((mm : ℚ) / 16777216) * (10 : ℚ) ^ jj ≤ (u - (mm : ℚ)) * (10 : ℚ) ^ jj := by
      have := herr.1
      rw [hxu] at this
      linarith
    exact le_of_mul_le_mul_right this hP
  obtain ⟨hlen, hparse, hdig⟩ := nat_to_str_six mm h1 h2
  rw [hX]
  by_cases hcase : (100000 : ℚ) ≤ u
  · have he0 : decimal_exponent |(if neg then -1 else 1) * x| = jj + 5 := by
      rw [habs]
      apply decimal_exponent_spec _ _ ?_ ?_ (by omega) (by omega)
      · rw [zpow_add₀ h10, hxu, mul_comm ((10 : ℚ) ^ jj)]
        exact mul_le_mul_of_nonneg_right (by norm_num; exact hcase) (le_of_lt hP)
      · rw [show jj + 5 + 1 = jj + 6 by ring, zpow_add₀ h10, hxu, mul_comm ((10 : ℚ) ^ jj)]
        exact mul_lt_mul_of_pos_right (by norm_num; linarith) hP
    have hm0 : (round_half_even (|(if neg then -1 else 1) * x| /
        (10 : ℚ) ^ (jj + 5 - 5))).toNat = mm := by
      rw [habs, add_sub_cancel_right, hudef]
      rw [round_half_even_of_close u (mm : ℤ) (by
        rw [abs_lt]
        push_cast
        constructor <;> linarith)]
      rfl
    rw [float_to_str_of _ neg mm mm (jj + 5) (jj + 5) hxne hneg he0 hm0
        (if_neg (by omega)) (if_neg (by omega)),
      read_decimal_float_body neg (jj + 5) (nat_to_str mm) hdig hlen, hparse,
      add_sub_cancel_right]
  · have hmm : mm = 100000 := by
      have : (mm : ℚ) < 100001 := by linarith [not_le.mp hcase]
      have : mm < 100001 := by exact_mod_cast this
      omega
    subst hmm
    have hmc : ((100000 : ℕ) : ℚ) = 100000 := by norm_num
    rw [hmc] at hu1 hu2
    have he0 : decimal_exponent |(if neg then -1 else 1) * x| = jj + 4 := by
      rw [habs]
      apply decimal_exponent_spec _ _ ?_ ?_ (by omega) (by omega)
      · rw [zpow_add₀ h10, hxu, mul_comm ((10 : ℚ) ^ jj)]
        exact mul_le_mul_of_nonneg_right (by norm_num; linarith) (le_of_lt hP)
      · rw [show jj + 4 + 1 = jj + 5 by ring, zpow_add₀ h10, hxu, mul_comm ((10 : ℚ) ^ jj)]
        exact mul_lt_mul_of_pos_right (by norm_num; exact not_le.mp hcase) hP
    have hdiv : x / (10 : ℚ) ^ (jj + 4 - 5) = 10 * u := by
      rw [show jj + 4 - 5 = jj - 1 by ring, zpow_sub₀ h10, ← hudef]
      field_simp
      ring
    have hm0 : (round_half_even (|(if neg then -1 else 1) * x| /
        (10 : ℚ) ^ (jj + 4 - 5))).toNat = 1000000 := by
      rw [habs, hdiv]
      rw [round_half_even_of_close (10 * u) (1000000 : ℤ) (by
        rw [abs_lt]
        push_cast
        constructor <;> linarith)]
      rfl
    rw [float_to_str_of _ neg 100000 1000000 (jj + 5) (jj + 4) hxne hneg he0 hm0
        (by rw [if_pos (le_refl _)]; ring) (by rw [if_pos (le_refl _)]),
      read_decimal_float_body neg (jj + 5) (nat_to_str 100000) hdig hlen, hparse,
      add_sub_cancel_right]

theorem six_digits_normal (m : Nat) (h1 : 1 ≤ m) (h2 : m < 1000000) :
    ∃ k : Nat, k ≤ 5 ∧ 100000 ≤ m * 10 ^ k ∧ m * 10 ^ k < 1000000 := by
  by_cases a1 : m < 10
  · exact ⟨5, by norm_num, by norm_num; omega, by norm_num; omega⟩
  by_cases a2 : m < 100
  · exact ⟨4, by norm_num, by norm_num; omega, by norm_num; omega⟩
  by_cases a3 : m < 1000
  · exact ⟨3, by norm_num, by norm_num; omega, by norm_num; omega⟩
  by_cases a4 : m < 10000
  · exact ⟨2, by norm_num, by norm_num; omega, by norm_num; omega⟩
  by_cases a5 : m < 100000
  · exact ⟨1, by norm_num, by norm_num; omega, by norm_num; omega⟩
  · exact ⟨0, by norm_num, by norm_num; omega, by norm_num; omega⟩

theorem read_back_six_digits (neg : Bool) (m : Nat) (j : Int) (hm : m < 1000000)
    (hrange : m = 0 ∨ (FLT_MIN ≤ (m : ℚ) * 10 ^ j ∧ (m : ℚ) * 10 ^ j ≤ FLT_MAX)) :
    Convert.read_decimal
        (float_to_str (round_to_float ((if neg then -1 else 1) * ((m : ℚ) * 10 ^ j)))) =
      (if neg then -1 else 1) * ((m : ℚ) * 10 ^ j) := by
  by_cases h0 : m = 0
  · subst h0
    have hz : (if neg then -1 else 1) * (((0 : ℕ) : ℚ) * 10 ^ j) = 0 := by simp
    rw [hz, round_to_float_zero]
    decide!
  · rcases hrange with h | ⟨hlo, hhi⟩
    · exact absurd h h0
    obtain ⟨k, hk, hk1, hk2⟩ := six_digits_normal m (Nat.pos_of_ne_zero h0) hm
    have h10 : (10 : ℚ) ≠ 0 := by norm_num
    have hx : (m : ℚ) * 10 ^ j = ((m * 10 ^ k : ℕ) : ℚ) * 10 ^ (j - (k : ℤ)) := by
      rw [zpow_sub₀ h10, zpow_natCast]
      push_cast
      field_simp
      ring
    rw [hx] at hlo hhi ⊢
    exact read_back_nearest_float neg (m * 10 ^ k) (j - (k : ℤ)) hk1 hk2 hlo hhi

/-- **C21**, counterexample.  The `float` 1234567 is written with six significant digits, as
`1.23457e+06`, and is read back as 1234570. -/
theorem float_round_trip_loses_digits :
    round_to_float 1234567 = 1234567 ∧
    (Data.of (1234567 : ℚ)).data = "1.23457e+06".toList ∧
    (Data.of (1234567 : ℚ)).as_float = 1234570 ∧
    (Data.of (1234567 : ℚ)).as_float ≠ 1234567 := by
  decide!

/-- **C21**, amended.  Let `d` be a decimal with at most six significant digits, `m * 10 ^ j`
or its negative with `m < 1000000`, that is zero or lies in the normal range of `float`
(`FLT_MIN ≤ |d| ≤ FLT_MAX`), and let `x` be the `float` nearest to `d`.  Then
`Data(x).as<float>() == x`, and the string that `Data(x)` holds is a numeral of the value
`d`. -/
theorem float_round_trip_six_digits (neg : Bool) (m : Nat) (j : Int) (hm : m < 1000000)
    (hrange : m = 0 ∨ (FLT_MIN ≤ (m : ℚ) * 10 ^ j ∧ (m : ℚ) * 10 ^ j ≤ FLT_MAX)) :
    (Data.of (round_to_float ((if neg then -1 else 1) * ((m : ℚ) * 10 ^ j)))).as_float =
      round_to_float ((if neg then -1 else 1) * ((m : ℚ) * 10 ^ j)) ∧
    Convert.read_decimal
        (Data.of (round_to_float ((if neg then -1 else 1) * ((m : ℚ) * 10 ^ j)))).data =
      (if neg then -1 else 1) * ((m : ℚ) * 10 ^ j) := by
  have h := read_back_six_digits neg m j hm hrange
  have hd : (Data.of (round_to_float ((if neg then -1 else 1) * ((m : ℚ) * 10 ^ j)))).data =
      float_to_str (round_to_float ((if neg then -1 else 1) * ((m : ℚ) * 10 ^ j))) := rfl
  refine ⟨?_, by rw [hd]; exact h⟩
  unfold Data.as_float Convert.str_to_Seconds
  rw [hd, h]

/-- **C21**, witness: the `float` `0.1f`, nearest to the decimal `0.1`, is written as `0.1`
and read back as itself. -/
theorem float_round_trip_six_digits_witness :
    (1 : Nat) < 1000000 ∧
    (FLT_MIN ≤ ((1 : ℕ) : ℚ) * 10 ^ (-1 : Int) ∧ ((1 : ℕ) : ℚ) * 10 ^ (-1 : Int) ≤ FLT_MAX) ∧
    (Data.of (round_to_float
        ((if false then -1 else 1) * (((1 : ℕ) : ℚ) * 10 ^ (-1 : Int))))).as_float =
      round_to_float ((if false then -1 else 1) * (((1 : ℕ) : ℚ) * 10 ^ (-1 : Int))) :=
  ⟨by decide, ⟨by decide!, by decide!⟩,
    (float_round_trip_six_digits false 1 (-1) (by decide)
      (Or.inr ⟨by decide!, by decide!⟩)).1⟩

end Sjaldersbaum
